import Mathlib

/-! Core War MARS: a shallow embedding of `core.go`, `vm.go` and the loader of
`battle.go`.

Go `int` values are modelled as `Int`; every `+` and `-` of the source goes
through `wrapInt` (64-bit two's complement wrap-around) and every `%` is the
truncated remainder `Int.tmod`, with division by zero a run-time panic.
A run-time panic (division by zero, slice index out of range, `make` with a
negative length) is `none`.

`OpCode`, `AddressMode` and `WarriorColor` are the enumerations declared in
`core.go`; integer values outside the declared constants are not modelled.

Pointers: a `*Warrior` is modelled by the record it points to together with a
field `ref` standing for the pointer's identity, so the pointer comparison
`p.warrior == proc.warrior` is a comparison of `ref`s (a nil warrior is not
modelled).  A `*Process` is the entry of the process list it sits in;
`executeInstruction` receives the index of that entry.

The three effect slices of `Core` (`readEffect`, `writeEffect`, `execEffect`)
hold `float32` values for the visualisation only.  `NewCore` creates them with
the same length as `cells` and nothing resizes them; their contents are left
out and a store into one of them is bounds-checked against `cells`.
Debug printing is left out.
-/

namespace CoreWar

/-! ## Go integers and slices -/

/-- Wrap-around of a mathematical integer into the 64-bit signed range. -/
def wrapInt (x : Int) : Int :=
  (x + 9223372036854775808) % 18446744073709551616 - 9223372036854775808

/-- Go `a + b` on `int`. -/
def goAdd (a b : Int) : Int := wrapInt (a + b)

/-- Go `a - b` on `int`. -/
def goSub (a b : Int) : Int := wrapInt (a - b)

/-- Go `a % b` on `int`: truncated remainder, panics when `b` is zero. -/
def goRem (a b : Int) : Option Int :=
  if b = 0 then none else some (Int.tmod a b)

/-- Slice read `xs[i]`: panics when `i` is out of range. -/
def idx? {α : Type} (xs : List α) (i : Int) : Option α :=
  if i < 0 then none else xs[i.toNat]?

/-- Slice store `xs[i] = v`: panics when `i` is out of range. -/
def setIdx? {α : Type} (xs : List α) (i : Int) (v : α) : Option (List α) :=
  if i < 0 then none
  else if i.toNat < xs.length then some (xs.set i.toNat v) else none

/-! ## core.go -/

inductive OpCode where
  | DAT | MOV | ADD | SUB | JMP | JMZ | JMN | DJN | CMP | SPL | NOP
  deriving DecidableEq, Repr

inductive AddressMode where
  | IMMEDIATE | DIRECT | INDIRECT | PREDECREMENT | POSTINCREMENT
  deriving DecidableEq, Repr

structure Instruction where
  Op : OpCode
  AMode : AddressMode
  BMode : AddressMode
  A : Int
  B : Int
  deriving DecidableEq, Repr

inductive WarriorColor where
  | Empty | Red | Blue | Green | Yellow
  deriving DecidableEq, Repr

structure Core where
  cells : List Instruction
  owners : List WarriorColor
  size : Int
  deriving DecidableEq, Repr

/-- The cell every core starts with: `DAT #0, #0`. -/
def datZero : Instruction :=
  { Op := .DAT, AMode := .IMMEDIATE, BMode := .IMMEDIATE, A := 0, B := 0 }

/-- Go `NewCore(size)`; `make` panics on a negative length. -/
def NewCore (size : Int) : Option Core :=
  if size < 0 then none
  else some { cells := List.replicate size.toNat datZero
              owners := List.replicate size.toNat WarriorColor.Empty
              size := size }

/-- Go `Core.normalize`. -/
def Core.normalize (c : Core) (addr : Int) : Option Int := do
  let addr ← goRem addr c.size
  if addr < 0 then pure (goAdd addr c.size) else pure addr

/-- Go `Core.Read` (the store into `readEffect` is a bounds check). -/
def Core.Read (c : Core) (addr : Int) : Option Instruction := do
  let addr ← c.normalize addr
  idx? c.cells addr

/-- Go `Core.Write`. -/
def Core.Write (c : Core) (addr : Int) (inst : Instruction) (owner : WarriorColor) :
    Option Core := do
  let addr ← c.normalize addr
  let cells ← setIdx? c.cells addr inst
  let owners ← setIdx? c.owners addr owner
  pure { c with cells := cells, owners := owners }

/-- Go `Core.Execute`: only the store into `execEffect`, a bounds check here. -/
def Core.Execute (c : Core) (addr : Int) : Option Unit := do
  let addr ← c.normalize addr
  let _ ← idx? c.cells addr
  pure ()

/-! ## warrior.go, vm.go -/

/-- Go `Warrior` as a `*Warrior` refers to it: `ref` is the identity of the
pointer, so two records with the same `ref` are the same warrior. -/
structure Warrior where
  ref : Nat
  Name : String
  Author : String
  Code : List Instruction
  StartPosition : Int
  Color : WarriorColor
  deriving DecidableEq, Repr

structure Process where
  warrior : Warrior
  pc : Int
  alive : Bool
  deriving DecidableEq, Repr

structure VM where
  core : Core
  processes : List Process
  current : Int
  deriving DecidableEq, Repr

/-- Go `NewVM`. -/
def NewVM (core : Core) : VM :=
  { core := core, processes := [], current := 0 }

/-- Go `VM.AddProcess`. -/
def VM.AddProcess (vm : VM) (warrior : Warrior) (startAddr : Int) : VM :=
  { vm with processes := vm.processes ++ [{ warrior := warrior, pc := startAddr, alive := true }] }

/-- Go `VM.evaluate`: the resolved address and the VM after the pointer update. -/
def VM.evaluate (vm : VM) (pc : Int) (mode : AddressMode) (operand : Int) (write : Bool) :
    Option (Int × VM) :=
  match mode with
  | .IMMEDIATE => some (operand, vm)
  | .DIRECT => do
    let r ← vm.core.normalize (goAdd pc operand)
    pure (r, vm)
  | .INDIRECT => do
    let pointer ← vm.core.normalize (goAdd pc operand)
    let inst ← vm.core.Read pointer
    let r ← vm.core.normalize (goAdd pointer inst.B)
    pure (r, vm)
  | .PREDECREMENT => do
    let pointer ← vm.core.normalize (goAdd pc operand)
    let inst ← vm.core.Read pointer
    let b ← goRem (goAdd (goSub inst.B 1) vm.core.size) vm.core.size
    let inst := { inst with B := b }
    let vm ← if write then (do
        let c ← vm.core.Write pointer inst WarriorColor.Empty
        pure { vm with core := c })
      else pure vm
    let r ← vm.core.normalize (goAdd pointer inst.B)
    pure (r, vm)
  | .POSTINCREMENT => do
    let pointer ← vm.core.normalize (goAdd pc operand)
    let inst ← vm.core.Read pointer
    let result ← vm.core.normalize (goAdd pointer inst.B)
    let b ← goRem (goAdd inst.B 1) vm.core.size
    let inst := { inst with B := b }
    let vm ← if write then (do
        let c ← vm.core.Write pointer inst WarriorColor.Empty
        pure { vm with core := c })
      else pure vm
    pure (result, vm)

/-- The assignment `proc.pc = pc` through the process pointer. -/
def VM.setPc (vm : VM) (i : Nat) (pc : Int) : VM :=
  { vm with processes := vm.processes.modify (fun p => { p with pc := pc }) i }

/-- The assignment `proc.alive = false` through the process pointer. -/
def VM.kill (vm : VM) (i : Nat) : VM :=
  { vm with processes := vm.processes.modify (fun p => { p with alive := false }) i }

/-- The counting loop of SPL: alive processes whose warrior pointer is `w`. -/
def processCount (ps : List Process) (w : Warrior) : Nat :=
  ps.countP (fun p => decide (p.warrior.ref = w.ref) && p.alive)

/-- The insertion loop of SPL: copy the list, appending `newProc` right after
the entry whose index equals `current`; `i` is the index of the head. -/
def insertAfter (ps : List Process) (i : Int) (current : Int) (newProc : Process) :
    List Process :=
  match ps with
  | [] => []
  | p :: rest =>
    if i = current then p :: newProc :: insertAfter rest (i + 1) current newProc
    else p :: insertAfter rest (i + 1) current newProc

/-- The value compared by JMZ and JMN. -/
def VM.testValue (vm : VM) (inst : Instruction) (source : Int) : Option Int :=
  if inst.AMode = AddressMode.IMMEDIATE then some source
  else do
    let srcInst ← vm.core.Read source
    pure srcInst.B

/-- The branch `case MOV` of `executeInstruction`. -/
def VM.execMOV (vm : VM) (i : Nat) (proc : Process) (inst : Instruction) (nextPC : Int) :
    Option VM := do
  let (source, vm) ← vm.evaluate proc.pc inst.AMode inst.A false
  let (dest, vm) ← vm.evaluate proc.pc inst.BMode inst.B true
  if inst.AMode = AddressMode.IMMEDIATE then do
    let c ← vm.core.Write dest
      { Op := .DAT, AMode := .IMMEDIATE, BMode := .IMMEDIATE, A := source, B := 0 }
      proc.warrior.Color
    pure ({ vm with core := c }.setPc i nextPC)
  else do
    let srcInst ← vm.core.Read source
    let c ← vm.core.Write dest srcInst proc.warrior.Color
    pure ({ vm with core := c }.setPc i nextPC)

/-- The branch `case ADD` of `executeInstruction`. -/
def VM.execADD (vm : VM) (i : Nat) (proc : Process) (inst : Instruction) (nextPC : Int) :
    Option VM := do
  let (source, vm) ← vm.evaluate proc.pc inst.AMode inst.A false
  let (dest, vm) ← vm.evaluate proc.pc inst.BMode inst.B true
  if inst.AMode = AddressMode.IMMEDIATE then do
    let destInst ← vm.core.Read dest
    let b ← goRem (goAdd destInst.B source) vm.core.size
    let c ← vm.core.Write dest { destInst with B := b } proc.warrior.Color
    pure ({ vm with core := c }.setPc i nextPC)
  else do
    let srcInst ← vm.core.Read source
    let destInst ← vm.core.Read dest
    let a ← goRem (goAdd destInst.A srcInst.A) vm.core.size
    let b ← goRem (goAdd destInst.B srcInst.B) vm.core.size
    let c ← vm.core.Write dest { destInst with A := a, B := b } proc.warrior.Color
    pure ({ vm with core := c }.setPc i nextPC)

/-- The branch `case SUB` of `executeInstruction`. -/
def VM.execSUB (vm : VM) (i : Nat) (proc : Process) (inst : Instruction) (nextPC : Int) :
    Option VM := do
  let (source, vm) ← vm.evaluate proc.pc inst.AMode inst.A false
  let (dest, vm) ← vm.evaluate proc.pc inst.BMode inst.B true
  if inst.AMode = AddressMode.IMMEDIATE then do
    let destInst ← vm.core.Read dest
    let b ← goRem (goAdd (goSub destInst.B source) vm.core.size) vm.core.size
    let c ← vm.core.Write dest { destInst with B := b } proc.warrior.Color
    pure ({ vm with core := c }.setPc i nextPC)
  else do
    let srcInst ← vm.core.Read source
    let destInst ← vm.core.Read dest
    let a ← goRem (goAdd (goSub destInst.A srcInst.A) vm.core.size) vm.core.size
    let b ← goRem (goAdd (goSub destInst.B srcInst.B) vm.core.size) vm.core.size
    let c ← vm.core.Write dest { destInst with A := a, B := b } proc.warrior.Color
    pure ({ vm with core := c }.setPc i nextPC)

/-- The branch `case JMP` of `executeInstruction`. -/
def VM.execJMP (vm : VM) (i : Nat) (proc : Process) (inst : Instruction) : Option VM := do
  let (target, vm) ← vm.evaluate proc.pc inst.AMode inst.A false
  pure (vm.setPc i target)

/-- The branch `case JMZ` of `executeInstruction`. -/
def VM.execJMZ (vm : VM) (i : Nat) (proc : Process) (inst : Instruction) (nextPC : Int) :
    Option VM := do
  let (source, vm) ← vm.evaluate proc.pc inst.AMode inst.A false
  let (target, vm) ← vm.evaluate proc.pc inst.BMode inst.B false
  let value ← vm.testValue inst source
  if value = 0 then pure (vm.setPc i target) else pure (vm.setPc i nextPC)

/-- The branch `case JMN` of `executeInstruction`. -/
def VM.execJMN (vm : VM) (i : Nat) (proc : Process) (inst : Instruction) (nextPC : Int) :
    Option VM := do
  let (source, vm) ← vm.evaluate proc.pc inst.AMode inst.A false
  let (target, vm) ← vm.evaluate proc.pc inst.BMode inst.B false
  let value ← vm.testValue inst source
  if value ≠ 0 then pure (vm.setPc i target) else pure (vm.setPc i nextPC)

/-- The branch `case DJN` of `executeInstruction`. -/
def VM.execDJN (vm : VM) (i : Nat) (proc : Process) (inst : Instruction) (nextPC : Int) :
    Option VM := do
  let (source, vm) ← vm.evaluate proc.pc inst.AMode inst.A true
  let (target, vm) ← vm.evaluate proc.pc inst.BMode inst.B false
  if inst.AMode = AddressMode.IMMEDIATE then
    pure (vm.setPc i nextPC)
  else do
    let value ← vm.core.Read source
    let b ← goRem (goAdd (goSub value.B 1) vm.core.size) vm.core.size
    let c ← vm.core.Write source { value with B := b } proc.warrior.Color
    let vm := { vm with core := c }
    if b = 0 then pure (vm.setPc i target) else pure (vm.setPc i nextPC)

/-- The comparison of `case CMP`. -/
def VM.cmpEqual (vm : VM) (inst : Instruction) (source1 source2 : Int) : Option Bool :=
  if inst.AMode = AddressMode.IMMEDIATE ∧ inst.BMode = AddressMode.IMMEDIATE then
    pure (decide (source1 = source2))
  else if inst.AMode = AddressMode.IMMEDIATE then do
    let inst2 ← vm.core.Read source2
    pure (decide (source1 = inst2.B))
  else if inst.BMode = AddressMode.IMMEDIATE then do
    let inst1 ← vm.core.Read source1
    pure (decide (inst1.B = source2))
  else do
    let inst1 ← vm.core.Read source1
    let inst2 ← vm.core.Read source2
    pure (decide (inst1.B = inst2.B))

/-- The branch `case CMP` of `executeInstruction`. -/
def VM.execCMP (vm : VM) (i : Nat) (proc : Process) (inst : Instruction) (nextPC : Int) :
    Option VM := do
  let (source1, vm) ← vm.evaluate proc.pc inst.AMode inst.A false
  let (source2, vm) ← vm.evaluate proc.pc inst.BMode inst.B false
  let equal ← vm.cmpEqual inst source1 source2
  if equal then do
    let skip ← goRem (goAdd nextPC 1) vm.core.size
    pure (vm.setPc i skip)
  else pure (vm.setPc i nextPC)

/-- The branch `case SPL` of `executeInstruction`.  The parent's `proc.pc = nextPC`
goes through the pointer, so it is applied to entry `i` before the list is
rebuilt with the child inserted. -/
def VM.execSPL (vm : VM) (i : Nat) (proc : Process) (inst : Instruction) (nextPC : Int) :
    Option VM := do
  let (target, vm) ← vm.evaluate proc.pc inst.AMode inst.A false
  if processCount vm.processes proc.warrior ≥ 64 then
    pure (vm.setPc i nextPC)
  else
    let newProc : Process := { warrior := proc.warrior, pc := target, alive := true }
    let vm := vm.setPc i nextPC
    pure { vm with processes := insertAfter vm.processes 0 vm.current newProc }

/-- The `switch inst.Op` of `executeInstruction`. -/
def VM.execOp (vm : VM) (i : Nat) (proc : Process) (inst : Instruction) (nextPC : Int) :
    Option VM :=
  match inst.Op with
  | .DAT => some (vm.kill i)
  | .MOV => vm.execMOV i proc inst nextPC
  | .ADD => vm.execADD i proc inst nextPC
  | .SUB => vm.execSUB i proc inst nextPC
  | .JMP => vm.execJMP i proc inst
  | .JMZ => vm.execJMZ i proc inst nextPC
  | .JMN => vm.execJMN i proc inst nextPC
  | .DJN => vm.execDJN i proc inst nextPC
  | .CMP => vm.execCMP i proc inst nextPC
  | .SPL => vm.execSPL i proc inst nextPC
  | .NOP => some (vm.setPc i nextPC)

/-- Go `VM.executeInstruction`; `i` is the index in `vm.processes` of the
process `proc` points to. -/
def VM.executeInstruction (vm : VM) (i : Nat) : Option VM := do
  let proc ← vm.processes[i]?
  let _ ← vm.core.Execute proc.pc
  let inst ← vm.core.Read proc.pc
  let owner ← idx? vm.core.owners proc.pc
  if owner ≠ proc.warrior.Color ∧ owner ≠ WarriorColor.Empty then
    pure (vm.kill i)
  else do
    let nextPC ← goRem (goAdd proc.pc 1) vm.core.size
    vm.execOp i proc inst nextPC

/-- The loop "remove dead processes" of `ExecuteCycle`. -/
def VM.compacted (vm : VM) : List Process := vm.processes.filter (fun p => p.alive)

/-- Go `VM.ExecuteCycle`. -/
def VM.ExecuteCycle (vm : VM) : Option VM :=
  if vm.processes.length = 0 then some vm
  else
    let vm : VM := { vm with processes := vm.compacted }
    if vm.processes.length = 0 then some vm
    else do
      let cur ← goRem vm.current vm.processes.length
      let vm : VM := { vm with current := cur }
      let _ ← idx? vm.processes cur
      let vm ← vm.executeInstruction cur.toNat
      let next ← goRem (goAdd vm.current 1) vm.processes.length
      pure { vm with current := next }

/-- Go `VM.IsWarriorAlive`. -/
def VM.IsWarriorAlive (vm : VM) (warrior : Warrior) : Bool :=
  vm.processes.any (fun proc => decide (proc.warrior.ref = warrior.ref) && proc.alive)

/-- Repeated `ExecuteCycle`: `n` calls in a row. -/
def VM.run (vm : VM) : Nat → Option VM
  | 0 => some vm
  | n + 1 => do
    let vm ← vm.ExecuteCycle
    vm.run n

/-! ## battle.go -/

/-- The copy loop of `loadWarriorAt`: instruction number `i` of the code goes to
`cells[(position + i) % coreSize]`, with the warrior's colour as owner;
`coreSize` is the package-level variable. -/
def loadCode (coreSize : Int) (color : WarriorColor) (position : Int) :
    Core → List Instruction → Int → Option Core
  | c, [], _ => some c
  | c, inst :: rest, i => do
    let addr ← goRem (goAdd position i) coreSize
    let cells ← setIdx? c.cells addr inst
    let owners ← setIdx? c.owners addr color
    loadCode coreSize color position { c with cells := cells, owners := owners } rest (i + 1)

/-- The store `warrior.StartPosition = position` as a holder of a `*Warrior` sees
it: a record of the warrior stored to (same `ref`) shows the new value, any other
record is unchanged. -/
def restamp (ref : Nat) (position : Int) (w : Warrior) : Warrior :=
  if w.ref = ref then { w with StartPosition := position } else w

/-- Go `BattleManager.loadWarriorAt`, on the VM that holds the core.  The store to
`StartPosition` goes through the pointer: the processes already added for the
same warrior show it too. -/
def loadWarriorAt (coreSize : Int) (vm : VM) (warrior : Warrior) (position : Int) :
    Option VM := do
  let warrior := { warrior with StartPosition := position }
  let vm : VM := { vm with processes := vm.processes.map fun p =>
    { p with warrior := restamp warrior.ref position p.warrior } }
  let core ← loadCode coreSize warrior.Color position vm.core warrior.Code 0
  pure ({ vm with core := core }.AddProcess warrior position)

/-! ## Well-formedness -/

/-- Largest Go `int`. -/
def maxInt : Int := 9223372036854775807

/-- Smallest Go `int`. -/
def minInt : Int := -9223372036854775808

/-- What `NewCore` establishes for a positive size: both slices have `size`
entries and `size` is a positive Go `int`. -/
def Core.WF (c : Core) : Prop :=
  0 < c.size ∧ c.size ≤ maxInt ∧
    (c.cells.length : Int) = c.size ∧ (c.owners.length : Int) = c.size

instance (c : Core) : Decidable c.WF := by
  unfold Core.WF; infer_instance

/-! ## Concrete cores and states used below -/

/-- A three-cell core entirely owned by Red. -/
def redCore : Core :=
  { cells := [datZero, datZero, datZero]
    owners := [.Red, .Red, .Red]
    size := 3 }

/-- A VM over `redCore` without processes. -/
def redVM : VM := NewVM redCore

/-- The Imp instruction `MOV #0, $1`. -/
def impInst : Instruction :=
  { Op := .MOV, AMode := .IMMEDIATE, BMode := .DIRECT, A := 0, B := 1 }

/-- A warrior coloured Red. -/
def warriorRed : Warrior :=
  { ref := 1, Name := "Imp", Author := "A.K. Dewdney", Code := [impInst],
    StartPosition := 0, Color := .Red }

/-- A warrior coloured Blue. -/
def warriorBlue : Warrior :=
  { ref := 2, Name := "Blue", Author := "", Code := [impInst],
    StartPosition := 2, Color := .Blue }

/-- Scenario S5 in a four-cell core: Red has overwritten cell 2, the cell the only
process of Blue points to. -/
def ownershipKillVM : VM :=
  { core := { cells := [impInst, datZero, impInst, datZero]
              owners := [.Red, .Empty, .Red, .Empty]
              size := 4 }
    processes := [{ warrior := warriorBlue, pc := 2, alive := true }]
    current := 0 }

/-- The fork-to-self instruction `SPL $0, $0` of scenario S4. -/
def splInst : Instruction :=
  { Op := .SPL, AMode := .DIRECT, BMode := .DIRECT, A := 0, B := 0 }

/-- Scenario S4 at saturation: `SPL $0, $0` at address 0 of a four-cell core and
64 alive processes of Red, all at PC 0. -/
def splCapVM : VM :=
  { core := { cells := [splInst, datZero, datZero, datZero]
              owners := [.Red, .Empty, .Empty, .Empty]
              size := 4 }
    processes := List.replicate 64 { warrior := warriorRed, pc := 0, alive := true }
    current := 0 }

/-- The instruction `JMP $0, $0`: a process on it stays on it. -/
def jmpSelf : Instruction :=
  { Op := .JMP, AMode := .DIRECT, BMode := .DIRECT, A := 0, B := 0 }

/-- The instruction `NOP $0, $0`. -/
def nopInst : Instruction :=
  { Op := .NOP, AMode := .DIRECT, BMode := .DIRECT, A := 0, B := 0 }

/-- Warrior of ref 1, colour Red, code `JMP $0`. -/
def warriorA : Warrior :=
  { ref := 1, Name := "A", Author := "", Code := [jmpSelf], StartPosition := 0, Color := .Red }

/-- Warrior of ref 2, colour Blue, code `NOP`; the next cell is the `DAT` of the empty core. -/
def warriorB : Warrior :=
  { ref := 2, Name := "B", Author := "", Code := [nopInst], StartPosition := 2, Color := .Blue }

/-- Warrior of ref 3, colour Green, code `JMP $0`. -/
def warriorC : Warrior :=
  { ref := 3, Name := "C", Author := "", Code := [jmpSelf], StartPosition := 4, Color := .Green }

/-- Three one-instruction warriors loaded at 0, 2 and 4 of a six-cell core, one
process each, as `SetupBattle` does it. -/
def fairnessVM : VM :=
  (((NewVM { cells := [jmpSelf, datZero, nopInst, datZero, jmpSelf, datZero]
             owners := [.Red, .Empty, .Blue, .Empty, .Green, .Empty]
             size := 6 }).AddProcess warriorA 0).AddProcess warriorB 2).AddProcess warriorC 4

/-- Red has one alive process on `JMP $0`; the only process of Blue is dead. -/
def deadBlueVM : VM :=
  { core := { cells := [jmpSelf, datZero, nopInst, datZero]
              owners := [.Red, .Empty, .Blue, .Empty]
              size := 4 }
    processes := [{ warrior := warriorRed, pc := 0, alive := true },
                  { warrior := warriorBlue, pc := 2, alive := false }]
    current := 0 }

/-- Core of size 10: `ADD #1, $1` at 0, followed by `MOV #0, @-2` (the second
instruction of the Dwarf, B field -2); one process of Red at PC 0. -/
def addNegVM : VM :=
  { core := { cells := [{ Op := .ADD, AMode := .IMMEDIATE, BMode := .DIRECT, A := 1, B := 1 },
                        { Op := .MOV, AMode := .IMMEDIATE, BMode := .INDIRECT, A := 0, B := -2 }]
                        ++ List.replicate 8 datZero
              owners := [.Red, .Red] ++ List.replicate 8 WarriorColor.Empty
              size := 10 }
    processes := [{ warrior := warriorRed, pc := 0, alive := true }]
    current := 0 }

/-- Core of size 10: `SUB #25, $1` at 0, followed by `DAT #0, #0`; one process of
Red at PC 0. -/
def subNegVM : VM :=
  { core := { cells := [{ Op := .SUB, AMode := .IMMEDIATE, BMode := .DIRECT, A := 25, B := 1 }]
                        ++ List.replicate 9 datZero
              owners := [.Red] ++ List.replicate 9 WarriorColor.Empty
              size := 10 }
    processes := [{ warrior := warriorRed, pc := 0, alive := true }]
    current := 0 }

/-! ## Notions used to state the properties -/

/-- The pointer update of `evaluate`: what may differ between the VM before and after. -/
def EvalFrame (vm vm' : VM) (write : Bool) : Prop :=
  vm'.core.WF ∧ vm'.core.size = vm.core.size ∧ vm'.processes = vm.processes ∧
    vm'.current = vm.current ∧ (write = false → vm' = vm)

/-- Outcome of a branch that only assigns `proc.pc`. -/
def JumpResult (vm vm' : VM) (i : Nat) : Prop :=
  vm'.core.WF ∧ vm'.core.size = vm.core.size ∧ vm'.current = vm.current ∧
    ∃ pc, vm'.processes = vm.processes.modify (fun p => { p with pc := pc }) i

/-- What a call of `executeInstruction` that does not kill does to the process
list: it assigns the `pc` of entry `i`, and SPL below the cap of 64 also inserts a
child of the same warrior after index `cur`. -/
inductive LiveShape (ps : List Process) (i : Nat) (cur : Int) (proc : Process) :
    List Process → Prop where
  | jump (pc : Int) : LiveShape ps i cur proc (ps.modify (fun p => { p with pc := pc }) i)
  | split (pc target : Int) (hc : processCount ps proc.warrior < 64) :
      LiveShape ps i cur proc
        (insertAfter (ps.modify (fun p => { p with pc := pc }) i) 0 cur
          { warrior := proc.warrior, pc := target, alive := true })

/-- Outcome of one `executeInstruction` on the process list: the process is marked
dead exactly when `dies` holds. -/
def StepResult (vm vm' : VM) (i : Nat) (proc : Process) (dies : Prop) : Prop :=
  vm'.core.WF ∧ vm'.core.size = vm.core.size ∧ vm'.current = vm.current ∧
    (dies → vm' = vm.kill i) ∧
    (¬ dies → LiveShape vm.processes i vm.current proc vm'.processes)

/-- The pre-execution ownership check fails: the owner is foreign. -/
def foreignOwner (o : WarriorColor) (proc : Process) : Prop :=
  o ≠ proc.warrior.Color ∧ o ≠ WarriorColor.Empty

instance (o : WarriorColor) (proc : Process) : Decidable (foreignOwner o proc) := by
  unfold foreignOwner; infer_instance

/-- The VM as `ExecuteCycle` hands it to `executeInstruction`: compacted list,
cursor reduced modulo its length. -/
def VM.atCursor (vm : VM) (cur : Int) : VM :=
  { core := vm.core, processes := vm.compacted, current := cur }

/-- The index and the process that the next `ExecuteCycle` executes, if any:
entry `current % len` of the compacted list. -/
def VM.scheduled (vm : VM) : Option (Nat × Process) :=
  if vm.compacted.length = 0 then none
  else do
    let cur ← goRem vm.current vm.compacted.length
    let p ← idx? vm.compacted cur
    pure (cur.toNat, p)

/-- The warrior refs of the processes executed by the first `n` cycles, in order. -/
def VM.executed (vm : VM) : Nat → List Nat
  | 0 => []
  | n + 1 =>
    match vm.ExecuteCycle with
    | none => []
    | some vm' =>
      match vm.scheduled with
      | none => vm'.executed n
      | some (_, p) => p.warrior.ref :: vm'.executed n

/-- Round-robin fairness of a trace of executed processes: between two
consecutive occurrences of the same process no process occurs twice. -/
def FairTrace (t : List Nat) : Prop :=
  ∀ i j, i < j → j < t.length → t[i]? = t[j]? →
    (∀ k, i < k → k < j → t[k]? ≠ t[i]?) →
    ∀ q, ((t.take j).drop (i + 1)).count q ≤ 1

/-- The cell MOV stores: a `DAT #src, #0` for an immediate A operand, else the cell read. -/
def movValue (inst : Instruction) (src : Int) (cell : Instruction) : Instruction :=
  if inst.AMode = AddressMode.IMMEDIATE then
    { Op := .DAT, AMode := .IMMEDIATE, BMode := .IMMEDIATE, A := src, B := 0 }
  else cell

/-- Scenario S1: the Imp `MOV #0, $1` at address 0 of a core of size 100, owned
by the Imp (Red), one process at PC 0. -/
def impVM : VM :=
  { core := { cells := impInst :: List.replicate 99 datZero
              owners := WarriorColor.Red :: List.replicate 99 WarriorColor.Empty
              size := 100 }
    processes := [{ warrior := warriorRed, pc := 0, alive := true }]
    current := 0 }

/-! ## Placement: notions for C8 -/

/-- An operand field that can be added to an address of a core of size `n`
without leaving the range of a Go `int`. -/
def fieldOK (n x : Int) : Prop := minInt + n ≤ x ∧ x ≤ maxInt - n

instance (n x : Int) : Decidable (fieldOK n x) := by unfold fieldOK; infer_instance

/-- No operand that the instruction uses as an address is in immediate mode. -/
def relocatable (inst : Instruction) : Bool :=
  match inst.Op with
  | .JMP | .SPL => decide (inst.AMode ≠ AddressMode.IMMEDIATE)
  | .MOV | .ADD | .SUB | .JMZ | .JMN | .DJN => decide (inst.BMode ≠ AddressMode.IMMEDIATE)
  | .DAT | .CMP | .NOP => true

/-- A cell that behaves the same wherever it is placed in a core of size `n`. -/
def cellOK (n : Int) (inst : Instruction) : Prop :=
  relocatable inst = true ∧ fieldOK n inst.A ∧ fieldOK n inst.B

instance (n : Int) (inst : Instruction) : Decidable (cellOK n inst) := by
  unfold cellOK; infer_instance

/-- Core `c'` is core `c` with every address moved by `d` (modulo the size). -/
structure CoreRel (d : Int) (c c' : Core) : Prop where
  wf : c.WF
  wf' : c'.WF
  size_eq : c'.size = c.size
  small : 2 * c.size ≤ maxInt
  cellsOK : ∀ inst ∈ c.cells, cellOK c.size inst
  cells : ∀ a, 0 ≤ a → a < c.size → idx? c'.cells ((a + d) % c.size) = idx? c.cells a
  owners : ∀ a, 0 ≤ a → a < c.size → idx? c'.owners ((a + d) % c.size) = idx? c.owners a

/-- Process `q` is process `p` moved by `d` in a core of size `n`. -/
def ProcRel (n d : Int) (p q : Process) : Prop :=
  q.warrior.ref = p.warrior.ref ∧ q.warrior.Color = p.warrior.Color ∧ q.alive = p.alive ∧
    0 ≤ p.pc ∧ p.pc < n ∧ q.pc = (p.pc + d) % n

/-- VM `vm'` is VM `vm` with every address and every program counter moved by
`d` modulo the core size `n`: same cells and owner tags at the moved addresses,
same process list up to the moved program counters, same cursor. -/
structure Shifted (n d : Int) (vm vm' : VM) : Prop where
  size : vm.core.size = n
  core : CoreRel d vm.core vm'.core
  current : vm'.current = vm.current
  procs : List.Forall₂ (ProcRel n d) vm.processes vm'.processes

/-- A warrior loaded at `position` into an otherwise empty core of size `n`, with
one process at PC `position`. -/
def placed (n : Int) (warrior : Warrior) (position : Int) : Option VM := do
  let c ← NewCore n
  loadWarriorAt n (NewVM c) warrior position

/-- State `vm'` is state `vm` after rotating every address and every program
counter by `d` modulo `n`: same cells and owner tags at the rotated addresses,
same process list (warrior, alive flag) with rotated program counters. -/
structure Rotated (n d : Int) (vm vm' : VM) : Prop where
  cells : ∀ a, 0 ≤ a → a < n → idx? vm'.core.cells ((a + d) % n) = idx? vm.core.cells a
  owners : ∀ a, 0 ≤ a → a < n → idx? vm'.core.owners ((a + d) % n) = idx? vm.core.owners a
  procs : List.Forall₂ (fun p q => q.warrior.ref = p.warrior.ref ∧ q.alive = p.alive ∧
    q.pc = (p.pc + d) % n) vm.processes vm'.processes

/-- All processes belong to the warrior of ref `r`, the list has at most 64
entries and the cursor is not negative. -/
def Tame (r : Nat) (vm : VM) : Prop :=
  (∀ p ∈ vm.processes, p.warrior.ref = r) ∧ vm.processes.length ≤ 64 ∧ 0 ≤ vm.current

/-- `JMP #0, $0`: a jump whose target operand is immediate. -/
def jmpAbsInst : Instruction :=
  { Op := .JMP, AMode := .IMMEDIATE, BMode := .DIRECT, A := 0, B := 0 }

/-- The one-instruction warrior `JMP #0`. -/
def jmpAbsWarrior : Warrior :=
  { ref := 1, Name := "JmpAbs", Author := "", Code := [jmpAbsInst], StartPosition := 0,
    Color := .Red }

/-- The two-instruction warrior `NOP` / `JMP $-1`, a relocatable endless loop. -/
def loopWarrior : Warrior :=
  { ref := 1, Name := "Loop", Author := "",
    Code := [nopInst, { Op := .JMP, AMode := .DIRECT, BMode := .DIRECT, A := -1, B := 0 }],
    StartPosition := 0, Color := .Red }

/-- The state one cycle after `JMP #0` was loaded at 0 in a two-cell core. -/
def jmpAbsAfter0 : VM :=
  { core := { cells := [jmpAbsInst, datZero], owners := [.Red, .Empty], size := 2 }
    processes := [{ warrior := { jmpAbsWarrior with StartPosition := 0 }, pc := 0, alive := true }]
    current := 0 }

/-- The state one cycle after `JMP #0` was loaded at 1 in a two-cell core. -/
def jmpAbsAfter1 : VM :=
  { core := { cells := [datZero, jmpAbsInst], owners := [.Empty, .Red], size := 2 }
    processes := [{ warrior := { jmpAbsWarrior with StartPosition := 1 }, pc := 0, alive := true }]
    current := 0 }

/-! ## Concrete states and notions for DAT, DJN, CMP and SPL -/

/-- The value DJN stores in the B field: Go `(value.B - 1 + size) % size`. -/
def djnValue (b size : Int) : Int := Int.tmod (goAdd (goSub b 1) size) size

/-- Red and Green with one process each in a four-cell core; the process of Red,
scheduled first, stands on the `DAT #0, #0` of cell 0. -/
def datVM : VM :=
  { core := { cells := [datZero, datZero, jmpSelf, datZero]
              owners := [.Red, .Empty, .Green, .Empty]
              size := 4 }
    processes := [{ warrior := warriorA, pc := 0, alive := true },
                  { warrior := warriorC, pc := 2, alive := true }]
    current := 0 }

/-- Core of size 10: `DJN $2, $5` at 0 and a cell with B field 1 at 2; one process
of Red at PC 0. -/
def djnVM : VM :=
  { core := { cells := [{ Op := .DJN, AMode := .DIRECT, BMode := .DIRECT, A := 2, B := 5 },
                        datZero,
                        { Op := .DAT, AMode := .IMMEDIATE, BMode := .IMMEDIATE, A := 0, B := 1 }]
                        ++ List.replicate 7 datZero
              owners := [.Red] ++ List.replicate 9 WarriorColor.Empty
              size := 10 }
    processes := [{ warrior := warriorRed, pc := 0, alive := true }]
    current := 0 }

/-- Core of size 10: `DJN $1, $5` at 0 and `DAT #0, #-10` at 1 (the assembler
emits the negative field as written); one process of Red at PC 0. -/
def djnNegVM : VM :=
  { core := { cells := [{ Op := .DJN, AMode := .DIRECT, BMode := .DIRECT, A := 1, B := 5 },
                        { Op := .DAT, AMode := .IMMEDIATE, BMode := .IMMEDIATE, A := 0,
                          B := -10 }]
                        ++ List.replicate 8 datZero
              owners := [.Red] ++ List.replicate 9 WarriorColor.Empty
              size := 10 }
    processes := [{ warrior := warriorRed, pc := 0, alive := true }]
    current := 0 }

/-- The instruction `CMP $1, $2`. -/
def cmpInst : Instruction :=
  { Op := .CMP, AMode := .DIRECT, BMode := .DIRECT, A := 1, B := 2 }

/-- Core of size 16: `CMP $1, $2` at address 10, cells 11 and 12 with the same B
field 7 (and different A fields); one process of Red at PC 10. -/
def cmpVM : VM :=
  { core := { cells := List.replicate 10 datZero ++
                [cmpInst,
                 { Op := .DAT, AMode := .IMMEDIATE, BMode := .IMMEDIATE, A := 0, B := 7 },
                 { Op := .DAT, AMode := .IMMEDIATE, BMode := .IMMEDIATE, A := 3, B := 7 }]
                ++ List.replicate 3 datZero
              owners := List.replicate 10 WarriorColor.Empty ++ [.Red, .Red, .Red]
                ++ List.replicate 3 WarriorColor.Empty
              size := 16 }
    processes := [{ warrior := warriorRed, pc := 10, alive := true }]
    current := 0 }

/-- The instruction `SPL $2, $0`. -/
def splTwo : Instruction :=
  { Op := .SPL, AMode := .DIRECT, BMode := .DIRECT, A := 2, B := 0 }

/-- Six-cell core: Red has `SPL $2`, `JMP $0`, `JMP $0` at 0..2 and one process at
PC 0; Green has `JMP $0` at 4 and one process at PC 4. -/
def splLatencyVM : VM :=
  { core := { cells := [splTwo, jmpSelf, jmpSelf, datZero, jmpSelf, datZero]
              owners := [.Red, .Red, .Red, .Empty, .Green, .Empty]
              size := 6 }
    processes := [{ warrior := warriorA, pc := 0, alive := true },
                  { warrior := warriorC, pc := 4, alive := true }]
    current := 0 }

/-- The processes executed by the first `n` cycles, in order, each as it is when
its cycle starts. -/
def VM.trace (vm : VM) : Nat → List Process
  | 0 => []
  | n + 1 =>
    match vm.ExecuteCycle with
    | none => []
    | some vm' =>
      match vm.scheduled with
      | none => vm'.trace n
      | some (_, p) => p :: vm'.trace n

/-- The latency the specification states for the child of an SPL, on the trace `t`
of the cycles after the SPL: when `child` is executed, each of `others` has
been executed before. -/
def ChildWaits (t : List Process) (child : Process) (others : List Process) : Prop :=
  ∀ k, t[k]? = some child → ∀ q ∈ others, q ∈ t.take k

/-! ## Go strings (assembler.go uses `strings` and `strconv`)

A Go string is modelled as the list of its characters (the source is UTF-8 text). -/

/-- Go `unicode.IsSpace`: tab, line feed, vertical tab, form feed, carriage return,
space, U+0085, U+00A0 and the characters with the Unicode property White_Space. -/
def isSpace (c : Char) : Bool :=
  c.toNat = 9 || c.toNat = 10 || c.toNat = 11 || c.toNat = 12 || c.toNat = 13 ||
    c.toNat = 32 || c.toNat = 0x85 || c.toNat = 0xA0 || c.toNat = 0x1680 ||
    (0x2000 ≤ c.toNat && c.toNat ≤ 0x200A) || c.toNat = 0x2028 || c.toNat = 0x2029 ||
    c.toNat = 0x202F || c.toNat = 0x205F || c.toNat = 0x3000

/-- Go `strings.TrimSpace`. -/
def TrimSpace (s : List Char) : List Char :=
  ((s.dropWhile isSpace).reverse.dropWhile isSpace).reverse

/-- The loop of Go `strings.Fields`: `cur` is the field being read, reversed. -/
def fieldsAux : List Char → List Char → List (List Char)
  | [], cur => if cur = [] then [] else [cur.reverse]
  | c :: cs, cur =>
    if isSpace c then
      if cur = [] then fieldsAux cs [] else cur.reverse :: fieldsAux cs []
    else fieldsAux cs (c :: cur)

/-- Go `strings.Fields`: the maximal runs of non-space characters. -/
def Fields (s : List Char) : List (List Char) := fieldsAux s []

/-- Go `unicode.ToUpper` as far as the assembler can see it: the ASCII letters, and
the two other characters whose upper case is an ASCII letter (dotless i, long s).
The upper case of every other character is not ASCII, so it compares with the
ASCII keywords as the character itself does. -/
def upperRune (c : Char) : Char :=
  if 'a'.toNat ≤ c.toNat ∧ c.toNat ≤ 'z'.toNat then Char.ofNat (c.toNat - 32)
  else if c.toNat = 0x131 then 'I'
  else if c.toNat = 0x17F then 'S'
  else c

/-- Go `strings.ToUpper`. -/
def ToUpper (s : List Char) : List Char := s.map upperRune

/-- Go `strings.HasPrefix`. -/
def HasPrefix (s p : List Char) : Bool := p.isPrefixOf s

/-- Go `strings.Contains(s, sep)` for a separator of one character. -/
def Contains (s : List Char) (sep : Char) : Bool := s.contains sep

/-- Go `strings.SplitN(s, sep, 2)` for a one-character separator that occurs in `s`:
the text before its first occurrence and the text after it. -/
def SplitN2 (s : List Char) (sep : Char) : List Char × List Char :=
  (s.takeWhile (fun c => c != sep), (s.dropWhile (fun c => c != sep)).drop 1)

/-- Go `strings.Split(s, sep)` for a one-character separator. -/
def Split (s : List Char) (sep : Char) : List (List Char) :=
  match s with
  | [] => [[]]
  | c :: cs =>
    if c = sep then [] :: Split cs sep
    else
      match Split cs sep with
      | [] => [[c]]
      | h :: t => (c :: h) :: t

/-- Go `strings.TrimSuffix(s, ",")`. -/
def TrimSuffix (s : List Char) (c : Char) : List Char :=
  if s.getLast? = some c then s.dropLast else s

/-- The ASCII digits `0` to `9`. -/
def isDecimalDigit (c : Char) : Bool := 48 ≤ c.toNat && c.toNat ≤ 57

/-- The optional sign Go `strconv.Atoi` reads first: whether it is `-`, and the
text after it. -/
def signOf (s : List Char) : Bool × List Char :=
  match s with
  | '+' :: r => (false, r)
  | '-' :: r => (true, r)
  | _ => (false, s)

/-- Go `strconv.Atoi` on a 64-bit platform: an optional sign, then one or more
decimal digits; an error (`none`) when the text is not of that form or the value
is outside the range of `int`. -/
def Atoi (s : List Char) : Option Int :=
  let sd := signOf s
  if sd.2 = [] ∨ ¬ sd.2.all isDecimalDigit = true then none
  else
    let n : Int := sd.2.foldl (fun acc c => 10 * acc + ((c.toNat : Int) - 48)) 0
    let v : Int := if sd.1 then -n else n
    if minInt ≤ v ∧ v ≤ maxInt then some v else none

/-! ## assembler.go -/

/-- The errors `parseInstruction` builds with `fmt.Errorf`; the text that Go formats
into the message is the argument. -/
inductive InstError
  | emptyInstruction
  | unknownOpcode (s : List Char)
  | requiresOperand (s : List Char)
  | requiresTwoOperands (s : List Char)
  | invalidOperand (s : List Char)
  deriving DecidableEq, Repr

/-- The error of `Parse`, `fmt.Errorf("line %d: %v", lineNum+1, err)`: the number
formatted by `%d` and the wrapped error. -/
structure ParseError where
  line : Int
  cause : InstError
  deriving DecidableEq, Repr

/-- Go `Assembler`: the map `labels` as an association list, the latest binding of
a name first. -/
structure Assembler where
  labels : List (List Char × Int)
  deriving DecidableEq, Repr

def NewAssembler : Assembler := { labels := [] }

/-- The two values `Parse` returns; `instructions = none` is the nil slice, `err =
none` the nil error. -/
structure ParseResult where
  instructions : Option (List Instruction)
  err : Option ParseError
  deriving DecidableEq, Repr

/-- The `switch` of `parseOpCode` on the upper-cased text; `none` is its `default`. -/
def opOf (u : List Char) : Option OpCode :=
  if u = "DAT".toList then some .DAT
  else if u = "MOV".toList then some .MOV
  else if u = "ADD".toList then some .ADD
  else if u = "SUB".toList then some .SUB
  else if u = "JMP".toList then some .JMP
  else if u = "JMZ".toList then some .JMZ
  else if u = "JMN".toList then some .JMN
  else if u = "DJN".toList then some .DJN
  else if u = "CMP".toList ∨ u = "SEQ".toList then some .CMP
  else if u = "SPL".toList then some .SPL
  else if u = "NOP".toList then some .NOP
  else none

def parseOpCode (s : List Char) : Except InstError OpCode :=
  match opOf (ToUpper s) with
  | some op => .ok op
  | none => .error (.unknownOpcode s)

/-- The mode prefix switch of `parseOperand`: the mode and the text after the prefix. -/
def modePrefix (s : List Char) : AddressMode × List Char :=
  match s with
  | '#' :: r => (.IMMEDIATE, r)
  | '$' :: r => (.DIRECT, r)
  | '@' :: r => (.INDIRECT, r)
  | '<' :: r => (.PREDECREMENT, r)
  | '>' :: r => (.POSTINCREMENT, r)
  | _ => (.DIRECT, s)

def Assembler.parseOperand (a : Assembler) (s : List Char) (currentLine : Int) :
    Except InstError (AddressMode × Int) :=
  let ms := modePrefix (TrimSpace s)
  match a.labels.lookup ms.2 with
  | some label => .ok (ms.1, goSub label currentLine)
  | none =>
    match Atoi ms.2 with
    | some value => .ok (ms.1, value)
    | none => .error (.invalidOperand ms.2)

/-- The branch `case DAT` of `parseInstruction`; `ts` are the tokens after the opcode. -/
def Assembler.parseDAT (a : Assembler) (inst : Instruction) (ts : List (List Char))
    (currentLine : Int) : Except InstError Instruction := do
  let inst ←
    match ts with
    | t1 :: _ => do
      let mv ← a.parseOperand (TrimSuffix t1 ',') currentLine
      pure { inst with AMode := mv.1, A := mv.2 }
    | [] => pure inst
  match ts with
  | _ :: t2 :: _ => do
    let mv ← a.parseOperand (TrimSuffix t2 ',') currentLine
    pure { inst with BMode := mv.1, B := mv.2 }
  | _ => pure inst

/-- The branch `case JMP, SPL` of `parseInstruction`. -/
def Assembler.parseOne (a : Assembler) (inst : Instruction) (t0 : List Char)
    (ts : List (List Char)) (currentLine : Int) : Except InstError Instruction :=
  match ts with
  | [] => .error (.requiresOperand t0)
  | t1 :: _ => do
    let mv ← a.parseOperand (TrimSuffix t1 ',') currentLine
    pure { inst with AMode := mv.1, A := mv.2 }

/-- The retry of the `default` branch for operands fused by a comma: `ts` are the
tokens after the opcode. -/
def splitFused (ts : List (List Char)) : List (List Char) :=
  match ts with
  | [t1] =>
    if Contains t1 ',' then
      match Split t1 ',' with
      | p0 :: p1 :: _ => [p0, p1]
      | _ => ts
    else ts
  | _ => ts

/-- The branch `default` of `parseInstruction`. -/
def Assembler.parseTwo (a : Assembler) (inst : Instruction) (t0 : List Char)
    (ts : List (List Char)) (currentLine : Int) : Except InstError Instruction :=
  match splitFused ts with
  | t1 :: t2 :: _ => do
    let mv1 ← a.parseOperand (TrimSuffix t1 ',') currentLine
    let mv2 ← a.parseOperand (TrimSuffix t2 ',') currentLine
    pure { inst with AMode := mv1.1, A := mv1.2, BMode := mv2.1, B := mv2.2 }
  | _ => .error (.requiresTwoOperands t0)

/-- Go `Instruction{Op: op}`: the other fields have their zero value. -/
def instOf (op : OpCode) : Instruction :=
  { Op := op, AMode := .IMMEDIATE, BMode := .IMMEDIATE, A := 0, B := 0 }

def Assembler.parseInstruction (a : Assembler) (line : List Char) (currentLine : Int) :
    Except InstError Instruction :=
  let line := TrimSpace (line.takeWhile (fun c => c != ';'))
  match Fields line with
  | [] => .error .emptyInstruction
  | t0 :: ts =>
    if ToUpper t0 = "END".toList then .ok (instOf .NOP)
    else
      match parseOpCode t0 with
      | .error e => .error e
      | .ok op =>
        match op with
        | .DAT => a.parseDAT (instOf op) ts currentLine
        | .JMP => a.parseOne (instOf op) t0 ts currentLine
        | .SPL => a.parseOne (instOf op) t0 ts currentLine
        | _ => a.parseTwo (instOf op) t0 ts currentLine

/-- Whether the first token of the line is `END`, in any case. -/
def isEND (tokens : List (List Char)) : Bool :=
  match tokens with
  | t :: _ => ToUpper t = "END".toList
  | [] => false

/-- One iteration of the first loop of `Parse`: the label table and `lineNum`. -/
def Assembler.firstPassLine (st : Assembler × Int) (line : List Char) : Assembler × Int :=
  let line := TrimSpace line
  if line = [] ∨ HasPrefix line [';'] = true then st
  else if isEND (Fields line) = true then st
  else if Contains line ':' = true then
    let parts := SplitN2 line ':'
    let a : Assembler := { labels := (TrimSpace parts.1, st.2) :: st.1.labels }
    if TrimSpace parts.2 = [] then (a, st.2) else (a, goAdd st.2 1)
  else (st.1, goAdd st.2 1)

/-- The first loop of `Parse`: the label table it leaves in the assembler. -/
def Assembler.firstPass (a : Assembler) (lines : List (List Char)) : Assembler :=
  (lines.foldl Assembler.firstPassLine (a, 0)).1

/-- The second loop of `Parse` from the line `lines` starts with, with `lineNum` and
the instructions appended so far. -/
def Assembler.secondPass (a : Assembler) :
    List (List Char) → Int → List Instruction → ParseResult
  | [], _, instructions => { instructions := some instructions, err := none }
  | line :: rest, lineNum, instructions =>
    let line := TrimSpace line
    if line = [] ∨ HasPrefix line [';'] = true then a.secondPass rest lineNum instructions
    else
      let body := if Contains line ':' = true then TrimSpace (SplitN2 line ':').2 else line
      if Contains line ':' = true ∧ body = [] then a.secondPass rest lineNum instructions
      else
        match a.parseInstruction body lineNum with
        | .error e => { instructions := none, err := some { line := goAdd lineNum 1, cause := e } }
        | .ok inst =>
          if inst.Op ≠ OpCode.NOP then
            a.secondPass rest (goAdd lineNum 1) (instructions ++ [inst])
          else a.secondPass rest lineNum instructions

/-- Go `Assembler.Parse`; the label table the call leaves in the receiver is
`a.firstPass (Split source '\n')`. -/
def Assembler.Parse (a : Assembler) (source : List Char) : ParseResult :=
  let lines := Split source '\n'
  (a.firstPass lines).secondPass lines 0 []

/-- Go `LoadWarriorFromSource`; `ref` identifies the new `Warrior` object. -/
def LoadWarriorFromSource (ref : Nat) (name : String) (source : List Char)
    (color : WarriorColor) : Option Warrior × Option ParseError :=
  let r := NewAssembler.Parse source
  match r.err with
  | some e => (none, some e)
  | none =>
    (some { ref := ref, Name := name, Author := "", Code := r.instructions.getD [],
            StartPosition := 0, Color := color }, none)


/-! ## Sources used below -/

/-- Source in which a `NOP` line precedes a labelled instruction and a reference to
the label. -/
def nopLabelSource : List Char := "NOP 0, 0\ntarget: DAT #0, #0\nJMP target".toList

/-- Source whose second line has an unknown opcode, after a comment line. -/
def commentThenBadSource : List Char := "; comment\nFOO 1, 2".toList

/-- Source whose second line has an unknown opcode, after a line that assembles. -/
def goodThenBadSource : List Char := "MOV 0, 1\nFOO".toList

/-- The text after the opcode of a one-line source: each operand after one space. -/
def operandText : List (List Char) → List Char
  | [] => []
  | x :: xs => ' ' :: (x ++ operandText xs)

/-- Source of two instruction lines, the first a `NOP`. -/
def nopMovSource : List Char := "NOP 0, 0\nMOV 0, 1".toList

/-! ## Decimal texts -/

/-- The number a text of decimal digits denotes. -/
def decimalValue (ds : List Char) : Int :=
  ds.foldl (fun acc c => 10 * acc + ((c.toNat : Int) - 48)) 0

/-- The integer that `sign ++ ds` denotes: `sign` is empty, `+` or `-`. -/
def decimalInt (sign ds : List Char) : Int :=
  if sign = ['-'] then -decimalValue ds else decimalValue ds

/-! ## main.go, battle.go: the battle manager -/

/-- The constant `coreSize` of main.go. -/
def coreSize : Int := 8000

/-- Go `/` on `int`: truncated division, a panic on a zero divisor. -/
def goDiv (a b : Int) : Option Int :=
  if b = 0 then none else some (wrapInt (Int.tdiv a b))

/-- Go `*` on `int`. -/
def goMul (a b : Int) : Int := wrapInt (a * b)

/-- A Go `map[*Warrior]int`, keyed by the `ref` of the warrior: reading a key that
is absent gives 0. -/
def mapGet (m : List (Nat × Int)) (k : Nat) : Int := (m.lookup k).getD 0

/-- The assignment `m[k] = v`. -/
def mapSet (m : List (Nat × Int)) (k : Nat) (v : Int) : List (Nat × Int) :=
  (k, v) :: m.filter (fun kv => kv.1 != k)

/-- Go `BattleStats` without the two time stamps. -/
structure BattleStats where
  TotalCycles : Int
  MaxProcesses : List (Nat × Int)
  InstructionsRun : List (Nat × Int)
  Winner : Option Warrior
  IsDraw : Bool
  deriving DecidableEq, Repr

/-- Go `BattleManager`.  `vm` stands for the two pointers `core` and `vm` (the core
of the VM is that core), `none` when they are nil; `stats` is `none` when it is
nil.  The field `currentGame` is never used. -/
structure BattleManager where
  vm : Option VM
  warriors : List Warrior
  stats : Option BattleStats
  maxCycles : Int
  deriving DecidableEq, Repr

/-- Go `NewBattleManager`: the parameter `coreSize` is not used. -/
def NewBattleManager (_coreSize maxCycles : Int) : BattleManager :=
  { vm := none, warriors := [], stats := none, maxCycles := maxCycles }

/-- The loop of `SetupBattle` from warrior number `i` on; `cs` is the constant
`coreSize`, `loaded` the entries of `bm.warriors` already visited.  `bm.warriors`
holds the pointers of the argument, so an entry visited before that names the
warrior loaded now (same `ref`) shows the `StartPosition` stored by
`loadWarriorAt`. -/
def setupLoop (cs spacing : Int) :
    List Warrior → Int → VM → BattleStats → List Warrior →
      Option (VM × BattleStats × List Warrior)
  | [], _, vm, stats, loaded => some (vm, stats, loaded)
  | warrior :: rest, i, vm, stats, loaded => do
    let position := goMul i spacing
    let vm ← loadWarriorAt cs vm warrior position
    let stats := { stats with
      MaxProcesses := mapSet stats.MaxProcesses warrior.ref 1
      InstructionsRun := mapSet stats.InstructionsRun warrior.ref 0 }
    setupLoop cs spacing rest (i + 1) vm stats
      (loaded.map (restamp warrior.ref position) ++
        [{ warrior with StartPosition := position }])

/-- Go `BattleManager.SetupBattle` with the constant `coreSize` as the parameter
`cs`. -/
def BattleManager.setupWith (cs : Int) (bm : BattleManager) (warriors : List Warrior) :
    Option BattleManager := do
  let core ← NewCore cs
  let stats : BattleStats :=
    { TotalCycles := 0, MaxProcesses := [], InstructionsRun := [], Winner := none,
      IsDraw := false }
  let spacing ← goDiv cs warriors.length
  let r ← setupLoop cs spacing warriors 0 (NewVM core) stats []
  pure { bm with vm := some r.1, warriors := r.2.2, stats := some r.2.1 }

/-- Go `BattleManager.SetupBattle`. -/
def BattleManager.SetupBattle (bm : BattleManager) (warriors : List Warrior) :
    Option BattleManager :=
  bm.setupWith coreSize warriors

/-- The map `processCounts` of `RunCycle`: alive processes per warrior. -/
def processCounts (ps : List Process) : List (Nat × Int) :=
  ps.foldl (fun m proc =>
    if proc.alive then mapSet m proc.warrior.ref (goAdd (mapGet m proc.warrior.ref) 1)
    else m) []

/-- The loop `Update max processes` of `RunCycle`.  Go visits the keys of a map in
no fixed order; each step touches the entry of its own key only. -/
def updateMax (maxProcesses counts : List (Nat × Int)) : List (Nat × Int) :=
  counts.foldl (fun m kv => if kv.2 > mapGet m kv.1 then mapSet m kv.1 kv.2 else m)
    maxProcesses

/-- The block `Get current process before execution` of `RunCycle`. -/
def countInstruction (vm : VM) (stats : BattleStats) : Option BattleStats :=
  if vm.processes.length > 0 ∧ vm.current < vm.processes.length then do
    let currentProc ← idx? vm.processes vm.current
    if currentProc.alive then
      pure { stats with
        InstructionsRun := mapSet stats.InstructionsRun currentProc.warrior.ref
          (goAdd (mapGet stats.InstructionsRun currentProc.warrior.ref) 1) }
    else pure stats
  else pure stats

/-- Go `BattleManager.RunCycle`: the value returned and the manager afterwards. -/
def BattleManager.RunCycle (bm : BattleManager) : Option (Bool × BattleManager) := do
  let stats ← bm.stats
  if stats.TotalCycles ≥ bm.maxCycles then
    pure (false, { bm with stats := some { stats with IsDraw := true } })
  else do
    let vm ← bm.vm
    let stats ← countInstruction vm stats
    let vm ← vm.ExecuteCycle
    let stats := { stats with TotalCycles := goAdd stats.TotalCycles 1 }
    let stats := { stats with
      MaxProcesses := updateMax stats.MaxProcesses (processCounts vm.processes) }
    let aliveWarriors := bm.warriors.filter (fun warrior => vm.IsWarriorAlive warrior)
    if aliveWarriors.length ≤ 1 then
      match aliveWarriors with
      | [w] => pure (false, { bm with vm := some vm, stats := some { stats with Winner := some w } })
      | _ => pure (false, { bm with vm := some vm, stats := some { stats with IsDraw := true } })
    else pure (true, { bm with vm := some vm, stats := some stats })

/-- How the loop `for bm.RunCycle() {}` of `Tournament.runBattle` ends: `RunCycle`
returned false at call number `calls`, or that call panicked, or the calls allowed
were used up. -/
inductive LoopEnd
  | finished (calls : Nat) (bm : BattleManager)
  | panicked (calls : Nat)
  | outOfFuel
  deriving DecidableEq, Repr

/-- The loop `for bm.RunCycle() {}` with at most `fuel` calls, `calls` of which have
been made. -/
def BattleManager.runLoop : Nat → Nat → BattleManager → LoopEnd
  | 0, _, _ => .outOfFuel
  | fuel + 1, calls, bm =>
    match bm.RunCycle with
    | none => .panicked (calls + 1)
    | some (false, bm') => .finished (calls + 1) bm'
    | some (true, bm') => BattleManager.runLoop fuel (calls + 1) bm'

/-- The warriors as the loop of `SetupBattle` leaves them from number `i` on:
warrior number `j` has `StartPosition = j * spacing`. -/
def placedAt (spacing : Int) : List Warrior → Int → List Warrior
  | [], _ => []
  | w :: rest, i => { w with StartPosition := i * spacing } :: placedAt spacing rest (i + 1)

/-- The state of the statistics when `RunCycle` has returned false: a draw without
winner, or a winner that is the only warrior of the battle still alive. -/
def Outcome (bm : BattleManager) : Prop :=
  ∃ st, bm.stats = some st ∧
    ((st.IsDraw = true ∧ st.Winner = none) ∨
      (st.IsDraw = false ∧ ∃ w vm, st.Winner = some w ∧ bm.vm = some vm ∧ w ∈ bm.warriors ∧
        vm.IsWarriorAlive w = true ∧
        ∀ w' ∈ bm.warriors, vm.IsWarriorAlive w' = true → w' = w))

/-- A battle of Red against Green over `datVM`, no cycle run yet, at most 10 cycles:
the process of Red stands on a DAT. -/
def duelBM : BattleManager :=
  { vm := some datVM
    warriors := [warriorA, warriorC]
    stats := some { TotalCycles := 0, MaxProcesses := [(3, 1), (1, 1)],
                    InstructionsRun := [(3, 0), (1, 0)], Winner := none, IsDraw := false }
    maxCycles := 10 }

/-- The manager `duelBM` after its first call of `RunCycle`: Red is dead, Green has won. -/
def duelEnd : BattleManager :=
  { vm := some { core := datVM.core
                 processes := [{ warrior := warriorA, pc := 0, alive := false },
                               { warrior := warriorC, pc := 2, alive := true }]
                 current := 1 }
    warriors := [warriorA, warriorC]
    stats := some { TotalCycles := 1, MaxProcesses := [(3, 1), (1, 1)],
                    InstructionsRun := [(1, 1), (3, 0)], Winner := some warriorC,
                    IsDraw := false }
    maxCycles := 10 }

/-! ## Scenarios S1 to S3, reachable states -/

/-- Go `CreateDwarf` (warrior.go): `ADD #4, $3` / `MOV #0, @-2` / `JMP $-2, $0` /
`DAT #0, #0`, colour Blue. -/
def CreateDwarf : Warrior :=
  { ref := 2, Name := "Dwarf", Author := "A.K. Dewdney",
    Code := [{ Op := .ADD, AMode := .IMMEDIATE, BMode := .DIRECT, A := 4, B := 3 },
             { Op := .MOV, AMode := .IMMEDIATE, BMode := .INDIRECT, A := 0, B := -2 },
             { Op := .JMP, AMode := .DIRECT, BMode := .DIRECT, A := -2, B := 0 },
             { Op := .DAT, AMode := .IMMEDIATE, BMode := .IMMEDIATE, A := 0, B := 0 }],
    StartPosition := 0, Color := .Blue }

/-- Scenario S2 as `TestDwarfBehavior` builds it: the Dwarf loaded at addresses
10 to 13 of a core of size 100, one process at PC 10. -/
def dwarfVM : Option VM := placed 100 CreateDwarf 10

/-- The instruction `JMP #-1, $0`. -/
def jmpNegInst : Instruction :=
  { Op := .JMP, AMode := .IMMEDIATE, BMode := .DIRECT, A := -1, B := 0 }

/-- A four-cell core with `JMP #-1` at address 0, owned by Red, and one process of
Red added at PC 0. -/
def jmpNegVM : VM :=
  (NewVM { cells := [jmpNegInst, datZero, datZero, datZero]
           owners := [.Red, .Empty, .Empty, .Empty]
           size := 4 }).AddProcess warriorRed 0

/-- The instruction `MOV #0, $0` of scenario S3. -/
def movSelf : Instruction :=
  { Op := .MOV, AMode := .IMMEDIATE, BMode := .DIRECT, A := 0, B := 0 }

/-- A warrior of colour Red whose code is `MOV #0, $0`. -/
def mutualRed : Warrior :=
  { ref := 1, Name := "First", Author := "", Code := [movSelf], StartPosition := 0,
    Color := .Red }

/-- A warrior of colour Blue whose code is `MOV #0, $0`. -/
def mutualBlue : Warrior :=
  { ref := 2, Name := "Second", Author := "", Code := [movSelf], StartPosition := 0,
    Color := .Blue }

/-- The manager after `n` calls of `RunCycle` in a row. -/
def BattleManager.runCycles (bm : BattleManager) : Nat → Option BattleManager
  | 0 => some bm
  | n + 1 => do
    let r ← bm.RunCycle
    r.2.runCycles n

/-- The VM states reached from `NewVM` by `AddProcess`, by `ExecuteCycle` and by
stores into the core (as `loadWarriorAt` makes them); the core is as `NewCore`
builds it for a positive size, and the process list has a Go `int` as length. -/
inductive Reachable : VM → Prop
  | new (core : Core) (h : core.WF) : Reachable (NewVM core)
  | add (vm : VM) (warrior : Warrior) (startAddr : Int) (h : Reachable vm)
      (hlen : (vm.processes.length : Int) < maxInt) :
      Reachable (vm.AddProcess warrior startAddr)
  | store (vm : VM) (core : Core) (h : Reachable vm) (hc : core.WF) :
      Reachable { vm with core := core }
  | cycle (vm vm' : VM) (h : Reachable vm) (he : vm.ExecuteCycle = some vm')
      (hlen : (vm'.processes.length : Int) ≤ maxInt) : Reachable vm'

/-- The cursor invariant with what keeps it along a run: the core is as `NewCore`
builds it, the cursor indexes a non-empty list, and it is 0 on a list without an
alive process. -/
def CursorInv (vm : VM) : Prop :=
  vm.core.WF ∧
    (vm.processes ≠ [] → 0 ≤ vm.current ∧ vm.current < (vm.processes.length : Int)) ∧
    ((∀ p ∈ vm.processes, p.alive = false) → vm.current = 0)

/-- The state of `(NewVM redCore).AddProcess warriorRed 0` after one cycle: the
process has executed the DAT at address 0 and is dead. -/
def deadRedVM : VM :=
  { core := redCore
    processes := [{ warrior := warriorRed, pc := 0, alive := false }]
    current := 0 }

/-! ## Arithmetic helpers -/

theorem wrapInt_of_range {x : Int} (h1 : minInt ≤ x) (h2 : x ≤ maxInt) : wrapInt x = x := by
  unfold wrapInt; unfold minInt at h1; unfold maxInt at h2; omega

theorem wrapInt_range (x : Int) : minInt ≤ wrapInt x ∧ wrapInt x ≤ maxInt := by
  unfold wrapInt minInt maxInt; omega

theorem tmod_of_neg {a b : Int} (ha : a < 0) (hb : 0 < b) :
    Int.tmod a b = -((-a) % b) := by
  obtain ⟨n, rfl⟩ := Int.eq_negSucc_of_lt_zero ha
  obtain ⟨m, rfl⟩ := Int.eq_ofNat_of_zero_le (le_of_lt hb)
  rfl

theorem emod_of_neg_emod (a b : Int) (hb : 0 < b) :
    a % b = if (-a) % b = 0 then 0 else b - (-a) % b := by
  have h1 := Int.emod_nonneg (-a) (ne_of_gt hb)
  have h2 := Int.emod_lt_of_pos (-a) hb
  have h3 := Int.emod_add_ediv (-a) b
  split
  · next h0 =>
    have : a = b * (-((-a) / b)) := by rw [h0] at h3; linarith
    rw [this]; simp
  · next h0 =>
    have : a = (b - (-a) % b) + b * (-((-a) / b) - 1) := by linarith
    conv_lhs => rw [this]
    rw [Int.add_mul_emod_self_left]
    exact Int.emod_eq_of_lt (by omega) (by omega)

theorem goRem_of_nonneg {a b : Int} (ha : 0 ≤ a) (hb : 0 < b) : goRem a b = some (a % b) := by
  unfold goRem
  rw [if_neg (ne_of_gt hb), Int.tmod_eq_emod ha (le_of_lt hb)]

theorem goRem_pos (a : Int) {b : Int} (hb : 0 < b) : goRem a b = some (Int.tmod a b) := by
  unfold goRem
  rw [if_neg (ne_of_gt hb)]

/-- Under a positive Go-sized `size`, `normalize` is the Euclidean remainder. -/
theorem normalize_eq (c : Core) (addr : Int) (h0 : 0 < c.size) (h1 : c.size ≤ maxInt) :
    c.normalize addr = some (addr % c.size) := by
  unfold Core.normalize
  rw [goRem_pos _ h0]
  simp only [Option.bind_eq_bind, Option.some_bind]
  by_cases ha : 0 ≤ addr
  · have hn := Int.tmod_nonneg c.size ha
    rw [if_neg (by omega), Int.tmod_eq_emod ha (le_of_lt h0)]; rfl
  · have ha' : addr < 0 := by omega
    rw [tmod_of_neg ha' h0, emod_of_neg_emod addr c.size h0]
    have h2 := Int.emod_nonneg (-addr) (ne_of_gt h0)
    have h3 := Int.emod_lt_of_pos (-addr) h0
    by_cases hz : (-addr) % c.size = 0
    · rw [hz]; simp
    · rw [if_pos (by omega), if_neg hz]
      show some (goAdd _ _) = _
      unfold goAdd
      rw [wrapInt_of_range (by unfold minInt; omega) (by omega)]
      congr 1; omega

theorem normalize_wf (c : Core) (addr : Int) (h : c.WF) :
    c.normalize addr = some (addr % c.size) :=
  normalize_eq c addr h.1 h.2.1

/-! ## Slices -/

theorem idx?_eq_some_iff {α : Type} (xs : List α) (i : Int) (v : α) :
    idx? xs i = some v ↔ 0 ≤ i ∧ xs[i.toNat]? = some v := by
  unfold idx?
  by_cases h : i < 0
  · simp [h]
  · simp [h]; omega

theorem idx?_of_lt {α : Type} (xs : List α) (i : Int) (h0 : 0 ≤ i)
    (h1 : i < (xs.length : Int)) : ∃ v, idx? xs i = some v ∧ xs[i.toNat]? = some v := by
  have hlt : i.toNat < xs.length := by omega
  refine ⟨xs[i.toNat], ?_, ?_⟩
  · unfold idx?
    rw [if_neg (by omega)]
    exact List.getElem?_eq_getElem hlt
  · exact List.getElem?_eq_getElem hlt

theorem setIdx?_of_lt {α : Type} (xs : List α) (i : Int) (v : α) (h0 : 0 ≤ i)
    (h1 : i < (xs.length : Int)) : setIdx? xs i v = some (xs.set i.toNat v) := by
  unfold setIdx?
  rw [if_neg (by omega), if_pos (by omega)]

theorem emod_range (c : Core) (addr : Int) (h : c.WF) :
    0 ≤ addr % c.size ∧ addr % c.size < c.size :=
  ⟨Int.emod_nonneg _ (ne_of_gt h.1), Int.emod_lt_of_pos _ h.1⟩

/-- What `Core.Write` does on a well-formed core: both slices are stored
into at the normalised address, the owner unconditionally. -/
theorem Write_eq (c : Core) (addr : Int) (inst : Instruction) (owner : WarriorColor)
    (h : c.WF) :
    c.Write addr inst owner =
      some { cells := c.cells.set (addr % c.size).toNat inst
             owners := c.owners.set (addr % c.size).toNat owner
             size := c.size } := by
  obtain ⟨hr0, hr1⟩ := emod_range c addr h
  unfold Core.Write
  rw [normalize_wf c addr h]
  simp only [Option.bind_eq_bind, Option.some_bind]
  rw [setIdx?_of_lt _ _ _ hr0 (by rw [h.2.2.1]; exact hr1),
    setIdx?_of_lt _ _ _ hr0 (by rw [h.2.2.2]; exact hr1)]
  rfl

theorem Write_wf (c c' : Core) (addr : Int) (inst : Instruction) (owner : WarriorColor)
    (h : c.WF) (hw : c.Write addr inst owner = some c') : c'.WF ∧ c'.size = c.size := by
  rw [Write_eq c addr inst owner h] at hw
  cases hw
  refine ⟨⟨h.1, h.2.1, ?_, ?_⟩, rfl⟩
  · simpa using h.2.2.1
  · simpa using h.2.2.2

/-- What `Core.Read` returns on a well-formed core. -/
theorem Read_eq (c : Core) (addr : Int) (h : c.WF) :
    ∃ v, c.Read addr = some v ∧ c.cells[(addr % c.size).toNat]? = some v := by
  obtain ⟨hr0, hr1⟩ := emod_range c addr h
  unfold Core.Read
  rw [normalize_wf c addr h]
  simp only [Option.bind_eq_bind, Option.some_bind]
  exact idx?_of_lt _ _ hr0 (by rw [h.2.2.1]; exact hr1)

/-! ## C1, C2: writes and the owner tag -/

/-- C1 (code evaluated at the failing input): in the three-cell core owned by Red,
`Write(1, DAT #0 #0, Empty)` stores the instruction and resets the owner tag of
cell 1 from Red to Empty instead of leaving it as it was. -/
theorem C1_Write_Empty_resets_owner :
    idx? redCore.owners 1 = some WarriorColor.Red ∧
      (redCore.Write 1 datZero WarriorColor.Empty).map (fun c => c.owners) =
        some [WarriorColor.Red, WarriorColor.Empty, WarriorColor.Red] := by
  decide

/-- C2 (code evaluated at the failing input): in the three-cell core owned by Red,
`evaluate(0, PREDECREMENT, 1, true)` and `evaluate(0, POSTINCREMENT, 1, true)`
both reset the owner tag of the pointer cell 1 from Red to Empty. -/
theorem C2_evaluate_pointer_update_resets_owner :
    idx? redVM.core.owners 1 = some WarriorColor.Red ∧
      (redVM.evaluate 0 AddressMode.PREDECREMENT 1 true).map (fun r => r.2.core.owners) =
        some [WarriorColor.Red, WarriorColor.Empty, WarriorColor.Red] ∧
      (redVM.evaluate 0 AddressMode.POSTINCREMENT 1 true).map (fun r => r.2.core.owners) =
        some [WarriorColor.Red, WarriorColor.Empty, WarriorColor.Red] := by
  decide

/-! ## C3: normalize -/

/-- C3: for a core whose size is a positive Go int and any integer `addr`,
`normalize(addr)` returns `((addr mod size) + size) mod size` (with the truncated
remainder of Go as well as with the Euclidean one), and that value is the unique
`r` with `0 ≤ r < size` congruent to `addr` modulo `size`. -/
theorem C3_normalize_spec (c : Core) (addr : Int) (h0 : 0 < c.size) (h1 : c.size ≤ maxInt) :
    ∃ r, c.normalize addr = some r ∧
      r = Int.tmod (Int.tmod addr c.size + c.size) c.size ∧
      r = (addr % c.size + c.size) % c.size ∧
      0 ≤ r ∧ r < c.size ∧ c.size ∣ addr - r ∧
      ∀ r', 0 ≤ r' → r' < c.size → c.size ∣ addr - r' → r' = r := by
  have hr0 := Int.emod_nonneg addr (ne_of_gt h0)
  have hr1 := Int.emod_lt_of_pos addr h0
  refine ⟨addr % c.size, normalize_eq c addr h0 h1, ?_, ?_, hr0, hr1, ?_, ?_⟩
  · by_cases ha : 0 ≤ addr
    · rw [Int.tmod_eq_emod ha (le_of_lt h0), Int.tmod_eq_emod (by omega) (le_of_lt h0)]
      simp
    · have ha' : addr < 0 := by omega
      rw [tmod_of_neg ha' h0, emod_of_neg_emod addr c.size h0]
      have h2 := Int.emod_nonneg (-addr) (ne_of_gt h0)
      have h3 := Int.emod_lt_of_pos (-addr) h0
      rw [Int.tmod_eq_emod (by omega) (le_of_lt h0)]
      by_cases hz : (-addr) % c.size = 0
      · rw [hz]; simp
      · rw [if_neg hz]
        have : -(-addr % c.size) + c.size = c.size - -addr % c.size := by omega
        rw [this]
        exact (Int.emod_eq_of_lt (by omega) (by omega)).symm
  · simp
  · exact Int.dvd_sub_of_emod_eq rfl
  · intro r' hr'0 hr'1 hd
    have h2 : (addr - r') % c.size = 0 := Int.emod_eq_zero_of_dvd hd
    have h3 : addr % c.size = r' % c.size :=
      (Int.emod_eq_emod_iff_emod_sub_eq_zero).mpr h2
    rw [h3]
    exact (Int.emod_eq_of_lt hr'0 hr'1).symm

/-- C3 witness: the three-cell core at the address -7. -/
theorem C3_normalize_spec_witness :
    (0 < redCore.size ∧ redCore.size ≤ maxInt) ∧
      ∃ r, redCore.normalize (-7) = some r ∧
        r = Int.tmod (Int.tmod (-7) redCore.size + redCore.size) redCore.size ∧
        r = ((-7) % redCore.size + redCore.size) % redCore.size ∧
        0 ≤ r ∧ r < redCore.size ∧ redCore.size ∣ (-7) - r ∧
        ∀ r', 0 ≤ r' → r' < redCore.size → redCore.size ∣ (-7) - r' → r' = r :=
  ⟨⟨by decide, by decide⟩, C3_normalize_spec redCore (-7) (by decide) (by decide)⟩


/-! ## The instructions return on a well-formed core -/

theorem Write_total (c : Core) (addr : Int) (inst : Instruction) (owner : WarriorColor)
    (h : c.WF) : ∃ c', c.Write addr inst owner = some c' ∧ c'.WF ∧ c'.size = c.size := by
  have hw := Write_eq c addr inst owner h
  exact ⟨_, hw, Write_wf _ _ _ _ _ h hw⟩

theorem evaluate_total (vm : VM) (pc : Int) (mode : AddressMode) (operand : Int)
    (write : Bool) (h : vm.core.WF) :
    ∃ r vm', vm.evaluate pc mode operand write = some (r, vm') ∧ EvalFrame vm vm' write := by
  have hself : EvalFrame vm vm write := ⟨h, rfl, rfl, rfl, fun _ => rfl⟩
  cases mode
  · exact ⟨_, _, rfl, hself⟩
  · exact ⟨_, vm, by
      simp only [VM.evaluate, Option.bind_eq_bind, normalize_wf _ _ h, Option.some_bind]
      rfl, hself⟩
  · obtain ⟨inst, hread, -⟩ := Read_eq vm.core (goAdd pc operand % vm.core.size) h
    exact ⟨_, vm, by
      simp only [VM.evaluate, Option.bind_eq_bind, normalize_wf _ _ h, Option.some_bind, hread]
      rfl, hself⟩
  · obtain ⟨inst, hread, -⟩ := Read_eq vm.core (goAdd pc operand % vm.core.size) h
    cases write
    · exact ⟨_, vm, by
        simp only [VM.evaluate, Option.bind_eq_bind, normalize_wf _ _ h, Option.some_bind, hread,
          goRem_pos _ h.1]
        simp only [Bool.false_eq_true, if_false, Option.pure_def, Option.some_bind,
          normalize_wf _ _ h]
        rfl, hself⟩
    · obtain ⟨c', hw, hwf', hsz⟩ := Write_total vm.core (goAdd pc operand % vm.core.size)
        { inst with B := Int.tmod (goAdd (goSub inst.B 1) vm.core.size) vm.core.size }
        WarriorColor.Empty h
      exact ⟨_, { vm with core := c' }, by
        simp only [VM.evaluate, Option.bind_eq_bind, normalize_wf _ _ h, Option.some_bind, hread,
          goRem_pos _ h.1, hw]
        simp only [if_true, Option.pure_def, Option.some_bind, normalize_wf _ _ hwf']
        rfl, ⟨hwf', hsz, rfl, rfl, by simp⟩⟩
  · obtain ⟨inst, hread, -⟩ := Read_eq vm.core (goAdd pc operand % vm.core.size) h
    cases write
    · exact ⟨_, vm, by
        simp only [VM.evaluate, Option.bind_eq_bind, normalize_wf _ _ h, Option.some_bind, hread,
          goRem_pos _ h.1]
        simp only [Bool.false_eq_true, if_false, Option.pure_def, Option.some_bind]
        rfl, hself⟩
    · obtain ⟨c', hw, hwf', hsz⟩ := Write_total vm.core (goAdd pc operand % vm.core.size)
        { inst with B := Int.tmod (goAdd inst.B 1) vm.core.size }
        WarriorColor.Empty h
      exact ⟨_, { vm with core := c' }, by
        simp only [VM.evaluate, Option.bind_eq_bind, normalize_wf _ _ h, Option.some_bind, hread,
          goRem_pos _ h.1, hw]
        simp only [if_true, Option.pure_def, Option.some_bind]
        rfl, ⟨hwf', hsz, rfl, rfl, by simp⟩⟩

theorem jumpResult_setPc (vm vm' : VM) (i : Nat) (pc : Int) (w : Bool)
    (hf : EvalFrame vm vm' w) : JumpResult vm (vm'.setPc i pc) i :=
  ⟨hf.1, hf.2.1, hf.2.2.2.1, pc, by simp [VM.setPc, hf.2.2.1]⟩

theorem jumpResult_setPc_core (vm vm' : VM) (c : Core) (i : Nat) (pc : Int) (w : Bool)
    (hf : EvalFrame vm vm' w) (hc : c.WF) (hs : c.size = vm'.core.size) :
    JumpResult vm ({ vm' with core := c }.setPc i pc) i :=
  ⟨hc, by simpa [VM.setPc, hf.2.1] using hs, hf.2.2.2.1, pc, by simp [VM.setPc, hf.2.2.1]⟩

theorem execMOV_total (vm : VM) (i : Nat) (proc : Process) (inst : Instruction) (nextPC : Int)
    (h : vm.core.WF) : ∃ vm', vm.execMOV i proc inst nextPC = some vm' ∧ JumpResult vm vm' i := by
  obtain ⟨s, vm1, he1, hf1⟩ := evaluate_total vm proc.pc inst.AMode inst.A false h
  obtain rfl := hf1.2.2.2.2 rfl
  obtain ⟨d, vm2, he2, hf2⟩ := evaluate_total vm1 proc.pc inst.BMode inst.B true h
  simp only [VM.execMOV, he1, he2, Option.bind_eq_bind, Option.some_bind]
  split
  · obtain ⟨c', hw, hwf', hsz⟩ := Write_total vm2.core d
      { Op := .DAT, AMode := .IMMEDIATE, BMode := .IMMEDIATE, A := s, B := 0 }
      proc.warrior.Color hf2.1
    exact ⟨_, by simp only [hw, Option.some_bind]; rfl,
      jumpResult_setPc_core _ _ _ _ _ _ hf2 hwf' hsz⟩
  · obtain ⟨v, hr, -⟩ := Read_eq vm2.core s hf2.1
    obtain ⟨c', hw, hwf', hsz⟩ := Write_total vm2.core d v proc.warrior.Color hf2.1
    exact ⟨_, by simp only [hr, hw, Option.some_bind]; rfl,
      jumpResult_setPc_core _ _ _ _ _ _ hf2 hwf' hsz⟩

theorem execADD_total (vm : VM) (i : Nat) (proc : Process) (inst : Instruction) (nextPC : Int)
    (h : vm.core.WF) : ∃ vm', vm.execADD i proc inst nextPC = some vm' ∧ JumpResult vm vm' i := by
  obtain ⟨s, vm1, he1, hf1⟩ := evaluate_total vm proc.pc inst.AMode inst.A false h
  obtain rfl := hf1.2.2.2.2 rfl
  obtain ⟨d, vm2, he2, hf2⟩ := evaluate_total vm1 proc.pc inst.BMode inst.B true h
  simp only [VM.execADD, he1, he2, Option.bind_eq_bind, Option.some_bind]
  obtain ⟨dv, hd, -⟩ := Read_eq vm2.core d hf2.1
  split
  · obtain ⟨c', hw, hwf', hsz⟩ := Write_total vm2.core d
      { dv with B := Int.tmod (goAdd dv.B s) vm2.core.size } proc.warrior.Color hf2.1
    exact ⟨_, by simp only [hd, goRem_pos _ hf2.1.1, hw, Option.some_bind]; rfl,
      jumpResult_setPc_core _ _ _ _ _ _ hf2 hwf' hsz⟩
  · obtain ⟨sv, hs, -⟩ := Read_eq vm2.core s hf2.1
    obtain ⟨c', hw, hwf', hsz⟩ := Write_total vm2.core d
      { dv with A := Int.tmod (goAdd dv.A sv.A) vm2.core.size,
                B := Int.tmod (goAdd dv.B sv.B) vm2.core.size } proc.warrior.Color hf2.1
    exact ⟨_, by simp only [hd, hs, goRem_pos _ hf2.1.1, hw, Option.some_bind]; rfl,
      jumpResult_setPc_core _ _ _ _ _ _ hf2 hwf' hsz⟩

theorem execSUB_total (vm : VM) (i : Nat) (proc : Process) (inst : Instruction) (nextPC : Int)
    (h : vm.core.WF) : ∃ vm', vm.execSUB i proc inst nextPC = some vm' ∧ JumpResult vm vm' i := by
  obtain ⟨s, vm1, he1, hf1⟩ := evaluate_total vm proc.pc inst.AMode inst.A false h
  obtain rfl := hf1.2.2.2.2 rfl
  obtain ⟨d, vm2, he2, hf2⟩ := evaluate_total vm1 proc.pc inst.BMode inst.B true h
  simp only [VM.execSUB, he1, he2, Option.bind_eq_bind, Option.some_bind]
  obtain ⟨dv, hd, -⟩ := Read_eq vm2.core d hf2.1
  split
  · obtain ⟨c', hw, hwf', hsz⟩ := Write_total vm2.core d
      { dv with B := Int.tmod (goAdd (goSub dv.B s) vm2.core.size) vm2.core.size }
      proc.warrior.Color hf2.1
    exact ⟨_, by simp only [hd, goRem_pos _ hf2.1.1, hw, Option.some_bind]; rfl,
      jumpResult_setPc_core _ _ _ _ _ _ hf2 hwf' hsz⟩
  · obtain ⟨sv, hs, -⟩ := Read_eq vm2.core s hf2.1
    obtain ⟨c', hw, hwf', hsz⟩ := Write_total vm2.core d
      { dv with A := Int.tmod (goAdd (goSub dv.A sv.A) vm2.core.size) vm2.core.size,
                B := Int.tmod (goAdd (goSub dv.B sv.B) vm2.core.size) vm2.core.size }
      proc.warrior.Color hf2.1
    exact ⟨_, by simp only [hd, hs, goRem_pos _ hf2.1.1, hw, Option.some_bind]; rfl,
      jumpResult_setPc_core _ _ _ _ _ _ hf2 hwf' hsz⟩

theorem execJMP_total (vm : VM) (i : Nat) (proc : Process) (inst : Instruction)
    (h : vm.core.WF) : ∃ vm', vm.execJMP i proc inst = some vm' ∧ JumpResult vm vm' i := by
  obtain ⟨s, vm1, he1, hf1⟩ := evaluate_total vm proc.pc inst.AMode inst.A false h
  simp only [VM.execJMP, he1, Option.bind_eq_bind, Option.some_bind]
  exact ⟨_, rfl, jumpResult_setPc _ _ _ _ _ hf1⟩

theorem testValue_total (vm : VM) (inst : Instruction) (source : Int) (h : vm.core.WF) :
    ∃ v, vm.testValue inst source = some v := by
  unfold VM.testValue
  split
  · exact ⟨_, rfl⟩
  · obtain ⟨sv, hs, -⟩ := Read_eq vm.core source h
    exact ⟨_, by simp only [hs, Option.bind_eq_bind, Option.some_bind]; rfl⟩

theorem execJMZ_total (vm : VM) (i : Nat) (proc : Process) (inst : Instruction) (nextPC : Int)
    (h : vm.core.WF) : ∃ vm', vm.execJMZ i proc inst nextPC = some vm' ∧ JumpResult vm vm' i := by
  obtain ⟨s, vm1, he1, hf1⟩ := evaluate_total vm proc.pc inst.AMode inst.A false h
  obtain rfl := hf1.2.2.2.2 rfl
  obtain ⟨d, vm2, he2, hf2⟩ := evaluate_total vm1 proc.pc inst.BMode inst.B false h
  obtain ⟨v, hv⟩ := testValue_total vm2 inst s hf2.1
  simp only [VM.execJMZ, he1, he2, hv, Option.bind_eq_bind, Option.some_bind]
  split
  · exact ⟨_, rfl, jumpResult_setPc _ _ _ _ _ hf2⟩
  · exact ⟨_, rfl, jumpResult_setPc _ _ _ _ _ hf2⟩

theorem execJMN_total (vm : VM) (i : Nat) (proc : Process) (inst : Instruction) (nextPC : Int)
    (h : vm.core.WF) : ∃ vm', vm.execJMN i proc inst nextPC = some vm' ∧ JumpResult vm vm' i := by
  obtain ⟨s, vm1, he1, hf1⟩ := evaluate_total vm proc.pc inst.AMode inst.A false h
  obtain rfl := hf1.2.2.2.2 rfl
  obtain ⟨d, vm2, he2, hf2⟩ := evaluate_total vm1 proc.pc inst.BMode inst.B false h
  obtain ⟨v, hv⟩ := testValue_total vm2 inst s hf2.1
  simp only [VM.execJMN, he1, he2, hv, Option.bind_eq_bind, Option.some_bind]
  split
  · exact ⟨_, rfl, jumpResult_setPc _ _ _ _ _ hf2⟩
  · exact ⟨_, rfl, jumpResult_setPc _ _ _ _ _ hf2⟩

theorem evalFrame_trans (vm vm1 vm2 : VM) (w : Bool) (h1 : EvalFrame vm vm1 w)
    (h2 : EvalFrame vm1 vm2 false) : EvalFrame vm vm2 w := by
  obtain rfl := h2.2.2.2.2 rfl
  exact h1

theorem execDJN_total (vm : VM) (i : Nat) (proc : Process) (inst : Instruction) (nextPC : Int)
    (h : vm.core.WF) : ∃ vm', vm.execDJN i proc inst nextPC = some vm' ∧ JumpResult vm vm' i := by
  obtain ⟨s, vm1, he1, hf1⟩ := evaluate_total vm proc.pc inst.AMode inst.A true h
  obtain ⟨d, vm2, he2, hf2⟩ := evaluate_total vm1 proc.pc inst.BMode inst.B false hf1.1
  obtain rfl := hf2.2.2.2.2 rfl
  simp only [VM.execDJN, he1, he2, Option.bind_eq_bind, Option.some_bind]
  split
  · exact ⟨_, rfl, jumpResult_setPc _ _ _ _ _ hf1⟩
  · obtain ⟨v, hr, -⟩ := Read_eq vm2.core s hf1.1
    obtain ⟨c', hw, hwf', hsz⟩ := Write_total vm2.core s
      { v with B := Int.tmod (goAdd (goSub v.B 1) vm2.core.size) vm2.core.size }
      proc.warrior.Color hf1.1
    simp only [hr, goRem_pos _ hf1.1.1, hw, Option.some_bind]
    split
    · exact ⟨_, rfl, jumpResult_setPc_core _ _ _ _ _ _ hf1 hwf' hsz⟩
    · exact ⟨_, rfl, jumpResult_setPc_core _ _ _ _ _ _ hf1 hwf' hsz⟩

theorem cmpEqual_total (vm : VM) (inst : Instruction) (s1 s2 : Int) (h : vm.core.WF) :
    ∃ b, vm.cmpEqual inst s1 s2 = some b := by
  obtain ⟨v1, h1, -⟩ := Read_eq vm.core s1 h
  obtain ⟨v2, h2, -⟩ := Read_eq vm.core s2 h
  unfold VM.cmpEqual
  split
  · exact ⟨_, rfl⟩
  · split
    · exact ⟨_, by simp only [h2, Option.bind_eq_bind, Option.some_bind]; rfl⟩
    · split
      · exact ⟨_, by simp only [h1, Option.bind_eq_bind, Option.some_bind]; rfl⟩
      · exact ⟨_, by simp only [h1, h2, Option.bind_eq_bind, Option.some_bind]; rfl⟩

theorem execCMP_total (vm : VM) (i : Nat) (proc : Process) (inst : Instruction) (nextPC : Int)
    (h : vm.core.WF) : ∃ vm', vm.execCMP i proc inst nextPC = some vm' ∧ JumpResult vm vm' i := by
  obtain ⟨s, vm1, he1, hf1⟩ := evaluate_total vm proc.pc inst.AMode inst.A false h
  obtain rfl := hf1.2.2.2.2 rfl
  obtain ⟨d, vm2, he2, hf2⟩ := evaluate_total vm1 proc.pc inst.BMode inst.B false h
  obtain ⟨b, hb⟩ := cmpEqual_total vm2 inst s d hf2.1
  simp only [VM.execCMP, he1, he2, hb, Option.bind_eq_bind, Option.some_bind]
  cases b
  · exact ⟨_, rfl, jumpResult_setPc _ _ _ _ _ hf2⟩
  · simp only [if_true, goRem_pos _ hf2.1.1, Option.some_bind]
    exact ⟨_, rfl, jumpResult_setPc _ _ _ _ _ hf2⟩

theorem jumpResult_step {vm vm' : VM} {i : Nat} (proc : Process) {dies : Prop}
    (h : JumpResult vm vm' i) (hd : ¬ dies) : StepResult vm vm' i proc dies := by
  obtain ⟨h1, h2, h3, pc, h4⟩ := h
  exact ⟨h1, h2, h3, fun hx => absurd hx hd, fun _ => by rw [h4]; exact LiveShape.jump pc⟩

theorem execSPL_total (vm : VM) (i : Nat) (proc : Process) (inst : Instruction) (nextPC : Int)
    (h : vm.core.WF) {dies : Prop} (hd : ¬ dies) :
    ∃ vm', vm.execSPL i proc inst nextPC = some vm' ∧ StepResult vm vm' i proc dies := by
  obtain ⟨s, vm1, he1, hf1⟩ := evaluate_total vm proc.pc inst.AMode inst.A false h
  obtain rfl := hf1.2.2.2.2 rfl
  simp only [VM.execSPL, he1, Option.bind_eq_bind, Option.some_bind]
  split
  · exact ⟨_, rfl, jumpResult_step proc (jumpResult_setPc _ _ _ _ _ hf1) hd⟩
  · next hc =>
    exact ⟨_, rfl, h, rfl, rfl, fun hx => absurd hx hd,
      fun _ => LiveShape.split nextPC s (by omega)⟩

/-- The `switch` never panics on a well-formed core; it kills exactly on DAT. -/
theorem execOp_total (vm : VM) (i : Nat) (proc : Process) (inst : Instruction) (nextPC : Int)
    (h : vm.core.WF) :
    ∃ vm', vm.execOp i proc inst nextPC = some vm' ∧
      StepResult vm vm' i proc (inst.Op = OpCode.DAT) := by
  unfold VM.execOp
  cases hop : inst.Op
  case DAT => exact ⟨_, rfl, h, rfl, rfl, fun _ => rfl, fun hx => absurd rfl hx⟩
  case NOP =>
    exact ⟨_, rfl, h, rfl, rfl, fun hx => absurd hx (by decide), fun _ => LiveShape.jump nextPC⟩
  case SPL => exact execSPL_total vm i proc inst nextPC h (by simp)
  case MOV =>
    obtain ⟨vm', h1, h2⟩ := execMOV_total vm i proc inst nextPC h
    exact ⟨vm', h1, jumpResult_step proc h2 (by simp)⟩
  case ADD =>
    obtain ⟨vm', h1, h2⟩ := execADD_total vm i proc inst nextPC h
    exact ⟨vm', h1, jumpResult_step proc h2 (by simp)⟩
  case SUB =>
    obtain ⟨vm', h1, h2⟩ := execSUB_total vm i proc inst nextPC h
    exact ⟨vm', h1, jumpResult_step proc h2 (by simp)⟩
  case JMP =>
    obtain ⟨vm', h1, h2⟩ := execJMP_total vm i proc inst h
    exact ⟨vm', h1, jumpResult_step proc h2 (by simp)⟩
  case JMZ =>
    obtain ⟨vm', h1, h2⟩ := execJMZ_total vm i proc inst nextPC h
    exact ⟨vm', h1, jumpResult_step proc h2 (by simp)⟩
  case JMN =>
    obtain ⟨vm', h1, h2⟩ := execJMN_total vm i proc inst nextPC h
    exact ⟨vm', h1, jumpResult_step proc h2 (by simp)⟩
  case DJN =>
    obtain ⟨vm', h1, h2⟩ := execDJN_total vm i proc inst nextPC h
    exact ⟨vm', h1, jumpResult_step proc h2 (by simp)⟩
  case CMP =>
    obtain ⟨vm', h1, h2⟩ := execCMP_total vm i proc inst nextPC h
    exact ⟨vm', h1, jumpResult_step proc h2 (by simp)⟩

theorem Execute_total (c : Core) (addr : Int) (h : c.WF) : c.Execute addr = some () := by
  obtain ⟨hr0, hr1⟩ := emod_range c addr h
  obtain ⟨v, hv, -⟩ := idx?_of_lt c.cells (addr % c.size) hr0 (by rw [h.2.2.1]; exact hr1)
  simp only [Core.Execute, normalize_wf _ _ h, Option.bind_eq_bind, Option.some_bind, hv]
  rfl

/-- The straight-line part of `executeInstruction` up to the `switch`. -/
theorem executeInstruction_unfold (vm : VM) (i : Nat) (proc : Process) (o : WarriorColor)
    (inst : Instruction) (h : vm.core.WF) (hp : vm.processes[i]? = some proc)
    (ho : idx? vm.core.owners proc.pc = some o) (hr : vm.core.Read proc.pc = some inst) :
    vm.executeInstruction i =
      if o ≠ proc.warrior.Color ∧ o ≠ WarriorColor.Empty then some (vm.kill i)
      else vm.execOp i proc inst (Int.tmod (goAdd proc.pc 1) vm.core.size) := by
  simp only [VM.executeInstruction, hp, Execute_total _ _ h, hr, ho, Option.bind_eq_bind,
    Option.some_bind, goRem_pos _ h.1]
  rfl

/-- On a well-formed core `executeInstruction` returns as soon as `owners[proc.pc]`
is in range; the process is marked dead exactly when the owner is foreign or the
cell holds a DAT. -/
theorem executeInstruction_total (vm : VM) (i : Nat) (proc : Process) (o : WarriorColor)
    (h : vm.core.WF) (hp : vm.processes[i]? = some proc)
    (ho : idx? vm.core.owners proc.pc = some o) :
    ∃ inst vm', vm.core.Read proc.pc = some inst ∧ vm.executeInstruction i = some vm' ∧
      StepResult vm vm' i proc (foreignOwner o proc ∨ inst.Op = OpCode.DAT) := by
  obtain ⟨inst, hr, -⟩ := Read_eq vm.core proc.pc h
  refine ⟨inst, ?_⟩
  rw [executeInstruction_unfold vm i proc o inst h hp ho hr]
  by_cases hf : o ≠ proc.warrior.Color ∧ o ≠ WarriorColor.Empty
  · rw [if_pos hf]
    exact ⟨_, hr, rfl, h, rfl, rfl, fun _ => rfl, fun hx => absurd (Or.inl hf) hx⟩
  · rw [if_neg hf]
    obtain ⟨vm', h1, h2, h3, h4, h5, h6⟩ := execOp_total vm i proc inst
      (Int.tmod (goAdd proc.pc 1) vm.core.size) h
    refine ⟨vm', hr, h1, h2, h3, h4, ?_, ?_⟩
    · intro hx
      rcases hx with hx | hx
      · exact absurd hx hf
      · exact h5 hx
    · intro hx
      exact h6 (fun hy => hx (Or.inr hy))

theorem executeInstruction_none (vm : VM) (i : Nat) (proc : Process)
    (hp : vm.processes[i]? = some proc) (ho : idx? vm.core.owners proc.pc = none) :
    vm.executeInstruction i = none := by
  simp only [VM.executeInstruction, hp, ho, Option.bind_eq_bind, Option.some_bind,
    Option.none_bind]
  cases vm.core.Execute proc.pc <;> cases vm.core.Read proc.pc <;> rfl

theorem scheduled_some (vm : VM) (i : Nat) (proc : Process)
    (hs : vm.scheduled = some (i, proc)) :
    vm.compacted.length ≠ 0 ∧
      goRem vm.current vm.compacted.length = some (i : Int) ∧
      idx? vm.compacted (i : Int) = some proc ∧ vm.compacted[i]? = some proc ∧
      proc.alive = true := by
  unfold VM.scheduled at hs
  split at hs
  · cases hs
  · next hl =>
    simp only [Option.bind_eq_bind, Option.bind_eq_some, Option.pure_def, Option.some.injEq,
      Prod.mk.injEq] at hs
    obtain ⟨cur, hc, p, hp, rfl, rfl⟩ := hs
    obtain ⟨h0, hget⟩ := (idx?_eq_some_iff _ _ _).mp hp
    have hcur : ((cur.toNat : Nat) : Int) = cur := Int.toNat_of_nonneg h0
    refine ⟨hl, by rw [hcur]; exact hc, by rw [hcur]; exact hp, hget, ?_⟩
    have hmem : p ∈ vm.compacted := List.getElem?_mem hget
    unfold VM.compacted at hmem
    simpa using (List.mem_filter.mp hmem).2

theorem ExecuteCycle_eq (vm : VM) :
    vm.ExecuteCycle =
      if vm.processes.length = 0 then some vm
      else if vm.compacted.length = 0 then
        some { core := vm.core, processes := vm.compacted, current := vm.current }
      else
        (goRem vm.current vm.compacted.length).bind fun cur =>
          (idx? vm.compacted cur).bind fun _ =>
            ((vm.atCursor cur).executeInstruction cur.toNat).bind fun vm1 =>
              (goRem (goAdd vm1.current 1) vm1.processes.length).bind fun next =>
                some { core := vm1.core, processes := vm1.processes, current := next } :=
  rfl

theorem insertAfter_length (ps : List Process) (i cur : Int) (np : Process) :
    ps.length ≤ (insertAfter ps i cur np).length := by
  induction ps generalizing i with
  | nil => simp [insertAfter]
  | cons p rest ih =>
    unfold insertAfter
    split
    · have := ih (i + 1); simp only [List.length_cons]; omega
    · have := ih (i + 1); simp only [List.length_cons]; omega

theorem liveShape_length_le {ps ps' : List Process} {i : Nat} {cur : Int} {proc : Process}
    (h : LiveShape ps i cur proc ps') : ps.length ≤ ps'.length := by
  cases h with
  | jump pc => simp
  | split pc target hc =>
    refine le_trans ?_ (insertAfter_length _ _ _ _)
    simp

theorem stepResult_length_le {vm vm' : VM} {i : Nat} {proc : Process} {dies : Prop}
    (h : StepResult vm vm' i proc dies) : vm.processes.length ≤ vm'.processes.length := by
  by_cases hd : dies
  · rw [h.2.2.2.1 hd]; simp [VM.kill]
  · exact liveShape_length_le (h.2.2.2.2 hd)

/-- One `ExecuteCycle` with a scheduled process whose `owners[pc]` is in range:
it returns, and the process list is the compacted list after one
`executeInstruction` at the scheduled index. -/
theorem ExecuteCycle_total (vm : VM) (i : Nat) (proc : Process) (o : WarriorColor)
    (h : vm.core.WF) (hs : vm.scheduled = some (i, proc))
    (ho : idx? vm.core.owners proc.pc = some o) :
    ∃ inst vm1 vm', vm.core.Read proc.pc = some inst ∧
      (vm.atCursor i).executeInstruction i = some vm1 ∧
      StepResult (vm.atCursor i) vm1 i proc (foreignOwner o proc ∨ inst.Op = OpCode.DAT) ∧
      vm.ExecuteCycle = some vm' ∧ vm'.core = vm1.core ∧ vm'.processes = vm1.processes ∧
      goRem (goAdd i 1) vm1.processes.length = some vm'.current := by
  obtain ⟨hl, hc, hp, hget, -⟩ := scheduled_some vm i proc hs
  obtain ⟨inst, vm1, hr, he, hres⟩ := executeInstruction_total (vm.atCursor i) i proc o h hget ho
  have hl' : vm.processes.length ≠ 0 := by
    intro hz
    apply hl
    unfold VM.compacted
    rw [List.length_eq_zero] at hz ⊢
    rw [hz]; rfl
  have hlen1 : (0 : Int) < (vm1.processes.length : Int) := by
    have h1 := stepResult_length_le hres
    have h2 : (vm.atCursor i).processes = vm.compacted := rfl
    rw [h2] at h1
    omega
  have hcur1 : vm1.current = (i : Int) := hres.2.2.1
  have hnext : goRem (goAdd (i : Int) 1) (vm1.processes.length : Int) =
      some (Int.tmod (goAdd (i : Int) 1) (vm1.processes.length : Int)) := goRem_pos _ hlen1
  refine ⟨inst, vm1, ⟨vm1.core, vm1.processes, Int.tmod (goAdd i 1) vm1.processes.length⟩,
    hr, he, hres, ?_, rfl, rfl, ?_⟩
  · rw [ExecuteCycle_eq, if_neg hl', if_neg hl, hc]
    simp only [Option.some_bind, hp, Int.toNat_ofNat, he, hcur1, hnext]
  · dsimp only
    exact hnext

/-! ## The insertion loop of SPL -/

theorem insertAfter_of_lt (ps : List Process) (i cur : Int) (np : Process) (h : cur < i) :
    insertAfter ps i cur np = ps := by
  induction ps generalizing i with
  | nil => rfl
  | cons p rest ih =>
    unfold insertAfter
    rw [if_neg (by omega), ih (i + 1) (by omega)]

theorem insertAfter_eq (ps : List Process) (i : Int) (k : Nat) (np : Process)
    (hk : k < ps.length) :
    insertAfter ps i (i + k) np = ps.take (k + 1) ++ np :: ps.drop (k + 1) := by
  induction ps generalizing i k with
  | nil => simp at hk
  | cons p rest ih =>
    unfold insertAfter
    cases k with
    | zero =>
      rw [if_pos (by simp), insertAfter_of_lt _ _ _ _ (by simp)]
      simp
    | succ k =>
      rw [if_neg (by push_cast; omega)]
      have h := ih (i + 1) k (by simpa using hk)
      have e : i + 1 + (k : Int) = i + ((k + 1 : Nat) : Int) := by push_cast; omega
      rw [e] at h
      rw [h]
      simp

theorem insertAfter_getElem?_self (ps : List Process) (k : Nat) (np : Process)
    (hk : k < ps.length) : (insertAfter ps 0 (k : Int) np)[k]? = ps[k]? := by
  have h := insertAfter_eq ps 0 k np hk
  rw [Int.zero_add] at h
  rw [h, List.getElem?_append_left (by simp; omega), List.getElem?_take]
  simp

/-! ## One cycle, by cases -/

/-- Every returning `ExecuteCycle` on a well-formed core either found no alive
process (and executed nothing) or ran `executeInstruction` on the scheduled one. -/
theorem ExecuteCycle_cases (vm vm' : VM) (h : vm.core.WF) (he : vm.ExecuteCycle = some vm') :
    (vm.compacted = [] ∧ vm'.core = vm.core ∧ vm'.processes = [] ∧
        vm'.current = vm.current) ∨
      ∃ i proc o inst vm1, vm.scheduled = some (i, proc) ∧
        idx? vm.core.owners proc.pc = some o ∧ vm.core.Read proc.pc = some inst ∧
        (vm.atCursor i).executeInstruction i = some vm1 ∧
        StepResult (vm.atCursor i) vm1 i proc (foreignOwner o proc ∨ inst.Op = OpCode.DAT) ∧
        vm'.core = vm1.core ∧ vm'.processes = vm1.processes ∧
        goRem (goAdd i 1) vm1.processes.length = some vm'.current := by
  by_cases hl' : vm.processes.length = 0
  · left
    rw [ExecuteCycle_eq, if_pos hl'] at he
    cases he
    have hnil : vm.processes = [] := List.length_eq_zero.mp hl'
    exact ⟨by unfold VM.compacted; rw [hnil]; rfl, rfl, hnil, rfl⟩
  by_cases hl : vm.compacted.length = 0
  · left
    rw [ExecuteCycle_eq, if_neg hl', if_pos hl] at he
    cases he
    exact ⟨List.length_eq_zero.mp hl, rfl, List.length_eq_zero.mp hl, rfl⟩
  right
  have hpos : (0 : Int) < (vm.compacted.length : Int) := by omega
  have he' := he
  rw [ExecuteCycle_eq, if_neg hl', if_neg hl, goRem_pos _ hpos] at he'
  simp only [Option.some_bind] at he'
  cases hidx : idx? vm.compacted (Int.tmod vm.current vm.compacted.length) with
  | none => rw [hidx] at he'; cases he'
  | some proc =>
    obtain ⟨h0, hget⟩ := (idx?_eq_some_iff _ _ _).mp hidx
    have hcur := Int.toNat_of_nonneg h0
    have hs : vm.scheduled = some ((Int.tmod vm.current vm.compacted.length).toNat, proc) := by
      unfold VM.scheduled
      rw [if_neg hl, goRem_pos _ hpos]
      simp only [Option.bind_eq_bind, Option.some_bind, hidx]
      rfl
    cases ho : idx? vm.core.owners proc.pc with
    | none =>
      rw [hidx] at he'
      simp only [Option.some_bind] at he'
      have hn := executeInstruction_none
        (vm.atCursor (Int.tmod vm.current vm.compacted.length))
        (Int.tmod vm.current vm.compacted.length).toNat proc hget ho
      rw [hn] at he'
      cases he'
    | some o =>
      obtain ⟨inst, vm1, vm'', hr, hex, hres, hcyc, hcore, hprocs, hnext⟩ :=
        ExecuteCycle_total vm _ proc o h hs ho
      rw [he] at hcyc
      cases hcyc
      exact ⟨_, proc, o, inst, vm1, hs, ho, hr, hex, hres, hcore, hprocs, hnext⟩

/-! ## Counting alive processes -/

theorem countP_modify_le {α : Type} (p : α → Bool) (f : α → α)
    (hf : ∀ a, p (f a) = true → p a = true) (l : List α) (i : Nat) :
    (l.modify f i).countP p ≤ l.countP p := by
  induction l generalizing i with
  | nil => simp
  | cons a l ih =>
    cases i with
    | zero =>
      simp only [List.modify_zero_cons, List.countP_cons]
      have := hf a
      split <;> split <;> simp_all
    | succ i =>
      simp only [List.modify_succ_cons, List.countP_cons]
      have := ih i
      omega

theorem countP_modify_eq {α : Type} (p : α → Bool) (f : α → α)
    (hf : ∀ a, p (f a) = p a) (l : List α) (i : Nat) :
    (l.modify f i).countP p = l.countP p := by
  induction l generalizing i with
  | nil => simp
  | cons a l ih =>
    cases i with
    | zero => simp only [List.modify_zero_cons, List.countP_cons, hf]
    | succ i => simp only [List.modify_succ_cons, List.countP_cons, ih i]

theorem processCount_compacted (vm : VM) (w : Warrior) :
    processCount vm.compacted w = processCount vm.processes w := by
  unfold processCount VM.compacted
  rw [List.countP_filter]
  congr 1
  funext p
  cases p.alive <;> simp

theorem processCount_kill (ps : List Process) (i : Nat) (w : Warrior) :
    processCount (ps.modify (fun p => { p with alive := false }) i) w ≤ processCount ps w :=
  countP_modify_le _ _ (by intro a; simp) ps i

theorem processCount_setPc (ps : List Process) (i : Nat) (pc : Int) (w : Warrior) :
    processCount (ps.modify (fun p => { p with pc := pc }) i) w = processCount ps w :=
  countP_modify_eq _ _ (by intro a; rfl) ps i

theorem processCount_insertAfter (ps : List Process) (i cur : Int) (np : Process)
    (w : Warrior) :
    processCount (insertAfter ps i cur np) w ≤
      processCount ps w + (if np.warrior.ref = w.ref then 1 else 0) := by
  induction ps generalizing i with
  | nil => simp [insertAfter, processCount]
  | cons p rest ih =>
    have h := ih (i + 1)
    unfold processCount at h ⊢
    unfold insertAfter
    split
    · next hi =>
      rw [insertAfter_of_lt _ _ _ _ (by omega)]
      simp only [List.countP_cons]
      have : (if (decide (np.warrior.ref = w.ref) && np.alive) = true then 1 else 0) ≤
          (if np.warrior.ref = w.ref then 1 else 0) := by
        split <;> split <;> simp_all
      omega
    · simp only [List.countP_cons]
      omega

theorem processCount_insertAfter_other (ps : List Process) (i cur : Int) (np : Process)
    (w : Warrior) (hne : np.warrior.ref ≠ w.ref) :
    processCount (insertAfter ps i cur np) w ≤ processCount ps w := by
  have h := processCount_insertAfter ps i cur np w
  rwa [if_neg hne, Nat.add_zero] at h

/-- The number of alive processes of `w` after an `executeInstruction` that did
not kill: unchanged or, for `w` the executing warrior below the cap, one more. -/
theorem liveShape_count {ps ps' : List Process} {i : Nat} {cur : Int} {proc : Process}
    (h : LiveShape ps i cur proc ps') (w : Warrior) :
    processCount ps' w ≤ processCount ps w ∨
      (processCount ps w < 64 ∧ proc.warrior.ref = w.ref ∧
        processCount ps' w ≤ processCount ps w + 1) := by
  cases h with
  | jump pc => left; rw [processCount_setPc]
  | split pc target hc =>
    by_cases hw : proc.warrior.ref = w.ref
    · right
      have h1 := processCount_insertAfter (ps.modify (fun p => { p with pc := pc }) i) 0 cur
        { warrior := proc.warrior, pc := target, alive := true } w
      rw [processCount_setPc] at h1
      have hsame : processCount ps proc.warrior = processCount ps w := by
        unfold processCount; rw [hw]
      refine ⟨by omega, hw, ?_⟩
      simpa [hw] using h1
    · left
      have h1 := processCount_insertAfter_other (ps.modify (fun p => { p with pc := pc }) i)
        0 cur { warrior := proc.warrior, pc := target, alive := true } w hw
      rwa [processCount_setPc] at h1

theorem stepResult_count {vm vm' : VM} {i : Nat} {proc : Process} {dies : Prop}
    (h : StepResult vm vm' i proc dies) (w : Warrior) :
    processCount vm'.processes w ≤ processCount vm.processes w ∨
      (processCount vm.processes w < 64 ∧ proc.warrior.ref = w.ref ∧
        processCount vm'.processes w ≤ processCount vm.processes w + 1) := by
  by_cases hd : dies
  · left
    rw [h.2.2.2.1 hd]
    exact processCount_kill _ _ _
  · exact liveShape_count (h.2.2.2.2 hd) w

/-- One cycle keeps the core well-formed and never raises the number of alive
processes of a warrior above 64. -/
theorem ExecuteCycle_cap (vm vm' : VM) (h : vm.core.WF)
    (hcap : ∀ w, processCount vm.processes w ≤ 64) (he : vm.ExecuteCycle = some vm') :
    vm'.core.WF ∧ ∀ w, processCount vm'.processes w ≤ 64 := by
  rcases ExecuteCycle_cases vm vm' h he with ⟨-, hcore, hps, -⟩ |
    ⟨i, proc, o, inst, vm1, hs, ho, hr, hex, hres, hcore, hps, -⟩
  · refine ⟨by rw [hcore]; exact h, fun w => ?_⟩
    rw [hps]; simp [processCount]
  · refine ⟨by rw [hcore]; exact hres.1, fun w => ?_⟩
    rw [hps]
    have hc := stepResult_count hres w
    have h0 : processCount (vm.atCursor i).processes w = processCount vm.processes w :=
      processCount_compacted vm w
    rw [h0] at hc
    have := hcap w
    omega

theorem run_cap (n : Nat) (vm vm' : VM) (h : vm.core.WF)
    (hcap : ∀ w, processCount vm.processes w ≤ 64) (he : vm.run n = some vm') :
    vm'.core.WF ∧ ∀ w, processCount vm'.processes w ≤ 64 := by
  induction n generalizing vm with
  | zero => cases he; exact ⟨h, hcap⟩
  | succ n ih =>
    simp only [VM.run, Option.bind_eq_bind, Option.bind_eq_some] at he
    obtain ⟨vm1, h1, h2⟩ := he
    obtain ⟨hwf1, hcap1⟩ := ExecuteCycle_cap vm vm1 h hcap h1
    exact ih vm1 hwf1 hcap1 h2

/-! ## C4: the pre-execution ownership check -/

/-- C4: on a well-formed core, when the scheduled process `proc` (index `i` of the
compacted list) sits on a cell whose owner `o` is neither Empty nor its warrior's
colour, `ExecuteCycle` returns with the core (cells and owner tags) unchanged and
with the compacted process list in which only entry `i` changed, to `proc` marked
dead with the same `pc` (so nothing was executed and no process was created),
whatever instruction the cell holds.  Conversely, when `o` is Empty or the
warrior's colour and the cell does not hold a DAT, the process at index `i` is
still `proc`, alive, up to its `pc`. -/
theorem C4_ownership_check (vm : VM) (i : Nat) (proc : Process) (o : WarriorColor)
    (h : vm.core.WF) (hs : vm.scheduled = some (i, proc))
    (ho : idx? vm.core.owners proc.pc = some o) :
    ∃ inst vm', vm.core.Read proc.pc = some inst ∧ vm.ExecuteCycle = some vm' ∧
      (o ≠ proc.warrior.Color ∧ o ≠ WarriorColor.Empty →
        vm'.core = vm.core ∧
        vm'.processes = vm.compacted.modify (fun p => { p with alive := false }) i ∧
        vm'.processes[i]? = some { warrior := proc.warrior, pc := proc.pc, alive := false }) ∧
      ((o = proc.warrior.Color ∨ o = WarriorColor.Empty) → inst.Op ≠ OpCode.DAT →
        ∃ pc, vm'.processes[i]? = some { warrior := proc.warrior, pc := pc, alive := true }) := by
  obtain ⟨hl, hc, hp, hget, halive⟩ := scheduled_some vm i proc hs
  obtain ⟨inst, vm1, vm', hr, he, hres, hcyc, hcore, hprocs, -⟩ :=
    ExecuteCycle_total vm i proc o h hs ho
  refine ⟨inst, vm', hr, hcyc, ?_, ?_⟩
  · intro hf
    have hk : vm1 = (vm.atCursor i).kill i := hres.2.2.2.1 (Or.inl hf)
    rw [hcore, hprocs, hk]
    refine ⟨rfl, rfl, ?_⟩
    show (vm.compacted.modify _ i)[i]? = _
    rw [List.getElem?_modify_eq, hget]
    rfl
  · intro hown hop
    have hnd : ¬ (foreignOwner o proc ∨ inst.Op = OpCode.DAT) := by
      rintro (⟨h1, h2⟩ | h3)
      · rcases hown with h4 | h4
        · exact h1 h4
        · exact h2 h4
      · exact hop h3
    have hlive := hres.2.2.2.2 hnd
    rw [hprocs]
    have hps : (vm.atCursor i).processes = vm.compacted := rfl
    have hcur : (vm.atCursor i).current = (i : Int) := rfl
    rw [hps, hcur] at hlive
    have hi : i < vm.compacted.length := by
      by_contra hcon
      rw [List.getElem?_eq_none (by omega)] at hget
      cases hget
    generalize vm1.processes = ps' at hlive ⊢
    cases hlive with
    | jump pc =>
      refine ⟨pc, ?_⟩
      rw [List.getElem?_modify_eq, hget]
      simp [halive]
    | split pc target hcnt =>
      refine ⟨pc, ?_⟩
      rw [insertAfter_getElem?_self _ _ _ (by simpa using hi), List.getElem?_modify_eq, hget]
      simp [halive]

/-- C4 witness: scenario S5, Blue's only process on a cell Red has overwritten. -/
theorem C4_ownership_check_witness :
    ∃ inst vm', ownershipKillVM.core.Read 2 = some inst ∧
      ownershipKillVM.ExecuteCycle = some vm' ∧
      (WarriorColor.Red ≠ WarriorColor.Blue ∧ WarriorColor.Red ≠ WarriorColor.Empty →
        vm'.core = ownershipKillVM.core ∧
        vm'.processes =
          ownershipKillVM.compacted.modify (fun p => { p with alive := false }) 0 ∧
        vm'.processes[0]? = some { warrior := warriorBlue, pc := 2, alive := false }) ∧
      ((WarriorColor.Red = WarriorColor.Blue ∨ WarriorColor.Red = WarriorColor.Empty) →
        inst.Op ≠ OpCode.DAT →
        ∃ pc, vm'.processes[0]? = some { warrior := warriorBlue, pc := pc, alive := true }) :=
  C4_ownership_check ownershipKillVM 0 { warrior := warriorBlue, pc := 2, alive := true }
    WarriorColor.Red (by decide) (by decide) (by decide)

/-! ## C5: the process cap -/

/-- Where `owners[pc]` is in range, the default next PC is `(pc + 1) mod size`. -/
theorem nextPC_eq (c : Core) (pc : Int) (o : WarriorColor) (h : c.WF)
    (ho : idx? c.owners pc = some o) :
    0 ≤ pc ∧ pc < c.size ∧ Int.tmod (goAdd pc 1) c.size = (pc + 1) % c.size := by
  obtain ⟨h0, hget⟩ := (idx?_eq_some_iff _ _ _).mp ho
  have hlt : pc.toNat < c.owners.length := by
    by_contra hcon
    rw [List.getElem?_eq_none (by omega)] at hget
    cases hget
  have hsz := h.2.2.2
  have hmax := h.2.1
  have hpc : pc < c.size := by omega
  refine ⟨h0, hpc, ?_⟩
  unfold goAdd
  rw [wrapInt_of_range (by unfold minInt; omega) (by omega),
    Int.tmod_eq_emod (by omega) (le_of_lt h.1)]

theorem execSPL_at_cap (vm : VM) (i : Nat) (proc : Process) (inst : Instruction) (nextPC : Int)
    (h : vm.core.WF) (hc : 64 ≤ processCount vm.processes proc.warrior) :
    vm.execSPL i proc inst nextPC = some (vm.setPc i nextPC) := by
  obtain ⟨s, vm1, he1, hf1⟩ := evaluate_total vm proc.pc inst.AMode inst.A false h
  obtain rfl := hf1.2.2.2.2 rfl
  simp only [VM.execSPL, he1, Option.bind_eq_bind, Option.some_bind]
  rw [if_pos hc]
  rfl

/-- C5: from a VM state over a well-formed core in which every warrior has at
most 64 alive processes, every state reached by any number of `ExecuteCycle`
calls has at most 64 alive processes per warrior; and when the scheduled process
executes an SPL while its warrior has 64 (or more) alive processes, the cycle
returns with the core unchanged and the compacted process list unchanged except
that the `pc` of the scheduled entry is `(pc + 1) mod size`: no process is
created. -/
theorem C5_process_cap (vm : VM) (h : vm.core.WF)
    (hcap : ∀ w, processCount vm.processes w ≤ 64) :
    (∀ n vm', vm.run n = some vm' → ∀ w, processCount vm'.processes w ≤ 64) ∧
      ∀ i proc o inst, vm.scheduled = some (i, proc) →
        idx? vm.core.owners proc.pc = some o →
        (o = proc.warrior.Color ∨ o = WarriorColor.Empty) →
        vm.core.Read proc.pc = some inst → inst.Op = OpCode.SPL →
        64 ≤ processCount vm.processes proc.warrior →
        ∃ vm', vm.ExecuteCycle = some vm' ∧ vm'.core = vm.core ∧
          vm'.processes =
            vm.compacted.modify (fun p => { p with pc := (proc.pc + 1) % vm.core.size }) i := by
  refine ⟨fun n vm' he => (run_cap n vm vm' h hcap he).2, ?_⟩
  intro i proc o inst hs ho hown hr hop hc
  obtain ⟨hl, hcur, hp, hget, halive⟩ := scheduled_some vm i proc hs
  obtain ⟨inst', vm1, vm', hr', he, hres, hcyc, hcore, hprocs, -⟩ :=
    ExecuteCycle_total vm i proc o h hs ho
  rw [hr] at hr'
  cases hr'
  have hun := executeInstruction_unfold (vm.atCursor i) i proc o inst h hget ho hr
  rw [if_neg (by rintro ⟨h1, h2⟩; rcases hown with h3 | h3; exact h1 h3; exact h2 h3)] at hun
  have hc' : 64 ≤ processCount (vm.atCursor i).processes proc.warrior := by
    have : processCount (vm.atCursor i).processes proc.warrior =
        processCount vm.processes proc.warrior := processCount_compacted vm _
    omega
  have hop' : (vm.atCursor i).execOp i proc inst
      (Int.tmod (goAdd proc.pc 1) (vm.atCursor i).core.size) =
      (vm.atCursor i).execSPL i proc inst
        (Int.tmod (goAdd proc.pc 1) (vm.atCursor i).core.size) := by
    unfold VM.execOp; rw [hop]
  rw [hop', execSPL_at_cap (vm.atCursor i) i proc inst _ h hc', he] at hun
  cases hun
  refine ⟨vm', hcyc, hcore, ?_⟩
  rw [hprocs]
  have hn := (nextPC_eq vm.core proc.pc o h ho).2.2
  show vm.compacted.modify _ i = _
  have hsz : (vm.atCursor i).core.size = vm.core.size := rfl
  rw [hsz, hn]

/-- C5 witness: scenario S4 at saturation, 64 alive processes of Red on `SPL $0, $0`;
three cycles later Red still has exactly 64 alive processes in a list of 64. -/
theorem C5_process_cap_witness :
    ((splCapVM.run 3).map fun vm => (processCount vm.processes warriorRed, vm.processes.length)) =
        some (64, 64) ∧
    (∀ n vm', splCapVM.run n = some vm' → ∀ w, processCount vm'.processes w ≤ 64) ∧
      ∀ i proc o inst, splCapVM.scheduled = some (i, proc) →
        idx? splCapVM.core.owners proc.pc = some o →
        (o = proc.warrior.Color ∨ o = WarriorColor.Empty) →
        splCapVM.core.Read proc.pc = some inst → inst.Op = OpCode.SPL →
        64 ≤ processCount splCapVM.processes proc.warrior →
        ∃ vm', splCapVM.ExecuteCycle = some vm' ∧ vm'.core = splCapVM.core ∧
          vm'.processes =
            splCapVM.compacted.modify
              (fun p => { p with pc := (proc.pc + 1) % splCapVM.core.size }) i :=
  ⟨by decide, C5_process_cap splCapVM (by decide)
    (fun _ => le_trans (List.countP_le_length _) (by decide))⟩

/-! ## C6: round-robin order -/

/-- C6 (code evaluated at the failing input): three warriors with one process
each (so a warrior ref names a process) on a six-cell core.  The first seven
cycles execute A, B, C, A, B, A, C: B dies in cycle 5, the compaction of cycle 6
shifts C under the cursor and C is skipped, so A runs twice between the two
consecutive steps of C. -/
theorem C6_round_robin_skips_after_death :
    fairnessVM.executed 7 = [1, 2, 3, 1, 2, 1, 3] ∧ ¬ FairTrace (fairnessVM.executed 7) := by
  have ht : fairnessVM.executed 7 = [1, 2, 3, 1, 2, 1, 3] := by decide
  refine ⟨ht, ?_⟩
  rw [ht]
  intro hfair
  have h := hfair 2 6 (by decide) (by decide) (by decide)
    (by intro k h1 h2; interval_cases k <;> decide) 1
  revert h
  decide

/-! ## C7: monotone death -/

theorem isWarriorAlive_false_iff (vm : VM) (w : Warrior) :
    vm.IsWarriorAlive w = false ↔ processCount vm.processes w = 0 := by
  unfold VM.IsWarriorAlive processCount
  rw [List.countP_eq_zero]
  simp only [List.any_eq_false]

theorem scheduled_count_pos (vm : VM) (i : Nat) (proc : Process)
    (hs : vm.scheduled = some (i, proc)) : 0 < processCount vm.processes proc.warrior := by
  obtain ⟨-, -, -, hget, halive⟩ := scheduled_some vm i proc hs
  have hmem : proc ∈ vm.compacted := List.getElem?_mem hget
  have hmem' : proc ∈ vm.processes := (List.mem_filter.mp hmem).1
  unfold processCount
  rw [List.countP_pos_iff]
  exact ⟨proc, hmem', by simp [halive]⟩

theorem ExecuteCycle_dead (vm vm' : VM) (w : Warrior) (h : vm.core.WF)
    (hdead : processCount vm.processes w = 0) (he : vm.ExecuteCycle = some vm') :
    vm'.core.WF ∧ processCount vm'.processes w = 0 := by
  rcases ExecuteCycle_cases vm vm' h he with ⟨-, hcore, hps, -⟩ |
    ⟨i, proc, o, inst, vm1, hs, ho, hr, hex, hres, hcore, hps, -⟩
  · refine ⟨by rw [hcore]; exact h, ?_⟩
    rw [hps]; simp [processCount]
  · refine ⟨by rw [hcore]; exact hres.1, ?_⟩
    rw [hps]
    have hc := stepResult_count hres w
    have h0 : processCount (vm.atCursor i).processes w = processCount vm.processes w :=
      processCount_compacted vm w
    rw [h0] at hc
    rcases hc with hc | ⟨-, href, -⟩
    · omega
    · have hpos := scheduled_count_pos vm i proc hs
      have hsame : processCount vm.processes proc.warrior = processCount vm.processes w := by
        unfold processCount; rw [href]
      omega

theorem run_dead (n : Nat) (vm vm' : VM) (w : Warrior) (h : vm.core.WF)
    (hdead : processCount vm.processes w = 0) (he : vm.run n = some vm') :
    vm'.core.WF ∧ processCount vm'.processes w = 0 := by
  induction n generalizing vm with
  | zero => cases he; exact ⟨h, hdead⟩
  | succ n ih =>
    simp only [VM.run, Option.bind_eq_bind, Option.bind_eq_some] at he
    obtain ⟨vm1, h1, h2⟩ := he
    obtain ⟨hwf1, hd1⟩ := ExecuteCycle_dead vm vm1 w h hdead h1
    exact ih vm1 hwf1 hd1 h2

/-- C7: on a well-formed core, once a warrior `w` has no alive process
(`IsWarriorAlive(w)` is false), in every state reached by any number of
`ExecuteCycle` calls `IsWarriorAlive(w)` is still false and the process the next
cycle executes, if any, does not belong to `w`: no instruction is executed on
behalf of `w` in any of these cycles. -/
theorem C7_monotone_death (vm : VM) (w : Warrior) (h : vm.core.WF)
    (hdead : vm.IsWarriorAlive w = false) (n : Nat) (vm' : VM)
    (hrun : vm.run n = some vm') :
    vm'.IsWarriorAlive w = false ∧
      ∀ i proc, vm'.scheduled = some (i, proc) → proc.warrior.ref ≠ w.ref := by
  have key : vm'.core.WF ∧ processCount vm'.processes w = 0 :=
    run_dead n vm vm' w h ((isWarriorAlive_false_iff vm w).mp hdead) hrun
  refine ⟨(isWarriorAlive_false_iff vm' w).mpr key.2, ?_⟩
  intro i proc hs href
  have hpos := scheduled_count_pos vm' i proc hs
  have hsame : processCount vm'.processes proc.warrior = processCount vm'.processes w := by
    unfold processCount; rw [href]
  have := key.2
  omega

/-- C7 witness: Blue has no alive process; three cycles later it still has none. -/
theorem C7_monotone_death_witness :
    (deadBlueVM.core.WF ∧ deadBlueVM.IsWarriorAlive warriorBlue = false ∧
        deadBlueVM.run 3 = some { deadBlueVM with
          processes := [{ warrior := warriorRed, pc := 0, alive := true }] }) ∧
      ({ deadBlueVM with
          processes := [{ warrior := warriorRed, pc := 0, alive := true }] } : VM).IsWarriorAlive
          warriorBlue = false ∧
      ∀ i proc, ({ deadBlueVM with
          processes := [{ warrior := warriorRed, pc := 0, alive := true }] } : VM).scheduled =
            some (i, proc) → proc.warrior.ref ≠ warriorBlue.ref :=
  ⟨⟨by decide, by decide, by decide⟩,
    C7_monotone_death deadBlueVM warriorBlue (by decide) (by decide) 3 _ (by decide)⟩

/-! ## C9: ADD and SUB -/

/-- C9 (code evaluated at the failing inputs): in a core of size 10, `ADD #1, $1`
executed next to a cell whose B field is -2 leaves B = -1, and `SUB #25, $1`
executed next to a cell whose B field is 0 leaves B = -5: Go's `%` truncates
towards zero, so the updated field is not in `[0, size)`. -/
theorem C9_add_sub_negative_field :
    (addNegVM.ExecuteCycle.bind fun vm => idx? vm.core.cells 1).map (fun c => c.B) = some (-1) ∧
      (subNegVM.ExecuteCycle.bind fun vm => idx? vm.core.cells 1).map (fun c => c.B) =
        some (-5) := by
  decide

/-! ## C10: MOV -/

theorem evaluate_core_congr (vm vm₂ : VM) (pc : Int) (mode : AddressMode) (operand : Int)
    (write : Bool) (hc : vm₂.core = vm.core) :
    vm₂.evaluate pc mode operand write =
      (vm.evaluate pc mode operand write).map
        (fun r => (r.1, { vm₂ with core := r.2.core })) := by
  cases vm₂ with
  | mk c2 ps2 cur2 =>
    simp only at hc
    subst hc
    cases mode
    · rfl
    · simp only [VM.evaluate, Option.bind_eq_bind, Option.pure_def]
      cases vm.core.normalize (goAdd pc operand) <;> rfl
    · simp only [VM.evaluate, Option.bind_eq_bind, Option.pure_def]
      cases vm.core.normalize (goAdd pc operand) with
      | none => rfl
      | some p =>
        simp only [Option.some_bind]
        cases vm.core.Read p with
        | none => rfl
        | some inst =>
          simp only [Option.some_bind]
          cases vm.core.normalize (goAdd p inst.B) <;> rfl
    · simp only [VM.evaluate, Option.bind_eq_bind, Option.pure_def]
      cases vm.core.normalize (goAdd pc operand) with
      | none => rfl
      | some p =>
        simp only [Option.some_bind]
        cases vm.core.Read p with
        | none => rfl
        | some inst =>
          simp only [Option.some_bind]
          cases goRem (goAdd (goSub inst.B 1) vm.core.size) vm.core.size with
          | none => rfl
          | some b =>
            simp only [Option.some_bind]
            cases write
            · simp only [Bool.false_eq_true, if_false, Option.some_bind]
              cases vm.core.normalize (goAdd p b) <;> rfl
            · simp only [if_true]
              cases vm.core.Write p { inst with B := b } WarriorColor.Empty with
              | none => rfl
              | some c' =>
                simp only [Option.some_bind]
                cases c'.normalize (goAdd p b) <;> rfl
    · simp only [VM.evaluate, Option.bind_eq_bind, Option.pure_def]
      cases vm.core.normalize (goAdd pc operand) with
      | none => rfl
      | some p =>
        simp only [Option.some_bind]
        cases vm.core.Read p with
        | none => rfl
        | some inst =>
          simp only [Option.some_bind]
          cases vm.core.normalize (goAdd p inst.B) with
          | none => rfl
          | some r =>
            simp only [Option.some_bind]
            cases goRem (goAdd inst.B 1) vm.core.size with
            | none => rfl
            | some b =>
              simp only [Option.some_bind]
              cases write
              · rfl
              · simp only [if_true]
                cases vm.core.Write p { inst with B := b } WarriorColor.Empty <;> rfl

theorem idx?_set_self {α : Type} (xs : List α) (k : Int) (v : α) (h0 : 0 ≤ k)
    (h1 : k < (xs.length : Int)) : idx? (xs.set k.toNat v) k = some v := by
  unfold idx?
  rw [if_neg (by omega), List.getElem?_set_self (by omega)]

theorem execMOV_spec (vm : VM) (i : Nat) (proc : Process) (inst : Instruction) (nextPC : Int)
    (h : vm.core.WF) :
    ∃ src dst vmB cell c',
      vm.evaluate proc.pc inst.AMode inst.A false = some (src, vm) ∧
      vm.evaluate proc.pc inst.BMode inst.B true = some (dst, vmB) ∧
      EvalFrame vm vmB true ∧
      vmB.core.Read src = some cell ∧
      vmB.core.Write dst (movValue inst src cell) proc.warrior.Color = some c' ∧
      vm.execMOV i proc inst nextPC = some ({ vmB with core := c' }.setPc i nextPC) := by
  obtain ⟨s, vm1, he1, hf1⟩ := evaluate_total vm proc.pc inst.AMode inst.A false h
  obtain rfl := hf1.2.2.2.2 rfl
  obtain ⟨d, vm2, he2, hf2⟩ := evaluate_total vm1 proc.pc inst.BMode inst.B true h
  obtain ⟨cell, hr, -⟩ := Read_eq vm2.core s hf2.1
  obtain ⟨c', hw, -, -⟩ := Write_total vm2.core d (movValue inst s cell) proc.warrior.Color hf2.1
  refine ⟨s, d, vm2, cell, c', he1, he2, hf2, hr, hw, ?_⟩
  simp only [VM.execMOV, he1, he2, Option.bind_eq_bind, Option.some_bind]
  unfold movValue at hw
  split
  · next him =>
    rw [if_pos him] at hw
    simp only [hw, Option.some_bind]; rfl
  · next him =>
    rw [if_neg him] at hw
    simp only [hr, hw, Option.some_bind]; rfl


theorem evaluate_no_update (vm vm' : VM) (pc : Int) (mode : AddressMode) (operand r : Int)
    (write : Bool) (h : vm.core.WF)
    (hm : mode ≠ AddressMode.PREDECREMENT ∧ mode ≠ AddressMode.POSTINCREMENT)
    (he : vm.evaluate pc mode operand write = some (r, vm')) : vm' = vm := by
  obtain ⟨r0, vm0, he0, hf0⟩ := evaluate_total vm pc mode operand false h
  rw [hf0.2.2.2.2 rfl] at he0
  have : vm.evaluate pc mode operand write = vm.evaluate pc mode operand false := by
    cases mode
    · rfl
    · rfl
    · rfl
    · exact absurd rfl hm.1
    · exact absurd rfl hm.2
  rw [this, he0] at he
  cases he
  rfl

/-- C10: on a well-formed core, when the scheduled process `proc` (index `i`),
whose cell is owned by its own colour or by Empty, executes a MOV, with
`src = evaluate(pc, AMode, A, false)` and `dst = evaluate(pc, BMode, B, true)`
(`vmB` is the VM after the evaluation of the B operand): the cycle returns; for
an immediate A-mode the cell at `normalize(dst)` is `DAT #src, #0`; otherwise it
is the cell `cell` that `Read(src)` returns when MOV reads it, which is also what
`Read(src)` returns after the cycle, and what it returned before the cycle unless
the B-mode is pre-decrement or post-increment; the owner of `normalize(dst)` is
the warrior's colour and the process, still alive, has `pc = (pc + 1) mod size`. -/
theorem C10_MOV (vm : VM) (i : Nat) (proc : Process) (o : WarriorColor) (inst : Instruction)
    (h : vm.core.WF) (hs : vm.scheduled = some (i, proc))
    (ho : idx? vm.core.owners proc.pc = some o)
    (hown : o = proc.warrior.Color ∨ o = WarriorColor.Empty)
    (hr : vm.core.Read proc.pc = some inst) (hop : inst.Op = OpCode.MOV) :
    ∃ src dst vmB cell vm',
      vm.evaluate proc.pc inst.AMode inst.A false = some (src, vm) ∧
      vm.evaluate proc.pc inst.BMode inst.B true = some (dst, vmB) ∧
      vm.ExecuteCycle = some vm' ∧
      vmB.core.Read src = some cell ∧
      (inst.AMode = AddressMode.IMMEDIATE →
        idx? vm'.core.cells (dst % vm.core.size) =
          some { Op := .DAT, AMode := .IMMEDIATE, BMode := .IMMEDIATE, A := src, B := 0 }) ∧
      (inst.AMode ≠ AddressMode.IMMEDIATE →
        idx? vm'.core.cells (dst % vm.core.size) = some cell ∧
        vm'.core.Read src = some cell ∧
        (inst.BMode ≠ AddressMode.PREDECREMENT ∧ inst.BMode ≠ AddressMode.POSTINCREMENT →
          vm.core.Read src = some cell)) ∧
      idx? vm'.core.owners (dst % vm.core.size) = some proc.warrior.Color ∧
      vm'.processes[i]? =
        some { warrior := proc.warrior, pc := (proc.pc + 1) % vm.core.size, alive := true } := by
  obtain ⟨hl, hcur, hp, hget, halive⟩ := scheduled_some vm i proc hs
  obtain ⟨inst', vm1, vm', hr', he, hres, hcyc, hcore, hprocs, -⟩ :=
    ExecuteCycle_total vm i proc o h hs ho
  rw [hr] at hr'
  cases hr'
  have hun := executeInstruction_unfold (vm.atCursor i) i proc o inst h hget ho hr
  rw [if_neg (by rintro ⟨h1, h2⟩; rcases hown with h3 | h3; exact h1 h3; exact h2 h3)] at hun
  have hop' : (vm.atCursor i).execOp i proc inst
      (Int.tmod (goAdd proc.pc 1) (vm.atCursor i).core.size) =
      (vm.atCursor i).execMOV i proc inst
        (Int.tmod (goAdd proc.pc 1) (vm.atCursor i).core.size) := by
    unfold VM.execOp; rw [hop]
  obtain ⟨src, dst, vmB', cell, c', heA', heB', hfr', hrd', hw', hex'⟩ :=
    execMOV_spec (vm.atCursor i) i proc inst
      (Int.tmod (goAdd proc.pc 1) (vm.atCursor i).core.size) h
  rw [hop', hex', he] at hun
  cases hun
  -- the two operand evaluations, on `vm` itself
  obtain ⟨src0, vmA, heA, hfA⟩ := evaluate_total vm proc.pc inst.AMode inst.A false h
  obtain rfl := hfA.2.2.2.2 rfl
  obtain ⟨dst0, vmB, heB, hfB⟩ := evaluate_total vmA proc.pc inst.BMode inst.B true h
  have hcA := evaluate_core_congr vmA (vmA.atCursor i) proc.pc inst.AMode inst.A false rfl
  rw [heA, heA'] at hcA
  simp only [Option.map_some', Option.some.injEq, Prod.mk.injEq] at hcA
  obtain ⟨rfl, -⟩ := hcA
  have hcB := evaluate_core_congr vmA (vmA.atCursor i) proc.pc inst.BMode inst.B true rfl
  rw [heB, heB'] at hcB
  simp only [Option.map_some', Option.some.injEq, Prod.mk.injEq] at hcB
  obtain ⟨rfl, hvmB⟩ := hcB
  have hcoreB : vmB'.core = vmB.core := by rw [hvmB]
  have hszB : vmB.core.size = vmA.core.size := hfB.2.1
  rw [hcoreB] at hrd' hw'
  have hweq := Write_eq vmB.core dst (movValue inst src cell) proc.warrior.Color hfB.1
  rw [hw'] at hweq
  simp only [Option.some.injEq] at hweq
  obtain ⟨hk0, hk1⟩ := emod_range vmB.core dst hfB.1
  have hn := (nextPC_eq vmA.core proc.pc o h ho).2.2
  have hcore' : vm'.core = c' := by rw [hcore]; rfl
  refine ⟨src, dst, vmB, cell, vm', heA, heB, hcyc, hrd', ?_, ?_, ?_, ?_⟩
  · intro him
    rw [hcore', hweq, ← hszB]
    simp only
    rw [idx?_set_self _ _ _ hk0 (by rw [hfB.1.2.2.1]; exact hk1)]
    simp [movValue, him]
  · intro him
    have hcell : idx? vm'.core.cells (dst % vmA.core.size) = some cell := by
      rw [hcore', hweq, ← hszB]
      simp only
      rw [idx?_set_self _ _ _ hk0 (by rw [hfB.1.2.2.1]; exact hk1)]
      simp [movValue, him]
    refine ⟨hcell, ?_, ?_⟩
    · obtain ⟨v, hv, hvc⟩ := Read_eq vm'.core src (by rw [hcore', hweq]; exact
        ⟨hfB.1.1, hfB.1.2.1, by simpa using hfB.1.2.2.1, by simpa using hfB.1.2.2.2⟩)
      obtain ⟨v0, hv0, hvc0⟩ := Read_eq vmB.core src hfB.1
      rw [hrd'] at hv0
      cases hv0
      rw [hv]
      rw [hcore', hweq] at hvc
      simp only [List.getElem?_set] at hvc
      split at hvc
      · next heq =>
        split at hvc
        · rw [← hvc]; simp [movValue, him]
        · cases hvc
      · rw [hvc0] at hvc
        exact hvc.symm ▸ rfl
    · intro hm
      have := evaluate_no_update vmA vmB proc.pc inst.BMode inst.B dst true h hm heB
      rw [this] at hrd'
      exact hrd'
  · rw [hcore', hweq, ← hszB]
    simp only
    exact idx?_set_self _ _ _ hk0 (by rw [hfB.1.2.2.2]; exact hk1)
  · rw [hprocs]
    show (List.modify _ i vmB'.processes)[i]? = _
    rw [hfr'.2.2.1, List.getElem?_modify_eq]
    have : (vmA.atCursor i).processes = vmA.compacted := rfl
    rw [this, hget]
    have hsz : (vmA.atCursor i).core.size = vmA.core.size := rfl
    simp [halive, hsz, hn]

/-- C10 witness: scenario S1, the Imp at address 0 of a core of size 100; after one
cycle cell 1 is `DAT #0, #0` owned by the Imp and the PC is 1. -/
theorem C10_MOV_witness :
    (impVM.ExecuteCycle.map fun vm =>
        (idx? vm.core.cells 1, idx? vm.core.owners 1, vm.processes.map fun p => p.pc)) =
        some (some datZero, some WarriorColor.Red, [1]) ∧
      ∃ src dst vmB cell vm',
        impVM.evaluate 0 impInst.AMode impInst.A false = some (src, impVM) ∧
        impVM.evaluate 0 impInst.BMode impInst.B true = some (dst, vmB) ∧
        impVM.ExecuteCycle = some vm' ∧
        vmB.core.Read src = some cell ∧
        (impInst.AMode = AddressMode.IMMEDIATE →
          idx? vm'.core.cells (dst % impVM.core.size) =
            some { Op := .DAT, AMode := .IMMEDIATE, BMode := .IMMEDIATE, A := src, B := 0 }) ∧
        (impInst.AMode ≠ AddressMode.IMMEDIATE →
          idx? vm'.core.cells (dst % impVM.core.size) = some cell ∧
          vm'.core.Read src = some cell ∧
          (impInst.BMode ≠ AddressMode.PREDECREMENT ∧
              impInst.BMode ≠ AddressMode.POSTINCREMENT →
            impVM.core.Read src = some cell)) ∧
        idx? vm'.core.owners (dst % impVM.core.size) = some warriorRed.Color ∧
        vm'.processes[0]? =
          some { warrior := warriorRed, pc := (0 + 1) % impVM.core.size, alive := true } :=
  ⟨by decide,
    C10_MOV impVM 0 { warrior := warriorRed, pc := 0, alive := true } WarriorColor.Red impInst
      (by decide) (by decide) (by decide) (by decide) (by decide) (by decide)⟩

/-! ## C8: placement independence -/

theorem Read_idx (c : Core) (a : Int) (h : c.WF) (h0 : 0 ≤ a) (h1 : a < c.size) :
    c.Read a = idx? c.cells a := by
  unfold Core.Read
  rw [normalize_wf c a h, Int.emod_eq_of_lt h0 h1]
  rfl

theorem sh_range (n a d : Int) (hn : 0 < n) : 0 ≤ (a + d) % n ∧ (a + d) % n < n :=
  ⟨Int.emod_nonneg _ (ne_of_gt hn), Int.emod_lt_of_pos _ hn⟩

theorem sh_inj (n a b d : Int) (ha0 : 0 ≤ a) (ha1 : a < n) (hb0 : 0 ≤ b) (hb1 : b < n)
    (h : (a + d) % n = (b + d) % n) : a = b := by
  have h1 : (a + d - (b + d)) % n = 0 := Int.emod_eq_emod_iff_emod_sub_eq_zero.mp h
  have h2 : a + d - (b + d) = a - b := by ring
  rw [h2] at h1
  have h3 : a % n = b % n := Int.emod_eq_emod_iff_emod_sub_eq_zero.mpr h1
  rwa [Int.emod_eq_of_lt ha0 ha1, Int.emod_eq_of_lt hb0 hb1] at h3

theorem Read_sim {d : Int} {c c' : Core} (hr : CoreRel d c c') (a : Int) (h0 : 0 ≤ a)
    (h1 : a < c.size) : c'.Read ((a + d) % c.size) = c.Read a := by
  obtain ⟨s0, s1⟩ := sh_range c.size a d hr.wf.1
  rw [Read_idx c a hr.wf h0 h1, Read_idx c' _ hr.wf' s0 (by rw [hr.size_eq]; exact s1)]
  exact hr.cells a h0 h1

theorem Read_cellOK {d : Int} {c c' : Core} (hr : CoreRel d c c') (a : Int) (v : Instruction)
    (h : c.Read a = some v) : cellOK c.size v := by
  obtain ⟨v', hv, hc⟩ := Read_eq c a hr.wf
  rw [h] at hv
  cases hv
  exact hr.cellsOK v (List.getElem?_mem hc)

theorem idx?_set {α : Type} (xs : List α) (i j : Int) (v : α) (hi : 0 ≤ i) (hj : 0 ≤ j)
    (hlt : i < (xs.length : Int)) :
    idx? (xs.set i.toNat v) j = if i = j then some v else idx? xs j := by
  unfold idx?
  rw [if_neg (by omega), List.getElem?_set]
  by_cases hij : i = j
  · subst hij
    rw [if_pos rfl, if_pos rfl, if_pos (by omega)]
  · rw [if_neg hij, if_neg (by omega), if_neg (by omega)]

theorem Write_sim {d : Int} {c c' : Core} (hr : CoreRel d c c') (a : Int) (v : Instruction)
    (o : WarriorColor) (h0 : 0 ≤ a) (h1 : a < c.size) (hv : cellOK c.size v) :
    ∃ c1 c1', c.Write a v o = some c1 ∧ c'.Write ((a + d) % c.size) v o = some c1' ∧
      CoreRel d c1 c1' := by
  obtain ⟨s0, s1⟩ := sh_range c.size a d hr.wf.1
  have hw := Write_eq c a v o hr.wf
  have hw' := Write_eq c' ((a + d) % c.size) v o hr.wf'
  rw [Int.emod_eq_of_lt h0 h1] at hw
  rw [hr.size_eq, Int.emod_eq_of_lt s0 s1] at hw'
  refine ⟨_, _, hw, hw', ?_⟩
  have hlenc := hr.wf.2.2.1
  have hleno := hr.wf.2.2.2
  have hlenc' := hr.wf'.2.2.1
  have hleno' := hr.wf'.2.2.2
  rw [hr.size_eq] at hlenc' hleno'
  refine ⟨?_, ?_, rfl, hr.small, ?_, ?_, ?_⟩
  · exact ⟨hr.wf.1, hr.wf.2.1, by simpa using hlenc, by simpa using hleno⟩
  · exact ⟨hr.wf.1, hr.wf.2.1, by simpa using hlenc', by simpa using hleno'⟩
  · intro inst hmem
    rcases List.mem_or_eq_of_mem_set hmem with hm | hm
    · exact hr.cellsOK inst hm
    · rw [hm]; exact hv
  · intro b hb0 hb1
    obtain ⟨t0, t1⟩ := sh_range c.size b d hr.wf.1
    show idx? (c'.cells.set _ v) _ = idx? (c.cells.set _ v) _
    rw [idx?_set _ _ _ _ s0 t0 (by omega), idx?_set _ _ _ _ h0 hb0 (by omega)]
    by_cases hab : a = b
    · subst hab; simp
    · rw [if_neg hab, if_neg (fun h => hab (sh_inj c.size a b d h0 h1 hb0 hb1 h))]
      exact hr.cells b hb0 hb1
  · intro b hb0 hb1
    obtain ⟨t0, t1⟩ := sh_range c.size b d hr.wf.1
    show idx? (c'.owners.set _ o) _ = idx? (c.owners.set _ o) _
    rw [idx?_set _ _ _ _ s0 t0 (by omega), idx?_set _ _ _ _ h0 hb0 (by omega)]
    by_cases hab : a = b
    · subst hab; simp
    · rw [if_neg hab, if_neg (fun h => hab (sh_inj c.size a b d h0 h1 hb0 hb1 h))]
      exact hr.owners b hb0 hb1

theorem evaluate_DIRECT (vm : VM) (pc op : Int) (w : Bool) (h : vm.core.WF) :
    vm.evaluate pc AddressMode.DIRECT op w = some (goAdd pc op % vm.core.size, vm) := by
  simp only [VM.evaluate, Option.bind_eq_bind, normalize_wf _ _ h, Option.some_bind]
  rfl

theorem evaluate_INDIRECT (vm : VM) (pc op : Int) (w : Bool) (inst : Instruction)
    (h : vm.core.WF) (hr : vm.core.Read (goAdd pc op % vm.core.size) = some inst) :
    vm.evaluate pc AddressMode.INDIRECT op w =
      some (goAdd (goAdd pc op % vm.core.size) inst.B % vm.core.size, vm) := by
  simp only [VM.evaluate, Option.bind_eq_bind, normalize_wf _ _ h, Option.some_bind, hr]
  rfl

theorem evaluate_PRE_false (vm : VM) (pc op : Int) (inst : Instruction)
    (h : vm.core.WF) (hr : vm.core.Read (goAdd pc op % vm.core.size) = some inst) :
    vm.evaluate pc AddressMode.PREDECREMENT op false =
      some (goAdd (goAdd pc op % vm.core.size)
        (Int.tmod (goAdd (goSub inst.B 1) vm.core.size) vm.core.size) % vm.core.size, vm) := by
  simp only [VM.evaluate, Option.bind_eq_bind, normalize_wf _ _ h, Option.some_bind, hr,
    goRem_pos _ h.1]
  simp only [Bool.false_eq_true, if_false, Option.pure_def, Option.some_bind,
    normalize_wf _ _ h]

theorem evaluate_PRE_true (vm : VM) (pc op : Int) (inst : Instruction) (c1 : Core)
    (h : vm.core.WF) (hr : vm.core.Read (goAdd pc op % vm.core.size) = some inst)
    (hw : vm.core.Write (goAdd pc op % vm.core.size)
      { inst with B := Int.tmod (goAdd (goSub inst.B 1) vm.core.size) vm.core.size }
      WarriorColor.Empty = some c1) :
    vm.evaluate pc AddressMode.PREDECREMENT op true =
      some (goAdd (goAdd pc op % vm.core.size)
        (Int.tmod (goAdd (goSub inst.B 1) vm.core.size) vm.core.size) % vm.core.size,
        { vm with core := c1 }) := by
  obtain ⟨hwf1, hsz⟩ := Write_wf _ _ _ _ _ h hw
  simp only [VM.evaluate, Option.bind_eq_bind, normalize_wf _ _ h, Option.some_bind, hr,
    goRem_pos _ h.1, hw]
  simp only [if_true, Option.pure_def, Option.some_bind, normalize_wf _ _ hwf1, hsz]

theorem evaluate_POST_false (vm : VM) (pc op : Int) (inst : Instruction)
    (h : vm.core.WF) (hr : vm.core.Read (goAdd pc op % vm.core.size) = some inst) :
    vm.evaluate pc AddressMode.POSTINCREMENT op false =
      some (goAdd (goAdd pc op % vm.core.size) inst.B % vm.core.size, vm) := by
  simp only [VM.evaluate, Option.bind_eq_bind, normalize_wf _ _ h, Option.some_bind, hr,
    goRem_pos _ h.1]
  simp only [Bool.false_eq_true, if_false, Option.pure_def, Option.some_bind]

theorem evaluate_POST_true (vm : VM) (pc op : Int) (inst : Instruction) (c1 : Core)
    (h : vm.core.WF) (hr : vm.core.Read (goAdd pc op % vm.core.size) = some inst)
    (hw : vm.core.Write (goAdd pc op % vm.core.size)
      { inst with B := Int.tmod (goAdd inst.B 1) vm.core.size }
      WarriorColor.Empty = some c1) :
    vm.evaluate pc AddressMode.POSTINCREMENT op true =
      some (goAdd (goAdd pc op % vm.core.size) inst.B % vm.core.size,
        { vm with core := c1 }) := by
  simp only [VM.evaluate, Option.bind_eq_bind, normalize_wf _ _ h, Option.some_bind, hr,
    goRem_pos _ h.1, hw]
  simp only [if_true, Option.pure_def, Option.some_bind]

theorem tmod_bounds (x n : Int) (hn : 0 < n) : -n < Int.tmod x n ∧ Int.tmod x n < n := by
  refine ⟨?_, Int.tmod_lt_of_pos x hn⟩
  by_cases hx : 0 ≤ x
  · have := Int.tmod_nonneg n hx
    omega
  · rw [tmod_of_neg (by omega) hn]
    have := Int.emod_lt_of_pos (-x) hn
    omega

theorem fieldOK_tmod (x n : Int) (hn : 0 < n) (hs : 2 * n ≤ maxInt) :
    fieldOK n (Int.tmod x n) := by
  obtain ⟨h1, h2⟩ := tmod_bounds x n hn
  unfold fieldOK minInt
  unfold maxInt at hs ⊢
  omega

theorem goAdd_ok (n a x : Int) (ha0 : 0 ≤ a) (ha1 : a < n) (hx : fieldOK n x) :
    goAdd a x = a + x := by
  unfold goAdd
  obtain ⟨h1, h2⟩ := hx
  exact wrapInt_of_range (by omega) (by omega)

theorem sh_add (n pc d op : Int) : ((pc + d) % n + op) % n = ((pc + op) % n + d) % n := by
  rw [Int.emod_add_emod, Int.emod_add_emod]
  congr 1
  ring

theorem evalFrame_refl (vm : VM) (w : Bool) (h : vm.core.WF) : EvalFrame vm vm w :=
  ⟨h, rfl, rfl, rfl, fun _ => rfl⟩

theorem evalFrame_core (vm : VM) (c1 : Core) (h : c1.WF) (hs : c1.size = vm.core.size) :
    EvalFrame vm { vm with core := c1 } true :=
  ⟨h, hs, rfl, rfl, by simp⟩

/-- Evaluating a non-immediate operand in two cores related by a shift `d`, from
program counters related by the same shift, gives addresses related by `d` and
leaves the cores related. -/
theorem evaluate_sim {d : Int} {vm vm' : VM} (hr : CoreRel d vm.core vm'.core)
    (pc op : Int) (mode : AddressMode) (w : Bool)
    (hpc0 : 0 ≤ pc) (hpc1 : pc < vm.core.size) (hop : fieldOK vm.core.size op)
    (hm : mode ≠ AddressMode.IMMEDIATE) :
    ∃ r vm1 vm1', vm.evaluate pc mode op w = some (r, vm1) ∧
      vm'.evaluate ((pc + d) % vm.core.size) mode op w = some ((r + d) % vm.core.size, vm1') ∧
      0 ≤ r ∧ r < vm.core.size ∧ CoreRel d vm1.core vm1'.core ∧
      EvalFrame vm vm1 w ∧ EvalFrame vm' vm1' w := by
  have hn := hr.wf.1
  obtain ⟨s0, s1⟩ := sh_range vm.core.size pc d hn
  have hsz := hr.size_eq
  have ga : goAdd pc op = pc + op := goAdd_ok _ _ _ hpc0 hpc1 hop
  have ga' : goAdd ((pc + d) % vm.core.size) op = (pc + d) % vm.core.size + op :=
    goAdd_ok _ _ _ s0 s1 hop
  obtain ⟨p0, p1⟩ := emod_range vm.core (pc + op) hr.wf
  have hp' : ((pc + d) % vm.core.size + op) % vm.core.size =
      ((pc + op) % vm.core.size + d) % vm.core.size := sh_add _ _ _ _
  obtain ⟨q0, q1⟩ := sh_range vm.core.size ((pc + op) % vm.core.size) d hn
  -- the pointer cell, read on both sides
  obtain ⟨inst, hread, -⟩ := Read_eq vm.core ((pc + op) % vm.core.size) hr.wf
  have hread' : vm'.core.Read (((pc + op) % vm.core.size + d) % vm.core.size) = some inst := by
    rw [Read_sim hr _ p0 p1]; exact hread
  have hinst := Read_cellOK hr _ _ hread
  have gb : goAdd ((pc + op) % vm.core.size) inst.B = (pc + op) % vm.core.size + inst.B :=
    goAdd_ok _ _ _ p0 p1 hinst.2.2
  have gb' : goAdd (((pc + op) % vm.core.size + d) % vm.core.size) inst.B =
      ((pc + op) % vm.core.size + d) % vm.core.size + inst.B :=
    goAdd_ok _ _ _ q0 q1 hinst.2.2
  have hP : goAdd pc op % vm.core.size = (pc + op) % vm.core.size := by rw [ga]
  have hP' : goAdd ((pc + d) % vm.core.size) op % vm'.core.size =
      ((pc + op) % vm.core.size + d) % vm.core.size := by rw [ga', hsz, hp']
  cases mode
  · exact absurd rfl hm
  · refine ⟨_, vm, vm', evaluate_DIRECT vm pc op w hr.wf, ?_, ?_, ?_, hr,
      evalFrame_refl _ _ hr.wf, evalFrame_refl _ _ hr.wf'⟩
    · rw [evaluate_DIRECT vm' _ op w hr.wf', hP', hP]
    · rw [hP]; exact p0
    · rw [hP]; exact p1
  · have e1 := evaluate_INDIRECT vm pc op w inst hr.wf (by rw [hP]; exact hread)
    have e2 := evaluate_INDIRECT vm' _ op w inst hr.wf' (by rw [hP']; exact hread')
    rw [hP, gb] at e1
    rw [hP', gb', hsz, sh_add] at e2
    exact ⟨_, vm, vm', e1, e2, (emod_range vm.core _ hr.wf).1, (emod_range vm.core _ hr.wf).2,
      hr, evalFrame_refl _ _ hr.wf, evalFrame_refl _ _ hr.wf'⟩
  · have hb := fieldOK_tmod (goAdd (goSub inst.B 1) vm.core.size) vm.core.size hn hr.small
    have gc := goAdd_ok _ _ _ p0 p1 hb
    have gc' := goAdd_ok _ _ _ q0 q1 hb
    cases w
    · have e1 := evaluate_PRE_false vm pc op inst hr.wf (by rw [hP]; exact hread)
      have e2 := evaluate_PRE_false vm' _ op inst hr.wf' (by rw [hP']; exact hread')
      rw [hP, gc] at e1
      rw [hP', hsz, gc', sh_add] at e2
      exact ⟨_, vm, vm', e1, e2, (emod_range vm.core _ hr.wf).1,
        (emod_range vm.core _ hr.wf).2, hr, evalFrame_refl _ _ hr.wf, evalFrame_refl _ _ hr.wf'⟩
    · obtain ⟨c1, c1', hw, hw', hrel⟩ := Write_sim hr ((pc + op) % vm.core.size)
        { inst with B := Int.tmod (goAdd (goSub inst.B 1) vm.core.size) vm.core.size }
        WarriorColor.Empty p0 p1 ⟨hinst.1, hinst.2.1, hb⟩
      have e1 := evaluate_PRE_true vm pc op inst c1 hr.wf (by rw [hP]; exact hread)
        (by rw [hP]; exact hw)
      have e2 := evaluate_PRE_true vm' _ op inst c1' hr.wf' (by rw [hP']; exact hread')
        (by rw [hP', hsz]; exact hw')
      rw [hP, gc] at e1
      rw [hP', hsz, gc', sh_add] at e2
      exact ⟨_, _, _, e1, e2, (emod_range vm.core _ hr.wf).1,
        (emod_range vm.core _ hr.wf).2, hrel,
        evalFrame_core vm c1 hrel.wf (Write_wf _ _ _ _ _ hr.wf hw).2,
        evalFrame_core vm' c1' hrel.wf' (Write_wf _ _ _ _ _ hr.wf' hw').2⟩
  · have hb := fieldOK_tmod (goAdd inst.B 1) vm.core.size hn hr.small
    cases w
    · have e1 := evaluate_POST_false vm pc op inst hr.wf (by rw [hP]; exact hread)
      have e2 := evaluate_POST_false vm' _ op inst hr.wf' (by rw [hP']; exact hread')
      rw [hP, gb] at e1
      rw [hP', hsz, gb', sh_add] at e2
      exact ⟨_, vm, vm', e1, e2, (emod_range vm.core _ hr.wf).1,
        (emod_range vm.core _ hr.wf).2, hr, evalFrame_refl _ _ hr.wf, evalFrame_refl _ _ hr.wf'⟩
    · obtain ⟨c1, c1', hw, hw', hrel⟩ := Write_sim hr ((pc + op) % vm.core.size)
        { inst with B := Int.tmod (goAdd inst.B 1) vm.core.size }
        WarriorColor.Empty p0 p1 ⟨hinst.1, hinst.2.1, hb⟩
      have e1 := evaluate_POST_true vm pc op inst c1 hr.wf (by rw [hP]; exact hread)
        (by rw [hP]; exact hw)
      have e2 := evaluate_POST_true vm' _ op inst c1' hr.wf' (by rw [hP']; exact hread')
        (by rw [hP', hsz]; exact hw')
      rw [hP, gb] at e1
      rw [hP', hsz, gb', sh_add] at e2
      exact ⟨_, _, _, e1, e2, (emod_range vm.core _ hr.wf).1,
        (emod_range vm.core _ hr.wf).2, hrel,
        evalFrame_core vm c1 hrel.wf (Write_wf _ _ _ _ _ hr.wf hw).2,
        evalFrame_core vm' c1' hrel.wf' (Write_wf _ _ _ _ _ hr.wf' hw').2⟩

theorem forall2_modify {α β : Type} {R : α → β → Prop} {f : α → α} {g : β → β}
    (hfg : ∀ a b, R a b → R (f a) (g b)) {l : List α} {l' : List β}
    (h : List.Forall₂ R l l') (i : Nat) : List.Forall₂ R (l.modify f i) (l'.modify g i) := by
  induction h generalizing i with
  | nil => simp
  | cons hab _ ih =>
    cases i with
    | zero => simp only [List.modify_zero_cons]; exact List.Forall₂.cons (hfg _ _ hab) (by assumption)
    | succ i => simp only [List.modify_succ_cons]; exact List.Forall₂.cons hab (ih i)

theorem forall2_getElem? {α β : Type} {R : α → β → Prop} {l : List α} {l' : List β}
    (h : List.Forall₂ R l l') (i : Nat) (a : α) (ha : l[i]? = some a) :
    ∃ b, l'[i]? = some b ∧ R a b := by
  induction h generalizing i with
  | nil => simp at ha
  | cons hab _ ih =>
    cases i with
    | zero => simp at ha; subst ha; exact ⟨_, by simp, hab⟩
    | succ i => simp at ha; simpa using ih i ha

theorem shifted_setPc {n d : Int} {vm vm' vmB vmB' : VM} (hs : Shifted n d vm vm')
    (hc : CoreRel d vmB.core vmB'.core) (hsz : vmB.core.size = n)
    (hp : vmB.processes = vm.processes) (hp' : vmB'.processes = vm'.processes)
    (hcur : vmB.current = vm.current) (hcur' : vmB'.current = vm'.current)
    (i : Nat) (pc : Int) (h0 : 0 ≤ pc) (h1 : pc < n) :
    Shifted n d (vmB.setPc i pc) (vmB'.setPc i ((pc + d) % n)) := by
  refine ⟨hsz, hc, ?_, ?_⟩
  · show vmB'.current = vmB.current
    rw [hcur, hcur', hs.current]
  · show List.Forall₂ _ (vmB.processes.modify _ i) (vmB'.processes.modify _ i)
    rw [hp, hp']
    exact forall2_modify (fun a b hab => ⟨hab.1, hab.2.1, hab.2.2.1, h0, h1, rfl⟩) hs.procs i

theorem shifted_write_setPc {n d : Int} {vm vm' vmB vmB' : VM} (hs : Shifted n d vm vm')
    (hc : CoreRel d vmB.core vmB'.core) (hsz : vmB.core.size = n)
    (hp : vmB.processes = vm.processes) (hp' : vmB'.processes = vm'.processes)
    (hcur : vmB.current = vm.current) (hcur' : vmB'.current = vm'.current)
    (a : Int) (ha0 : 0 ≤ a) (ha1 : a < n) (v : Instruction) (hv : cellOK n v)
    (o : WarriorColor) (i : Nat) (pc : Int) (h0 : 0 ≤ pc) (h1 : pc < n) :
    ∃ c1 c1', vmB.core.Write a v o = some c1 ∧ vmB'.core.Write ((a + d) % n) v o = some c1' ∧
      Shifted n d ({ vmB with core := c1 }.setPc i pc)
        ({ vmB' with core := c1' }.setPc i ((pc + d) % n)) := by
  subst hsz
  obtain ⟨c1, c1', hw, hw', hrel⟩ := Write_sim hc a v o ha0 ha1 hv
  refine ⟨c1, c1', hw, hw', ?_⟩
  exact @shifted_setPc _ d vm vm' { vmB with core := c1 } { vmB' with core := c1' } hs
    hrel (Write_wf _ _ _ _ _ hc.wf hw).2 hp hp' hcur hcur' i pc h0 h1

/-- The A operand evaluated without write-back on both sides. -/
theorem evalA_sim {n d : Int} {vm vm' : VM} (hc : CoreRel d vm.core vm'.core)
    (hsz : vm.core.size = n) (pc op : Int) (mode : AddressMode)
    (hpc0 : 0 ≤ pc) (hpc1 : pc < n) (hop : fieldOK n op) :
    ∃ src src', vm.evaluate pc mode op false = some (src, vm) ∧
      vm'.evaluate ((pc + d) % n) mode op false = some (src', vm') ∧
      ((mode = AddressMode.IMMEDIATE ∧ src = op ∧ src' = op) ∨
        (mode ≠ AddressMode.IMMEDIATE ∧ 0 ≤ src ∧ src < n ∧ src' = (src + d) % n)) := by
  subst hsz
  by_cases hm : mode = AddressMode.IMMEDIATE
  · subst hm
    exact ⟨op, op, rfl, rfl, Or.inl ⟨rfl, rfl, rfl⟩⟩
  · obtain ⟨r, vm1, vm1', e1, e2, r0, r1, -, hf, hf'⟩ :=
      evaluate_sim hc pc op mode false hpc0 hpc1 hop hm
    rw [hf.2.2.2.2 rfl] at e1
    rw [hf'.2.2.2.2 rfl] at e2
    exact ⟨r, _, e1, e2, Or.inr ⟨hm, r0, r1, rfl⟩⟩

theorem cellOK_dat (n a : Int) (hn : 0 < n) (hs : 2 * n ≤ maxInt) (ha : fieldOK n a) :
    cellOK n { Op := .DAT, AMode := .IMMEDIATE, BMode := .IMMEDIATE, A := a, B := 0 } := by
  refine ⟨rfl, ha, ?_⟩
  show minInt + n ≤ 0 ∧ 0 ≤ maxInt - n
  unfold minInt
  unfold maxInt at hs ⊢
  constructor <;> omega

theorem execMOV_sim {n d : Int} {vm vm' : VM} (hs : Shifted n d vm vm') (i : Nat)
    (proc proc' : Process) (hp : ProcRel n d proc proc') (inst : Instruction)
    (hc : cellOK n inst) (hb : inst.BMode ≠ AddressMode.IMMEDIATE)
    (nextPC : Int) (h0 : 0 ≤ nextPC) (h1 : nextPC < n) :
    ∃ vm1 vm1', vm.execMOV i proc inst nextPC = some vm1 ∧
      vm'.execMOV i proc' inst ((nextPC + d) % n) = some vm1' ∧ Shifted n d vm1 vm1' := by
  obtain ⟨href, hcol, -, p0, p1, hpc'⟩ := hp
  obtain ⟨src, src', eA, eA', hsrc⟩ :=
    evalA_sim hs.core hs.size proc.pc inst.A inst.AMode p0 p1 hc.2.1
  have hsz := hs.size
  subst hsz
  obtain ⟨dst, vmB, vmB', eB, eB', d0, d1, hcB, hfB, hfB'⟩ :=
    evaluate_sim hs.core proc.pc inst.B inst.BMode true p0 p1 hc.2.2 hb
  simp only [VM.execMOV, eA, eB, hpc', eA', eB', hcol, Option.bind_eq_bind, Option.some_bind]
  rcases hsrc with ⟨him, rfl, rfl⟩ | ⟨him, s0, s1, rfl⟩
  · simp only [if_pos him]
    obtain ⟨c1, c1', hw, hw', hsh⟩ := shifted_write_setPc hs hcB hfB.2.1 hfB.2.2.1 hfB'.2.2.1
      hfB.2.2.2.1 hfB'.2.2.2.1 dst d0 d1 _
      (cellOK_dat vm.core.size inst.A hs.core.wf.1 hs.core.small hc.2.1)
      proc.warrior.Color i nextPC h0 h1
    exact ⟨_, _, by simp only [hw, Option.some_bind]; rfl,
      by simp only [hw', Option.some_bind]; rfl, hsh⟩
  · simp only [if_neg him]
    obtain ⟨cell, hrd, -⟩ := Read_eq vmB.core src hfB.1
    have hrd' : vmB'.core.Read ((src + d) % vm.core.size) = some cell := by
      rw [← hfB.2.1, Read_sim hcB src s0 (by rw [hfB.2.1]; exact s1)]; exact hrd
    have hcell : cellOK vm.core.size cell := by
      rw [← hfB.2.1]; exact Read_cellOK hcB _ _ hrd
    obtain ⟨c1, c1', hw, hw', hsh⟩ := shifted_write_setPc hs hcB hfB.2.1 hfB.2.2.1 hfB'.2.2.1
      hfB.2.2.2.1 hfB'.2.2.2.1 dst d0 d1 cell hcell proc.warrior.Color i nextPC h0 h1
    exact ⟨_, _, by simp only [hrd, hw, Option.some_bind]; rfl,
      by simp only [hrd', hw', Option.some_bind]; rfl, hsh⟩

/-- `evaluate_sim` with the core size named `n`. -/
theorem evalB_sim {n d : Int} {vm vm' : VM} (hc : CoreRel d vm.core vm'.core)
    (hsz : vm.core.size = n) (pc op : Int) (mode : AddressMode) (w : Bool)
    (hpc0 : 0 ≤ pc) (hpc1 : pc < n) (hop : fieldOK n op)
    (hm : mode ≠ AddressMode.IMMEDIATE) :
    ∃ r vm1 vm1', vm.evaluate pc mode op w = some (r, vm1) ∧
      vm'.evaluate ((pc + d) % n) mode op w = some ((r + d) % n, vm1') ∧
      0 ≤ r ∧ r < n ∧ CoreRel d vm1.core vm1'.core ∧ vm1.core.size = n ∧
      vm1.processes = vm.processes ∧ vm1'.processes = vm'.processes ∧
      vm1.current = vm.current ∧ vm1'.current = vm'.current ∧ (w = false → vm1 = vm ∧ vm1' = vm') := by
  subst hsz
  obtain ⟨r, vm1, vm1', e1, e2, r0, r1, hc1, hf, hf'⟩ :=
    evaluate_sim hc pc op mode w hpc0 hpc1 hop hm
  exact ⟨r, vm1, vm1', e1, e2, r0, r1, hc1, hf.2.1, hf.2.2.1, hf'.2.2.1, hf.2.2.2.1,
    hf'.2.2.2.1, fun hw => ⟨hf.2.2.2.2 hw, hf'.2.2.2.2 hw⟩⟩

/-- Reading related cores at related addresses. -/
theorem Read_sim' {n d : Int} {c c' : Core} (hc : CoreRel d c c') (hsz : c.size = n)
    (a : Int) (h0 : 0 ≤ a) (h1 : a < n) :
    ∃ cell, c.Read a = some cell ∧ c'.Read ((a + d) % n) = some cell ∧ cellOK n cell := by
  subst hsz
  obtain ⟨cell, hrd, -⟩ := Read_eq c a hc.wf
  exact ⟨cell, hrd, by rw [Read_sim hc a h0 h1]; exact hrd, Read_cellOK hc _ _ hrd⟩

theorem execADD_sim {n d : Int} {vm vm' : VM} (hs : Shifted n d vm vm') (i : Nat)
    (proc proc' : Process) (hp : ProcRel n d proc proc') (inst : Instruction)
    (hc : cellOK n inst) (hb : inst.BMode ≠ AddressMode.IMMEDIATE)
    (nextPC : Int) (h0 : 0 ≤ nextPC) (h1 : nextPC < n) :
    ∃ vm1 vm1', vm.execADD i proc inst nextPC = some vm1 ∧
      vm'.execADD i proc' inst ((nextPC + d) % n) = some vm1' ∧ Shifted n d vm1 vm1' := by
  obtain ⟨href, hcol, -, p0, p1, hpc'⟩ := hp
  obtain ⟨src, src', eA, eA', hsrc⟩ :=
    evalA_sim hs.core hs.size proc.pc inst.A inst.AMode p0 p1 hc.2.1
  obtain ⟨dst, vmB, vmB', eB, eB', d0, d1, hcB, hszB, hpB, hpB', hcuB, hcuB', -⟩ :=
    evalB_sim hs.core hs.size proc.pc inst.B inst.BMode true p0 p1 hc.2.2 hb
  obtain ⟨dv, hd, hd', hdv⟩ := Read_sim' hcB hszB dst d0 d1
  have hszB' : vmB'.core.size = n := by rw [hcB.size_eq, hszB]
  have hn : 0 < n := by rw [← hs.size]; exact hs.core.wf.1
  have hsm : 2 * n ≤ maxInt := by rw [← hs.size]; exact hs.core.small
  simp only [VM.execADD, eA, eB, hpc', eA', eB', hcol, Option.bind_eq_bind, Option.some_bind,
    hd, hd', hszB, hszB', goRem_pos _ hn]
  rcases hsrc with ⟨him, rfl, rfl⟩ | ⟨him, s0, s1, rfl⟩
  · simp only [if_pos him]
    obtain ⟨c1, c1', hw, hw', hsh⟩ := shifted_write_setPc hs hcB hszB hpB hpB' hcuB hcuB'
      dst d0 d1 { dv with B := Int.tmod (goAdd dv.B inst.A) n }
      ⟨hdv.1, hdv.2.1, fieldOK_tmod _ n hn hsm⟩ proc.warrior.Color i nextPC h0 h1
    exact ⟨_, _, by simp only [hw, Option.some_bind]; rfl,
      by simp only [hw', Option.some_bind]; rfl, hsh⟩
  · simp only [if_neg him]
    obtain ⟨sv, hsv, hsv', -⟩ := Read_sim' hcB hszB src s0 s1
    obtain ⟨c1, c1', hw, hw', hsh⟩ := shifted_write_setPc hs hcB hszB hpB hpB' hcuB hcuB'
      dst d0 d1 { dv with A := Int.tmod (goAdd dv.A sv.A) n, B := Int.tmod (goAdd dv.B sv.B) n }
      ⟨hdv.1, fieldOK_tmod _ n hn hsm, fieldOK_tmod _ n hn hsm⟩ proc.warrior.Color i nextPC h0 h1
    exact ⟨_, _, by simp only [hsv, hw, Option.some_bind]; rfl,
      by simp only [hsv', hw', Option.some_bind]; rfl, hsh⟩

theorem execSUB_sim {n d : Int} {vm vm' : VM} (hs : Shifted n d vm vm') (i : Nat)
    (proc proc' : Process) (hp : ProcRel n d proc proc') (inst : Instruction)
    (hc : cellOK n inst) (hb : inst.BMode ≠ AddressMode.IMMEDIATE)
    (nextPC : Int) (h0 : 0 ≤ nextPC) (h1 : nextPC < n) :
    ∃ vm1 vm1', vm.execSUB i proc inst nextPC = some vm1 ∧
      vm'.execSUB i proc' inst ((nextPC + d) % n) = some vm1' ∧ Shifted n d vm1 vm1' := by
  obtain ⟨href, hcol, -, p0, p1, hpc'⟩ := hp
  obtain ⟨src, src', eA, eA', hsrc⟩ :=
    evalA_sim hs.core hs.size proc.pc inst.A inst.AMode p0 p1 hc.2.1
  obtain ⟨dst, vmB, vmB', eB, eB', d0, d1, hcB, hszB, hpB, hpB', hcuB, hcuB', -⟩ :=
    evalB_sim hs.core hs.size proc.pc inst.B inst.BMode true p0 p1 hc.2.2 hb
  obtain ⟨dv, hd, hd', hdv⟩ := Read_sim' hcB hszB dst d0 d1
  have hszB' : vmB'.core.size = n := by rw [hcB.size_eq, hszB]
  have hn : 0 < n := by rw [← hs.size]; exact hs.core.wf.1
  have hsm : 2 * n ≤ maxInt := by rw [← hs.size]; exact hs.core.small
  simp only [VM.execSUB, eA, eB, hpc', eA', eB', hcol, Option.bind_eq_bind, Option.some_bind,
    hd, hd', hszB, hszB', goRem_pos _ hn]
  rcases hsrc with ⟨him, rfl, rfl⟩ | ⟨him, s0, s1, rfl⟩
  · simp only [if_pos him]
    obtain ⟨c1, c1', hw, hw', hsh⟩ := shifted_write_setPc hs hcB hszB hpB hpB' hcuB hcuB'
      dst d0 d1 { dv with B := Int.tmod (goAdd (goSub dv.B inst.A) n) n }
      ⟨hdv.1, hdv.2.1, fieldOK_tmod _ n hn hsm⟩ proc.warrior.Color i nextPC h0 h1
    exact ⟨_, _, by simp only [hw, Option.some_bind]; rfl,
      by simp only [hw', Option.some_bind]; rfl, hsh⟩
  · simp only [if_neg him]
    obtain ⟨sv, hsv, hsv', -⟩ := Read_sim' hcB hszB src s0 s1
    obtain ⟨c1, c1', hw, hw', hsh⟩ := shifted_write_setPc hs hcB hszB hpB hpB' hcuB hcuB'
      dst d0 d1 { dv with A := Int.tmod (goAdd (goSub dv.A sv.A) n) n,
                          B := Int.tmod (goAdd (goSub dv.B sv.B) n) n }
      ⟨hdv.1, fieldOK_tmod _ n hn hsm, fieldOK_tmod _ n hn hsm⟩ proc.warrior.Color i nextPC h0 h1
    exact ⟨_, _, by simp only [hsv, hw, Option.some_bind]; rfl,
      by simp only [hsv', hw', Option.some_bind]; rfl, hsh⟩

theorem execJMP_sim {n d : Int} {vm vm' : VM} (hs : Shifted n d vm vm') (i : Nat)
    (proc proc' : Process) (hp : ProcRel n d proc proc') (inst : Instruction)
    (hc : cellOK n inst) (ha : inst.AMode ≠ AddressMode.IMMEDIATE) :
    ∃ vm1 vm1', vm.execJMP i proc inst = some vm1 ∧
      vm'.execJMP i proc' inst = some vm1' ∧ Shifted n d vm1 vm1' := by
  obtain ⟨href, hcol, -, p0, p1, hpc'⟩ := hp
  obtain ⟨t, vmT, vmT', eT, eT', t0, t1, hcT, hszT, hpT, hpT', hcuT, hcuT', -⟩ :=
    evalB_sim hs.core hs.size proc.pc inst.A inst.AMode false p0 p1 hc.2.1 ha
  simp only [VM.execJMP, eT, hpc', eT', Option.bind_eq_bind, Option.some_bind]
  exact ⟨_, _, rfl, rfl, shifted_setPc hs hcT hszT hpT hpT' hcuT hcuT' i t t0 t1⟩

theorem testValue_sim {n d : Int} {vm vm' : VM} (hc : CoreRel d vm.core vm'.core)
    (hsz : vm.core.size = n) (inst : Instruction) (src src' : Int)
    (hsrc : (inst.AMode = AddressMode.IMMEDIATE ∧ src = inst.A ∧ src' = inst.A) ∨
      (inst.AMode ≠ AddressMode.IMMEDIATE ∧ 0 ≤ src ∧ src < n ∧ src' = (src + d) % n)) :
    ∃ v, vm.testValue inst src = some v ∧ vm'.testValue inst src' = some v := by
  unfold VM.testValue
  rcases hsrc with ⟨him, rfl, rfl⟩ | ⟨him, s0, s1, rfl⟩
  · simp only [if_pos him]
    exact ⟨_, rfl, rfl⟩
  · simp only [if_neg him]
    obtain ⟨sv, hsv, hsv', -⟩ := Read_sim' hc hsz src s0 s1
    exact ⟨sv.B, by simp only [hsv, Option.bind_eq_bind, Option.some_bind]; rfl,
      by simp only [hsv', Option.bind_eq_bind, Option.some_bind]; rfl⟩

theorem execJMZ_sim {n d : Int} {vm vm' : VM} (hs : Shifted n d vm vm') (i : Nat)
    (proc proc' : Process) (hp : ProcRel n d proc proc') (inst : Instruction)
    (hc : cellOK n inst) (hb : inst.BMode ≠ AddressMode.IMMEDIATE)
    (nextPC : Int) (h0 : 0 ≤ nextPC) (h1 : nextPC < n) :
    ∃ vm1 vm1', vm.execJMZ i proc inst nextPC = some vm1 ∧
      vm'.execJMZ i proc' inst ((nextPC + d) % n) = some vm1' ∧ Shifted n d vm1 vm1' := by
  obtain ⟨href, hcol, -, p0, p1, hpc'⟩ := hp
  obtain ⟨src, src', eA, eA', hsrc⟩ :=
    evalA_sim hs.core hs.size proc.pc inst.A inst.AMode p0 p1 hc.2.1
  obtain ⟨t, vmT, vmT', eT, eT', t0, t1, hcT, hszT, hpT, hpT', hcuT, hcuT', hsame⟩ :=
    evalB_sim hs.core hs.size proc.pc inst.B inst.BMode false p0 p1 hc.2.2 hb
  obtain ⟨v, hv, hv'⟩ := testValue_sim hcT hszT inst src src' hsrc
  simp only [VM.execJMZ, eA, eT, hpc', eA', eT', hv, hv', Option.bind_eq_bind,
    Option.some_bind]
  by_cases hz : v = 0
  · simp only [if_pos hz]
    exact ⟨_, _, rfl, rfl, shifted_setPc hs hcT hszT hpT hpT' hcuT hcuT' i t t0 t1⟩
  · simp only [if_neg hz]
    exact ⟨_, _, rfl, rfl, shifted_setPc hs hcT hszT hpT hpT' hcuT hcuT' i nextPC h0 h1⟩

theorem execJMN_sim {n d : Int} {vm vm' : VM} (hs : Shifted n d vm vm') (i : Nat)
    (proc proc' : Process) (hp : ProcRel n d proc proc') (inst : Instruction)
    (hc : cellOK n inst) (hb : inst.BMode ≠ AddressMode.IMMEDIATE)
    (nextPC : Int) (h0 : 0 ≤ nextPC) (h1 : nextPC < n) :
    ∃ vm1 vm1', vm.execJMN i proc inst nextPC = some vm1 ∧
      vm'.execJMN i proc' inst ((nextPC + d) % n) = some vm1' ∧ Shifted n d vm1 vm1' := by
  obtain ⟨href, hcol, -, p0, p1, hpc'⟩ := hp
  obtain ⟨src, src', eA, eA', hsrc⟩ :=
    evalA_sim hs.core hs.size proc.pc inst.A inst.AMode p0 p1 hc.2.1
  obtain ⟨t, vmT, vmT', eT, eT', t0, t1, hcT, hszT, hpT, hpT', hcuT, hcuT', hsame⟩ :=
    evalB_sim hs.core hs.size proc.pc inst.B inst.BMode false p0 p1 hc.2.2 hb
  obtain ⟨v, hv, hv'⟩ := testValue_sim hcT hszT inst src src' hsrc
  simp only [VM.execJMN, eA, eT, hpc', eA', eT', hv, hv', Option.bind_eq_bind,
    Option.some_bind]
  by_cases hz : v ≠ 0
  · simp only [if_pos hz]
    exact ⟨_, _, rfl, rfl, shifted_setPc hs hcT hszT hpT hpT' hcuT hcuT' i t t0 t1⟩
  · simp only [if_neg hz]
    exact ⟨_, _, rfl, rfl, shifted_setPc hs hcT hszT hpT hpT' hcuT hcuT' i nextPC h0 h1⟩

theorem execDJN_sim {n d : Int} {vm vm' : VM} (hs : Shifted n d vm vm') (i : Nat)
    (proc proc' : Process) (hp : ProcRel n d proc proc') (inst : Instruction)
    (hc : cellOK n inst) (hb : inst.BMode ≠ AddressMode.IMMEDIATE)
    (nextPC : Int) (h0 : 0 ≤ nextPC) (h1 : nextPC < n) :
    ∃ vm1 vm1', vm.execDJN i proc inst nextPC = some vm1 ∧
      vm'.execDJN i proc' inst ((nextPC + d) % n) = some vm1' ∧ Shifted n d vm1 vm1' := by
  obtain ⟨href, hcol, -, p0, p1, hpc'⟩ := hp
  have hn : 0 < n := by rw [← hs.size]; exact hs.core.wf.1
  have hsm : 2 * n ≤ maxInt := by rw [← hs.size]; exact hs.core.small
  by_cases him : inst.AMode = AddressMode.IMMEDIATE
  · obtain ⟨t, vmT, vmT', eT, eT', t0, t1, hcT, hszT, hpT, hpT', hcuT, hcuT', hsame⟩ :=
      evalB_sim hs.core hs.size proc.pc inst.B inst.BMode false p0 p1 hc.2.2 hb
    have eA : vm.evaluate proc.pc inst.AMode inst.A true = some (inst.A, vm) := by
      rw [him]; rfl
    have eA' : vm'.evaluate ((proc.pc + d) % n) inst.AMode inst.A true = some (inst.A, vm') := by
      rw [him]; rfl
    simp only [VM.execDJN, eA, eT, hpc', eA', eT', Option.bind_eq_bind, Option.some_bind,
      if_pos him]
    exact ⟨_, _, rfl, rfl, shifted_setPc hs hcT hszT hpT hpT' hcuT hcuT' i nextPC h0 h1⟩
  · obtain ⟨src, vmA, vmA', eA, eA', s0, s1, hcA, hszA, hpA, hpA', hcuA, hcuA', -⟩ :=
      evalB_sim hs.core hs.size proc.pc inst.A inst.AMode true p0 p1 hc.2.1 him
    obtain ⟨t, vmT, vmT', eT, eT', t0, t1, hcT, hszT, hpT, hpT', hcuT, hcuT', hsame⟩ :=
      evalB_sim hcA hszA proc.pc inst.B inst.BMode false p0 p1 hc.2.2 hb
    obtain ⟨rfl, rfl⟩ := hsame rfl
    obtain ⟨sv, hsv, hsv', hsvOK⟩ := Read_sim' hcA hszA src s0 s1
    have hszA' : vmT'.core.size = n := by rw [hcA.size_eq, hszA]
    simp only [VM.execDJN, eA, eT, hpc', eA', eT', hcol, Option.bind_eq_bind, Option.some_bind,
      if_neg him, hsv, hsv', hszA, hszA', goRem_pos _ hn]
    obtain ⟨-, -, hwT, hwT', -⟩ := shifted_write_setPc hs hcA hszA hpA hpA' hcuA hcuA'
      src s0 s1 { sv with B := Int.tmod (goAdd (goSub sv.B 1) n) n }
      ⟨hsvOK.1, hsvOK.2.1, fieldOK_tmod _ n hn hsm⟩ proc.warrior.Color i t t0 t1
    by_cases hz : Int.tmod (goAdd (goSub sv.B 1) n) n = 0
    · obtain ⟨c1, c1', hw, hw', hsh⟩ := shifted_write_setPc hs hcA hszA hpA hpA' hcuA hcuA'
        src s0 s1 { sv with B := Int.tmod (goAdd (goSub sv.B 1) n) n }
        ⟨hsvOK.1, hsvOK.2.1, fieldOK_tmod _ n hn hsm⟩ proc.warrior.Color i t t0 t1
      exact ⟨_, _, by simp only [hw, Option.some_bind, if_pos hz]; rfl,
        by simp only [hw', Option.some_bind, if_pos hz]; rfl, hsh⟩
    · obtain ⟨c1, c1', hw, hw', hsh⟩ := shifted_write_setPc hs hcA hszA hpA hpA' hcuA hcuA'
        src s0 s1 { sv with B := Int.tmod (goAdd (goSub sv.B 1) n) n }
        ⟨hsvOK.1, hsvOK.2.1, fieldOK_tmod _ n hn hsm⟩ proc.warrior.Color i nextPC h0 h1
      exact ⟨_, _, by simp only [hw, Option.some_bind, if_neg hz]; rfl,
        by simp only [hw', Option.some_bind, if_neg hz]; rfl, hsh⟩

theorem cmpEqual_sim {n d : Int} {vm vm' : VM} (hc : CoreRel d vm.core vm'.core)
    (hsz : vm.core.size = n) (inst : Instruction) (s1 s1' s2 s2' : Int)
    (h1 : (inst.AMode = AddressMode.IMMEDIATE ∧ s1 = inst.A ∧ s1' = inst.A) ∨
      (inst.AMode ≠ AddressMode.IMMEDIATE ∧ 0 ≤ s1 ∧ s1 < n ∧ s1' = (s1 + d) % n))
    (h2 : (inst.BMode = AddressMode.IMMEDIATE ∧ s2 = inst.B ∧ s2' = inst.B) ∨
      (inst.BMode ≠ AddressMode.IMMEDIATE ∧ 0 ≤ s2 ∧ s2 < n ∧ s2' = (s2 + d) % n)) :
    ∃ b, vm.cmpEqual inst s1 s2 = some b ∧ vm'.cmpEqual inst s1' s2' = some b := by
  unfold VM.cmpEqual
  rcases h1 with ⟨ha, rfl, rfl⟩ | ⟨ha, a0, a1, rfl⟩ <;>
    rcases h2 with ⟨hb, rfl, rfl⟩ | ⟨hb, b0, b1, rfl⟩
  · rw [if_pos ⟨ha, hb⟩, if_pos ⟨ha, hb⟩]
    exact ⟨_, rfl, rfl⟩
  · obtain ⟨v2, hv2, hv2', -⟩ := Read_sim' hc hsz s2 b0 b1
    simp only [ha, hb, and_false, if_false, if_true, hv2, hv2', Option.bind_eq_bind,
      Option.some_bind]
    exact ⟨_, rfl, rfl⟩
  · obtain ⟨v1, hv1, hv1', -⟩ := Read_sim' hc hsz s1 a0 a1
    simp only [ha, hb, false_and, if_false, if_true, hv1, hv1', Option.bind_eq_bind,
      Option.some_bind]
    exact ⟨_, rfl, rfl⟩
  · obtain ⟨v1, hv1, hv1', -⟩ := Read_sim' hc hsz s1 a0 a1
    obtain ⟨v2, hv2, hv2', -⟩ := Read_sim' hc hsz s2 b0 b1
    simp only [ha, hb, false_and, if_false, hv1, hv1', hv2, hv2', Option.bind_eq_bind,
      Option.some_bind]
    exact ⟨_, rfl, rfl⟩

theorem execCMP_sim {n d : Int} {vm vm' : VM} (hs : Shifted n d vm vm') (i : Nat)
    (proc proc' : Process) (hp : ProcRel n d proc proc') (inst : Instruction)
    (hc : cellOK n inst) (nextPC : Int) (h0 : 0 ≤ nextPC) (h1 : nextPC < n) :
    ∃ vm1 vm1', vm.execCMP i proc inst nextPC = some vm1 ∧
      vm'.execCMP i proc' inst ((nextPC + d) % n) = some vm1' ∧ Shifted n d vm1 vm1' := by
  obtain ⟨href, hcol, -, p0, p1, hpc'⟩ := hp
  have hn : 0 < n := by rw [← hs.size]; exact hs.core.wf.1
  have hsm : 2 * n ≤ maxInt := by rw [← hs.size]; exact hs.core.small
  obtain ⟨s1, s1', eA, eA', hs1⟩ :=
    evalA_sim hs.core hs.size proc.pc inst.A inst.AMode p0 p1 hc.2.1
  obtain ⟨s2, s2', eB, eB', hs2⟩ :=
    evalA_sim hs.core hs.size proc.pc inst.B inst.BMode p0 p1 hc.2.2
  obtain ⟨b, hb, hb'⟩ := cmpEqual_sim hs.core hs.size inst s1 s1' s2 s2' hs1 hs2
  have hsz' : vm'.core.size = n := by rw [hs.core.size_eq, hs.size]
  simp only [VM.execCMP, eA, eB, hpc', eA', eB', hb, hb', Option.bind_eq_bind,
    Option.some_bind, hs.size, hsz', goRem_pos _ hn]
  cases b
  · simp only [Bool.false_eq_true, if_false]
    exact ⟨_, _, rfl, rfl, shifted_setPc hs hs.core hs.size rfl rfl rfl rfl i nextPC h0 h1⟩
  · simp only [if_true, Option.some_bind]
    have hmax : n ≤ maxInt := by unfold maxInt at hsm ⊢; omega
    obtain ⟨q0, q1⟩ := sh_range n nextPC d hn
    have g1 : goAdd nextPC 1 = nextPC + 1 := by
      unfold goAdd; exact wrapInt_of_range (by unfold minInt; omega) (by omega)
    have g2 : goAdd ((nextPC + d) % n) 1 = (nextPC + d) % n + 1 := by
      unfold goAdd; exact wrapInt_of_range (by unfold minInt; omega) (by omega)
    rw [g1, g2, Int.tmod_eq_emod (by omega) (le_of_lt hn),
      Int.tmod_eq_emod (by omega) (le_of_lt hn), sh_add]
    obtain ⟨k0, k1⟩ := sh_range n nextPC 1 hn
    exact ⟨_, _, rfl, rfl, shifted_setPc hs hs.core hs.size rfl rfl rfl rfl i _ k0 k1⟩

theorem processCount_rel {n d : Int} {l l' : List Process}
    (h : List.Forall₂ (ProcRel n d) l l') (w w' : Warrior) (hw : w'.ref = w.ref) :
    processCount l' w' = processCount l w := by
  unfold processCount
  induction h with
  | nil => rfl
  | cons hab _ ih =>
    rw [List.countP_cons, List.countP_cons, ih, hab.1, hab.2.2.1, hw]

theorem forall2_insertAfter {R : Process → Process → Prop} {l l' : List Process}
    (h : List.Forall₂ R l l') (i cur : Int) (np np' : Process) (hnp : R np np') :
    List.Forall₂ R (insertAfter l i cur np) (insertAfter l' i cur np') := by
  induction h generalizing i with
  | nil => exact List.Forall₂.nil
  | cons hab _ ih =>
    unfold insertAfter
    by_cases hi : i = cur
    · rw [if_pos hi, if_pos hi]
      exact List.Forall₂.cons hab (List.Forall₂.cons hnp (ih (i + 1)))
    · rw [if_neg hi, if_neg hi]
      exact List.Forall₂.cons hab (ih (i + 1))

theorem execSPL_sim {n d : Int} {vm vm' : VM} (hs : Shifted n d vm vm') (i : Nat)
    (proc proc' : Process) (hp : ProcRel n d proc proc') (inst : Instruction)
    (hc : cellOK n inst) (ha : inst.AMode ≠ AddressMode.IMMEDIATE)
    (nextPC : Int) (h0 : 0 ≤ nextPC) (h1 : nextPC < n) :
    ∃ vm1 vm1', vm.execSPL i proc inst nextPC = some vm1 ∧
      vm'.execSPL i proc' inst ((nextPC + d) % n) = some vm1' ∧ Shifted n d vm1 vm1' := by
  obtain ⟨href, hcol, halive, p0, p1, hpc'⟩ := hp
  obtain ⟨t, vmT, vmT', eT, eT', t0, t1, hcT, hszT, hpT, hpT', hcuT, hcuT', hsame⟩ :=
    evalB_sim hs.core hs.size proc.pc inst.A inst.AMode false p0 p1 hc.2.1 ha
  obtain ⟨rfl, rfl⟩ := hsame rfl
  have hcnt := processCount_rel hs.procs proc.warrior proc'.warrior href
  simp only [VM.execSPL, eT, hpc', eT', hcnt, Option.bind_eq_bind, Option.some_bind]
  have hset := shifted_setPc hs hs.core hs.size rfl rfl rfl rfl i nextPC h0 h1
  by_cases hcap : processCount vmT.processes proc.warrior ≥ 64
  · simp only [if_pos hcap]
    exact ⟨_, _, rfl, rfl, hset⟩
  · simp only [if_neg hcap]
    refine ⟨_, _, rfl, rfl, hset.size, hset.core, hset.current, ?_⟩
    have hcur : (vmT'.setPc i ((nextPC + d) % n)).current = (vmT.setPc i nextPC).current :=
      hset.current
    show List.Forall₂ _ (insertAfter _ 0 _ _) (insertAfter _ 0 _ _)
    rw [hcur]
    exact forall2_insertAfter hset.procs 0 _ _ _ ⟨href, hcol, rfl, t0, t1, rfl⟩

/-- The `switch` of `executeInstruction` on two shifted VMs. -/
theorem execOp_sim {n d : Int} {vm vm' : VM} (hs : Shifted n d vm vm') (i : Nat)
    (proc proc' : Process) (hp : ProcRel n d proc proc') (inst : Instruction)
    (hc : cellOK n inst) (nextPC : Int) (h0 : 0 ≤ nextPC) (h1 : nextPC < n) :
    ∃ vm1 vm1', vm.execOp i proc inst nextPC = some vm1 ∧
      vm'.execOp i proc' inst ((nextPC + d) % n) = some vm1' ∧ Shifted n d vm1 vm1' := by
  have hrel := hc.1
  unfold relocatable at hrel
  unfold VM.execOp
  cases hop : inst.Op <;> rw [hop] at hrel <;> simp only [decide_eq_true_eq] at hrel
  case DAT =>
    refine ⟨_, _, rfl, rfl, hs.size, hs.core, hs.current, ?_⟩
    exact forall2_modify (fun a b hab => ⟨hab.1, hab.2.1, rfl, hab.2.2.2⟩) hs.procs i
  case NOP =>
    exact ⟨_, _, rfl, rfl, shifted_setPc hs hs.core hs.size rfl rfl rfl rfl i nextPC h0 h1⟩
  case MOV => exact execMOV_sim hs i proc proc' hp inst hc hrel nextPC h0 h1
  case ADD => exact execADD_sim hs i proc proc' hp inst hc hrel nextPC h0 h1
  case SUB => exact execSUB_sim hs i proc proc' hp inst hc hrel nextPC h0 h1
  case JMP => exact execJMP_sim hs i proc proc' hp inst hc hrel
  case JMZ => exact execJMZ_sim hs i proc proc' hp inst hc hrel nextPC h0 h1
  case JMN => exact execJMN_sim hs i proc proc' hp inst hc hrel nextPC h0 h1
  case DJN => exact execDJN_sim hs i proc proc' hp inst hc hrel nextPC h0 h1
  case CMP => exact execCMP_sim hs i proc proc' hp inst hc nextPC h0 h1
  case SPL => exact execSPL_sim hs i proc proc' hp inst hc hrel nextPC h0 h1

theorem shifted_kill {n d : Int} {vm vm' : VM} (hs : Shifted n d vm vm') (i : Nat) :
    Shifted n d (vm.kill i) (vm'.kill i) :=
  ⟨hs.size, hs.core, hs.current,
    forall2_modify (fun _ _ hab => ⟨hab.1, hab.2.1, rfl, hab.2.2.2⟩) hs.procs i⟩

/-- One `executeInstruction` on two shifted VMs: both return, shifted again. -/
theorem executeInstruction_sim {n d : Int} {vm vm' : VM} (hs : Shifted n d vm vm') (i : Nat)
    (proc : Process) (hi : vm.processes[i]? = some proc) :
    ∃ vm1 vm1', vm.executeInstruction i = some vm1 ∧
      vm'.executeInstruction i = some vm1' ∧ Shifted n d vm1 vm1' := by
  obtain ⟨proc', hi', hp⟩ := forall2_getElem? hs.procs i proc hi
  have hn : 0 < n := by rw [← hs.size]; exact hs.core.wf.1
  have hsm : 2 * n ≤ maxInt := by rw [← hs.size]; exact hs.core.small
  have hmax : n ≤ maxInt := by unfold maxInt at hsm ⊢; omega
  have hsz' : vm'.core.size = n := by rw [hs.core.size_eq, hs.size]
  obtain ⟨href, hcol, halive, p0, p1, hpc'⟩ := hp
  obtain ⟨q0, q1⟩ := sh_range n proc.pc d hn
  -- the owner tag and the instruction under the two program counters
  obtain ⟨o, ho, -⟩ := idx?_of_lt vm.core.owners proc.pc p0
    (by rw [hs.core.wf.2.2.2, hs.size]; exact p1)
  have ho' : idx? vm'.core.owners proc'.pc = some o := by
    rw [hpc', ← hs.size, hs.core.owners proc.pc p0 (by rw [hs.size]; exact p1)]; exact ho
  obtain ⟨inst, hr, hr', hinst⟩ := Read_sim' hs.core hs.size proc.pc p0 p1
  rw [← hpc'] at hr'
  rw [executeInstruction_unfold vm i proc o inst hs.core.wf hi ho hr,
    executeInstruction_unfold vm' i proc' o inst hs.core.wf' hi' ho' hr', hcol]
  by_cases hf : o ≠ proc.warrior.Color ∧ o ≠ WarriorColor.Empty
  · rw [if_pos hf, if_pos hf]
    exact ⟨_, _, rfl, rfl, shifted_kill hs i⟩
  · rw [if_neg hf, if_neg hf, hs.size, hsz', hpc']
    have g1 : goAdd proc.pc 1 = proc.pc + 1 := by
      unfold goAdd; exact wrapInt_of_range (by unfold minInt; omega) (by omega)
    have g2 : goAdd ((proc.pc + d) % n) 1 = (proc.pc + d) % n + 1 := by
      unfold goAdd; exact wrapInt_of_range (by unfold minInt; omega) (by omega)
    rw [g1, g2, Int.tmod_eq_emod (by omega) (le_of_lt hn),
      Int.tmod_eq_emod (by omega) (le_of_lt hn), sh_add]
    obtain ⟨k0, k1⟩ := sh_range n proc.pc 1 hn
    exact execOp_sim hs i proc proc' ⟨href, hcol, halive, p0, p1, hpc'⟩ inst hinst _ k0 k1

theorem forall2_filter_alive {n d : Int} {l l' : List Process}
    (h : List.Forall₂ (ProcRel n d) l l') :
    List.Forall₂ (ProcRel n d) (l.filter fun p => p.alive) (l'.filter fun p => p.alive) := by
  induction h with
  | nil => exact List.Forall₂.nil
  | @cons a b l1 l2 hab _ ih =>
    by_cases ha : a.alive = true
    · have hb : b.alive = true := by rw [hab.2.2.1]; exact ha
      rw [List.filter_cons_of_pos (by simpa using ha), List.filter_cons_of_pos (by simpa using hb)]
      exact List.Forall₂.cons hab ih
    · have hb : ¬ b.alive = true := by rw [hab.2.2.1]; exact ha
      rw [List.filter_cons_of_neg (by simpa using ha), List.filter_cons_of_neg (by simpa using hb)]
      exact ih

theorem shifted_atCursor {n d : Int} {vm vm' : VM} (hs : Shifted n d vm vm') (cur : Int) :
    Shifted n d (vm.atCursor cur) (vm'.atCursor cur) :=
  ⟨hs.size, hs.core, rfl, forall2_filter_alive hs.procs⟩

/-- One cycle on two shifted VMs: if the first returns, so does the second, and
the results are shifted again. -/
theorem ExecuteCycle_sim {n d : Int} {vm vm' vm1 : VM} (hs : Shifted n d vm vm')
    (he : vm.ExecuteCycle = some vm1) :
    ∃ vm1', vm'.ExecuteCycle = some vm1' ∧ Shifted n d vm1 vm1' := by
  have hlen := hs.procs.length_eq
  have hclen : vm'.compacted.length = vm.compacted.length :=
    (forall2_filter_alive hs.procs).length_eq.symm
  rw [ExecuteCycle_eq] at he ⊢
  by_cases hl : vm.processes.length = 0
  · rw [if_pos hl] at he
    rw [if_pos (by omega)]
    cases he
    exact ⟨_, rfl, hs⟩
  rw [if_neg hl] at he
  rw [if_neg (by omega)]
  by_cases hc : vm.compacted.length = 0
  · rw [if_pos hc] at he
    rw [if_pos (by omega)]
    cases he
    exact ⟨_, rfl, hs.size, hs.core, hs.current, forall2_filter_alive hs.procs⟩
  rw [if_neg hc] at he
  rw [if_neg (by omega), hclen, hs.current]
  have hpos : (0 : Int) < (vm.compacted.length : Int) := by omega
  rw [goRem_pos _ hpos] at he ⊢
  simp only [Option.some_bind] at he ⊢
  cases hidx : idx? vm.compacted (Int.tmod vm.current vm.compacted.length) with
  | none => rw [hidx] at he; cases he
  | some proc =>
    rw [hidx] at he
    simp only [Option.some_bind] at he
    obtain ⟨c0, hget⟩ := (idx?_eq_some_iff _ _ _).mp hidx
    have hsc := shifted_atCursor hs (Int.tmod vm.current vm.compacted.length)
    obtain ⟨proc', hget', -⟩ := forall2_getElem? hsc.procs _ proc hget
    have hidx' : idx? vm'.compacted (Int.tmod vm.current vm.compacted.length) = some proc' :=
      (idx?_eq_some_iff _ _ _).mpr ⟨c0, hget'⟩
    rw [hidx']
    simp only [Option.some_bind]
    obtain ⟨vm2, vm2', e2, e2', hs2⟩ := executeInstruction_sim hsc _ proc hget
    rw [e2] at he
    rw [e2']
    simp only [Option.some_bind] at he ⊢
    rw [hs2.current, ← hs2.procs.length_eq]
    cases hnext : goRem (goAdd vm2.current 1) vm2.processes.length with
    | none => rw [hnext] at he; cases he
    | some nx =>
      rw [hnext] at he
      simp only [Option.some_bind] at he ⊢
      cases he
      exact ⟨_, rfl, hs2.size, hs2.core, rfl, hs2.procs⟩

theorem run_sim {n d : Int} (t : Nat) {vm vm' vm1 : VM} (hs : Shifted n d vm vm')
    (he : vm.run t = some vm1) :
    ∃ vm1', vm'.run t = some vm1' ∧ Shifted n d vm1 vm1' := by
  induction t generalizing vm vm' with
  | zero => cases he; exact ⟨vm', rfl, hs⟩
  | succ t ih =>
    simp only [VM.run, Option.bind_eq_bind, Option.bind_eq_some] at he
    obtain ⟨vm2, h1, h2⟩ := he
    obtain ⟨vm2', h1', hs2⟩ := ExecuteCycle_sim hs h1
    obtain ⟨vm3', h3, hs3⟩ := ih hs2 h2
    exact ⟨vm3', by simp only [VM.run, Option.bind_eq_bind, h1', Option.some_bind]; exact h3, hs3⟩

theorem shifted_rotated {n d : Int} {vm vm' : VM} (h : Shifted n d vm vm') :
    Rotated n d vm vm' := by
  refine ⟨?_, ?_, ?_⟩
  · intro a a0 a1
    have := h.core.cells a a0 (by rw [h.size]; exact a1)
    rwa [h.size] at this
  · intro a a0 a1
    have := h.core.owners a a0 (by rw [h.size]; exact a1)
    rwa [h.size] at this
  · exact List.Forall₂.imp (fun p q hpq => ⟨hpq.1, hpq.2.2.1, hpq.2.2.2.2.2⟩) h.procs

theorem cellOK_datZero (n : Int) (hn : 0 < n) (hs : 2 * n ≤ maxInt) : cellOK n datZero := by
  refine ⟨rfl, ?_, ?_⟩ <;>
  · show minInt + n ≤ 0 ∧ 0 ≤ maxInt - n
    unfold minInt
    unfold maxInt at hs ⊢
    constructor <;> omega

theorem NewCore_rel (n d : Int) (hn : 0 < n) (hs : 2 * n ≤ maxInt) :
    ∃ c, NewCore n = some c ∧ c.size = n ∧ CoreRel d c c := by
  have hmax : n ≤ maxInt := by unfold maxInt at hs ⊢; omega
  have hlen : ((n.toNat : Nat) : Int) = n := Int.toNat_of_nonneg (le_of_lt hn)
  have hwf : ({ cells := List.replicate n.toNat datZero,
                owners := List.replicate n.toNat WarriorColor.Empty, size := n } : Core).WF :=
    ⟨hn, hmax, by simpa using hlen, by simpa using hlen⟩
  refine ⟨_, by unfold NewCore; rw [if_neg (by omega)], rfl, hwf, hwf, rfl, hs, ?_, ?_, ?_⟩
  · intro inst hmem
    rw [List.eq_of_mem_replicate hmem]
    exact cellOK_datZero n hn hs
  · intro a a0 a1
    obtain ⟨s0, s1⟩ := sh_range n a d hn
    dsimp only at a1 ⊢
    unfold idx?
    rw [if_neg (by omega), if_neg (by omega), List.getElem?_replicate, List.getElem?_replicate,
      if_pos (by omega), if_pos (by omega)]
  · intro a a0 a1
    obtain ⟨s0, s1⟩ := sh_range n a d hn
    dsimp only at a1 ⊢
    unfold idx?
    rw [if_neg (by omega), if_neg (by omega), List.getElem?_replicate, List.getElem?_replicate,
      if_pos (by omega), if_pos (by omega)]

theorem loadCode_sim {n k k' : Int} (color : WarriorColor) (code : List Instruction)
    (c c' : Core) (i : Int) (hc : CoreRel (k' - k) c c') (hsz : c.size = n)
    (hk0 : 0 ≤ k) (hk1 : k < n) (hk0' : 0 ≤ k') (hk1' : k' < n)
    (hi : 0 ≤ i) (hlen : i + (code.length : Int) ≤ n)
    (hcode : ∀ inst ∈ code, cellOK n inst) :
    ∃ c1 c1', loadCode n color k c code i = some c1 ∧ loadCode n color k' c' code i = some c1' ∧
      CoreRel (k' - k) c1 c1' ∧ c1.size = n := by
  induction code generalizing c c' i with
  | nil => exact ⟨c, c', rfl, rfl, hc, hsz⟩
  | cons inst rest ih =>
    have hn : 0 < n := by rw [← hsz]; exact hc.wf.1
    have hsm : 2 * n ≤ maxInt := by rw [← hsz]; exact hc.small
    simp only [List.length_cons] at hlen
    have g1 : goAdd k i = k + i := by
      unfold goAdd; unfold maxInt at hsm
      exact wrapInt_of_range (by unfold minInt; omega) (by unfold maxInt; omega)
    have g2 : goAdd k' i = k' + i := by
      unfold goAdd; unfold maxInt at hsm
      exact wrapInt_of_range (by unfold minInt; omega) (by unfold maxInt; omega)
    obtain ⟨a0, a1⟩ := sh_range n k i hn
    have hsz' : c'.size = n := by rw [hc.size_eq, hsz]
    have haddr : ((k + i) % n + (k' - k)) % n = (k' + i) % n := by
      rw [Int.emod_add_emod]; congr 1; ring
    obtain ⟨c1, c1', hw, hw', hrel⟩ := Write_sim hc ((k + i) % n) inst color
      a0 (by rw [hsz]; exact a1)
      (by rw [hsz]; exact hcode inst (List.mem_cons_self _ _))
    rw [hsz, haddr] at hw'
    have hsz1 : c1.size = n := by rw [(Write_wf _ _ _ _ _ hc.wf hw).2, hsz]
    obtain ⟨c2, c2', hl, hl', hrel2, hsz2⟩ := ih c1 c1' (i + 1) hrel hsz1 (by omega)
      (by push_cast at hlen ⊢; omega) (fun x hx => hcode x (List.mem_cons_of_mem _ hx))
    refine ⟨c2, c2', ?_, ?_, hrel2, hsz2⟩
    · have hweq := Write_eq c ((k + i) % n) inst color hc.wf
      have e : (k + i) % n % c.size = (k + i) % n := by
        rw [hsz, Int.emod_emod_of_dvd _ (dvd_refl n)]
      rw [hw, e] at hweq
      obtain ⟨b0, b1⟩ := sh_range n k i hn
      unfold loadCode
      rw [g1, goRem_of_nonneg (by omega) hn]
      simp only [Option.bind_eq_bind, Option.some_bind]
      rw [setIdx?_of_lt _ _ _ b0 (by rw [hc.wf.2.2.1, hsz]; exact b1),
        setIdx?_of_lt _ _ _ b0 (by rw [hc.wf.2.2.2, hsz]; exact b1)]
      simp only [Option.some_bind]
      simp only [Option.some.injEq] at hweq
      rw [← hweq]
      exact hl
    · have hweq := Write_eq c' ((k' + i) % n) inst color hc.wf'
      have e : (k' + i) % n % c'.size = (k' + i) % n := by
        rw [hsz', Int.emod_emod_of_dvd _ (dvd_refl n)]
      rw [hw', e] at hweq
      obtain ⟨b0, b1⟩ := sh_range n k' i hn
      unfold loadCode
      rw [g2, goRem_of_nonneg (by omega) hn]
      simp only [Option.bind_eq_bind, Option.some_bind]
      rw [setIdx?_of_lt _ _ _ b0 (by rw [hc.wf'.2.2.1, hsz']; exact b1),
        setIdx?_of_lt _ _ _ b0 (by rw [hc.wf'.2.2.2, hsz']; exact b1)]
      simp only [Option.some_bind]
      simp only [Option.some.injEq] at hweq
      rw [← hweq]
      exact hl'

theorem mem_modify_warrior {f : Process → Process} {l : List Process} {i : Nat}
    {p : Process} (hp : p ∈ l.modify f i) (hf : ∀ p, (f p).warrior = p.warrior) :
    ∃ q ∈ l, p.warrior = q.warrior := by
  induction l generalizing i with
  | nil => simp at hp
  | cons a l ih =>
    cases i with
    | zero =>
      simp only [List.modify_zero_cons, List.mem_cons] at hp
      rcases hp with rfl | hp
      · exact ⟨a, List.mem_cons_self _ _, hf a⟩
      · exact ⟨p, List.mem_cons_of_mem _ hp, rfl⟩
    | succ i =>
      simp only [List.modify_succ_cons, List.mem_cons] at hp
      rcases hp with rfl | hp
      · exact ⟨p, List.mem_cons_self _ _, rfl⟩
      · obtain ⟨q, hq, e⟩ := ih hp
        exact ⟨q, List.mem_cons_of_mem _ hq, e⟩

theorem mem_insertAfter (l : List Process) (i cur : Int) (np p : Process)
    (hp : p ∈ insertAfter l i cur np) : p ∈ l ∨ p = np := by
  induction l generalizing i with
  | nil => simp [insertAfter] at hp
  | cons a l ih =>
    unfold insertAfter at hp
    split at hp
    · simp only [List.mem_cons] at hp
      rcases hp with rfl | rfl | hp
      · exact Or.inl (List.mem_cons_self _ _)
      · exact Or.inr rfl
      · rcases ih (i + 1) hp with h | h
        · exact Or.inl (List.mem_cons_of_mem _ h)
        · exact Or.inr h
    · simp only [List.mem_cons] at hp
      rcases hp with rfl | hp
      · exact Or.inl (List.mem_cons_self _ _)
      · rcases ih (i + 1) hp with h | h
        · exact Or.inl (List.mem_cons_of_mem _ h)
        · exact Or.inr h

theorem insertAfter_length_le (l : List Process) (i cur : Int) (np : Process) :
    (insertAfter l i cur np).length ≤ l.length + 1 := by
  induction l generalizing i with
  | nil => simp [insertAfter]
  | cons a l ih =>
    unfold insertAfter
    split
    · next hi =>
      rw [insertAfter_of_lt _ _ _ _ (by omega)]
      simp
    · have := ih (i + 1)
      simp only [List.length_cons]
      omega

theorem processCount_eq_length (l : List Process) (w : Warrior)
    (h : ∀ p ∈ l, p.warrior.ref = w.ref ∧ p.alive = true) : processCount l w = l.length := by
  unfold processCount
  rw [List.countP_eq_length]
  intro p hp
  obtain ⟨h1, h2⟩ := h p hp
  simp [h1, h2]

theorem ExecuteCycle_tame {r : Nat} {vm vm1 : VM} (hwf : vm.core.WF) (ht : Tame r vm)
    (he : vm.ExecuteCycle = some vm1) : Tame r vm1 := by
  obtain ⟨href, hlen, hcur⟩ := ht
  have hcomp_mem : ∀ p ∈ vm.compacted, p ∈ vm.processes ∧ p.alive = true := by
    intro p hp
    exact ⟨(List.mem_filter.mp hp).1, by simpa using (List.mem_filter.mp hp).2⟩
  have hcomp_len : vm.compacted.length ≤ vm.processes.length := List.length_filter_le _ _
  rcases ExecuteCycle_cases vm vm1 hwf he with ⟨-, -, hps, hc⟩ |
    ⟨i, proc, o, inst, vm2, hs, ho, hr, hex, hres, hcore, hps, hnext⟩
  · exact ⟨by rw [hps]; simp, by rw [hps]; simp, by rw [hc]; exact hcur⟩
  · obtain ⟨hl, -, -, hget, halive⟩ := scheduled_some vm i proc hs
    have hi : i < vm.compacted.length := by
      by_contra hcon
      rw [List.getElem?_eq_none (by omega)] at hget
      cases hget
    have hprocref : proc.warrior.ref = r :=
      href proc (hcomp_mem proc (List.getElem?_mem hget)).1
    have hps0 : (vm.atCursor i).processes = vm.compacted := rfl
    have hshape : (∀ p ∈ vm2.processes, p.warrior.ref = r) ∧ vm2.processes.length ≤ 64 ∧
        vm.compacted.length ≤ vm2.processes.length := by
      by_cases hd : foreignOwner o proc ∨ inst.Op = OpCode.DAT
      · rw [hres.2.2.2.1 hd]
        refine ⟨?_, by simp [VM.kill, hps0]; omega, by simp [VM.kill, hps0]⟩
        intro p hp
        have hp' : p ∈ vm.compacted.modify (fun p => { p with alive := false }) i := hp
        obtain ⟨q, hq, e⟩ := mem_modify_warrior hp' (fun _ => rfl)
        rw [e]; exact href q (hcomp_mem q hq).1
      · have hlive := hres.2.2.2.2 hd
        rw [hps0] at hlive
        generalize vm2.processes = ps' at hlive ⊢
        cases hlive with
        | jump pc =>
          refine ⟨?_, by simp; omega, by simp⟩
          intro p hp
          obtain ⟨q, hq, e⟩ := mem_modify_warrior hp (fun _ => rfl)
          rw [e]; exact href q (hcomp_mem q hq).1
        | split pc target hc =>
          have hcnt : processCount vm.compacted proc.warrior = vm.compacted.length :=
            processCount_eq_length _ _ (fun p hp =>
              ⟨by rw [href p (hcomp_mem p hp).1, hprocref], (hcomp_mem p hp).2⟩)
          rw [hcnt] at hc
          refine ⟨?_, ?_, ?_⟩
          · intro p hp
            rcases mem_insertAfter _ _ _ _ p hp with h | h
            · obtain ⟨q, hq, e⟩ := mem_modify_warrior h (fun _ => rfl)
              rw [e]; exact href q (hcomp_mem q hq).1
            · rw [h]; exact hprocref
          · have := insertAfter_length_le
              (vm.compacted.modify (fun p => { p with pc := pc }) i) 0
              (vm.atCursor i).current { warrior := proc.warrior, pc := target, alive := true }
            simp only [List.length_modify] at this
            omega
          · have := insertAfter_length
              (vm.compacted.modify (fun p => { p with pc := pc }) i) 0
              (vm.atCursor i).current { warrior := proc.warrior, pc := target, alive := true }
            simp only [List.length_modify] at this
            exact this
    rw [← hps] at hshape
    refine ⟨hshape.1, hshape.2.1, ?_⟩
    rw [← hps] at hnext
    have hpos : (0 : Int) < (vm1.processes.length : Int) := by omega
    rw [goRem_pos _ hpos] at hnext
    simp only [Option.some.injEq] at hnext
    rw [← hnext]
    apply Int.tmod_nonneg
    unfold goAdd
    rw [wrapInt_of_range (by unfold minInt; omega) (by unfold maxInt; omega)]
    omega

/-- On a shifted pair whose first VM is tame, the cycle of the first VM returns. -/
theorem ExecuteCycle_returns {n d : Int} {r : Nat} {vm vm' : VM} (hs : Shifted n d vm vm')
    (ht : Tame r vm) : ∃ vm1, vm.ExecuteCycle = some vm1 := by
  by_cases hl : vm.processes.length = 0
  · exact ⟨vm, by rw [ExecuteCycle_eq, if_pos hl]⟩
  by_cases hc : vm.compacted.length = 0
  · exact ⟨_, by rw [ExecuteCycle_eq, if_neg hl, if_pos hc]⟩
  have hpos : (0 : Int) < (vm.compacted.length : Int) := by omega
  have c0 := Int.tmod_nonneg (vm.compacted.length : Int) ht.2.2
  have c1 := Int.tmod_lt_of_pos vm.current hpos
  obtain ⟨proc, hidx, hget⟩ := idx?_of_lt vm.compacted _ c0 c1
  have hsched : vm.scheduled = some ((Int.tmod vm.current vm.compacted.length).toNat, proc) := by
    unfold VM.scheduled
    rw [if_neg hc, goRem_pos _ hpos]
    simp only [Option.bind_eq_bind, Option.some_bind, hidx]
    rfl
  obtain ⟨proc', -, hp⟩ := forall2_getElem? (shifted_atCursor hs 0).procs _ proc hget
  obtain ⟨o, ho, -⟩ := idx?_of_lt vm.core.owners proc.pc hp.2.2.2.1
    (by rw [hs.core.wf.2.2.2, hs.size]; exact hp.2.2.2.2.1)
  obtain ⟨inst, vm1, vm2, -, -, -, hcyc, -⟩ :=
    ExecuteCycle_total vm _ proc o hs.core.wf hsched ho
  exact ⟨vm2, hcyc⟩

theorem run_returns {n d : Int} {r : Nat} (t : Nat) {vm vm' : VM} (hs : Shifted n d vm vm')
    (ht : Tame r vm) :
    ∃ vm1 vm1', vm.run t = some vm1 ∧ vm'.run t = some vm1' ∧ Shifted n d vm1 vm1' := by
  induction t generalizing vm vm' with
  | zero => exact ⟨vm, vm', rfl, rfl, hs⟩
  | succ t ih =>
    obtain ⟨vm2, h2⟩ := ExecuteCycle_returns hs ht
    obtain ⟨vm2', h2', hs2⟩ := ExecuteCycle_sim hs h2
    obtain ⟨vm3, vm3', h3, h3', hs3⟩ := ih hs2 (ExecuteCycle_tame hs.core.wf ht h2)
    exact ⟨vm3, vm3',
      by simp only [VM.run, Option.bind_eq_bind, h2, Option.some_bind]; exact h3,
      by simp only [VM.run, Option.bind_eq_bind, h2', Option.some_bind]; exact h3', hs3⟩

theorem placed_shifted (n : Int) (w : Warrior) (k k' : Int)
    (hn : 0 < n) (hsmall : 2 * n ≤ maxInt) (hk0 : 0 ≤ k) (hk1 : k < n)
    (hk0' : 0 ≤ k') (hk1' : k' < n) (hlen : (w.Code.length : Int) ≤ n)
    (hcode : ∀ inst ∈ w.Code, cellOK n inst) :
    ∃ vm0 vm0', placed n w k = some vm0 ∧ placed n w k' = some vm0' ∧
      Shifted n (k' - k) vm0 vm0' ∧ Tame w.ref vm0 := by
  obtain ⟨c, hnew, hsz, hrel⟩ := NewCore_rel n (k' - k) hn hsmall
  obtain ⟨c1, c1', hl, hl', hrel1, hsz1⟩ := loadCode_sim w.Color w.Code c c 0 hrel hsz
    hk0 hk1 hk0' hk1' (le_refl 0) (by omega) hcode
  refine ⟨({ NewVM c with core := c1 } : VM).AddProcess { w with StartPosition := k } k,
    ({ NewVM c with core := c1' } : VM).AddProcess { w with StartPosition := k' } k',
    ?_, ?_, ?_, ?_⟩
  · simp only [placed, hnew, loadWarriorAt, NewVM, hl, Option.bind_eq_bind, Option.some_bind]
    rfl
  · simp only [placed, hnew, loadWarriorAt, NewVM, hl', Option.bind_eq_bind, Option.some_bind]
    rfl
  · refine ⟨hsz1, hrel1, rfl, ?_⟩
    exact List.Forall₂.cons ⟨rfl, rfl, rfl, hk0, hk1, by
      show k' = (k + (k' - k)) % n
      rw [show k + (k' - k) = k' by ring, Int.emod_eq_of_lt hk0' hk1']⟩ List.Forall₂.nil
  · refine ⟨?_, by simp [VM.AddProcess, NewVM], le_refl 0⟩
    intro p hp
    simp only [VM.AddProcess, NewVM, List.nil_append, List.mem_singleton] at hp
    rw [hp]

/-- C8 (amended): let the code of warrior `w` be relocatable (no operand that an
instruction uses as an address is immediate: the A operand of JMP and SPL, the B
operand of MOV, ADD, SUB, JMZ, JMN and DJN) with operand fields between
`minInt + n` and `maxInt - n`, and let `0 ≤ k, k' < n`, `len(code) ≤ n`,
`2 n ≤ maxInt`.  Loading `w` at `k` and at `k'` into an otherwise empty core of
size `n` with one process at the load address and running `t` cycles returns in
both cases, and the second state is the first one rotated by `k' - k` modulo `n`:
same cells and owner tags at the rotated addresses, same process list with
rotated program counters. -/
theorem C8_placement_independence (n : Int) (w : Warrior) (k k' : Int) (t : Nat)
    (hn : 0 < n) (hsmall : 2 * n ≤ maxInt) (hk : 0 ≤ k ∧ k < n) (hk' : 0 ≤ k' ∧ k' < n)
    (hlen : (w.Code.length : Int) ≤ n) (hcode : ∀ inst ∈ w.Code, cellOK n inst) :
    ∃ vm0 vm0' vm1 vm1', placed n w k = some vm0 ∧ placed n w k' = some vm0' ∧
      vm0.run t = some vm1 ∧ vm0'.run t = some vm1' ∧ Rotated n (k' - k) vm1 vm1' := by
  obtain ⟨vm0, vm0', h0, h0', hs, ht⟩ :=
    placed_shifted n w k k' hn hsmall hk.1 hk.2 hk'.1 hk'.2 hlen hcode
  obtain ⟨vm1, vm1', h1, h1', hs1⟩ := run_returns t hs ht
  exact ⟨vm0, vm0', vm1, vm1', h0, h0', h1, h1', shifted_rotated hs1⟩

/-- C8 witness: the loop `NOP` / `JMP $-1` loaded at 1 and at 6 of an eight-cell
core, five cycles. -/
theorem C8_placement_independence_witness :
    ∃ vm0 vm0' vm1 vm1', placed 8 loopWarrior 1 = some vm0 ∧
      placed 8 loopWarrior 6 = some vm0' ∧
      vm0.run 5 = some vm1 ∧ vm0'.run 5 = some vm1' ∧ Rotated 8 (6 - 1) vm1 vm1' :=
  C8_placement_independence 8 loopWarrior 1 6 5 (by decide) (by decide) (by decide) (by decide)
    (by decide) (by decide)

/-- C8 (counterexample to the claim as stated): the one-instruction code `JMP #0`
in a core of size 2.  Loaded at 0 the process is at PC 0 after one cycle, loaded
at 1 it is at PC 0 as well, not at the rotated address 1: an immediate jump
target is an absolute address. -/
theorem C8_counterexample_immediate_jump :
    (placed 2 jmpAbsWarrior 0).bind (fun vm => vm.run 1) = some jmpAbsAfter0 ∧
      (placed 2 jmpAbsWarrior 1).bind (fun vm => vm.run 1) = some jmpAbsAfter1 ∧
      ¬ Rotated 2 (1 - 0) jmpAbsAfter0 jmpAbsAfter1 := by
  refine ⟨by decide, by decide, ?_⟩
  intro h
  have hp := h.procs
  simp only [jmpAbsAfter0, jmpAbsAfter1, List.forall₂_cons] at hp
  exact absurd hp.1.2.2 (by decide)

/-! ## C11: DAT -/

/-- A cell of the core at the program counter: the owner lookup is in range. -/
theorem cell_at_pc (c : Core) (pc : Int) (inst : Instruction) (h : c.WF)
    (hc : idx? c.cells pc = some inst) :
    c.Read pc = some inst ∧ ∃ o, idx? c.owners pc = some o := by
  obtain ⟨h0, hget⟩ := (idx?_eq_some_iff _ _ _).mp hc
  have hlt : pc.toNat < c.cells.length := by
    by_contra hcon
    rw [List.getElem?_eq_none (by omega)] at hget
    cases hget
  have hlt' : pc < c.size := by
    have := h.2.2.1
    omega
  refine ⟨by rw [Read_idx c pc h h0 hlt']; exact hc, ?_⟩
  obtain ⟨v, hv, -⟩ := idx?_of_lt c.owners pc h0 (by rw [h.2.2.2]; exact hlt')
  exact ⟨v, hv⟩

/-- One cycle whose scheduled process passes the ownership check is the `switch`
of `executeInstruction` on the compacted list, followed by the cursor advance. -/
theorem cycle_execOp (vm : VM) (i : Nat) (proc : Process) (o : WarriorColor)
    (inst : Instruction) (h : vm.core.WF) (hs : vm.scheduled = some (i, proc))
    (ho : idx? vm.core.owners proc.pc = some o)
    (hown : o = proc.warrior.Color ∨ o = WarriorColor.Empty)
    (hr : vm.core.Read proc.pc = some inst) :
    ∃ vm1 vm', (vm.atCursor i).execOp i proc inst ((proc.pc + 1) % vm.core.size) = some vm1 ∧
      vm.ExecuteCycle = some vm' ∧ vm'.core = vm1.core ∧ vm'.processes = vm1.processes ∧
      goRem (goAdd i 1) vm1.processes.length = some vm'.current := by
  obtain ⟨hl, hcur, hp, hget, halive⟩ := scheduled_some vm i proc hs
  obtain ⟨inst', vm1, vm', hr', he, hres, hcyc, hcore, hprocs, hnext⟩ :=
    ExecuteCycle_total vm i proc o h hs ho
  have hun := executeInstruction_unfold (vm.atCursor i) i proc o inst h hget ho hr
  rw [if_neg (by rintro ⟨h1, h2⟩; rcases hown with h3 | h3; exact h1 h3; exact h2 h3)] at hun
  have hn := (nextPC_eq vm.core proc.pc o h ho).2.2
  have hsz : (vm.atCursor i).core.size = vm.core.size := rfl
  rw [hsz, hn, he] at hun
  exact ⟨vm1, vm', hun.symm, hcyc, hcore, hprocs, hnext⟩

theorem alive_after_kill (ps : List Process) (i : Nat) (hi : i < ps.length)
    (hall : ∀ p ∈ ps, p.alive = true) :
    ((ps.modify (fun p => { p with alive := false }) i).filter (fun p => p.alive)).length + 1
      = ps.length := by
  induction ps generalizing i with
  | nil => simp at hi
  | cons p rest ih =>
    have hrest : ∀ q ∈ rest, q.alive = true := fun q hq => hall q (List.mem_cons_of_mem _ hq)
    cases i with
    | zero =>
      simp only [List.modify_zero_cons, List.length_cons]
      rw [List.filter_cons_of_neg (by simp)]
      rw [List.filter_eq_self.mpr (by simpa using hrest)]
    | succ k =>
      simp only [List.modify_succ_cons, List.length_cons]
      rw [List.filter_cons_of_pos (by simpa using hall p (List.mem_cons_self _ _))]
      simp only [List.length_cons]
      have := ih k (by simpa using hi) hrest
      omega

theorem compacted_alive (vm : VM) : ∀ p ∈ vm.compacted, p.alive = true := by
  intro p hp
  unfold VM.compacted at hp
  simpa using (List.mem_filter.mp hp).2

/-- C11 (DAT): when the scheduled process is at a cell that holds a DAT, the cycle
returns; the core (cells, owners, size) is unchanged; the process list is the
compacted list in which exactly the entry of the scheduled process is marked dead,
so every other process keeps its warrior, PC and alive flag, and the number of
alive processes is exactly one less than before. -/
theorem C11_DAT_kills_process (vm : VM) (i : Nat) (proc : Process) (inst : Instruction)
    (h : vm.core.WF) (hs : vm.scheduled = some (i, proc))
    (hc : idx? vm.core.cells proc.pc = some inst) (hop : inst.Op = OpCode.DAT) :
    ∃ vm', vm.ExecuteCycle = some vm' ∧ vm'.core = vm.core ∧
      vm'.processes = vm.compacted.modify (fun p => { p with alive := false }) i ∧
      vm'.processes[i]? = some { proc with alive := false } ∧
      (∀ j, j ≠ i → vm'.processes[j]? = vm.compacted[j]?) ∧
      (vm'.processes.filter (fun p => p.alive)).length + 1 =
        (vm.processes.filter (fun p => p.alive)).length := by
  obtain ⟨hl, hcur, hp, hget, halive⟩ := scheduled_some vm i proc hs
  obtain ⟨hr, o, ho⟩ := cell_at_pc vm.core proc.pc inst h hc
  obtain ⟨inst', vm1, vm', hr', he, hres, hcyc, hcore, hprocs, -⟩ :=
    ExecuteCycle_total vm i proc o h hs ho
  rw [hr] at hr'
  cases hr'
  have hk : vm1 = (vm.atCursor i).kill i := hres.2.2.2.1 (Or.inr hop)
  have hps : vm'.processes = vm.compacted.modify (fun p => { p with alive := false }) i := by
    rw [hprocs, hk]; rfl
  have hi : i < vm.compacted.length := by
    by_contra hcon
    rw [List.getElem?_eq_none (by omega)] at hget
    cases hget
  refine ⟨vm', hcyc, by rw [hcore, hk]; rfl, hps, ?_, ?_, ?_⟩
  · rw [hps, List.getElem?_modify_eq, hget]; rfl
  · intro j hj
    rw [hps, List.getElem?_modify]
    cases vm.compacted[j]? with
    | none => rfl
    | some q =>
      simp only [Option.map_eq_map, Option.map_some', Option.some.injEq]
      rw [if_neg (fun hx => hj hx.symm)]
  · rw [hps]
    exact alive_after_kill vm.compacted i hi (compacted_alive vm)

/-- C11 witness: in `datVM` the process of Red dies on the DAT of cell 0; the
process of Green is untouched and one alive process is left. -/
theorem C11_DAT_kills_process_witness :
    (datVM.ExecuteCycle.map fun vm => (vm.core == datVM.core, vm.processes)) =
        some (true, [{ warrior := warriorA, pc := 0, alive := false },
                     { warrior := warriorC, pc := 2, alive := true }]) ∧
      ∃ vm', datVM.ExecuteCycle = some vm' ∧ vm'.core = datVM.core ∧
        (vm'.processes.filter (fun p => p.alive)).length + 1 =
          (datVM.processes.filter (fun p => p.alive)).length := by
  refine ⟨by decide, ?_⟩
  obtain ⟨vm', h1, h2, -, -, -, h3⟩ :=
    C11_DAT_kills_process datVM 0 { warrior := warriorA, pc := 0, alive := true } datZero
      (by decide) (by decide) (by decide) rfl
  exact ⟨vm', h1, h2, h3⟩

/-! ## C12: DJN -/

theorem evaluate_congr_some (vm vmA vm₂ : VM) (pc : Int) (mode : AddressMode)
    (operand r : Int) (write : Bool) (hc : vm₂.core = vm.core)
    (he : vm.evaluate pc mode operand write = some (r, vmA)) :
    vm₂.evaluate pc mode operand write = some (r, { vm₂ with core := vmA.core }) := by
  rw [evaluate_core_congr vm vm₂ pc mode operand write hc, he]
  rfl

theorem djnValue_eq (b size : Int) (h0 : 0 < size)
    (hb0 : minInt < b) (hb1 : b - 1 + size ≤ maxInt) :
    djnValue b size = Int.tmod (b - 1 + size) size ∧
      (0 ≤ b - 1 + size → djnValue b size = (b - 1 + size) % size) := by
  unfold maxInt at hb1
  unfold minInt at hb0
  have e1 : goSub b 1 = b - 1 :=
    wrapInt_of_range (by unfold minInt; omega) (by unfold maxInt; omega)
  have e2 : goAdd (b - 1) size = b - 1 + size :=
    wrapInt_of_range (by unfold minInt; omega) (by unfold maxInt; omega)
  have hd : djnValue b size = Int.tmod (b - 1 + size) size := by
    unfold djnValue
    rw [e1, e2]
  refine ⟨hd, fun hnn => ?_⟩
  rw [hd, Int.tmod_eq_emod hnn (le_of_lt h0)]

/-- One cycle on DJN: the cycle returns.  With `src` the A operand evaluated with
`write = true` (state `vmA` afterwards) and `target` the B operand evaluated
with `write = false`: for an immediate A-mode the core is unchanged and the PC
becomes `(pc + 1) mod size`; otherwise the cell `Read(src)` gets the B field
`(B - 1 + size) % size` (Go arithmetic), its owner becomes the colour of the
warrior, nothing else in the core changes, and the PC becomes `target` exactly
when the new B field is 0 and `(pc + 1) mod size` otherwise. -/
theorem DJN_cycle (vm : VM) (i : Nat) (proc : Process) (o : WarriorColor) (inst : Instruction)
    (h : vm.core.WF) (hs : vm.scheduled = some (i, proc))
    (ho : idx? vm.core.owners proc.pc = some o)
    (hown : o = proc.warrior.Color ∨ o = WarriorColor.Empty)
    (hr : vm.core.Read proc.pc = some inst) (hop : inst.Op = OpCode.DJN) :
    ∃ src target vmA vm',
      vm.evaluate proc.pc inst.AMode inst.A true = some (src, vmA) ∧
      vmA.evaluate proc.pc inst.BMode inst.B false = some (target, vmA) ∧
      vm.ExecuteCycle = some vm' ∧
      (inst.AMode = AddressMode.IMMEDIATE →
        vm'.core = vm.core ∧
        vm'.processes =
          vm.compacted.modify (fun p => { p with pc := (proc.pc + 1) % vm.core.size }) i) ∧
      (inst.AMode ≠ AddressMode.IMMEDIATE →
        ∃ cell, vmA.core.Read src = some cell ∧
          vm'.core =
            { cells := vmA.core.cells.set (src % vm.core.size).toNat
                { cell with B := djnValue cell.B vm.core.size }
              owners := vmA.core.owners.set (src % vm.core.size).toNat proc.warrior.Color
              size := vm.core.size } ∧
          idx? vm'.core.cells (src % vm.core.size) =
            some { cell with B := djnValue cell.B vm.core.size } ∧
          idx? vm'.core.owners (src % vm.core.size) = some proc.warrior.Color ∧
          vm'.processes =
            vm.compacted.modify (fun p => { p with
              pc := if djnValue cell.B vm.core.size = 0 then target
                    else (proc.pc + 1) % vm.core.size }) i ∧
          (minInt < cell.B → cell.B - 1 + vm.core.size ≤ maxInt →
            djnValue cell.B vm.core.size = Int.tmod (cell.B - 1 + vm.core.size) vm.core.size ∧
            (0 ≤ cell.B - 1 + vm.core.size →
              djnValue cell.B vm.core.size = (cell.B - 1 + vm.core.size) % vm.core.size))) := by
  obtain ⟨src, vmA, heA, hfA⟩ := evaluate_total vm proc.pc inst.AMode inst.A true h
  obtain ⟨target, vmB, heB, hfB⟩ := evaluate_total vmA proc.pc inst.BMode inst.B false hfA.1
  rw [hfB.2.2.2.2 rfl] at heB
  have heA' := evaluate_congr_some vm vmA (vm.atCursor i) proc.pc inst.AMode inst.A src true
    rfl heA
  have heB' := evaluate_congr_some vmA vmA { vm.atCursor i with core := vmA.core } proc.pc
    inst.BMode inst.B target false rfl heB
  obtain ⟨vm1, vm', hex, hcyc, hcore, hprocs, -⟩ := cycle_execOp vm i proc o inst h hs ho hown hr
  unfold VM.execOp at hex
  rw [hop] at hex
  simp only [VM.execDJN, heA', heB', Option.bind_eq_bind, Option.some_bind] at hex
  refine ⟨src, target, vmA, vm', heA, heB, hcyc, ?_, ?_⟩
  · intro him
    rw [if_pos him] at hex
    cases hex
    have hvm : vmA = vm :=
      evaluate_no_update vm vmA proc.pc inst.AMode inst.A src true h
        (by rw [him]; exact ⟨by decide, by decide⟩) heA
    refine ⟨?_, ?_⟩
    · rw [hcore, ← hvm]; rfl
    · rw [hprocs]; rfl
  · intro him
    rw [if_neg him] at hex
    obtain ⟨cell, hrd, -⟩ := Read_eq vmA.core src hfA.1
    have hsz : vmA.core.size = vm.core.size := hfA.2.1
    have hweq := Write_eq vmA.core src { cell with B := djnValue cell.B vm.core.size }
      proc.warrior.Color hfA.1
    have hb : goRem (goAdd (goSub cell.B 1) vmA.core.size) vmA.core.size =
        some (djnValue cell.B vm.core.size) := by
      rw [hsz]; exact goRem_pos _ h.1
    have hrd' : Core.Read ({ vm.atCursor i with core := vmA.core } : VM).core src = some cell :=
      hrd
    obtain ⟨hk0, hk1⟩ := emod_range vmA.core src hfA.1
    rw [hsz] at hk0 hk1 hweq
    simp only [hrd, hb, hweq, Option.pure_def, Option.bind_eq_bind, Option.some_bind]
      at hex
    refine ⟨cell, hrd, ?_, ?_, ?_, ?_, ?_⟩
    · rw [hcore]
      by_cases hz : djnValue cell.B vm.core.size = 0
      · rw [if_pos hz] at hex; cases hex; rfl
      · rw [if_neg hz] at hex; cases hex; rfl
    · rw [hcore]
      have : vm1.core.cells = vmA.core.cells.set (src % vm.core.size).toNat
          { cell with B := djnValue cell.B vm.core.size } := by
        by_cases hz : djnValue cell.B vm.core.size = 0
        · rw [if_pos hz] at hex; cases hex; rfl
        · rw [if_neg hz] at hex; cases hex; rfl
      rw [this]
      exact idx?_set_self _ _ _ hk0 (by rw [hfA.1.2.2.1, hsz]; exact hk1)
    · rw [hcore]
      have : vm1.core.owners = vmA.core.owners.set (src % vm.core.size).toNat
          proc.warrior.Color := by
        by_cases hz : djnValue cell.B vm.core.size = 0
        · rw [if_pos hz] at hex; cases hex; rfl
        · rw [if_neg hz] at hex; cases hex; rfl
      rw [this]
      exact idx?_set_self _ _ _ hk0 (by rw [hfA.1.2.2.2, hsz]; exact hk1)
    · rw [hprocs]
      by_cases hz : djnValue cell.B vm.core.size = 0
      · rw [if_pos hz] at hex; cases hex; rw [if_pos hz]; rfl
      · rw [if_neg hz] at hex; cases hex; rw [if_neg hz]; rfl
    · intro hb0 hb1
      exact djnValue_eq cell.B vm.core.size h.1 hb0 hb1

/-- The cycle of `djnVM`: `DJN $2, $5` at 0 with B field 1 in cell 2: the field becomes
`(1 - 1 + 10) % 10 = 0`, the cell is owned by Red and the process jumps to 5. -/
theorem DJN_cycle_witness :
    (djnVM.ExecuteCycle.map fun vm =>
        (idx? vm.core.cells 2, idx? vm.core.owners 2, vm.processes.map fun p => p.pc)) =
        some (some datZero, some WarriorColor.Red, [5]) ∧
      ∃ src target vmA vm',
        djnVM.evaluate 0 AddressMode.DIRECT 2 true = some (src, vmA) ∧
        vmA.evaluate 0 AddressMode.DIRECT 5 false = some (target, vmA) ∧
        djnVM.ExecuteCycle = some vm' := by
  refine ⟨by decide, ?_⟩
  obtain ⟨src, target, vmA, vm', h1, h2, h3, -⟩ :=
    DJN_cycle djnVM 0 { warrior := warriorRed, pc := 0, alive := true } WarriorColor.Red
      { Op := .DJN, AMode := .DIRECT, BMode := .DIRECT, A := 2, B := 5 }
      (by decide) (by decide) (by decide) (by decide) (by decide) rfl
  exact ⟨src, target, vmA, vm', h1, h2, h3⟩

/-- C12 (the code departs): in a core of size 10, `DJN $1, $5` executed next to a
cell whose B field is -10 (`DAT #0, #-10`) stores (-10 - 1 + 10) % 10 = -1 in that
field, where `(B - 1 + size) mod size` is 9: Go's `%` truncates towards zero.
The cell is stamped with the colour of Red and the PC becomes 1. -/
theorem C12_DJN_negative_field :
    (djnNegVM.ExecuteCycle.map fun vm =>
        (idx? vm.core.cells 1, idx? vm.core.owners 1, vm.processes.map fun p => p.pc)) =
        some (some { Op := .DAT, AMode := .IMMEDIATE, BMode := .IMMEDIATE, A := 0, B := -1 },
          some WarriorColor.Red, [1]) ∧
      ((-10 : Int) - 1 + 10) % 10 = 9 := by
  decide

/-! ## C13: CMP -/

theorem skipPC_eq (pc size : Int) (h0 : 0 < size) (h1 : size ≤ maxInt) :
    goRem (goAdd ((pc + 1) % size) 1) size = some ((pc + 2) % size) := by
  have hr0 : 0 ≤ (pc + 1) % size := Int.emod_nonneg _ (ne_of_gt h0)
  have hr1 : (pc + 1) % size < size := Int.emod_lt_of_pos _ h0
  have e : goAdd ((pc + 1) % size) 1 = (pc + 1) % size + 1 :=
    wrapInt_of_range (by unfold minInt; omega) (by omega)
  rw [e, goRem_pos _ h0, Int.tmod_eq_emod (by omega) (le_of_lt h0)]
  congr 1
  rw [Int.emod_add_cancel_right 1 |>.mpr (Int.emod_emod_of_dvd (pc + 1) (dvd_refl size))]
  ring_nf

/-- C13 (CMP/SEQ): with both modes non-immediate the cycle returns, the core is
unchanged, and with `c1`, `c2` the cells read at the two evaluated operands
(`write = false`) the PC becomes `(pc + 2) mod size` when their B fields are
equal and `(pc + 1) mod size` otherwise. -/
theorem C13_CMP (vm : VM) (i : Nat) (proc : Process) (o : WarriorColor) (inst : Instruction)
    (h : vm.core.WF) (hs : vm.scheduled = some (i, proc))
    (ho : idx? vm.core.owners proc.pc = some o)
    (hown : o = proc.warrior.Color ∨ o = WarriorColor.Empty)
    (hr : vm.core.Read proc.pc = some inst) (hop : inst.Op = OpCode.CMP)
    (ha : inst.AMode ≠ AddressMode.IMMEDIATE) (hb : inst.BMode ≠ AddressMode.IMMEDIATE) :
    ∃ s1 s2 c1 c2 vm',
      vm.evaluate proc.pc inst.AMode inst.A false = some (s1, vm) ∧
      vm.evaluate proc.pc inst.BMode inst.B false = some (s2, vm) ∧
      vm.core.Read s1 = some c1 ∧ vm.core.Read s2 = some c2 ∧
      vm.ExecuteCycle = some vm' ∧ vm'.core = vm.core ∧
      vm'.processes =
        vm.compacted.modify (fun p => { p with
          pc := if c1.B = c2.B then (proc.pc + 2) % vm.core.size
                else (proc.pc + 1) % vm.core.size }) i := by
  obtain ⟨s1, vmA, heA, hfA⟩ := evaluate_total vm proc.pc inst.AMode inst.A false h
  rw [hfA.2.2.2.2 rfl] at heA
  obtain ⟨s2, vmB, heB, hfB⟩ := evaluate_total vm proc.pc inst.BMode inst.B false h
  rw [hfB.2.2.2.2 rfl] at heB
  have heA' := evaluate_congr_some vm vm (vm.atCursor i) proc.pc inst.AMode inst.A s1 false
    rfl heA
  have heB' := evaluate_congr_some vm vm (vm.atCursor i) proc.pc inst.BMode inst.B s2 false
    rfl heB
  obtain ⟨c1, hr1, -⟩ := Read_eq vm.core s1 h
  obtain ⟨c2, hr2, -⟩ := Read_eq vm.core s2 h
  obtain ⟨vm1, vm', hex, hcyc, hcore, hprocs, -⟩ := cycle_execOp vm i proc o inst h hs ho hown hr
  unfold VM.execOp at hex
  rw [hop] at hex
  have hself : ({ vm.atCursor i with core := vm.core } : VM) = vm.atCursor i := rfl
  rw [hself] at heA' heB'
  have hc1 : Core.Read (vm.atCursor i).core s1 = some c1 := hr1
  have hc2 : Core.Read (vm.atCursor i).core s2 = some c2 := hr2
  have hsk : goRem (goAdd ((proc.pc + 1) % vm.core.size) 1) (vm.atCursor i).core.size =
      some ((proc.pc + 2) % vm.core.size) := skipPC_eq proc.pc vm.core.size h.1 h.2.1
  simp only [VM.execCMP, VM.cmpEqual, heA', heB', Option.bind_eq_bind, Option.some_bind,
    ha, hb, false_and, if_false, hc1, hc2, Option.pure_def, hsk] at hex
  refine ⟨s1, s2, c1, c2, vm', heA, heB, hr1, hr2, hcyc, ?_, ?_⟩
  · rw [hcore]
    by_cases he : c1.B = c2.B
    · simp only [he, decide_True, if_true, Option.some_bind, Option.some.injEq] at hex
      rw [← hex]; rfl
    · simp only [he, decide_False, Bool.false_eq_true, if_false, Option.some.injEq] at hex
      rw [← hex]; rfl
  · rw [hprocs]
    by_cases he : c1.B = c2.B
    · simp only [he, decide_True, if_true, Option.some_bind, Option.some.injEq] at hex
      rw [← hex, if_pos he]; rfl
    · simp only [he, decide_False, Bool.false_eq_true, if_false, Option.some.injEq] at hex
      rw [← hex, if_neg he]; rfl

/-- C13 witness: `CMP $1, $2` at address 10, cells 11 and 12 equal in B: the
process continues at 12 and the core is unchanged. -/
theorem C13_CMP_witness :
    (cmpVM.ExecuteCycle.map fun vm => (vm.core == cmpVM.core, vm.processes.map fun p => p.pc)) =
        some (true, [12]) ∧
      ∃ s1 s2 c1 c2 vm',
        cmpVM.core.Read s1 = some c1 ∧ cmpVM.core.Read s2 = some c2 ∧
        cmpVM.ExecuteCycle = some vm' ∧ vm'.core = cmpVM.core ∧
        vm'.processes =
          cmpVM.compacted.modify (fun p => { p with
            pc := if c1.B = c2.B then (10 + 2) % cmpVM.core.size
                  else (10 + 1) % cmpVM.core.size }) 0 := by
  refine ⟨by decide, ?_⟩
  obtain ⟨s1, s2, c1, c2, vm', -, -, h3, h4, h5, h6, h7⟩ :=
    C13_CMP cmpVM 0 { warrior := warriorRed, pc := 10, alive := true } WarriorColor.Red cmpInst
      (by decide) (by decide) (by decide) (by decide) (by decide) rfl (by decide) (by decide)
  exact ⟨s1, s2, c1, c2, vm', h3, h4, h5, h6, h7⟩

/-! ## C14, C15: SPL -/

theorem modify_eq_take_cons_drop {α : Type} (f : α → α) (xs : List α) (i : Nat) (x : α)
    (h : xs[i]? = some x) : xs.modify f i = xs.take i ++ f x :: xs.drop (i + 1) := by
  induction xs generalizing i with
  | nil => simp at h
  | cons a rest ih =>
    cases i with
    | zero =>
      simp only [List.getElem?_cons_zero, Option.some.injEq] at h
      subst h
      simp
    | succ k =>
      simp only [List.getElem?_cons_succ] at h
      simp only [List.modify_succ_cons, List.take_succ_cons, List.drop_succ_cons,
        List.cons_append, ih k h]

/-- The list `execSPL` builds below the cap: the parent with its new PC, the
child right after it. -/
theorem insertAfter_modify (ps : List Process) (i : Nat) (proc np : Process) (pc : Int)
    (h : ps[i]? = some proc) :
    insertAfter (ps.modify (fun p => { p with pc := pc }) i) 0 (i : Int) np =
      ps.take i ++ { proc with pc := pc } :: np :: ps.drop (i + 1) := by
  have hi : i < ps.length := by
    by_contra hcon
    rw [List.getElem?_eq_none (by omega)] at h
    cases h
  have hm := modify_eq_take_cons_drop (fun p : Process => { p with pc := pc }) ps i proc h
  have hlen : i < (ps.modify (fun p => { p with pc := pc }) i).length := by simpa using hi
  have he := insertAfter_eq (ps.modify (fun p => { p with pc := pc }) i) 0 i np hlen
  rw [Int.zero_add] at he
  rw [he, hm]
  have h1 : (ps.take i).length = i := by simp; omega
  have ht : (ps.take i ++ { proc with pc := pc } :: ps.drop (i + 1)).take (i + 1) =
      ps.take i ++ [{ proc with pc := pc }] := by
    rw [List.take_append_eq_append_take, h1]
    simp [List.take_of_length_le (le_of_eq h1 |>.trans (Nat.le_succ i))]
  have hd : (ps.take i ++ { proc with pc := pc } :: ps.drop (i + 1)).drop (i + 1) =
      ps.drop (i + 1) := by
    rw [List.drop_append_eq_append_drop, h1]
    simp [List.drop_of_length_le (le_of_eq h1 |>.trans (Nat.le_succ i))]
  rw [ht, hd]
  simp

/-- One cycle in which the scheduled process executes SPL below the cap. -/
theorem cycle_SPL (vm : VM) (i : Nat) (proc : Process) (o : WarriorColor) (inst : Instruction)
    (h : vm.core.WF) (hs : vm.scheduled = some (i, proc))
    (ho : idx? vm.core.owners proc.pc = some o)
    (hown : o = proc.warrior.Color ∨ o = WarriorColor.Empty)
    (hr : vm.core.Read proc.pc = some inst) (hop : inst.Op = OpCode.SPL)
    (hc : processCount vm.processes proc.warrior < 64) :
    ∃ target vm',
      vm.evaluate proc.pc inst.AMode inst.A false = some (target, vm) ∧
      vm.ExecuteCycle = some vm' ∧ vm'.core = vm.core ∧
      vm'.processes =
        vm.compacted.take i ++
          { proc with pc := (proc.pc + 1) % vm.core.size } ::
          { warrior := proc.warrior, pc := target, alive := true } ::
          vm.compacted.drop (i + 1) ∧
      goRem (goAdd i 1) vm'.processes.length = some vm'.current := by
  obtain ⟨hl, hcur, hp, hget, halive⟩ := scheduled_some vm i proc hs
  obtain ⟨target, vmA, heA, hfA⟩ := evaluate_total vm proc.pc inst.AMode inst.A false h
  rw [hfA.2.2.2.2 rfl] at heA
  have heA' := evaluate_congr_some vm vm (vm.atCursor i) proc.pc inst.AMode inst.A target false
    rfl heA
  have hself : ({ vm.atCursor i with core := vm.core } : VM) = vm.atCursor i := rfl
  rw [hself] at heA'
  obtain ⟨vm1, vm', hex, hcyc, hcore, hprocs, hnext⟩ :=
    cycle_execOp vm i proc o inst h hs ho hown hr
  unfold VM.execOp at hex
  rw [hop] at hex
  have hcnt : ¬ processCount (vm.atCursor i).processes proc.warrior ≥ 64 := by
    have : (vm.atCursor i).processes = vm.compacted := rfl
    rw [this, processCount_compacted]
    omega
  simp only [VM.execSPL, heA', Option.bind_eq_bind, Option.some_bind, if_neg hcnt,
    Option.pure_def, Option.some.injEq] at hex
  have hps : vm1.processes =
      insertAfter (vm.compacted.modify (fun p => { p with pc := (proc.pc + 1) % vm.core.size })
        i) 0 (i : Int) { warrior := proc.warrior, pc := target, alive := true } := by
    rw [← hex]; rfl
  rw [insertAfter_modify vm.compacted i proc _ _ hget] at hps
  refine ⟨target, vm', heA, hcyc, ?_, ?_, ?_⟩
  · rw [hcore, ← hex]; rfl
  · rw [hprocs, hps]
  · rw [hprocs]; exact hnext

/-- C14 (SPL insertion point): when the process at index `i` of the compacted
list executes SPL while its warrior has fewer than 64 alive processes, the cycle
returns, the core is unchanged, and the new process list is the compacted list
with the PC of the parent set to `(pc + 1) mod size` and one new process (same
warrior, `pc = evaluate(pc, AMode, A, false)`, alive) inserted at index `i + 1`;
all other entries keep their order. -/
theorem C14_SPL_insertion (vm : VM) (i : Nat) (proc : Process) (o : WarriorColor)
    (inst : Instruction) (h : vm.core.WF) (hs : vm.scheduled = some (i, proc))
    (ho : idx? vm.core.owners proc.pc = some o)
    (hown : o = proc.warrior.Color ∨ o = WarriorColor.Empty)
    (hr : vm.core.Read proc.pc = some inst) (hop : inst.Op = OpCode.SPL)
    (hc : processCount vm.processes proc.warrior < 64) :
    ∃ target vm',
      vm.evaluate proc.pc inst.AMode inst.A false = some (target, vm) ∧
      vm.ExecuteCycle = some vm' ∧ vm'.core = vm.core ∧
      vm'.processes =
        vm.compacted.take i ++
          { warrior := proc.warrior, pc := (proc.pc + 1) % vm.core.size, alive := true } ::
          { warrior := proc.warrior, pc := target, alive := true } ::
          vm.compacted.drop (i + 1) ∧
      vm.compacted = vm.compacted.take i ++ proc :: vm.compacted.drop (i + 1) ∧
      vm'.processes.length = vm.compacted.length + 1 ∧
      vm'.processes[i + 1]? = some { warrior := proc.warrior, pc := target, alive := true } := by
  obtain ⟨hl, hcur, hp, hget, halive⟩ := scheduled_some vm i proc hs
  obtain ⟨target, vm', heA, hcyc, hcore, hps, -⟩ :=
    cycle_SPL vm i proc o inst h hs ho hown hr hop hc
  have hi : i < vm.compacted.length := by
    by_contra hcon
    rw [List.getElem?_eq_none (by omega)] at hget
    cases hget
  have hpar : ({ proc with pc := (proc.pc + 1) % vm.core.size } : Process) =
      { warrior := proc.warrior, pc := (proc.pc + 1) % vm.core.size, alive := true } := by
    rw [← halive]
  rw [hpar] at hps
  have hsplit : vm.compacted = vm.compacted.take i ++ proc :: vm.compacted.drop (i + 1) := by
    have := modify_eq_take_cons_drop id vm.compacted i proc hget
    simpa using this
  have h1 : (vm.compacted.take i).length = i := by simp; omega
  refine ⟨target, vm', heA, hcyc, hcore, hps, hsplit, ?_, ?_⟩
  · rw [hps]
    simp only [List.length_append, List.length_cons, List.length_take, List.length_drop]
    omega
  · rw [hps, List.getElem?_append_right (by omega), h1]
    simp

/-- C14 witness: in `splLatencyVM` the process of Red at index 0 executes
`SPL $2`; the child (PC 2) is inserted at index 1, in front of the process of
Green. -/
theorem C14_SPL_insertion_witness :
    (splLatencyVM.ExecuteCycle.map fun vm => vm.processes) =
        some [{ warrior := warriorA, pc := 1, alive := true },
              { warrior := warriorA, pc := 2, alive := true },
              { warrior := warriorC, pc := 4, alive := true }] ∧
      ∃ target vm',
        splLatencyVM.ExecuteCycle = some vm' ∧ vm'.core = splLatencyVM.core ∧
        vm'.processes.length = splLatencyVM.compacted.length + 1 ∧
        vm'.processes[0 + 1]? = some { warrior := warriorA, pc := target, alive := true } := by
  refine ⟨by decide, ?_⟩
  obtain ⟨target, vm', -, h2, h3, -, -, h6, h7⟩ :=
    C14_SPL_insertion splLatencyVM 0 { warrior := warriorA, pc := 0, alive := true }
      WarriorColor.Red splTwo
      (by decide) (by decide) (by decide) (by decide) (by decide) rfl (by decide)
  exact ⟨target, vm', h2, h3, h6, h7⟩

/-- C15 counterexample: in `splLatencyVM` Red executes `SPL $2` while the process
of Green is alive.  The next cycle executes the child (PC 2), the one after
it the process of Green: the child did not wait for Green. -/
theorem C15_counterexample_child_runs_first :
    splLatencyVM.scheduled = some (0, { warrior := warriorA, pc := 0, alive := true }) ∧
      splLatencyVM.core.Read 0 = some splTwo ∧
      ∃ vm', splLatencyVM.ExecuteCycle = some vm' ∧
        vm'.trace 2 = [{ warrior := warriorA, pc := 2, alive := true },
                       { warrior := warriorC, pc := 4, alive := true }] ∧
        ¬ ChildWaits (vm'.trace 2) { warrior := warriorA, pc := 2, alive := true }
            [{ warrior := warriorC, pc := 4, alive := true }] := by
  refine ⟨by decide, by decide, _, rfl, by decide, ?_⟩
  intro hw
  have hq := hw 0 (by decide) { warrior := warriorC, pc := 4, alive := true }
    (List.mem_singleton.mpr rfl)
  simp at hq

/-- C15 (amended): after a successful SPL the child is the process the next cycle
executes: it is scheduled at index `i + 1`, directly after its parent and before
every other process of the list. -/
theorem C15_SPL_child_runs_next (vm : VM) (i : Nat) (proc : Process) (o : WarriorColor)
    (inst : Instruction) (h : vm.core.WF) (hs : vm.scheduled = some (i, proc))
    (ho : idx? vm.core.owners proc.pc = some o)
    (hown : o = proc.warrior.Color ∨ o = WarriorColor.Empty)
    (hr : vm.core.Read proc.pc = some inst) (hop : inst.Op = OpCode.SPL)
    (hc : processCount vm.processes proc.warrior < 64)
    (hlen : (vm.processes.length : Int) ≤ maxInt) :
    ∃ target vm',
      vm.evaluate proc.pc inst.AMode inst.A false = some (target, vm) ∧
      vm.ExecuteCycle = some vm' ∧
      vm'.scheduled = some (i + 1, { warrior := proc.warrior, pc := target, alive := true }) := by
  obtain ⟨hl, hcur, hp, hget, halive⟩ := scheduled_some vm i proc hs
  obtain ⟨target, vm', heA, hcyc, hcore, hps, hnext⟩ :=
    cycle_SPL vm i proc o inst h hs ho hown hr hop hc
  have hi : i < vm.compacted.length := by
    by_contra hcon
    rw [List.getElem?_eq_none (by omega)] at hget
    cases hget
  have hle : vm.compacted.length ≤ vm.processes.length := by
    unfold VM.compacted; exact List.length_filter_le _ _
  have h1 : (vm.compacted.take i).length = i := by simp; omega
  have hlen' : vm'.processes.length = vm.compacted.length + 1 := by
    rw [hps]
    simp only [List.length_append, List.length_cons, List.length_take, List.length_drop]
    omega
  have hall : ∀ p ∈ vm'.processes, p.alive = true := by
    intro p hp'
    rw [hps] at hp'
    simp only [List.mem_append, List.mem_cons] at hp'
    rcases hp' with hm | hm | hm | hm
    · exact compacted_alive vm p (List.mem_of_mem_take hm)
    · rw [hm]; exact halive
    · rw [hm]
    · exact compacted_alive vm p (List.mem_of_mem_drop hm)
  have hcomp : vm'.compacted = vm'.processes := by
    unfold VM.compacted
    exact List.filter_eq_self.mpr (by simpa using hall)
  have hadd : goAdd (i : Int) 1 = (i : Int) + 1 :=
    wrapInt_of_range (by unfold minInt; omega) (by omega)
  rw [hadd, hlen', goRem_of_nonneg (by omega) (by omega)] at hnext
  have hmod : ((i : Int) + 1) % ((vm.compacted.length + 1 : Nat) : Int) = (i : Int) + 1 :=
    Int.emod_eq_of_lt (by omega) (by push_cast; omega)
  rw [hmod] at hnext
  simp only [Option.some.injEq] at hnext
  have hchild : vm'.processes[i + 1]? =
      some { warrior := proc.warrior, pc := target, alive := true } := by
    rw [hps, List.getElem?_append_right (by omega), h1]
    simp
  refine ⟨target, vm', heA, hcyc, ?_⟩
  unfold VM.scheduled
  rw [hcomp, if_neg (by omega), ← hnext, hlen', goRem_of_nonneg (by omega) (by omega), hmod]
  have hidx : idx? vm'.processes ((i : Int) + 1) =
      some { warrior := proc.warrior, pc := target, alive := true } := by
    rw [idx?_eq_some_iff]
    refine ⟨by omega, ?_⟩
    have : ((i : Int) + 1).toNat = i + 1 := by omega
    rw [this]; exact hchild
  simp only [Option.bind_eq_bind, Option.some_bind, hidx, Option.pure_def]
  congr 2

/-- C15 witness: in `splLatencyVM` the child of the SPL of Red is scheduled next,
at index 1. -/
theorem C15_SPL_child_runs_next_witness :
    ((splLatencyVM.ExecuteCycle.bind VM.scheduled).map fun r => (r.1, r.2.pc)) = some (1, 2) ∧
      ∃ target vm',
        splLatencyVM.ExecuteCycle = some vm' ∧
        vm'.scheduled = some (0 + 1, { warrior := warriorA, pc := target, alive := true }) := by
  refine ⟨by decide, ?_⟩
  obtain ⟨target, vm', -, h2, h3⟩ :=
    C15_SPL_child_runs_next splLatencyVM 0 { warrior := warriorA, pc := 0, alive := true }
      WarriorColor.Red splTwo
      (by decide) (by decide) (by decide) (by decide) (by decide) rfl (by decide) (by decide)
  exact ⟨target, vm', h2, h3⟩

/-! ## C16 to C19: the two passes of `Parse` -/

/-- The second loop of `Parse` returns the nil slice whenever it returns an error,
and a slice whenever it returns none. -/
theorem secondPass_err (a : Assembler) (lines : List (List Char)) (lineNum : Int)
    (instructions : List Instruction) :
    ((a.secondPass lines lineNum instructions).err ≠ none →
        (a.secondPass lines lineNum instructions).instructions = none) ∧
      ((a.secondPass lines lineNum instructions).err = none →
        (a.secondPass lines lineNum instructions).instructions ≠ none) := by
  induction lines generalizing lineNum instructions with
  | nil => simp [Assembler.secondPass]
  | cons line rest ih =>
    unfold Assembler.secondPass
    simp only
    by_cases h1 : TrimSpace line = [] ∨ HasPrefix (TrimSpace line) [';'] = true
    · rw [if_pos h1]; exact ih _ _
    · rw [if_neg h1]
      generalize (if Contains (TrimSpace line) ':' = true
        then TrimSpace (SplitN2 (TrimSpace line) ':').2 else TrimSpace line) = body
      by_cases h2 : Contains (TrimSpace line) ':' = true ∧ body = []
      · rw [if_pos h2]; exact ih _ _
      · rw [if_neg h2]
        cases a.parseInstruction body lineNum with
        | error e => simp
        | ok inst =>
          simp only
          by_cases h3 : inst.Op ≠ OpCode.NOP
          · rw [if_pos h3]; exact ih _ _
          · rw [if_neg h3]; exact ih _ _

/-- C16 (the code departs): in `nopLabelSource` the label `target` marks the
instruction emitted at output index 0 and is referenced by the instruction emitted
at output index 1, so the operand should be `0 - 1`; `Parse` accepts the source and
emits `JMP $0`, because the first pass counted the `NOP` line (label value 1)
that the second pass does not emit. -/
theorem C16_label_offset_counts_NOP_line :
    NewAssembler.Parse nopLabelSource =
        { instructions := some [instOf .DAT,
            { Op := .JMP, AMode := .DIRECT, BMode := .IMMEDIATE, A := 0, B := 0 }],
          err := none } ∧
      (NewAssembler.firstPass (Split nopLabelSource '\n')).labels = [("target".toList, 1)] := by
  decide

/-- C17 (the code departs): `nopMovSource` has two instruction lines, `NOP 0, 0` and
`MOV 0, 1`; `Parse` accepts it and returns one instruction, the `MOV`. -/
theorem C17_NOP_line_not_emitted :
    Split nopMovSource '\n' = ["NOP 0, 0".toList, "MOV 0, 1".toList] ∧
      NewAssembler.Parse nopMovSource =
        { instructions :=
            some [{ Op := .MOV, AMode := .DIRECT, BMode := .DIRECT, A := 0, B := 1 }],
          err := none } := by
  decide

/-- C18 (the code departs): in `commentThenBadSource` the line that fails is line 2
(line 1 is a comment); the error of `Parse` carries the line number 1, the number
of instructions emitted so far plus one. -/
theorem C18_error_line_counts_instructions :
    Split commentThenBadSource '\n' = ["; comment".toList, "FOO 1, 2".toList] ∧
      NewAssembler.parseInstruction "FOO 1, 2".toList 0 =
        .error (.unknownOpcode "FOO".toList) ∧
      NewAssembler.Parse commentThenBadSource =
        { instructions := none,
          err := some { line := 1, cause := .unknownOpcode "FOO".toList } } :=
  ⟨by decide, rfl, by decide⟩

/-- C19 (no partial result): if `Parse` returns an error, the slice it returns is
nil; and `LoadWarriorFromSource`, which parses with a new assembler, then returns
no warrior together with that same error. -/
theorem C19_no_partial_result (a : Assembler) (source : List Char) (e : ParseError)
    (ref : Nat) (name : String) (color : WarriorColor) :
    ((a.Parse source).err = some e → (a.Parse source).instructions = none) ∧
      ((NewAssembler.Parse source).err = some e →
        LoadWarriorFromSource ref name source color = (none, some e)) := by
  refine ⟨fun h => ?_, fun h => ?_⟩
  · unfold Assembler.Parse at h ⊢
    exact (secondPass_err _ _ _ _).1 (by rw [h]; simp)
  · unfold LoadWarriorFromSource
    simp only [h]

/-- C19 witness: in `goodThenBadSource` the first line assembles and the second
fails; `Parse` returns the nil slice and the error, `LoadWarriorFromSource` no
warrior and the error. -/
theorem C19_no_partial_result_witness :
    (NewAssembler.Parse goodThenBadSource).err =
        some { line := 2, cause := .unknownOpcode "FOO".toList } ∧
      (NewAssembler.Parse goodThenBadSource).instructions = none ∧
      LoadWarriorFromSource 1 "w" goodThenBadSource WarriorColor.Red =
        (none, some { line := 2, cause := .unknownOpcode "FOO".toList }) :=
  ⟨by decide,
    (C19_no_partial_result NewAssembler goodThenBadSource
      { line := 2, cause := .unknownOpcode "FOO".toList } 1 "w" WarriorColor.Red).1 (by decide),
    (C19_no_partial_result NewAssembler goodThenBadSource
      { line := 2, cause := .unknownOpcode "FOO".toList } 1 "w" WarriorColor.Red).2 (by decide)⟩

/-! ## Go strings: tokens -/

theorem split_no_sep (s : List Char) (sep : Char) (h : sep ∉ s) : Split s sep = [s] := by
  induction s with
  | nil => rfl
  | cons c cs ih =>
    simp only [List.mem_cons, not_or] at h
    unfold Split
    rw [if_neg (fun hc => h.1 hc.symm), ih h.2]

theorem trimSpace_eq_self (s : List Char)
    (hh : ∀ c, s.head? = some c → isSpace c = false)
    (hl : ∀ c, s.getLast? = some c → isSpace c = false) : TrimSpace s = s := by
  cases s with
  | nil => rfl
  | cons c r =>
    unfold TrimSpace
    rw [List.dropWhile_cons_of_neg (by simp [hh c rfl])]
    cases hrev : (c :: r).reverse with
    | nil => simp at hrev
    | cons l t =>
      have hlast : (c :: r).getLast? = some l := by
        rw [List.getLast?_eq_head?_reverse, hrev]; rfl
      rw [List.dropWhile_cons_of_neg (by simp [hl l hlast]), ← hrev, List.reverse_reverse]

theorem fieldsAux_nil (cur : List Char) :
    fieldsAux [] cur = if cur = [] then [] else [cur.reverse] := rfl

theorem fieldsAux_cons (c : Char) (cs cur : List Char) :
    fieldsAux (c :: cs) cur =
      if isSpace c then
        if cur = [] then fieldsAux cs [] else cur.reverse :: fieldsAux cs []
      else fieldsAux cs (c :: cur) := rfl

theorem fieldsAux_append_tok (t rest cur : List Char) (ht : ∀ c ∈ t, isSpace c = false) :
    fieldsAux (t ++ rest) cur = fieldsAux rest (t.reverse ++ cur) := by
  induction t generalizing cur with
  | nil => rfl
  | cons c t ih =>
    have hc : isSpace c = false := ht c (List.mem_cons_self _ _)
    show fieldsAux (c :: (t ++ rest)) cur = _
    rw [fieldsAux_cons, if_neg (by simp [hc]), ih _ (fun d hd => ht d (List.mem_cons_of_mem _ hd))]
    simp

theorem fieldsAux_operandText (xs : List (List Char)) (cur : List Char) (hcur : cur ≠ [])
    (hne : ∀ x ∈ xs, x ≠ []) (hsp : ∀ x ∈ xs, ∀ c ∈ x, isSpace c = false) :
    fieldsAux (operandText xs) cur = cur.reverse :: xs := by
  induction xs generalizing cur with
  | nil =>
    unfold operandText
    rw [fieldsAux_nil, if_neg hcur]
  | cons x xs ih =>
    unfold operandText
    have hsp' : isSpace ' ' = true := by decide
    rw [fieldsAux_cons, if_pos hsp', if_neg hcur,
      fieldsAux_append_tok x _ _ (hsp x (List.mem_cons_self _ _)),
      ih _ (by simpa using hne x (List.mem_cons_self _ _))
        (fun y hy => hne y (List.mem_cons_of_mem _ hy))
        (fun y hy => hsp y (List.mem_cons_of_mem _ hy))]
    simp

theorem fields_line (op : List Char) (xs : List (List Char)) (hop : op ≠ [])
    (hops : ∀ c ∈ op, isSpace c = false)
    (hne : ∀ x ∈ xs, x ≠ []) (hsp : ∀ x ∈ xs, ∀ c ∈ x, isSpace c = false) :
    Fields (op ++ operandText xs) = op :: xs := by
  unfold Fields
  rw [fieldsAux_append_tok op _ _ hops, fieldsAux_operandText xs _ (by simpa using hop) hne hsp]
  simp

theorem mem_operandText (xs : List (List Char)) (c : Char) (h : c ∈ operandText xs) :
    c = ' ' ∨ ∃ x ∈ xs, c ∈ x := by
  induction xs with
  | nil => simp [operandText] at h
  | cons x xs ih =>
    unfold operandText at h
    simp only [List.mem_cons, List.mem_append] at h
    rcases h with h | h | h
    · exact Or.inl h
    · exact Or.inr ⟨x, List.mem_cons_self _ _, h⟩
    · rcases ih h with h' | ⟨y, hy, hc⟩
      · exact Or.inl h'
      · exact Or.inr ⟨y, List.mem_cons_of_mem _ hy, hc⟩

theorem last_operandText (xs : List (List Char)) (pre : List Char) (hpre : pre ≠ [])
    (hne : ∀ x ∈ xs, x ≠ []) (c : Char) (h : (pre ++ operandText xs).getLast? = some c) :
    pre.getLast? = some c ∨ ∃ x ∈ xs, x.getLast? = some c := by
  induction xs generalizing pre with
  | nil =>
    left
    simpa [operandText] using h
  | cons x xs ih =>
    have hx : x ≠ [] := hne x (List.mem_cons_self _ _)
    have e : pre ++ operandText (x :: xs) = (pre ++ ' ' :: x) ++ operandText xs := by
      simp [operandText]
    rw [e] at h
    rcases ih (pre ++ ' ' :: x) (by simp) (fun y hy => hne y (List.mem_cons_of_mem _ hy)) h
      with h' | ⟨y, hy, hc⟩
    · right
      refine ⟨x, List.mem_cons_self _ _, ?_⟩
      rw [← h']
      rw [show pre ++ ' ' :: x = (pre ++ [' ']) ++ x by simp]
      rw [List.getLast?_append_of_ne_nil _ hx]
    · exact Or.inr ⟨y, List.mem_cons_of_mem _ hy, hc⟩

/-! ## Integer operands -/

theorem getLast?_cons_ne_nil {α : Type} (a : α) (r : List α) (h : r ≠ []) :
    (a :: r).getLast? = r.getLast? := by
  cases r with
  | nil => exact absurd rfl h
  | cons b t => exact List.getLast?_cons_cons

theorem signOf_cases (s : List Char) :
    signOf s = (false, s) ∨ (∃ r, s = '+' :: r ∧ signOf s = (false, r)) ∨
      (∃ r, s = '-' :: r ∧ signOf s = (true, r)) := by
  unfold signOf
  split
  · exact Or.inr (Or.inl ⟨_, rfl, rfl⟩)
  · exact Or.inr (Or.inr ⟨_, rfl, rfl⟩)
  · exact Or.inl rfl

/-- The characters of a text `Atoi` accepts: a sign or a digit. -/
theorem atoi_chars (x : List Char) (v : Int) (h : Atoi x = some v) :
    x ≠ [] ∧
      (∀ c ∈ x, c.toNat = 43 ∨ c.toNat = 45 ∨ (48 ≤ c.toNat ∧ c.toNat ≤ 57)) ∧
      (∀ c, x.getLast? = some c → 48 ≤ c.toNat ∧ c.toNat ≤ 57) := by
  unfold Atoi at h
  simp only at h
  split at h
  · cases h
  · next hcond =>
    simp only [not_or, not_not] at hcond
    obtain ⟨hne, hall⟩ := hcond
    have hd : ∀ c ∈ (signOf x).2, 48 ≤ c.toNat ∧ c.toNat ≤ 57 := by
      intro c hc
      have := List.all_eq_true.mp hall c hc
      simpa [isDecimalDigit] using this
    have hlast : ∀ c, (signOf x).2.getLast? = some c → 48 ≤ c.toNat ∧ c.toNat ≤ 57 :=
      fun c hc => hd c (List.mem_of_getLast?_eq_some hc)
    rcases signOf_cases x with hs | ⟨r, hx, hs⟩ | ⟨r, hx, hs⟩
    · rw [hs] at hne hd hlast
      exact ⟨hne, fun c hc => Or.inr (Or.inr (hd c hc)), hlast⟩
    · rw [hs] at hne hd hlast
      subst hx
      refine ⟨by simp, ?_, ?_⟩
      · intro c hc
        rcases List.mem_cons.mp hc with rfl | hc
        · exact Or.inl rfl
        · exact Or.inr (Or.inr (hd c hc))
      · intro c hc
        rw [getLast?_cons_ne_nil _ _ hne] at hc
        exact hlast c hc
    · rw [hs] at hne hd hlast
      subst hx
      refine ⟨by simp, ?_, ?_⟩
      · intro c hc
        rcases List.mem_cons.mp hc with rfl | hc
        · exact Or.inr (Or.inl rfl)
        · exact Or.inr (Or.inr (hd c hc))
      · intro c hc
        rw [getLast?_cons_ne_nil _ _ hne] at hc
        exact hlast c hc

theorem numChar_plain (c : Char)
    (h : c.toNat = 43 ∨ c.toNat = 45 ∨ (48 ≤ c.toNat ∧ c.toNat ≤ 57)) :
    isSpace c = false ∧ c ≠ ':' ∧ c ≠ ';' ∧ c ≠ ',' ∧ c ≠ '#' ∧ c ≠ '$' ∧ c ≠ '@' ∧
      c ≠ '<' ∧ c ≠ '>' := by
  refine ⟨?_, ?_, ?_, ?_, ?_, ?_, ?_, ?_, ?_⟩
  · unfold isSpace
    simp only [Bool.or_eq_false_iff, Bool.and_eq_false_iff, decide_eq_false_iff_not]
    omega
  all_goals
    intro hc
    subst hc
    revert h
    decide

theorem modePrefix_int (x : List Char)
    (h : ∀ c ∈ x, c.toNat = 43 ∨ c.toNat = 45 ∨ (48 ≤ c.toNat ∧ c.toNat ≤ 57)) :
    modePrefix x = (AddressMode.DIRECT, x) := by
  unfold modePrefix
  split
  · exact absurd rfl (numChar_plain _ (h _ (List.mem_cons_self _ _))).2.2.2.2.1
  · exact absurd rfl (numChar_plain _ (h _ (List.mem_cons_self _ _))).2.2.2.2.2.1
  · exact absurd rfl (numChar_plain _ (h _ (List.mem_cons_self _ _))).2.2.2.2.2.2.1
  · exact absurd rfl (numChar_plain _ (h _ (List.mem_cons_self _ _))).2.2.2.2.2.2.2.1
  · exact absurd rfl (numChar_plain _ (h _ (List.mem_cons_self _ _))).2.2.2.2.2.2.2.2
  · rfl

/-- An integer operand parses, with a new assembler, to the direct mode and its
value. -/
theorem parseOperand_int (x : List Char) (v n : Int) (h : Atoi x = some v) :
    NewAssembler.parseOperand (TrimSuffix x ',') n = .ok (AddressMode.DIRECT, v) := by
  obtain ⟨hne, hall, hlast⟩ := atoi_chars x v h
  have hts : TrimSuffix x ',' = x := by
    unfold TrimSuffix
    rw [if_neg]
    intro hc
    have := hlast _ hc
    revert this
    decide
  have htr : TrimSpace x = x := by
    apply trimSpace_eq_self
    · intro c hc
      exact (numChar_plain c (hall c (List.mem_of_mem_head? hc))).1
    · intro c hc
      exact (numChar_plain c (hall c (List.mem_of_getLast?_eq_some hc))).1
  unfold Assembler.parseOperand
  simp only [hts, htr, modePrefix_int x hall, h]
  rfl

/-! ## C20: one-line sources -/

/-- What the two passes see of a one-line source `OP x1 ... xk`. -/
theorem line_facts (op : List Char) (xs : List (List Char)) (hop : op ≠ [])
    (hopc : ∀ c ∈ op, isSpace c = false ∧ c ≠ ':' ∧ c ≠ ';')
    (hxs : ∀ x ∈ xs, ∃ v, Atoi x = some v) :
    Split (op ++ operandText xs) '\n' = [op ++ operandText xs] ∧
      TrimSpace (op ++ operandText xs) = op ++ operandText xs ∧
      op ++ operandText xs ≠ [] ∧
      HasPrefix (op ++ operandText xs) [';'] = false ∧
      Contains (op ++ operandText xs) ':' = false ∧
      (op ++ operandText xs).takeWhile (fun c => c != ';') = op ++ operandText xs ∧
      Fields (op ++ operandText xs) = op :: xs := by
  have hxc : ∀ x ∈ xs, ∀ c ∈ x, isSpace c = false ∧ c ≠ ':' ∧ c ≠ ';' := by
    intro x hx c hc
    obtain ⟨v, hv⟩ := hxs x hx
    have := numChar_plain c ((atoi_chars x v hv).2.1 c hc)
    exact ⟨this.1, this.2.1, this.2.2.1⟩
  have hxne : ∀ x ∈ xs, x ≠ [] := by
    intro x hx
    obtain ⟨v, hv⟩ := hxs x hx
    exact (atoi_chars x v hv).1
  have hmem : ∀ c ∈ op ++ operandText xs,
      c = ' ' ∨ (isSpace c = false ∧ c ≠ ':' ∧ c ≠ ';') := by
    intro c hc
    rcases List.mem_append.mp hc with h | h
    · exact Or.inr (hopc c h)
    · rcases mem_operandText xs c h with h' | ⟨x, hx, hcx⟩
      · exact Or.inl h'
      · exact Or.inr (hxc x hx c hcx)
  have hne : op ++ operandText xs ≠ [] := by simp [hop]
  obtain ⟨c0, r0, hc0⟩ := List.exists_cons_of_ne_nil hop
  refine ⟨?_, ?_, hne, ?_, ?_, ?_, ?_⟩
  · apply split_no_sep
    intro hc
    rcases hmem _ hc with h | h
    · revert h; decide
    · have h1 := h.1
      revert h1; decide
  · apply trimSpace_eq_self
    · intro c hc
      rw [List.head?_append_of_ne_nil _ hop] at hc
      exact (hopc c (List.mem_of_mem_head? hc)).1
    · intro c hc
      rcases last_operandText xs op hop hxne c hc with h | ⟨x, hx, h⟩
      · exact (hopc c (List.mem_of_getLast?_eq_some h)).1
      · exact (hxc x hx c (List.mem_of_getLast?_eq_some h)).1
  · subst hc0
    have : c0 ≠ ';' := (hopc c0 (List.mem_cons_self _ _)).2.2
    simp [HasPrefix, List.isPrefixOf, Ne.symm this]
  · unfold Contains
    rw [Bool.eq_false_iff]
    intro hc
    have hc' : ':' ∈ op ++ operandText xs := by simpa using hc
    rcases hmem _ hc' with h | h
    · revert h; decide
    · exact h.2.1 rfl
  · rw [List.takeWhile_eq_self_iff]
    intro c hc
    rcases hmem _ hc with h | h
    · subst h; decide
    · simpa using h.2.2
  · exact fields_line op xs hop (fun c hc => (hopc c hc).1) hxne
      (fun x hx c hc => (hxc x hx c hc).1)

/-- On a one-line source `OP x1 ... xk` the result of `Parse` is decided by
`parseInstruction` on that line. -/
theorem parse_line (op : List Char) (xs : List (List Char)) (hop : op ≠ [])
    (hopc : ∀ c ∈ op, isSpace c = false ∧ c ≠ ':' ∧ c ≠ ';')
    (hxs : ∀ x ∈ xs, ∃ v, Atoi x = some v) :
    NewAssembler.Parse (op ++ operandText xs) =
      match NewAssembler.parseInstruction (op ++ operandText xs) 0 with
      | .error e => { instructions := none, err := some { line := goAdd 0 1, cause := e } }
      | .ok inst =>
        { instructions := some (if inst.Op ≠ OpCode.NOP then [inst] else []), err := none } := by
  obtain ⟨h1, h2, h3, h4, h5, h6, h7⟩ := line_facts op xs hop hopc hxs
  have hfirst : NewAssembler.firstPass [op ++ operandText xs] = NewAssembler := by
    unfold Assembler.firstPass
    simp only [List.foldl_cons, List.foldl_nil, Assembler.firstPassLine, h2, h3, h4, h5,
      false_or, Bool.false_eq_true, if_false]
    split <;> rfl
  unfold Assembler.Parse
  simp only [h1, hfirst]
  unfold Assembler.secondPass
  simp only [h2, h3, h4, h5, false_or, Bool.false_eq_true, if_false, false_and]
  cases NewAssembler.parseInstruction (op ++ operandText xs) 0 with
  | error e => rfl
  | ok inst =>
    simp only
    by_cases hn : inst.Op ≠ OpCode.NOP
    · rw [if_pos hn, if_pos hn]; rfl
    · rw [if_neg hn, if_neg hn]; rfl

theorem parseInstruction_line (op : List Char) (xs : List (List Char)) (hop : op ≠ [])
    (hopc : ∀ c ∈ op, isSpace c = false ∧ c ≠ ':' ∧ c ≠ ';')
    (hxs : ∀ x ∈ xs, ∃ v, Atoi x = some v) :
    NewAssembler.parseInstruction (op ++ operandText xs) 0 =
      if ToUpper op = "END".toList then .ok (instOf .NOP)
      else
        match opOf (ToUpper op) with
        | none => .error (.unknownOpcode op)
        | some .DAT => NewAssembler.parseDAT (instOf .DAT) xs 0
        | some .JMP => NewAssembler.parseOne (instOf .JMP) op xs 0
        | some .SPL => NewAssembler.parseOne (instOf .SPL) op xs 0
        | some o => NewAssembler.parseTwo (instOf o) op xs 0 := by
  obtain ⟨h1, h2, h3, h4, h5, h6, h7⟩ := line_facts op xs hop hopc hxs
  unfold Assembler.parseInstruction
  simp only [h6, h2, h7]
  by_cases he : ToUpper op = "END".toList
  · rw [if_pos he, if_pos he]
  · rw [if_neg he, if_neg he]
    unfold parseOpCode
    cases opOf (ToUpper op) with
    | none => rfl
    | some o => cases o <;> rfl

theorem parseDAT_int (inst : Instruction) (xs : List (List Char))
    (hxs : ∀ x ∈ xs, ∃ v, Atoi x = some v) :
    ∃ r, NewAssembler.parseDAT inst xs 0 = .ok r := by
  unfold Assembler.parseDAT
  match xs, hxs with
  | [], _ => exact ⟨_, rfl⟩
  | [x1], hxs =>
    obtain ⟨v1, h1⟩ := hxs x1 (by simp)
    simp only [parseOperand_int x1 v1 0 h1]
    exact ⟨_, rfl⟩
  | x1 :: x2 :: rest, hxs =>
    obtain ⟨v1, h1⟩ := hxs x1 (by simp)
    obtain ⟨v2, h2⟩ := hxs x2 (by simp)
    simp only [parseOperand_int x1 v1 0 h1, parseOperand_int x2 v2 0 h2]
    exact ⟨_, rfl⟩

theorem parseOne_int (inst : Instruction) (op : List Char) (xs : List (List Char))
    (hxs : ∀ x ∈ xs, ∃ v, Atoi x = some v) :
    (∃ r, NewAssembler.parseOne inst op xs 0 = .ok r) ↔ 1 ≤ xs.length := by
  unfold Assembler.parseOne
  match xs, hxs with
  | [], _ => simp
  | x1 :: rest, hxs =>
    obtain ⟨v1, h1⟩ := hxs x1 (by simp)
    simp only [parseOperand_int x1 v1 0 h1]
    simp

theorem parseTwo_int (inst : Instruction) (op : List Char) (xs : List (List Char))
    (hxs : ∀ x ∈ xs, ∃ v, Atoi x = some v) :
    (∃ r, NewAssembler.parseTwo inst op xs 0 = .ok r) ↔ 2 ≤ xs.length := by
  unfold Assembler.parseTwo
  match xs, hxs with
  | [], _ => simp [splitFused]
  | [x1], hxs =>
    obtain ⟨v1, h1⟩ := hxs x1 (by simp)
    have hc : Contains x1 ',' = false := by
      unfold Contains
      rw [Bool.eq_false_iff]
      intro hc
      have hc' : ',' ∈ x1 := by simpa using hc
      exact (numChar_plain _ ((atoi_chars x1 v1 h1).2.1 _ hc')).2.2.2.1 rfl
    simp [splitFused, hc]
  | x1 :: x2 :: rest, hxs =>
    obtain ⟨v1, h1⟩ := hxs x1 (by simp)
    obtain ⟨v2, h2⟩ := hxs x2 (by simp)
    simp only [splitFused, parseOperand_int x1 v1 0 h1, parseOperand_int x2 v2 0 h2]
    simp
    exact ⟨_, rfl⟩

/-- C20 (amended): for a one-line source `OP x1 ... xk` whose `OP` is a token
(not empty, without white space, `:` or `;`) and whose `k ≤ 2` operands are
integers `strconv.Atoi` accepts, `Parse` with a new assembler succeeds if and only
if `OP`, upper-cased, is END or DAT, or is JMP or SPL with `k ≥ 1`, or is one of
MOV, ADD, SUB, JMZ, JMN, DJN, CMP, SEQ, NOP with `k = 2`; so every other token
yields an error. -/
theorem C20_operand_count (op : List Char) (xs : List (List Char)) (hop : op ≠ [])
    (hopc : ∀ c ∈ op, isSpace c = false ∧ c ≠ ':' ∧ c ≠ ';')
    (hint : ∀ x ∈ xs, (Atoi x).isSome = true) (hk : xs.length ≤ 2) :
    (NewAssembler.Parse (op ++ operandText xs)).err = none ↔
      (ToUpper op = "END".toList ∨ ToUpper op = "DAT".toList ∨
        ((ToUpper op = "JMP".toList ∨ ToUpper op = "SPL".toList) ∧ 1 ≤ xs.length) ∨
        (ToUpper op ∈ ["MOV".toList, "ADD".toList, "SUB".toList, "JMZ".toList, "JMN".toList,
            "DJN".toList, "CMP".toList, "SEQ".toList, "NOP".toList] ∧ xs.length = 2)) := by
  have hxs : ∀ x ∈ xs, ∃ v, Atoi x = some v :=
    fun x hx => Option.isSome_iff_exists.mp (hint x hx)
  have hparse : (NewAssembler.Parse (op ++ operandText xs)).err = none ↔
      ∃ r, NewAssembler.parseInstruction (op ++ operandText xs) 0 = .ok r := by
    rw [parse_line op xs hop hopc hxs]
    cases NewAssembler.parseInstruction (op ++ operandText xs) 0 with
    | error e => simp
    | ok inst => simp
  rw [hparse, parseInstruction_line op xs hop hopc hxs]
  have hD := parseDAT_int (instOf .DAT) xs hxs
  have hO := fun inst => parseOne_int inst op xs hxs
  have hT := fun inst => parseTwo_int inst op xs hxs
  have h2 : 2 ≤ xs.length ↔ xs.length = 2 := by omega
  generalize ToUpper op = u
  by_cases h : u = "END".toList
  · subst h; simp
  by_cases h1 : u = "DAT".toList
  · subst h1
    rw [if_neg (by decide), show opOf "DAT".toList = some .DAT by rfl]
    simpa using hD
  by_cases h3 : u = "JMP".toList
  · subst h3
    rw [if_neg (by decide), show opOf "JMP".toList = some .JMP by rfl]
    simp only [hO]
    simp +decide
  by_cases h4 : u = "SPL".toList
  · subst h4
    rw [if_neg (by decide), show opOf "SPL".toList = some .SPL by rfl]
    simp only [hO]
    simp +decide
  by_cases h5 : u = "MOV".toList
  · subst h5
    rw [if_neg (by decide), show opOf "MOV".toList = some .MOV by rfl]
    simp only [hT, h2]
    simp +decide
  by_cases h6 : u = "ADD".toList
  · subst h6
    rw [if_neg (by decide), show opOf "ADD".toList = some .ADD by rfl]
    simp only [hT, h2]
    simp +decide
  by_cases h7 : u = "SUB".toList
  · subst h7
    rw [if_neg (by decide), show opOf "SUB".toList = some .SUB by rfl]
    simp only [hT, h2]
    simp +decide
  by_cases h8 : u = "JMZ".toList
  · subst h8
    rw [if_neg (by decide), show opOf "JMZ".toList = some .JMZ by rfl]
    simp only [hT, h2]
    simp +decide
  by_cases h9 : u = "JMN".toList
  · subst h9
    rw [if_neg (by decide), show opOf "JMN".toList = some .JMN by rfl]
    simp only [hT, h2]
    simp +decide
  by_cases h10 : u = "DJN".toList
  · subst h10
    rw [if_neg (by decide), show opOf "DJN".toList = some .DJN by rfl]
    simp only [hT, h2]
    simp +decide
  by_cases h11 : u = "CMP".toList
  · subst h11
    rw [if_neg (by decide), show opOf "CMP".toList = some .CMP by rfl]
    simp only [hT, h2]
    simp +decide
  by_cases h12 : u = "SEQ".toList
  · subst h12
    rw [if_neg (by decide), show opOf "SEQ".toList = some .CMP by rfl]
    simp only [hT, h2]
    simp +decide
  by_cases h13 : u = "NOP".toList
  · subst h13
    rw [if_neg (by decide), show opOf "NOP".toList = some .NOP by rfl]
    simp only [hT, h2]
    simp +decide
  · have hnone : opOf u = none := by
      unfold opOf
      simp only [h1, h3, h4, h5, h6, h7, h8, h9, h10, h11, h12, h13, if_false, or_self]
    rw [if_neg h, hnone]
    constructor
    · rintro ⟨r, hr⟩
      cases hr
    · intro hx
      exfalso
      simp only [List.mem_cons, List.mem_singleton, List.not_mem_nil, h, h1, h3, h4, h5, h6,
        h7, h8, h9, h10, h11, h12, h13, false_or, or_false, false_and, or_self] at hx

/-- C20 counterexample: the one-line source `END` (no operand) is accepted, with an
empty result, although END is none of the opcodes for which the claim says that
`Parse` succeeds. -/
theorem C20_counterexample_END :
    NewAssembler.Parse ("END".toList ++ operandText []) =
        { instructions := some [], err := none } ∧
      ¬ (ToUpper "END".toList = "DAT".toList ∨
        ((ToUpper "END".toList = "JMP".toList ∨ ToUpper "END".toList = "SPL".toList) ∧
          1 ≤ ([] : List (List Char)).length) ∨
        (ToUpper "END".toList ∈ ["MOV".toList, "ADD".toList, "SUB".toList, "JMZ".toList,
            "JMN".toList, "DJN".toList, "CMP".toList, "SEQ".toList, "NOP".toList] ∧
          ([] : List (List Char)).length = 2)) := by
  decide

/-- C20 witness: `mov 0 1` is accepted, `mov 7` and `FOO 0 1` are not. -/
theorem C20_operand_count_witness :
    (NewAssembler.Parse ("mov".toList ++ operandText ["0".toList, "1".toList])).err = none ∧
      (NewAssembler.Parse ("mov".toList ++ operandText ["7".toList])).err ≠ none ∧
      (NewAssembler.Parse ("FOO".toList ++ operandText ["0".toList, "1".toList])).err ≠ none :=
  ⟨(C20_operand_count "mov".toList ["0".toList, "1".toList] (by decide) (by decide) (by decide)
      (by decide)).mpr (by decide),
    fun h => absurd ((C20_operand_count "mov".toList ["7".toList] (by decide) (by decide)
      (by decide) (by decide)).mp h) (by decide),
    fun h => absurd ((C20_operand_count "FOO".toList ["0".toList, "1".toList] (by decide)
      (by decide) (by decide) (by decide)).mp h) (by decide)⟩

/-! ## C21: the B operand of a short DAT -/

theorem opOf_DAT : opOf "DAT".toList = some OpCode.DAT := rfl

/-- C21 counterexample: the one-line sources `DAT` and `DAT #5` assemble to
instructions whose B-mode is IMMEDIATE, the zero value of `AddressMode`, not
DIRECT. -/
theorem C21_counterexample_DAT_BMode :
    NewAssembler.Parse "DAT".toList =
        { instructions := some [{ Op := .DAT, AMode := .IMMEDIATE, BMode := .IMMEDIATE,
                                  A := 0, B := 0 }],
          err := none } ∧
      NewAssembler.Parse "DAT #5".toList =
        { instructions := some [{ Op := .DAT, AMode := .IMMEDIATE, BMode := .IMMEDIATE,
                                  A := 5, B := 0 }],
          err := none } ∧
      AddressMode.IMMEDIATE ≠ AddressMode.DIRECT := by
  decide

/-- C21 (amended): a line whose tokens are `DAT` (in any case) and at most one
operand assembles to an instruction with `B = 0` and B-mode IMMEDIATE: without
operand to `DAT #0, #0`, with an operand that parses to mode `m` and value `v`
to the DAT with that A operand; and whenever `parseInstruction` accepts such a
line the result has opcode DAT, B-mode IMMEDIATE and `B = 0`. -/
theorem C21_DAT_default_B (a : Assembler) (line t0 : List Char) (ts : List (List Char))
    (n : Int)
    (hF : Fields (TrimSpace (line.takeWhile (fun c => c != ';'))) = t0 :: ts)
    (hdat : ToUpper t0 = "DAT".toList) (hk : ts.length ≤ 1) :
    (ts = [] → a.parseInstruction line n = .ok (instOf .DAT)) ∧
      (∀ t1 m v, ts = [t1] → a.parseOperand (TrimSuffix t1 ',') n = .ok (m, v) →
        a.parseInstruction line n =
          .ok { Op := .DAT, AMode := m, BMode := .IMMEDIATE, A := v, B := 0 }) ∧
      (∀ inst, a.parseInstruction line n = .ok inst →
        inst.Op = OpCode.DAT ∧ inst.BMode = AddressMode.IMMEDIATE ∧ inst.B = 0) := by
  have hne : ¬ ToUpper t0 = "END".toList := by rw [hdat]; decide
  have hpi : a.parseInstruction line n = a.parseDAT (instOf .DAT) ts n := by
    unfold Assembler.parseInstruction
    simp only [hF]
    rw [if_neg hne]
    simp only [parseOpCode, hdat, opOf_DAT]
  rw [hpi]
  match ts, hk with
  | [], _ =>
    have h0 : a.parseDAT (instOf .DAT) [] n = .ok (instOf .DAT) := rfl
    rw [h0]
    refine ⟨fun _ => rfl, ?_, ?_⟩
    · intro t1 m v h
      exact absurd h (by simp)
    · intro inst h
      simp only [Except.ok.injEq] at h
      rw [← h]
      exact ⟨rfl, rfl, rfl⟩
  | [t1], _ =>
    have hok : ∀ m v, a.parseOperand (TrimSuffix t1 ',') n = .ok (m, v) →
        a.parseDAT (instOf .DAT) [t1] n =
          .ok { Op := .DAT, AMode := m, BMode := .IMMEDIATE, A := v, B := 0 } := by
      intro m v hp
      unfold Assembler.parseDAT
      simp only [hp]
      rfl
    have herr : ∀ e, a.parseOperand (TrimSuffix t1 ',') n = .error e →
        a.parseDAT (instOf .DAT) [t1] n = .error e := by
      intro e hp
      unfold Assembler.parseDAT
      simp only [hp]
      rfl
    refine ⟨fun h => absurd h (by simp), ?_, ?_⟩
    · intro t1' m v h hp
      simp only [List.cons.injEq, and_true] at h
      subst h
      exact hok m v hp
    · intro inst h
      cases hp : a.parseOperand (TrimSuffix t1 ',') n with
      | error e =>
        rw [herr e hp] at h
        cases h
      | ok mv =>
        rw [hok mv.1 mv.2 hp] at h
        simp only [Except.ok.injEq] at h
        rw [← h]
        exact ⟨rfl, rfl, rfl⟩
  | _ :: _ :: _, hk => simp at hk

/-- C21 witness: the line `dat @7` with a new assembler. -/
theorem C21_DAT_default_B_witness :
    NewAssembler.parseInstruction "dat @7".toList 0 =
        .ok { Op := .DAT, AMode := .INDIRECT, BMode := .IMMEDIATE, A := 7, B := 0 } ∧
      NewAssembler.parseInstruction "dat".toList 0 = .ok (instOf .DAT) :=
  ⟨(C21_DAT_default_B NewAssembler "dat @7".toList "dat".toList ["@7".toList] 0
      (by decide) (by decide) (by decide)).2.1 "@7".toList AddressMode.INDIRECT 7 rfl rfl,
    (C21_DAT_default_B NewAssembler "dat".toList "dat".toList [] 0
      (by decide) (by decide) (by decide)).1 rfl⟩

/-! ## C22: fused operands -/

/-- C22 (the code departs): `DAT #0, #0` assembles; the fused form `DAT #0,#0` is
rejected, because only the `default` branch of `parseInstruction` splits a fused
token: the DAT branch hands `#0,#0` to `parseOperand`.  The fused `MOV #0,#1`
assembles to the same result as `MOV #0, #1`. -/
theorem C22_fused_DAT_rejected :
    NewAssembler.Parse "DAT #0, #0".toList =
        { instructions := some [datZero], err := none } ∧
      NewAssembler.Parse "DAT #0,#0".toList =
        { instructions := none,
          err := some { line := 1, cause := .invalidOperand "0,#0".toList } } ∧
      NewAssembler.Parse "MOV #0,#1".toList = NewAssembler.Parse "MOV #0, #1".toList ∧
      (NewAssembler.Parse "MOV #0, #1".toList).err = none := by
  decide

/-! ## C23: the END directive -/

/-- C23 counterexample: in the source `MOV 0, 1` / `END` / `FOO` the line after
END makes `Parse` fail, and in `MOV 0, 1` / `END` / `ADD 1, 2` the line after END
is emitted; the lines before END alone assemble to the one `MOV`. -/
theorem C23_counterexample_lines_after_END :
    NewAssembler.Parse "MOV 0, 1".toList =
        { instructions :=
            some [{ Op := .MOV, AMode := .DIRECT, BMode := .DIRECT, A := 0, B := 1 }],
          err := none } ∧
      NewAssembler.Parse "MOV 0, 1\nEND\nFOO".toList =
        { instructions := none,
          err := some { line := 2, cause := .unknownOpcode "FOO".toList } } ∧
      NewAssembler.Parse "MOV 0, 1\nEND\nADD 1, 2".toList =
        { instructions :=
            some [{ Op := .MOV, AMode := .DIRECT, BMode := .DIRECT, A := 0, B := 1 },
                  { Op := .ADD, AMode := .DIRECT, BMode := .DIRECT, A := 1, B := 2 }],
          err := none } := by
  decide

theorem fieldsAux_spaces (sp x : List Char) (h : ∀ c ∈ sp, isSpace c = true) :
    fieldsAux (sp ++ x) [] = fieldsAux x [] := by
  induction sp with
  | nil => rfl
  | cons c sp ih =>
    show fieldsAux (c :: (sp ++ x)) [] = _
    rw [fieldsAux_cons, if_pos (h c (List.mem_cons_self _ _)), if_pos rfl,
      ih (fun d hd => h d (List.mem_cons_of_mem _ hd))]

/-- The first field of a text: leading white space, then the field, then nothing
or white space. -/
theorem fields_first (sp tok rest : List Char) (hsp : ∀ c ∈ sp, isSpace c = true)
    (htok : ∀ c ∈ tok, isSpace c = false) (hne : tok ≠ [])
    (hrest : rest = [] ∨ ∃ c r, rest = c :: r ∧ isSpace c = true) :
    Fields (sp ++ (tok ++ rest)) = tok :: Fields rest := by
  unfold Fields
  rw [fieldsAux_spaces sp _ hsp, fieldsAux_append_tok tok rest [] htok]
  have hcur : tok.reverse ++ [] ≠ [] := by simpa using hne
  rcases hrest with h | ⟨c, r, h, hc⟩
  · subst h
    rw [fieldsAux_nil, if_neg hcur]
    simp [fieldsAux_nil]
  · subst h
    rw [fieldsAux_cons, if_pos hc, if_neg hcur, fieldsAux_cons, if_pos hc, if_pos rfl]
    simp

theorem split_token (s : List Char) :
    ∃ sp tok rest, s = sp ++ (tok ++ rest) ∧ (∀ c ∈ sp, isSpace c = true) ∧
      (∀ c ∈ tok, isSpace c = false) ∧
      (rest = [] ∨ ∃ c r, rest = c :: r ∧ isSpace c = true) ∧ (tok = [] → rest = []) := by
  refine ⟨s.takeWhile isSpace, (s.dropWhile isSpace).takeWhile (fun c => !isSpace c),
    (s.dropWhile isSpace).dropWhile (fun c => !isSpace c), ?_, ?_, ?_, ?_, ?_⟩
  · rw [List.takeWhile_append_dropWhile, List.takeWhile_append_dropWhile]
  · intro c hc
    exact List.mem_takeWhile_imp hc
  · intro c hc
    simpa using List.mem_takeWhile_imp hc
  · cases hr : (s.dropWhile isSpace).dropWhile (fun c => !isSpace c) with
    | nil => exact Or.inl rfl
    | cons c r =>
      right
      refine ⟨c, r, rfl, ?_⟩
      have := List.head?_dropWhile_not (fun c => !isSpace c) (s.dropWhile isSpace)
      rw [hr] at this
      simpa using this
  · intro ht
    cases hs : s.dropWhile isSpace with
    | nil => rfl
    | cons c r =>
      exfalso
      have h1 := List.head?_dropWhile_not isSpace s
      rw [hs] at h1 ht
      simp only [List.head?_cons] at h1
      rw [List.takeWhile_cons_of_pos (by simp [h1])] at ht
      cases ht

theorem fields_cons_decomp (s t : List Char) (ts : List (List Char))
    (h : Fields s = t :: ts) :
    ∃ sp rest, s = sp ++ (t ++ rest) ∧ (∀ c ∈ sp, isSpace c = true) ∧
      (∀ c ∈ t, isSpace c = false) ∧ t ≠ [] ∧
      (rest = [] ∨ ∃ c r, rest = c :: r ∧ isSpace c = true) := by
  obtain ⟨sp, tok, rest, hs, hsp, htok, hrest, hnil⟩ := split_token s
  by_cases ht : tok = []
  · exfalso
    rw [hs, ht, hnil ht] at h
    unfold Fields at h
    rw [fieldsAux_spaces sp _ hsp] at h
    cases h
  · rw [hs, fields_first sp tok rest hsp htok ht hrest] at h
    simp only [List.cons.injEq] at h
    obtain ⟨rfl, -⟩ := h
    exact ⟨sp, rest, hs, hsp, htok, ht, hrest⟩

theorem trimSpace_first (sp tok rest : List Char) (hsp : ∀ c ∈ sp, isSpace c = true)
    (htok : ∀ c ∈ tok, isSpace c = false) (hne : tok ≠ [])
    (hrest : rest = [] ∨ ∃ c r, rest = c :: r ∧ isSpace c = true) :
    ∃ rest', TrimSpace (sp ++ (tok ++ rest)) = tok ++ rest' ∧
      (rest' = [] ∨ ∃ c r, rest' = c :: r ∧ isSpace c = true) := by
  obtain ⟨c0, t0, rfl⟩ := List.exists_cons_of_ne_nil hne
  have h1 : (sp ++ (c0 :: t0 ++ rest)).dropWhile isSpace = c0 :: t0 ++ rest := by
    rw [List.dropWhile_append_of_pos hsp]
    exact List.dropWhile_cons_of_neg (by simp [htok c0 (List.mem_cons_self _ _)])
  have h2 : (c0 :: t0).reverse.dropWhile isSpace = (c0 :: t0).reverse := by
    cases hr : (c0 :: t0).reverse with
    | nil => simp at hr
    | cons d ds =>
      have hd : d ∈ c0 :: t0 := by
        rw [← List.mem_reverse, hr]; exact List.mem_cons_self _ _
      exact List.dropWhile_cons_of_neg (by simp [htok d hd])
  have h3 : ((c0 :: t0 ++ rest).reverse.dropWhile isSpace).reverse =
      c0 :: t0 ++ (rest.reverse.dropWhile isSpace).reverse := by
    rw [List.reverse_append, List.dropWhile_append]
    split
    · next he =>
      rw [h2]
      have : rest.reverse.dropWhile isSpace = [] := by simpa using he
      rw [this]; simp
    · simp
  refine ⟨(rest.reverse.dropWhile isSpace).reverse, ?_, ?_⟩
  · unfold TrimSpace
    rw [h1, h3]
  · have hp : (rest.reverse.dropWhile isSpace).reverse <+: rest := by
      have := @List.dropWhile_suffix _ rest.reverse isSpace
      rw [← List.reverse_prefix, List.reverse_reverse] at this
      exact this
    rcases hrest with h | ⟨c, r, h, hc⟩
    · subst h
      left
      simp
    · subst h
      rcases List.prefix_cons_iff.mp hp with h' | ⟨t, h', -⟩
      · exact Or.inl h'
      · exact Or.inr ⟨c, t, h', hc⟩

/-- A line whose first field is END (in any case) parses to the marker
`Instruction{Op: NOP}`. -/
theorem parseInstruction_END (a : Assembler) (line t : List Char) (ts : List (List Char))
    (n : Int) (hF : Fields line = t :: ts) (hE : ToUpper t = "END".toList) :
    a.parseInstruction line n = .ok (instOf .NOP) := by
  obtain ⟨sp, rest, hs, hsp, htok, hne, hrest⟩ := fields_cons_decomp line t ts hF
  have hsemi : ∀ c, isSpace c = true → (c != ';') = true := by
    intro c hc
    simp only [bne_iff_ne, ne_eq]
    rintro rfl
    revert hc; decide
  have htsemi : ∀ c ∈ t, (c != ';') = true := by
    intro c hc
    simp only [bne_iff_ne, ne_eq]
    rintro rfl
    have : upperRune ';' ∈ ToUpper t := List.mem_map_of_mem _ hc
    rw [hE] at this
    revert this; decide
  have hcut : line.takeWhile (fun c => c != ';') =
      sp ++ (t ++ rest.takeWhile (fun c => c != ';')) := by
    rw [hs, List.takeWhile_append_of_pos (fun c hc => hsemi c (hsp c hc)),
      List.takeWhile_append_of_pos htsemi]
  have hrest1 : rest.takeWhile (fun c => c != ';') = [] ∨
      ∃ c r, rest.takeWhile (fun c => c != ';') = c :: r ∧ isSpace c = true := by
    rcases hrest with h | ⟨c, r, h, hc⟩
    · subst h; exact Or.inl rfl
    · subst h
      right
      exact ⟨c, _, List.takeWhile_cons_of_pos (hsemi c hc), hc⟩
  obtain ⟨rest', htrim, hrest'⟩ := trimSpace_first sp t _ hsp htok hne hrest1
  have hfields : Fields (TrimSpace (line.takeWhile (fun c => c != ';'))) =
      t :: Fields rest' := by
    rw [hcut, htrim]
    exact fields_first [] t rest' (by simp) htok hne hrest'
  unfold Assembler.parseInstruction
  simp only [hfields]
  rw [if_pos hE]

theorem mem_trimSpace (s : List Char) (c : Char) (h : c ∈ TrimSpace s) : c ∈ s := by
  unfold TrimSpace at h
  rw [List.mem_reverse] at h
  have h1 := (List.dropWhile_sublist isSpace).mem h
  rw [List.mem_reverse] at h1
  exact (List.dropWhile_sublist isSpace).mem h1

theorem firstPassLine_END (st : Assembler × Int) (e : List Char)
    (hend : isEND (Fields (TrimSpace e)) = true) : Assembler.firstPassLine st e = st := by
  unfold Assembler.firstPassLine
  simp only [hend, if_true, ite_self]

theorem secondPass_END_line (a : Assembler) (e : List Char) (post : List (List Char))
    (n : Int) (acc : List Instruction)
    (hend : isEND (Fields (TrimSpace e)) = true) (hcolon : Contains e ':' = false) :
    a.secondPass (e :: post) n acc = a.secondPass post n acc := by
  have hc : Contains (TrimSpace e) ':' = false := by
    unfold Contains at hcolon ⊢
    rw [Bool.eq_false_iff] at hcolon ⊢
    intro h
    apply hcolon
    have h' : ':' ∈ TrimSpace e := by simpa using h
    simpa using mem_trimSpace e ':' h'
  have hp : a.parseInstruction (TrimSpace e) n = .ok (instOf .NOP) := by
    cases hf : Fields (TrimSpace e) with
    | nil => rw [hf] at hend; cases hend
    | cons t ts =>
      rw [hf] at hend
      exact parseInstruction_END a _ t ts n hf (by simpa [isEND] using hend)
  rw [Assembler.secondPass]
  simp only [hc, Bool.false_eq_true, if_false, false_and, hp]
  by_cases h1 : TrimSpace e = [] ∨ HasPrefix (TrimSpace e) [';'] = true
  · rw [if_pos h1]
  · rw [if_neg h1]
    rfl

theorem secondPass_skip (a : Assembler) (pre post : List (List Char)) (e : List Char)
    (n : Int) (acc : List Instruction)
    (hend : isEND (Fields (TrimSpace e)) = true) (hcolon : Contains e ':' = false) :
    a.secondPass (pre ++ e :: post) n acc = a.secondPass (pre ++ post) n acc := by
  induction pre generalizing n acc with
  | nil => exact secondPass_END_line a e post n acc hend hcolon
  | cons line rest ih =>
    show a.secondPass (line :: (rest ++ e :: post)) n acc =
      a.secondPass (line :: (rest ++ post)) n acc
    rw [Assembler.secondPass, Assembler.secondPass]
    simp only
    by_cases h1 : TrimSpace line = [] ∨ HasPrefix (TrimSpace line) [';'] = true
    · rw [if_pos h1, if_pos h1]; exact ih _ _
    · rw [if_neg h1, if_neg h1]
      generalize (if Contains (TrimSpace line) ':' = true
        then TrimSpace (SplitN2 (TrimSpace line) ':').2 else TrimSpace line) = body
      by_cases h2 : Contains (TrimSpace line) ':' = true ∧ body = []
      · rw [if_pos h2, if_pos h2]; exact ih _ _
      · rw [if_neg h2, if_neg h2]
        cases a.parseInstruction body n with
        | error err => rfl
        | ok inst =>
          simp only
          by_cases h3 : inst.Op ≠ OpCode.NOP
          · rw [if_pos h3, if_pos h3]; exact ih _ _
          · rw [if_neg h3, if_neg h3]; exact ih _ _

/-- C23 (amended): a line whose first token is END (in any case) and that
contains no `:` is skipped: `Parse` returns for the source exactly what it
returns for the source without that line.  The lines after it are assembled as
the lines before it are. -/
theorem C23_END_line_is_skipped (a : Assembler) (source source' e : List Char)
    (pre post : List (List Char))
    (hs : Split source '\n' = pre ++ e :: post) (hs' : Split source' '\n' = pre ++ post)
    (hend : isEND (Fields (TrimSpace e)) = true) (hcolon : Contains e ':' = false) :
    a.Parse source = a.Parse source' := by
  unfold Assembler.Parse
  simp only [hs, hs']
  have hfirst : a.firstPass (pre ++ e :: post) = a.firstPass (pre ++ post) := by
    unfold Assembler.firstPass
    rw [List.foldl_append, List.foldl_append, List.foldl_cons, firstPassLine_END _ e hend]
  rw [hfirst]
  exact secondPass_skip _ pre post e 0 [] hend hcolon

/-- C23 witness: `MOV 0, 1` / `end` / `ADD 1, 2` assembles to what `MOV 0, 1` /
`ADD 1, 2` assembles to, two instructions. -/
theorem C23_END_line_is_skipped_witness :
    NewAssembler.Parse "MOV 0, 1\nend\nADD 1, 2".toList =
        NewAssembler.Parse "MOV 0, 1\nADD 1, 2".toList ∧
      (NewAssembler.Parse "MOV 0, 1\nADD 1, 2".toList).instructions =
        some [{ Op := .MOV, AMode := .DIRECT, BMode := .DIRECT, A := 0, B := 1 },
              { Op := .ADD, AMode := .DIRECT, BMode := .DIRECT, A := 1, B := 2 }] :=
  ⟨C23_END_line_is_skipped NewAssembler "MOV 0, 1\nend\nADD 1, 2".toList
      "MOV 0, 1\nADD 1, 2".toList "end".toList ["MOV 0, 1".toList] ["ADD 1, 2".toList]
      (by decide) (by decide) (by decide) (by decide),
    by decide⟩

/-! ## C25: inline comments -/

/-- C25 (the code departs): `MOV 0, 1` assembles to one instruction; with the
inline comment ` ; note: x` appended the line is rejected: both loops of `Parse`
look for `:` before the comment is removed, take `MOV 0, 1 ; note` for a label
and `x` for the instruction. -/
theorem C25_comment_with_colon_changes_result :
    NewAssembler.Parse "MOV 0, 1".toList =
        { instructions :=
            some [{ Op := .MOV, AMode := .DIRECT, BMode := .DIRECT, A := 0, B := 1 }],
          err := none } ∧
      NewAssembler.Parse "MOV 0, 1 ; note: x".toList =
        { instructions := none,
          err := some { line := 1, cause := .unknownOpcode "x".toList } } ∧
      NewAssembler.Parse "MOV 0, 1 ; note".toList = NewAssembler.Parse "MOV 0, 1".toList := by
  decide

/-! ## C26: Write and Read -/

/-- C26 (Write/Read frame): on a core with size > 0 and both slices of length
`size`, `Write(a, inst, owner)` returns a core of the same size with both slices
still of length `size`; afterwards `Read(a')` returns `inst` when
`normalize(a') = normalize(a)` and what it returned before the write otherwise;
the owner tag at `normalize(a)` is `owner` and the owner tags (and cells) at all
other addresses are unchanged.  `Read` returns a cell and no core: it changes
neither slice. -/
theorem C26_Write_Read_frame (c : Core) (a : Int) (inst : Instruction) (owner : WarriorColor)
    (h : c.WF) :
    ∃ c', c.Write a inst owner = some c' ∧
      c'.size = c.size ∧ (c'.cells.length : Int) = c.size ∧
      (c'.owners.length : Int) = c.size ∧
      (∀ a', c.normalize a' = c.normalize a → c'.Read a' = some inst) ∧
      (∀ a', c.normalize a' ≠ c.normalize a → c'.Read a' = c.Read a') ∧
      (∀ k, c.normalize a = some k → idx? c'.owners k = some owner) ∧
      (∀ k, c.normalize a ≠ some k →
        idx? c'.owners k = idx? c.owners k ∧ idx? c'.cells k = idx? c.cells k) := by
  obtain ⟨c', hw, hwf, hsz⟩ := Write_total c a inst owner h
  have hweq := Write_eq c a inst owner h
  rw [hw] at hweq
  simp only [Option.some.injEq] at hweq
  obtain ⟨hk0, hk1⟩ := emod_range c a h
  have hcl : (a % c.size) < (c.cells.length : Int) := by rw [h.2.2.1]; exact hk1
  have hol : (a % c.size) < (c.owners.length : Int) := by rw [h.2.2.2]; exact hk1
  have hcells : c'.cells = c.cells.set (a % c.size).toNat inst := by rw [hweq]
  have howners : c'.owners = c.owners.set (a % c.size).toNat owner := by rw [hweq]
  have hread : ∀ (d : Core) (x : Int), d.WF → d.Read x = idx? d.cells (x % d.size) := by
    intro d x hd
    unfold Core.Read
    rw [normalize_wf d x hd]
    rfl
  have hframe : ∀ {α : Type} (xs : List α) (v : α) (k : Int), a % c.size ≠ k →
      idx? (xs.set (a % c.size).toNat v) k = idx? xs k := by
    intro α xs v k hne
    unfold idx?
    by_cases hk : k < 0
    · rw [if_pos hk, if_pos hk]
    · rw [if_neg hk, if_neg hk, List.getElem?_set_ne (by omega)]
  refine ⟨c', hw, hsz, ?_, ?_, ?_, ?_, ?_, ?_⟩
  · rw [← hsz]; exact hwf.2.2.1
  · rw [← hsz]; exact hwf.2.2.2
  · intro a' hn
    rw [normalize_wf c a' h, normalize_wf c a h] at hn
    simp only [Option.some.injEq] at hn
    rw [hread c' a' hwf, hsz, hn, hcells]
    exact idx?_set_self _ _ _ hk0 hcl
  · intro a' hn
    rw [normalize_wf c a' h, normalize_wf c a h] at hn
    have hne : a % c.size ≠ a' % c.size := fun he => hn (by rw [he])
    rw [hread c' a' hwf, hread c a' h, hsz, hcells]
    exact hframe _ _ _ hne
  · intro k hk
    rw [normalize_wf c a h] at hk
    simp only [Option.some.injEq] at hk
    rw [howners, ← hk]
    exact idx?_set_self _ _ _ hk0 hol
  · intro k hk
    rw [normalize_wf c a h] at hk
    have hne : a % c.size ≠ k := fun he => hk (by rw [he])
    rw [howners, hcells]
    exact ⟨hframe _ _ _ hne, hframe _ _ _ hne⟩

/-- C26 witness: the three-cell core, a write at address 4 (cell 1) read back at -2. -/
theorem C26_Write_Read_frame_witness :
    ((redCore.Write 4 impInst WarriorColor.Blue).bind fun c =>
        (c.Read (-2)).map fun v => (v, c.owners)) =
        some (impInst, [WarriorColor.Red, WarriorColor.Blue, WarriorColor.Red]) ∧
      ∃ c', redCore.Write 4 impInst WarriorColor.Blue = some c' ∧
        c'.size = redCore.size ∧ (c'.cells.length : Int) = redCore.size ∧
        (c'.owners.length : Int) = redCore.size := by
  refine ⟨by decide, ?_⟩
  obtain ⟨c', h1, h2, h3, h4, -⟩ :=
    C26_Write_Read_frame redCore 4 impInst WarriorColor.Blue (by decide)
  exact ⟨c', h1, h2, h3, h4⟩

/-! ## C24: operands -/

theorem signOf_digits (ds : List Char) (hdig : ∀ c ∈ ds, isDecimalDigit c = true) :
    signOf ds = (false, ds) := by
  rcases signOf_cases ds with h | ⟨r, hx, -⟩ | ⟨r, hx, -⟩
  · exact h
  · exfalso
    have := hdig '+' (by rw [hx]; exact List.mem_cons_self _ _)
    revert this; decide
  · exfalso
    have := hdig '-' (by rw [hx]; exact List.mem_cons_self _ _)
    revert this; decide

/-- `Atoi` on a decimal text with an optional sign: its value when that is in the
range of a Go int. -/
theorem atoi_decimal (sign ds : List Char)
    (hsign : sign = [] ∨ sign = ['+'] ∨ sign = ['-']) (hds : ds ≠ [])
    (hdig : ∀ c ∈ ds, isDecimalDigit c = true) :
    Atoi (sign ++ ds) =
      if minInt ≤ decimalInt sign ds ∧ decimalInt sign ds ≤ maxInt then
        some (decimalInt sign ds)
      else none := by
  have hall : ds.all isDecimalDigit = true := List.all_eq_true.mpr hdig
  have hso : signOf (sign ++ ds) = (decide (sign = ['-']), ds) := by
    rcases hsign with h | h | h
    · subst h; simpa using signOf_digits ds hdig
    · subst h; rfl
    · subst h; rfl
  unfold Atoi
  simp only [hso, hds, hall, not_true_eq_false, or_self, if_false]
  unfold decimalInt decimalValue
  simp only [decide_eq_true_eq]

/-- What `Atoi` accepts is a decimal text with an optional sign whose value is in
the range of a Go int. -/
theorem atoi_is_decimal (r : List Char) (v : Int) (h : Atoi r = some v) :
    ∃ sign ds, (sign = [] ∨ sign = ['+'] ∨ sign = ['-']) ∧ ds ≠ [] ∧
      (∀ c ∈ ds, isDecimalDigit c = true) ∧ r = sign ++ ds ∧ v = decimalInt sign ds ∧
      minInt ≤ v ∧ v ≤ maxInt := by
  have hcond : ¬ ((signOf r).2 = [] ∨ ¬ (signOf r).2.all isDecimalDigit = true) := by
    intro hc
    unfold Atoi at h
    simp only [hc, if_true] at h
    cases h
  simp only [not_or, not_not] at hcond
  obtain ⟨hne, hall⟩ := hcond
  have hdig : ∀ c ∈ (signOf r).2, isDecimalDigit c = true := List.all_eq_true.mp hall
  have key : ∀ sign ds, (sign = [] ∨ sign = ['+'] ∨ sign = ['-']) → r = sign ++ ds →
      signOf r = (decide (sign = ['-']), ds) →
      ∃ sign ds, (sign = [] ∨ sign = ['+'] ∨ sign = ['-']) ∧ ds ≠ [] ∧
        (∀ c ∈ ds, isDecimalDigit c = true) ∧ r = sign ++ ds ∧ v = decimalInt sign ds ∧
        minInt ≤ v ∧ v ≤ maxInt := by
    intro sign ds hsign hr hso
    rw [hso] at hne hdig
    have hd := atoi_decimal sign ds hsign hne hdig
    rw [← hr, h] at hd
    by_cases hrg : minInt ≤ decimalInt sign ds ∧ decimalInt sign ds ≤ maxInt
    · rw [if_pos hrg] at hd
      simp only [Option.some.injEq] at hd
      exact ⟨sign, ds, hsign, hne, hdig, hr, hd, hd ▸ hrg.1, hd ▸ hrg.2⟩
    · rw [if_neg hrg] at hd
      cases hd
  rcases signOf_cases r with hs | ⟨t, hx, hs⟩ | ⟨t, hx, hs⟩
  · exact key [] r (Or.inl rfl) rfl hs
  · exact key ['+'] t (Or.inr (Or.inl rfl)) hx hs
  · exact key ['-'] t (Or.inr (Or.inr rfl)) hx hs

/-- C24, amended (operand parsing): let `sign ++ ds` be a decimal text (`sign`
empty, `+` or `-`, `ds` one or more digits) whose value `n` is in the range of a
Go `int`, from -2^63 to 2^63 - 1, and let no label of
that spelling be defined.  Then `parseOperand` returns `(IMMEDIATE, n)` for
`#n`, `(DIRECT, n)` for `$n` and for the bare `n`, `(INDIRECT, n)` for `@n`,
`(PREDECREMENT, n)` for `<n` and `(POSTINCREMENT, n)` for `>n`.  And for every
operand text whose remainder `r` (after trimming and the mode prefix) is neither
a defined label nor such an integer, it returns the error `invalid operand: r`. -/
theorem C24_parseOperand (a : Assembler) (sign ds : List Char) (cur : Int)
    (hsign : sign = [] ∨ sign = ['+'] ∨ sign = ['-']) (hds : ds ≠ [])
    (hdig : ∀ c ∈ ds, isDecimalDigit c = true)
    (hrange : minInt ≤ decimalInt sign ds ∧ decimalInt sign ds ≤ maxInt)
    (hlab : a.labels.lookup (sign ++ ds) = none) :
    a.parseOperand ('#' :: (sign ++ ds)) cur = .ok (.IMMEDIATE, decimalInt sign ds) ∧
      a.parseOperand ('$' :: (sign ++ ds)) cur = .ok (.DIRECT, decimalInt sign ds) ∧
      a.parseOperand (sign ++ ds) cur = .ok (.DIRECT, decimalInt sign ds) ∧
      a.parseOperand ('@' :: (sign ++ ds)) cur = .ok (.INDIRECT, decimalInt sign ds) ∧
      a.parseOperand ('<' :: (sign ++ ds)) cur = .ok (.PREDECREMENT, decimalInt sign ds) ∧
      a.parseOperand ('>' :: (sign ++ ds)) cur = .ok (.POSTINCREMENT, decimalInt sign ds) ∧
      ∀ s : List Char,
        a.labels.lookup (modePrefix (TrimSpace s)).2 = none →
        (¬ ∃ sg dg, (sg = [] ∨ sg = ['+'] ∨ sg = ['-']) ∧ dg ≠ [] ∧
            (∀ c ∈ dg, isDecimalDigit c = true) ∧ (modePrefix (TrimSpace s)).2 = sg ++ dg ∧
            minInt ≤ decimalInt sg dg ∧ decimalInt sg dg ≤ maxInt) →
        a.parseOperand s cur = .error (.invalidOperand (modePrefix (TrimSpace s)).2) := by
  have hat : Atoi (sign ++ ds) = some (decimalInt sign ds) := by
    rw [atoi_decimal sign ds hsign hds hdig, if_pos hrange]
  obtain ⟨hne, hchars, hlast⟩ := atoi_chars _ _ hat
  have hlastsp : ∀ c, (sign ++ ds).getLast? = some c → isSpace c = false := fun c hc =>
    (numChar_plain c (hchars c (List.mem_of_getLast?_eq_some hc))).1
  have htrim0 : TrimSpace (sign ++ ds) = sign ++ ds :=
    trimSpace_eq_self _
      (fun c hc => (numChar_plain c (hchars c (List.mem_of_mem_head? hc))).1) hlastsp
  have htrim : ∀ g : Char, isSpace g = false →
      TrimSpace (g :: (sign ++ ds)) = g :: (sign ++ ds) := by
    intro g hg
    apply trimSpace_eq_self
    · intro c hc
      simp only [List.head?_cons, Option.some.injEq] at hc
      rw [← hc]; exact hg
    · intro c hc
      rw [getLast?_cons_ne_nil _ _ hne] at hc
      exact hlastsp c hc
  have hsig : ∀ (g : Char) (m : AddressMode), isSpace g = false →
      modePrefix (g :: (sign ++ ds)) = (m, sign ++ ds) →
      a.parseOperand (g :: (sign ++ ds)) cur = .ok (m, decimalInt sign ds) := by
    intro g m hg hm
    unfold Assembler.parseOperand
    simp only [htrim g hg, hm, hlab, hat]
  refine ⟨hsig '#' _ (by decide) rfl, hsig '$' _ (by decide) rfl, ?_, hsig '@' _ (by decide) rfl,
    hsig '<' _ (by decide) rfl, hsig '>' _ (by decide) rfl, ?_⟩
  · unfold Assembler.parseOperand
    simp only [htrim0, modePrefix_int _ hchars, hlab, hat]
  · intro s hl hno
    have hnone : Atoi (modePrefix (TrimSpace s)).2 = none := by
      cases hv : Atoi (modePrefix (TrimSpace s)).2 with
      | none => rfl
      | some v =>
        exfalso
        obtain ⟨sg, dg, h1, h2, h3, h4, h5, h6, h7⟩ := atoi_is_decimal _ v hv
        exact hno ⟨sg, dg, h1, h2, h3, h4, h5 ▸ h6, h5 ▸ h7⟩
    unfold Assembler.parseOperand
    simp only [hl, hnone]

/-- C24 witness: the operands `#-12`, `$-12`, `-12`, `@-12`, `<-12`, `>-12` with a
new assembler, and the rejected operand `#1x`. -/
theorem C24_parseOperand_witness :
    NewAssembler.parseOperand "#-12".toList 0 = .ok (.IMMEDIATE, -12) ∧
      NewAssembler.parseOperand "$-12".toList 0 = .ok (.DIRECT, -12) ∧
      NewAssembler.parseOperand "-12".toList 0 = .ok (.DIRECT, -12) ∧
      NewAssembler.parseOperand "@-12".toList 0 = .ok (.INDIRECT, -12) ∧
      NewAssembler.parseOperand "<-12".toList 0 = .ok (.PREDECREMENT, -12) ∧
      NewAssembler.parseOperand ">-12".toList 0 = .ok (.POSTINCREMENT, -12) ∧
      NewAssembler.parseOperand "#1x".toList 0 = .error (.invalidOperand "1x".toList) := by
  obtain ⟨h1, h2, h3, h4, h5, h6, -⟩ :=
    C24_parseOperand NewAssembler ['-'] "12".toList 0 (by decide) (by decide) (by decide)
      (by decide) (by decide)
  exact ⟨h1, h2, h3, h4, h5, h6, rfl⟩

/-- C24, counterexample: with no label defined, the operand `#9223372036854775808`
(the integer 2^63 written in decimal) is not parsed to `(IMMEDIATE, 2^63)`:
`strconv.Atoi` fails on a value outside the range of `int` and `parseOperand`
returns the error `invalid operand`. -/
theorem C24_counterexample_out_of_range :
    NewAssembler.parseOperand "#9223372036854775808".toList 0 =
        .error (.invalidOperand "9223372036854775808".toList) ∧
      decimalInt [] "9223372036854775808".toList = 9223372036854775808 :=
  ⟨rfl, by decide⟩

/-! ## The load loops of SetupBattle -/

theorem idx?_set_ne {α : Type} (xs : List α) (i j : Int) (v : α) (hi : 0 ≤ i) (hne : i ≠ j) :
    idx? (xs.set i.toNat v) j = idx? xs j := by
  unfold idx?
  by_cases hj : j < 0
  · rw [if_pos hj, if_pos hj]
  · rw [if_neg hj, if_neg hj, List.getElem?_set_ne (by omega)]

/-- The copy loop of `loadWarriorAt` from instruction number `i0` on, when the
addresses it stores to are distinct: each instruction is at its address, owned by
the warrior, and nothing else changed. -/
theorem loadCode_spec (cs : Int) (color : WarriorColor) (pos : Int) (code : List Instruction)
    (c : Core) (i0 : Int) (hwf : c.WF) (hsz : c.size = cs) (hpos : 0 ≤ pos) (hi0 : 0 ≤ i0)
    (hmax : pos + i0 + (code.length : Int) ≤ maxInt)
    (hinj : ∀ k k' : Nat, k < code.length → k' < code.length →
      (pos + i0 + (k : Int)) % cs = (pos + i0 + (k' : Int)) % cs → k = k') :
    ∃ c', loadCode cs color pos c code i0 = some c' ∧ c'.WF ∧ c'.size = cs ∧
      (∀ (k : Nat) (inst : Instruction), code[k]? = some inst →
        idx? c'.cells ((pos + i0 + (k : Int)) % cs) = some inst ∧
        idx? c'.owners ((pos + i0 + (k : Int)) % cs) = some color) ∧
      (∀ a : Int, (∀ k : Nat, k < code.length → a ≠ (pos + i0 + (k : Int)) % cs) →
        idx? c'.cells a = idx? c.cells a ∧ idx? c'.owners a = idx? c.owners a) := by
  induction code generalizing c i0 with
  | nil =>
    refine ⟨c, rfl, hwf, hsz, ?_, fun a _ => ⟨rfl, rfl⟩⟩
    intro k inst h
    simp at h
  | cons inst rest ih =>
    simp only [List.length_cons, Nat.cast_add, Nat.cast_one] at hmax
    have hcs : 0 < cs := by rw [← hsz]; exact hwf.1
    have g1 : goAdd pos i0 = pos + i0 :=
      wrapInt_of_range (by unfold minInt; omega) (by omega)
    have a0 : 0 ≤ (pos + i0) % cs := Int.emod_nonneg _ (ne_of_gt hcs)
    have a1 : (pos + i0) % cs < cs := Int.emod_lt_of_pos _ hcs
    have hcl : (pos + i0) % cs < (c.cells.length : Int) := by rw [hwf.2.2.1, hsz]; exact a1
    have hol : (pos + i0) % cs < (c.owners.length : Int) := by rw [hwf.2.2.2, hsz]; exact a1
    have hwf1 : ({ c with cells := c.cells.set ((pos + i0) % cs).toNat inst,
                          owners := c.owners.set ((pos + i0) % cs).toNat color } : Core).WF :=
      ⟨hwf.1, hwf.2.1, by simpa using hwf.2.2.1, by simpa using hwf.2.2.2⟩
    obtain ⟨c', hl, hwf', hsz', hin, hout⟩ := ih
      { c with cells := c.cells.set ((pos + i0) % cs).toNat inst,
               owners := c.owners.set ((pos + i0) % cs).toNat color }
      (i0 + 1) hwf1 hsz (by omega) (by omega)
      (by
        intro k k' hk hk' he
        have := hinj (k + 1) (k' + 1) (by simp; omega) (by simp; omega)
          (by push_cast; rw [show pos + i0 + ((k : Int) + 1) = pos + (i0 + 1) + k by ring,
                show pos + i0 + ((k' : Int) + 1) = pos + (i0 + 1) + k' by ring]; exact he)
        omega)
    refine ⟨c', ?_, hwf', hsz', ?_, ?_⟩
    · unfold loadCode
      rw [g1, goRem_of_nonneg (by omega) hcs]
      simp only [Option.bind_eq_bind, Option.some_bind]
      rw [setIdx?_of_lt _ _ _ a0 hcl, setIdx?_of_lt _ _ _ a0 hol]
      simp only [Option.some_bind]
      exact hl
    · intro k x hk
      cases k with
      | zero =>
        simp only [List.getElem?_cons_zero, Option.some.injEq] at hk
        subst hk
        have hfr := hout ((pos + i0) % cs) (by
          intro k hk he
          have := hinj 0 (k + 1) (by simp) (by simp; omega)
            (by push_cast
                rw [show pos + i0 + ((k : Int) + 1) = pos + (i0 + 1) + k by ring]
                simpa using he)
          omega)
        simp only [Nat.cast_zero, add_zero]
        rw [hfr.1, hfr.2]
        exact ⟨idx?_set_self _ _ _ a0 hcl, idx?_set_self _ _ _ a0 hol⟩
      | succ k =>
        simp only [List.getElem?_cons_succ] at hk
        have := hin k x hk
        push_cast
        rw [show pos + i0 + ((k : Int) + 1) = pos + (i0 + 1) + k by ring]
        exact this
    · intro a ha
      have hfr := hout a (by
        intro k hk
        have := ha (k + 1) (by simp; omega)
        push_cast at this
        rw [show pos + i0 + ((k : Int) + 1) = pos + (i0 + 1) + k by ring] at this
        exact this)
      have hne : (pos + i0) % cs ≠ a := by
        have := ha 0 (by simp)
        simp only [Nat.cast_zero, add_zero] at this
        exact fun h => this h.symm
      rw [hfr.1, hfr.2]
      exact ⟨idx?_set_ne _ _ _ _ a0 hne, idx?_set_ne _ _ _ _ a0 hne⟩

theorem placedAt_getElem? (spacing : Int) (ws : List Warrior) (i : Int) (q : Nat) :
    (placedAt spacing ws i)[q]? =
      ws[q]?.map (fun w => { w with StartPosition := (i + (q : Int)) * spacing }) := by
  induction ws generalizing i q with
  | nil => simp [placedAt]
  | cons w rest ih =>
    cases q with
    | zero => simp [placedAt]
    | succ q =>
      simp only [placedAt, List.getElem?_cons_succ, ih]
      congr 1
      funext x
      have : i + 1 + (q : Int) = i + ((q + 1 : Nat) : Int) := by push_cast; ring
      rw [this]

theorem placedAt_length (spacing : Int) (ws : List Warrior) (i : Int) :
    (placedAt spacing ws i).length = ws.length := by
  induction ws generalizing i with
  | nil => rfl
  | cons w rest ih => simp [placedAt, ih]

theorem map_restamp_fresh (ref : Nat) (position : Int) (l : List Warrior)
    (h : ∀ w ∈ l, w.ref ≠ ref) : l.map (restamp ref position) = l := by
  induction l with
  | nil => rfl
  | cons a l ih =>
    rw [List.map_cons, ih (fun w hw => h w (List.mem_cons_of_mem _ hw))]
    unfold restamp
    rw [if_neg (h a (List.mem_cons_self _ _))]

theorem map_restamp_procs (ref : Nat) (position : Int) (ps : List Process)
    (h : ∀ p ∈ ps, p.warrior.ref ≠ ref) :
    ps.map (fun p => { p with warrior := restamp ref position p.warrior }) = ps := by
  induction ps with
  | nil => rfl
  | cons a l ih =>
    rw [List.map_cons, ih (fun p hp => h p (List.mem_cons_of_mem _ hp))]
    unfold restamp
    rw [if_neg (h a (List.mem_cons_self _ _))]

/-- The loop of `SetupBattle` from warrior number `i` on, when the addresses it
stores to are distinct and no warrior occurs twice. -/
theorem setupLoop_spec (cs spacing : Int) (ws : List Warrior) (i : Int) (vm : VM)
    (st : BattleStats) (loaded : List Warrior)
    (hwf : vm.core.WF) (hsz : vm.core.size = cs) (hi : 0 ≤ i) (hsp : 0 ≤ spacing)
    (hmax : ∀ (q : Nat) (w : Warrior), ws[q]? = some w →
      (i + (q : Int)) * spacing + (w.Code.length : Int) ≤ maxInt)
    (hinj : ∀ (q q' : Nat) (w w' : Warrior) (k k' : Nat), ws[q]? = some w →
      ws[q']? = some w' → k < w.Code.length → k' < w'.Code.length →
      ((i + (q : Int)) * spacing + (k : Int)) % cs =
        ((i + (q' : Int)) * spacing + (k' : Int)) % cs → q = q' ∧ k = k')
    (hnd : (ws.map (fun w => w.ref)).Nodup)
    (hfl : ∀ w ∈ ws, ∀ w' ∈ loaded, w'.ref ≠ w.ref)
    (hfp : ∀ w ∈ ws, ∀ p ∈ vm.processes, p.warrior.ref ≠ w.ref) :
    ∃ vm' st', setupLoop cs spacing ws i vm st loaded =
        some (vm', st', loaded ++ placedAt spacing ws i) ∧
      vm'.core.WF ∧ vm'.core.size = cs ∧ vm'.current = vm.current ∧
      vm'.processes = vm.processes ++
        (placedAt spacing ws i).map (fun w => { warrior := w, pc := w.StartPosition, alive := true }) ∧
      (∀ (q : Nat) (w : Warrior) (k : Nat) (inst : Instruction), ws[q]? = some w →
        w.Code[k]? = some inst →
        idx? vm'.core.cells (((i + (q : Int)) * spacing + (k : Int)) % cs) = some inst ∧
        idx? vm'.core.owners (((i + (q : Int)) * spacing + (k : Int)) % cs) = some w.Color) ∧
      (∀ a : Int, (∀ (q : Nat) (w : Warrior) (k : Nat), ws[q]? = some w → k < w.Code.length →
          a ≠ ((i + (q : Int)) * spacing + (k : Int)) % cs) →
        idx? vm'.core.cells a = idx? vm.core.cells a ∧
        idx? vm'.core.owners a = idx? vm.core.owners a) := by
  induction ws generalizing i vm st loaded with
  | nil =>
    refine ⟨vm, st, by simp [setupLoop, placedAt], hwf, hsz, rfl, by simp [placedAt], ?_,
      fun a _ => ⟨rfl, rfl⟩⟩
    intro q w k inst h
    simp at h
  | cons w rest ih =>
    have hnd' := List.nodup_cons.mp (by simpa using hnd :
      (w.ref :: rest.map (fun w => w.ref)).Nodup)
    have hwx : ∀ x ∈ rest, w.ref ≠ x.ref := fun x hx he =>
      hnd'.1 (he ▸ List.mem_map_of_mem (fun w => w.ref) hx)
    have h0w : (w :: rest)[0]? = some w := List.getElem?_cons_zero
    have hm0 := hmax 0 w h0w
    simp only [Nat.cast_zero, add_zero] at hm0
    have hp0 : 0 ≤ i * spacing := Int.mul_nonneg hi hsp
    have hmul : goMul i spacing = i * spacing :=
      wrapInt_of_range (by unfold minInt; omega) (by omega)
    obtain ⟨c1, hl, hwf1, hsz1, hin1, hout1⟩ := loadCode_spec cs w.Color (i * spacing) w.Code
      vm.core 0 hwf hsz hp0 (le_refl 0) (by omega)
      (by
        intro k k' hk hk' he
        have := hinj 0 0 w w k k' h0w h0w hk hk'
          (by simpa using he)
        exact this.2)
    have hshift : ∀ q : Nat, i + 1 + (q : Int) = i + ((q + 1 : Nat) : Int) := by
      intro q; push_cast; ring
    obtain ⟨vm', st', hs, hwf', hsz', hcur', hps', hin', hout'⟩ := ih (i + 1)
      (({ vm with core := c1 } : VM).AddProcess { w with StartPosition := i * spacing }
        (i * spacing))
      { st with MaxProcesses := mapSet st.MaxProcesses w.ref 1
                InstructionsRun := mapSet st.InstructionsRun w.ref 0 }
      (loaded ++ [{ w with StartPosition := i * spacing }])
      hwf1 hsz1 (by omega)
      (by
        intro q x hq
        rw [hshift]
        exact hmax (q + 1) x (by simpa using hq))
      (by
        intro q q' x x' k k' hq hq' hk hk' he
        rw [hshift, hshift] at he
        have := hinj (q + 1) (q' + 1) x x' k k' (by simpa using hq) (by simpa using hq')
          hk hk' he
        exact ⟨by omega, this.2⟩)
      hnd'.2
      (by
        intro x hx w' hw'
        rcases List.mem_append.mp hw' with h1 | h1
        · exact hfl x (List.mem_cons_of_mem _ hx) w' h1
        · rw [List.mem_singleton.mp h1]
          exact hwx x hx)
      (by
        intro x hx p hp
        rcases List.mem_append.mp hp with h1 | h1
        · exact hfp x (List.mem_cons_of_mem _ hx) p h1
        · rw [List.mem_singleton.mp h1]
          exact hwx x hx)
    refine ⟨vm', st', ?_, hwf', hsz', ?_, ?_, ?_, ?_⟩
    · unfold setupLoop
      simp only [hmul, loadWarriorAt, Option.bind_eq_bind, Option.some_bind, Option.pure_def]
      rw [map_restamp_procs _ _ _ (hfp w (List.mem_cons_self _ _)),
        map_restamp_fresh _ _ _ (hfl w (List.mem_cons_self _ _))]
      simp only [hl, Option.some_bind]
      rw [hs]
      simp [placedAt]
    · rw [hcur']; rfl
    · rw [hps']
      simp [placedAt, VM.AddProcess]
    · intro q x k inst hq hk
      cases q with
      | zero =>
        simp only [List.getElem?_cons_zero, Option.some.injEq] at hq
        subst hq
        have hklt : k < w.Code.length := by
          by_contra hcon
          rw [List.getElem?_eq_none (by omega)] at hk
          cases hk
        have hfr := hout' ((i * spacing + (k : Int)) % cs) (by
          intro q' x' k' hq' hk' he
          rw [hshift] at he
          have := hinj 0 (q' + 1) w x' k k' h0w (by simpa using hq') hklt hk'
            (by simpa using he)
          omega)
        simp only [Nat.cast_zero, add_zero]
        rw [hfr.1, hfr.2]
        have := hin1 k inst hk
        simpa using this
      | succ q =>
        simp only [List.getElem?_cons_succ] at hq
        have := hin' q x k inst hq hk
        rw [hshift] at this
        exact this
    · intro a ha
      have hfr := hout' a (by
        intro q x k hq hk
        rw [hshift]
        exact ha (q + 1) x k (by simpa using hq) hk)
      have hfr1 := hout1 a (by
        intro k hk
        have := ha 0 w k h0w hk
        simpa using this)
      rw [hfr.1, hfr.2]
      exact hfr1

theorem NewCore_spec (cs : Int) (h0 : 0 < cs) (hmax : cs ≤ maxInt) :
    ∃ c, NewCore cs = some c ∧ c.WF ∧ c.size = cs ∧
      ∀ a : Int, 0 ≤ a → a < cs →
        idx? c.cells a = some datZero ∧ idx? c.owners a = some WarriorColor.Empty := by
  have hlen : ((cs.toNat : Nat) : Int) = cs := Int.toNat_of_nonneg (le_of_lt h0)
  refine ⟨_, by unfold NewCore; rw [if_neg (by omega)],
    ⟨h0, hmax, by simpa using hlen, by simpa using hlen⟩, rfl, ?_⟩
  intro a ha0 ha1
  have key : ∀ {α : Type} (v : α), idx? (List.replicate cs.toNat v) a = some v := by
    intro α v
    unfold idx?
    rw [if_neg (by omega), List.getElem?_replicate, if_pos (by omega)]
  exact ⟨key datZero, key WarriorColor.Empty⟩

/-- Code stored at distinct addresses modulo `cs` is not longer than `cs`. -/
theorem code_length_le (cs pos : Int) (n : Nat) (hcs : 0 < cs)
    (hinj : ∀ k k' : Nat, k < n → k' < n →
      (pos + (k : Int)) % cs = (pos + (k' : Int)) % cs → k = k') : (n : Int) ≤ cs := by
  by_contra hcon
  have h := hinj 0 cs.toNat (by omega) (by omega) (by
    rw [Int.toNat_of_nonneg (le_of_lt hcs), Int.add_emod_self]
    simp)
  omega

/-- `SetupBattle` with `cs` for the constant `coreSize`, for warriors whose code
is stored at distinct addresses. -/
theorem setupWith_spec (cs : Int) (bm : BattleManager) (ws : List Warrior)
    (hcs : 0 < cs) (hsmall : 2 * cs ≤ maxInt) (hn : ws ≠ [])
    (hinj : ∀ (q q' : Nat) (w w' : Warrior) (k k' : Nat), ws[q]? = some w →
      ws[q']? = some w' → k < w.Code.length → k' < w'.Code.length →
      ((q : Int) * (cs / (ws.length : Int)) + (k : Int)) % cs =
        ((q' : Int) * (cs / (ws.length : Int)) + (k' : Int)) % cs → q = q' ∧ k = k')
    (hnd : (ws.map (fun w => w.ref)).Nodup) :
    ∃ vm st, bm.setupWith cs ws =
        some { bm with vm := some vm, warriors := placedAt (cs / (ws.length : Int)) ws 0,
                       stats := some st } ∧
      vm.core.WF ∧ vm.core.size = cs ∧ vm.current = 0 ∧
      vm.processes = (placedAt (cs / (ws.length : Int)) ws 0).map
        (fun w => { warrior := w, pc := w.StartPosition, alive := true }) ∧
      (∀ (q : Nat) (w : Warrior) (k : Nat) (inst : Instruction), ws[q]? = some w →
        w.Code[k]? = some inst →
        idx? vm.core.cells (((q : Int) * (cs / (ws.length : Int)) + (k : Int)) % cs) =
          some inst ∧
        idx? vm.core.owners (((q : Int) * (cs / (ws.length : Int)) + (k : Int)) % cs) =
          some w.Color) ∧
      (∀ a : Int, 0 ≤ a → a < cs →
        (∀ (q : Nat) (w : Warrior) (k : Nat), ws[q]? = some w → k < w.Code.length →
          a ≠ ((q : Int) * (cs / (ws.length : Int)) + (k : Int)) % cs) →
        idx? vm.core.cells a = some datZero ∧
        idx? vm.core.owners a = some WarriorColor.Empty) := by
  have hmaxcs : cs ≤ maxInt := by unfold maxInt at hsmall ⊢; omega
  have hlen : (0 : Int) < (ws.length : Int) := by
    have := List.length_pos.mpr hn
    omega
  obtain ⟨c, hnew, hwf, hsz, hempty⟩ := NewCore_spec cs hcs hmaxcs
  have hsp0 : 0 ≤ cs / (ws.length : Int) := Int.ediv_nonneg (le_of_lt hcs) (le_of_lt hlen)
  have hsple : cs / (ws.length : Int) * (ws.length : Int) ≤ cs :=
    Int.ediv_mul_le cs (ne_of_gt hlen)
  have hdiv : goDiv cs (ws.length : Int) = some (cs / (ws.length : Int)) := by
    unfold goDiv
    rw [if_neg (ne_of_gt hlen), Int.tdiv_eq_ediv (le_of_lt hcs) (le_of_lt hlen),
      wrapInt_of_range (by unfold minInt; omega)
        (le_trans (Int.ediv_le_self _ (le_of_lt hcs)) hmaxcs)]
  have hzero : ∀ q : Nat, (0 : Int) + (q : Int) = (q : Int) := fun q => by ring
  have hqsp : ∀ (q : Nat) (w : Warrior), ws[q]? = some w →
      (q : Int) * (cs / (ws.length : Int)) ≤ cs := by
    intro q w hq
    have hlt : q < ws.length := by
      by_contra hcon
      rw [List.getElem?_eq_none (by omega)] at hq
      cases hq
    have : (q : Int) * (cs / (ws.length : Int)) ≤
        (ws.length : Int) * (cs / (ws.length : Int)) :=
      Int.mul_le_mul_of_nonneg_right (by omega) hsp0
    rw [mul_comm (ws.length : Int)] at this
    omega
  obtain ⟨vm, st, hs, hwf', hsz', hcur, hps, hin, hout⟩ :=
    setupLoop_spec cs (cs / (ws.length : Int)) ws 0 (NewVM c)
      { TotalCycles := 0, MaxProcesses := [], InstructionsRun := [], Winner := none,
        IsDraw := false } [] hwf hsz (le_refl 0) hsp0
      (by
        intro q w hq
        rw [hzero]
        have h1 := hqsp q w hq
        have h2 : (w.Code.length : Int) ≤ cs :=
          code_length_le cs ((q : Int) * (cs / (ws.length : Int))) w.Code.length hcs
            (fun k k' hk hk' he => (hinj q q w w k k' hq hq hk hk' he).2)
        unfold maxInt at hsmall ⊢
        omega)
      (by
        intro q q' w w' k k' hq hq' hk hk' he
        rw [hzero, hzero] at he
        exact hinj q q' w w' k k' hq hq' hk hk' he)
      hnd (fun _ _ _ h => absurd h (List.not_mem_nil _))
      (fun _ _ _ h => absurd h (List.not_mem_nil _))
  refine ⟨vm, st, ?_, hwf', hsz', hcur, ?_, ?_, ?_⟩
  · unfold BattleManager.setupWith
    simp only [hnew, hdiv, Option.bind_eq_bind, Option.some_bind, hs, List.nil_append,
      Option.pure_def]
  · rw [hps]; rfl
  · intro q w k inst hq hk
    have := hin q w k inst hq hk
    rw [hzero] at this
    exact this
  · intro a ha0 ha1 hno
    have := hout a (by
      intro q w k hq hk
      rw [hzero]
      exact hno q w k hq hk)
    rw [this.1, this.2]
    exact hempty a ha0 ha1

/-! ## RunCycle -/

theorem RunCycle_timeout (bm : BattleManager) (st : BattleStats) (hst : bm.stats = some st)
    (h : st.TotalCycles ≥ bm.maxCycles) :
    bm.RunCycle = some (false, { bm with stats := some { st with IsDraw := true } }) := by
  unfold BattleManager.RunCycle
  simp only [hst, Option.bind_eq_bind, Option.some_bind]
  rw [if_pos h]
  rfl

theorem countInstruction_frame (vm : VM) (st st1 : BattleStats)
    (h : countInstruction vm st = some st1) :
    st1.TotalCycles = st.TotalCycles ∧ st1.Winner = st.Winner ∧ st1.IsDraw = st.IsDraw ∧
      st1.MaxProcesses = st.MaxProcesses := by
  unfold countInstruction at h
  split at h
  · cases hp : idx? vm.processes vm.current with
    | none => rw [hp] at h; cases h
    | some p =>
      rw [hp] at h
      simp only [Option.bind_eq_bind, Option.some_bind] at h
      split at h
      · cases h; exact ⟨rfl, rfl, rfl, rfl⟩
      · cases h; exact ⟨rfl, rfl, rfl, rfl⟩
  · cases h; exact ⟨rfl, rfl, rfl, rfl⟩

/-- A call of `RunCycle` below the cycle limit that returns: it ran one VM cycle,
counted it, and decided on the warriors alive afterwards. -/
theorem RunCycle_run (bm bm' : BattleManager) (st : BattleStats) (b : Bool)
    (hst : bm.stats = some st) (hlt : st.TotalCycles < bm.maxCycles)
    (hr : bm.RunCycle = some (b, bm')) :
    ∃ vm vm' st', bm.vm = some vm ∧ vm.ExecuteCycle = some vm' ∧ bm'.vm = some vm' ∧
      bm'.warriors = bm.warriors ∧ bm'.maxCycles = bm.maxCycles ∧ bm'.stats = some st' ∧
      st'.TotalCycles = goAdd st.TotalCycles 1 ∧
      (b = true ↔ 2 ≤ (bm.warriors.filter (fun w => vm'.IsWarriorAlive w)).length) ∧
      (b = true → st'.Winner = st.Winner ∧ st'.IsDraw = st.IsDraw) ∧
      (b = false →
        (bm.warriors.filter (fun w => vm'.IsWarriorAlive w) = [] ∧ st'.IsDraw = true ∧
          st'.Winner = st.Winner) ∨
        (∃ w, bm.warriors.filter (fun w => vm'.IsWarriorAlive w) = [w] ∧
          st'.Winner = some w ∧ st'.IsDraw = st.IsDraw)) := by
  unfold BattleManager.RunCycle at hr
  simp only [hst, Option.bind_eq_bind, Option.some_bind] at hr
  rw [if_neg (by omega)] at hr
  cases hvm : bm.vm with
  | none => rw [hvm] at hr; cases hr
  | some vm =>
    rw [hvm] at hr
    simp only [Option.some_bind, Option.bind_eq_bind] at hr
    cases hci : countInstruction vm st with
    | none => rw [hci] at hr; cases hr
    | some st1 =>
      rw [hci] at hr
      simp only [Option.some_bind] at hr
      obtain ⟨f1, f2, f3, -⟩ := countInstruction_frame vm st st1 hci
      cases hex : vm.ExecuteCycle with
      | none => rw [hex] at hr; cases hr
      | some vm' =>
        rw [hex] at hr
        simp only [Option.some_bind] at hr
        generalize hal : bm.warriors.filter (fun w => vm'.IsWarriorAlive w) = alive at hr ⊢
        rcases alive with _ | ⟨w1, _ | ⟨w2, rest⟩⟩
        · simp only [List.length_nil, Nat.zero_le, if_true, Option.pure_def, Option.some.injEq,
            Prod.mk.injEq] at hr
          obtain ⟨rfl, rfl⟩ := hr
          refine ⟨vm, vm', _, rfl, hex, rfl, rfl, rfl, rfl, ?_, by simp [hal], by simp, ?_⟩
          · show goAdd st1.TotalCycles 1 = _
            rw [f1]
          · intro _
            exact Or.inl ⟨hal, rfl, f2⟩
        · simp only [List.length_singleton, le_refl, if_true, Option.pure_def,
            Option.some.injEq, Prod.mk.injEq] at hr
          obtain ⟨rfl, rfl⟩ := hr
          refine ⟨vm, vm', _, rfl, hex, rfl, rfl, rfl, rfl, ?_, by simp [hal], by simp, ?_⟩
          · show goAdd st1.TotalCycles 1 = _
            rw [f1]
          · intro _
            exact Or.inr ⟨w1, hal, rfl, f3⟩
        · simp only [List.length_cons, Option.pure_def] at hr
          rw [if_neg (by omega)] at hr
          simp only [Option.some.injEq, Prod.mk.injEq] at hr
          obtain ⟨rfl, rfl⟩ := hr
          refine ⟨vm, vm', _, rfl, hex, rfl, rfl, rfl, rfl, ?_, ?_, ?_, by simp⟩
          · show goAdd st1.TotalCycles 1 = _
            rw [f1]
          · simp [hal]
          · intro _
            exact ⟨f2, f3⟩

theorem runLoop_succ (fuel calls : Nat) (bm : BattleManager) :
    bm.runLoop (fuel + 1) calls =
      match bm.RunCycle with
      | none => .panicked (calls + 1)
      | some (false, bm') => .finished (calls + 1) bm'
      | some (true, bm') => bm'.runLoop fuel (calls + 1) := rfl

theorem setupLoop_stats (cs spacing : Int) (ws : List Warrior) (i : Int) (vm vm' : VM)
    (st st' : BattleStats) (loaded loaded' : List Warrior)
    (h : setupLoop cs spacing ws i vm st loaded = some (vm', st', loaded')) :
    st'.TotalCycles = st.TotalCycles ∧ st'.Winner = st.Winner ∧ st'.IsDraw = st.IsDraw := by
  induction ws generalizing i vm st loaded with
  | nil =>
    simp only [setupLoop, Option.some.injEq, Prod.mk.injEq] at h
    obtain ⟨-, rfl, -⟩ := h
    exact ⟨rfl, rfl, rfl⟩
  | cons w rest ih =>
    unfold setupLoop at h
    cases hl : loadWarriorAt cs vm w (goMul i spacing) with
    | none => simp [hl] at h
    | some vm1 =>
      simp only [hl, Option.bind_eq_bind, Option.some_bind] at h
      have h' := ih _ _ _ _ h
      exact h'

/-- After `SetupBattle` the statistics are fresh: no cycle run, no winner, no draw. -/
theorem SetupBattle_fresh (b0 b : BattleManager) (ws : List Warrior)
    (h : b0.SetupBattle ws = some b) :
    ∃ s, b.stats = some s ∧ s.Winner = none ∧ s.IsDraw = false ∧ s.TotalCycles = 0 ∧
      b.maxCycles = b0.maxCycles := by
  unfold BattleManager.SetupBattle BattleManager.setupWith at h
  cases hc : NewCore coreSize with
  | none => simp [hc] at h
  | some core =>
    cases hd : goDiv coreSize ws.length with
    | none => simp [hc, hd] at h
    | some spacing =>
      simp only [hc, hd, Option.bind_eq_bind, Option.some_bind] at h
      cases hs : setupLoop coreSize spacing ws 0 (NewVM core)
        { TotalCycles := 0, MaxProcesses := [], InstructionsRun := [], Winner := none,
          IsDraw := false } [] with
      | none => simp [hs] at h
      | some r =>
        obtain ⟨vm', st', ws'⟩ := r
        simp only [hs, Option.some_bind, Option.pure_def, Option.some.injEq] at h
        obtain ⟨h1, h2, h3⟩ := setupLoop_stats _ _ _ _ _ _ _ _ _ _ hs
        subst h
        exact ⟨st', rfl, h2, h3, h1, rfl⟩

/-! ## C29, C30: the outcome of a battle -/

theorem RunCycle_false_outcome (bm bm' : BattleManager) (st : BattleStats)
    (hst : bm.stats = some st) (hw : st.Winner = none) (hd : st.IsDraw = false)
    (hr : bm.RunCycle = some (false, bm')) : Outcome bm' := by
  by_cases hto : st.TotalCycles ≥ bm.maxCycles
  · rw [RunCycle_timeout bm st hst hto] at hr
    simp only [Option.some.injEq, Prod.mk.injEq, true_and] at hr
    subst hr
    exact ⟨_, rfl, Or.inl ⟨rfl, hw⟩⟩
  · obtain ⟨vm, vm', st', hvm, hex, hvm', hws, -, hst', -, -, -, hfalse⟩ :=
      RunCycle_run bm bm' st false hst (by omega) hr
    refine ⟨st', hst', ?_⟩
    rcases hfalse rfl with ⟨-, h1, h2⟩ | ⟨w, hal, h1, h2⟩
    · exact Or.inl ⟨h1, by rw [h2, hw]⟩
    · right
      refine ⟨by rw [h2, hd], w, vm', h1, hvm', ?_, ?_, ?_⟩
      · rw [hws]
        have : w ∈ bm.warriors.filter (fun w => vm'.IsWarriorAlive w) := by
          rw [hal]; exact List.mem_singleton.mpr rfl
        exact (List.mem_filter.mp this).1
      · have : w ∈ bm.warriors.filter (fun w => vm'.IsWarriorAlive w) := by
          rw [hal]; exact List.mem_singleton.mpr rfl
        exact (List.mem_filter.mp this).2
      · intro w' hw' ha
        rw [hws] at hw'
        have : w' ∈ bm.warriors.filter (fun w => vm'.IsWarriorAlive w) :=
          List.mem_filter.mpr ⟨hw', ha⟩
        rw [hal] at this
        exact List.mem_singleton.mp this

theorem RunCycle_true_fresh (bm bm' : BattleManager) (st : BattleStats)
    (hst : bm.stats = some st) (hr : bm.RunCycle = some (true, bm')) :
    st.TotalCycles < bm.maxCycles ∧
      ∃ st', bm'.stats = some st' ∧ st'.Winner = st.Winner ∧ st'.IsDraw = st.IsDraw ∧
        st'.TotalCycles = goAdd st.TotalCycles 1 ∧ bm'.maxCycles = bm.maxCycles := by
  by_cases hto : st.TotalCycles ≥ bm.maxCycles
  · rw [RunCycle_timeout bm st hst hto] at hr
    simp at hr
  · obtain ⟨vm, vm', st', -, -, -, -, hmax, hst', htc, -, htrue, -⟩ :=
      RunCycle_run bm bm' st true hst (by omega) hr
    exact ⟨by omega, st', hst', (htrue rfl).1, (htrue rfl).2, htc, hmax⟩

/-- C29 (battle outcome): from fresh statistics (no winner, no draw, as
`SetupBattle` leaves them), when the loop `for bm.RunCycle() {}` stops because
`RunCycle` returned false for the first time, either `IsDraw` is set and there is
no winner, or `IsDraw` is not set and the winner is a warrior of the battle that
is alive while no other warrior of the battle is.  And `RunCycle` returns true
exactly when fewer than `maxCycles` cycles had been run and at least two warriors
are alive after the cycle it executed. -/
theorem C29_battle_outcome (bm bmEnd : BattleManager) (st : BattleStats)
    (fuel start calls : Nat) (hst : bm.stats = some st) (hw : st.Winner = none)
    (hd : st.IsDraw = false) (hloop : bm.runLoop fuel start = .finished calls bmEnd) :
    Outcome bmEnd ∧
      (∀ (b0 b : BattleManager) (ws : List Warrior), b0.SetupBattle ws = some b →
        ∃ s, b.stats = some s ∧ s.Winner = none ∧ s.IsDraw = false) ∧
      (∀ (x x' : BattleManager) (sx : BattleStats) (r : Bool), x.stats = some sx →
        x.RunCycle = some (r, x') →
        (r = true ↔ sx.TotalCycles < x.maxCycles ∧
          ∃ vm vm', x.vm = some vm ∧ vm.ExecuteCycle = some vm' ∧
            2 ≤ (x.warriors.filter (fun w => vm'.IsWarriorAlive w)).length)) := by
  refine ⟨?_, ?_, ?_⟩
  · induction fuel generalizing bm st start with
    | zero => cases hloop
    | succ fuel ih =>
      rw [runLoop_succ] at hloop
      cases hrc : bm.RunCycle with
      | none => rw [hrc] at hloop; cases hloop
      | some r =>
        obtain ⟨b, bm'⟩ := r
        cases b with
        | false =>
          rw [hrc] at hloop
          simp only [LoopEnd.finished.injEq] at hloop
          obtain ⟨-, rfl⟩ := hloop
          exact RunCycle_false_outcome bm bm' st hst hw hd hrc
        | true =>
          rw [hrc] at hloop
          obtain ⟨-, st', hst', h1, h2, -, -⟩ := RunCycle_true_fresh bm bm' st hst hrc
          exact ih bm' st' (start + 1) hst' (by rw [h1, hw]) (by rw [h2, hd]) hloop
  · intro b0 b ws h
    obtain ⟨s, h1, h2, h3, -, -⟩ := SetupBattle_fresh b0 b ws h
    exact ⟨s, h1, h2, h3⟩
  · intro x x' sx r hsx hr
    by_cases hto : sx.TotalCycles ≥ x.maxCycles
    · rw [RunCycle_timeout x sx hsx hto] at hr
      simp only [Option.some.injEq, Prod.mk.injEq] at hr
      obtain ⟨rfl, -⟩ := hr
      constructor
      · intro h; cases h
      · rintro ⟨h, -⟩; omega
    · obtain ⟨vm, vm', st', hvm, hex, -, -, -, -, -, hiff, -, -⟩ :=
        RunCycle_run x x' sx r hsx (by omega) hr
      constructor
      · intro h
        exact ⟨by omega, vm, vm', hvm, hex, hiff.mp h⟩
      · rintro ⟨-, vm2, vm2', h1, h2, h3⟩
        rw [hvm] at h1
        cases h1
        rw [hex] at h2
        cases h2
        exact hiff.mpr h3

/-- C30 (termination): with `0 ≤ TotalCycles ≤ maxCycles` (after `SetupBattle`:
`TotalCycles = 0 ≤ maxCycles`) the loop `for bm.RunCycle() {}` needs at most
`maxCycles - TotalCycles + 1` calls: within that many calls `RunCycle` returns
false (or a call panics), and `TotalCycles ≤ maxCycles` then.  Every call that
returns leaves `TotalCycles ≤ maxCycles`; a call made when
`TotalCycles ≥ maxCycles` returns false, sets `IsDraw` and changes nothing else,
the VM included. -/
theorem C30_termination (bm : BattleManager) (st : BattleStats) (start : Nat)
    (hst : bm.stats = some st) (h0 : 0 ≤ st.TotalCycles)
    (hle : st.TotalCycles ≤ bm.maxCycles) (hmax : bm.maxCycles ≤ maxInt) :
    (∃ calls, calls ≤ start + (bm.maxCycles - st.TotalCycles).toNat + 1 ∧
      (bm.runLoop ((bm.maxCycles - st.TotalCycles).toNat + 1) start = .panicked calls ∨
        ∃ bm' st', bm.runLoop ((bm.maxCycles - st.TotalCycles).toNat + 1) start =
            .finished calls bm' ∧
          bm'.stats = some st' ∧ st'.TotalCycles ≤ bm.maxCycles)) ∧
      (∀ (r : Bool) (bm' : BattleManager) (st' : BattleStats), bm.RunCycle = some (r, bm') →
        bm'.stats = some st' → st'.TotalCycles ≤ bm.maxCycles) ∧
      (∀ (x : BattleManager) (sx : BattleStats), x.stats = some sx →
        sx.TotalCycles ≥ x.maxCycles →
        x.RunCycle = some (false, { x with stats := some { sx with IsDraw := true } })) := by
  have hstep : ∀ (x x' : BattleManager) (sx sx' : BattleStats) (r : Bool),
      x.stats = some sx → 0 ≤ sx.TotalCycles → sx.TotalCycles ≤ x.maxCycles →
      x.maxCycles ≤ maxInt → x.RunCycle = some (r, x') → x'.stats = some sx' →
      sx'.TotalCycles ≤ x.maxCycles ∧ x'.maxCycles = x.maxCycles ∧
        (r = true → sx'.TotalCycles = sx.TotalCycles + 1) := by
    intro x x' sx sx' r hsx hx0 hxle hxmax hr hsx'
    by_cases hto : sx.TotalCycles ≥ x.maxCycles
    · rw [RunCycle_timeout x sx hsx hto] at hr
      simp only [Option.some.injEq, Prod.mk.injEq] at hr
      obtain ⟨rfl, rfl⟩ := hr
      simp only [Option.some.injEq] at hsx'
      subst hsx'
      exact ⟨hxle, rfl, fun h => by cases h⟩
    · obtain ⟨vm, vm', s2, -, -, -, -, hm, hs2, htc, -, -, -⟩ :=
        RunCycle_run x x' sx r hsx (by omega) hr
      rw [hs2] at hsx'
      cases hsx'
      have hadd : goAdd sx.TotalCycles 1 = sx.TotalCycles + 1 := by
        unfold maxInt at hxmax
        exact wrapInt_of_range (by unfold minInt; omega) (by unfold maxInt; omega)
      rw [hadd] at htc
      exact ⟨by omega, hm, fun _ => htc⟩
  refine ⟨?_, fun r bm' st' hr hs' => (hstep bm bm' st st' r hst h0 hle hmax hr hs').1,
    fun x sx hsx hto => RunCycle_timeout x sx hsx hto⟩
  generalize hdn : (bm.maxCycles - st.TotalCycles).toNat = d
  induction d generalizing bm st start with
  | zero =>
    have hto : st.TotalCycles ≥ bm.maxCycles := by omega
    refine ⟨start + 1, by omega, Or.inr ⟨{ bm with stats := some { st with IsDraw := true } },
      { st with IsDraw := true }, ?_, rfl, hle⟩⟩
    rw [runLoop_succ, RunCycle_timeout bm st hst hto]
  | succ d ih =>
    rw [runLoop_succ]
    cases hrc : bm.RunCycle with
    | none => exact ⟨start + 1, by omega, Or.inl rfl⟩
    | some r =>
      obtain ⟨b, bm'⟩ := r
      have hlt : st.TotalCycles < bm.maxCycles := by omega
      obtain ⟨vm, vm', st', -, -, -, -, -, hst', -, -, -, -⟩ :=
        RunCycle_run bm bm' st b hst hlt hrc
      obtain ⟨h1, h2, h3⟩ := hstep bm bm' st st' b hst h0 hle hmax hrc hst'
      cases b with
      | false => exact ⟨start + 1, by omega, Or.inr ⟨bm', st', rfl, hst', h1⟩⟩
      | true =>
        have h4 := h3 rfl
        obtain ⟨calls, hc, hres⟩ := ih bm' st' (start + 1) hst' (by omega)
          (by rw [h2]; exact h1) (by rw [h2]; exact hmax) (by rw [h2]; omega)
        refine ⟨calls, by omega, ?_⟩
        rw [h2] at hres
        exact hres

/-! ## C27, C28: SetupBattle -/

/-- C27, amended (SetupBattle placement): for `n ≥ 1` warriors, none of which
occurs twice in the list (the `ref`s are pairwise distinct), whose code is stored
at distinct addresses (the code regions do not overlap), `SetupBattle` returns; the
core has `coreSize` cells and owner tags; warrior number `q` has
`StartPosition = q * (coreSize / n)`; the cell at `(start + k) mod coreSize`
holds instruction `k` of its code with its colour as owner; every other cell is
`DAT #0, #0` with owner Empty; and the process list has exactly one process per
warrior, in warrior order, alive, with `pc = start`. -/
theorem C27_SetupBattle_placement (bm : BattleManager) (ws : List Warrior) (hn : ws ≠ [])
    (hdisj : ∀ (q : Nat) (hq : q < ws.length) (q' : Nat) (hq' : q' < ws.length)
      (k : Nat) (_ : k < ws[q].Code.length) (k' : Nat) (_ : k' < ws[q'].Code.length),
      ((q : Int) * (coreSize / (ws.length : Int)) + (k : Int)) % coreSize =
        ((q' : Int) * (coreSize / (ws.length : Int)) + (k' : Int)) % coreSize →
      q = q' ∧ k = k')
    (hnd : (ws.map (fun w => w.ref)).Nodup) :
    ∃ bm' vm, bm.SetupBattle ws = some bm' ∧ bm'.vm = some vm ∧
      vm.core.size = coreSize ∧ (vm.core.cells.length : Int) = coreSize ∧
      (vm.core.owners.length : Int) = coreSize ∧
      bm'.warriors.length = ws.length ∧ vm.processes.length = ws.length ∧
      (∀ (q : Nat) (w : Warrior), ws[q]? = some w →
        bm'.warriors[q]? =
          some { w with StartPosition := (q : Int) * (coreSize / (ws.length : Int)) } ∧
        vm.processes[q]? =
          some { warrior :=
                   { w with StartPosition := (q : Int) * (coreSize / (ws.length : Int)) }
                 pc := (q : Int) * (coreSize / (ws.length : Int))
                 alive := true } ∧
        ∀ (k : Nat) (inst : Instruction), w.Code[k]? = some inst →
          idx? vm.core.cells
              (((q : Int) * (coreSize / (ws.length : Int)) + (k : Int)) % coreSize) =
            some inst ∧
          idx? vm.core.owners
              (((q : Int) * (coreSize / (ws.length : Int)) + (k : Int)) % coreSize) =
            some w.Color) ∧
      (∀ a : Int, 0 ≤ a → a < coreSize →
        (∀ (q : Nat) (w : Warrior) (k : Nat), ws[q]? = some w → k < w.Code.length →
          a ≠ ((q : Int) * (coreSize / (ws.length : Int)) + (k : Int)) % coreSize) →
        idx? vm.core.cells a = some datZero ∧
        idx? vm.core.owners a = some WarriorColor.Empty) := by
  have hget : ∀ (q : Nat) (w : Warrior), ws[q]? = some w →
      ∃ hq : q < ws.length, ws[q] = w := by
    intro q w h
    exact List.getElem?_eq_some.mp h
  obtain ⟨vm, st, hs, hwf, hsz, -, hps, hin, hout⟩ :=
    setupWith_spec coreSize bm ws (by decide) (by decide) hn (by
      intro q q' w w' k k' hq hq' hk hk' he
      obtain ⟨h1, rfl⟩ := hget q w hq
      obtain ⟨h2, rfl⟩ := hget q' w' hq'
      exact hdisj q h1 q' h2 k hk k' hk' he) hnd
  refine ⟨_, vm, hs, rfl, hsz, ?_, ?_, ?_, ?_, ?_, hout⟩
  · rw [hwf.2.2.1, hsz]
  · rw [hwf.2.2.2, hsz]
  · exact placedAt_length _ _ _
  · rw [hps, List.length_map]; exact placedAt_length _ _ _
  · intro q w hq
    have hpl := placedAt_getElem? (coreSize / (ws.length : Int)) ws 0 q
    rw [hq] at hpl
    simp only [Option.map_some', zero_add] at hpl
    refine ⟨hpl, ?_, fun k inst hk => hin q w k inst hq hk⟩
    rw [hps, List.getElem?_map, hpl]
    rfl

/-- C27 witness: Red and Green, one instruction each, are loaded at 0 and 4000. -/
theorem C27_SetupBattle_placement_witness :
    ∃ bm' vm, (NewBattleManager 8000 80000).SetupBattle [warriorA, warriorC] = some bm' ∧
      bm'.vm = some vm ∧ vm.core.size = coreSize ∧
      bm'.warriors.length = 2 ∧ vm.processes.length = 2 ∧
      idx? vm.core.cells 4000 = some jmpSelf ∧
      idx? vm.core.owners 4000 = some WarriorColor.Green ∧
      idx? vm.core.cells 4001 = some datZero := by
  obtain ⟨bm', vm, h1, h2, h3, -, -, h6, h7, h8, h9⟩ :=
    C27_SetupBattle_placement (NewBattleManager 8000 80000) [warriorA, warriorC] (by decide)
      (by decide) (by decide)
  have hc := (h8 1 warriorC rfl).2.2 0 jmpSelf rfl
  have hd := h9 4001 (by decide) (by decide) (by
    intro q w k hq hk
    rcases q with _ | _ | q
    · simp only [List.getElem?_cons_zero, Option.some.injEq] at hq
      subst hq
      have hk0 : k = 0 := by
        have : k < 1 := hk
        omega
      subst hk0
      decide
    · simp only [List.getElem?_cons_succ, List.getElem?_cons_zero, Option.some.injEq] at hq
      subst hq
      have hk0 : k = 0 := by
        have : k < 1 := hk
        omega
      subst hk0
      decide
    · simp at hq)
  exact ⟨bm', vm, h1, h2, h3, h6, h7, hc.1, hc.2, hd.1⟩

/-- C27, counterexample: `SetupBattle` with the list that names the warrior
`JMP $0` twice (its code at 0 and at 4000, so the code regions do not overlap).
`loadWarriorAt` stores `StartPosition` through the pointer: entry 0 of the
warriors has `StartPosition` 4000, not 0, and the two processes, at PC 0 and
4000, are processes of that one warrior. -/
theorem C27_counterexample_warrior_twice :
    (((NewBattleManager 8000 80000).SetupBattle [warriorA, warriorA]).map fun bm =>
      (bm.warriors.map (fun w => w.StartPosition),
        bm.vm.map fun vm =>
          vm.processes.map fun p => (p.warrior.ref, p.warrior.StartPosition, p.pc))) =
      some ([4000, 4000], some [(1, 4000, 0), (1, 4000, 4000)]) := by
  decide!

/-- C28 (the code departs): `NewBattleManager(100, 50)` followed by `SetupBattle`
with two warriors builds a core of 8000 cells, the constant `coreSize` of
main.go, and places the warriors 4000 apart; the size 100 passed to
`NewBattleManager` is dropped, whatever it is. -/
theorem C28_configured_core_size_ignored :
    (∀ cs cs' mc : Int, NewBattleManager cs mc = NewBattleManager cs' mc) ∧
      ∃ bm vm, (NewBattleManager 100 50).SetupBattle [warriorA, warriorC] = some bm ∧
        bm.vm = some vm ∧ vm.core.size = 8000 ∧ vm.core.cells.length = 8000 ∧
        vm.processes.map (fun p => p.pc) = [0, 4000] := by
  refine ⟨fun _ _ _ => rfl, ?_⟩
  obtain ⟨vm, st, hs, hwf, hsz, -, hps, -, -⟩ :=
    setupWith_spec coreSize (NewBattleManager 100 50) [warriorA, warriorC] (by decide)
      (by decide) (by decide) (by
        intro q q' w w' k k' hq hq' hk hk' he
        rcases q with _ | _ | q <;> rcases q' with _ | _ | q' <;>
          simp only [List.getElem?_cons_zero, List.getElem?_cons_succ, Option.some.injEq,
            List.getElem?_nil] at hq hq' <;>
          first
          | (exfalso; exact Option.noConfusion hq)
          | (exfalso; exact Option.noConfusion hq')
          | (subst hq; subst hq'
             have hk0 : k = 0 := by
               have : k < 1 := hk
               omega
             have hk0' : k' = 0 := by
               have : k' < 1 := hk'
               omega
             subst hk0; subst hk0'
             revert he
             decide))
      (by decide)
  refine ⟨_, vm, hs, rfl, hsz, ?_, ?_⟩
  · have := hwf.2.2.1
    rw [hsz] at this
    have h8 : coreSize = 8000 := rfl
    rw [h8] at this
    exact_mod_cast this
  · rw [hps]
    decide

/-- C29 witness: in `duelBM` the first call of `RunCycle` kills the process of Red
on its DAT and returns false with Green as the winner. -/
theorem C29_battle_outcome_witness :
    duelBM.runLoop 11 0 = .finished 1 duelEnd ∧ Outcome duelEnd ∧
      (duelEnd.stats.map fun s => (s.IsDraw, s.Winner)) = some (false, some warriorC) :=
  ⟨by decide,
    (C29_battle_outcome duelBM duelEnd
      { TotalCycles := 0, MaxProcesses := [(3, 1), (1, 1)],
        InstructionsRun := [(3, 0), (1, 0)], Winner := none, IsDraw := false }
      11 0 1 rfl rfl rfl (by decide)).1,
    by decide⟩

/-- C30 witness: the loop over `duelBM` (`maxCycles = 10`) makes at most 11 calls. -/
theorem C30_termination_witness :
    ∃ calls, calls ≤ 11 ∧
      (duelBM.runLoop 11 0 = .panicked calls ∨
        ∃ bm' st', duelBM.runLoop 11 0 = .finished calls bm' ∧ bm'.stats = some st' ∧
          st'.TotalCycles ≤ 10) :=
  (C30_termination duelBM
    { TotalCycles := 0, MaxProcesses := [(3, 1), (1, 1)],
      InstructionsRun := [(3, 0), (1, 0)], Winner := none, IsDraw := false }
    0 rfl (by decide) (by decide) (by decide)).1

/-! ## C31, C32: scenarios S1 and S2 -/

/-- C31 (the code departs): in scenario S1 the first cycle of the Imp `MOV #0, $1`
stores `DAT #0, #0` at address 1 (MOV with an immediate A operand builds a DAT
from the value) and moves to PC 1; the second cycle executes that DAT and the
process dies; after 100 cycles no process is left. -/
theorem C31_Imp_dies_in_cycle_two :
    (impVM.run 1).map (fun vm =>
        (idx? vm.core.cells 1, idx? vm.core.owners 1,
          vm.processes.map fun p => (p.pc, p.alive))) =
        some (some datZero, some WarriorColor.Red, [(1, true)]) ∧
      (impVM.run 2).map (fun vm => vm.processes.map fun p => (p.pc, p.alive)) =
        some [(1, false)] ∧
      (impVM.run 100).map (fun vm => vm.processes) = some [] := by
  decide

/-- C32 (the code departs): in scenario S2 cycle 1 sets the B field of cell 13 to 4
and cycle 3 returns the PC to 10, but the MOV of cycle 2, `MOV #0, @-2` at address
11, takes its pointer from cell 9 = 11 - 2 (B field 0) and stores the DAT at
address 9; cell 17 is still the empty cell, owned by nobody. -/
theorem C32_Dwarf_bomb_at_nine :
    (dwarfVM.bind fun vm => (vm.run 1).map fun v =>
        (idx? v.core.cells 13, v.processes.map fun p => p.pc)) =
        some (some { Op := .DAT, AMode := .IMMEDIATE, BMode := .IMMEDIATE, A := 0, B := 4 },
          [11]) ∧
      (dwarfVM.bind fun vm => (vm.run 2).map fun v =>
        (idx? v.core.cells 17, idx? v.core.owners 17, idx? v.core.cells 9,
          idx? v.core.owners 9, v.processes.map fun p => p.pc)) =
        some (some datZero, some WarriorColor.Empty, some datZero, some WarriorColor.Blue,
          [12]) ∧
      (dwarfVM.bind fun vm => (vm.run 3).map fun v =>
        v.processes.map fun p => (p.pc, p.alive)) = some [(10, true)] := by
  decide

/-! ## C33: scenario S3, two warriors `MOV #0, $0` -/

/-- One cycle on `MOV #0, $0`: the cell at the PC becomes `DAT #0, #0` owned by the
executing warrior, every other cell and owner tag is unchanged, the PC moves to
the next address. -/
theorem cycle_movSelf (vm : VM) (i : Nat) (proc : Process) (o : WarriorColor)
    (h : vm.core.WF) (hs : vm.scheduled = some (i, proc))
    (hc : idx? vm.core.cells proc.pc = some movSelf)
    (ho : idx? vm.core.owners proc.pc = some o)
    (hown : o = proc.warrior.Color ∨ o = WarriorColor.Empty) :
    ∃ vm', vm.ExecuteCycle = some vm' ∧ vm'.core.WF ∧ vm'.core.size = vm.core.size ∧
      vm'.processes =
        vm.compacted.modify (fun p => { p with pc := (proc.pc + 1) % vm.core.size }) i ∧
      goRem (goAdd i 1) vm.compacted.length = some vm'.current ∧
      ∀ a, a ≠ proc.pc → idx? vm'.core.cells a = idx? vm.core.cells a ∧
        idx? vm'.core.owners a = idx? vm.core.owners a := by
  obtain ⟨hr, -⟩ := cell_at_pc vm.core proc.pc movSelf h hc
  obtain ⟨h0, h1, -⟩ := nextPC_eq vm.core proc.pc o h ho
  obtain ⟨vm1, vm', hex, hcyc, hcore, hprocs, hcur⟩ :=
    cycle_execOp vm i proc o movSelf h hs ho hown hr
  have hmax := h.2.1
  have hadd : goAdd proc.pc 0 = proc.pc := by
    unfold goAdd
    rw [Int.add_zero]
    exact wrapInt_of_range (by unfold minInt; omega) (by omega)
  have hev : (vm.atCursor i).evaluate proc.pc AddressMode.DIRECT 0 true =
      some (proc.pc, vm.atCursor i) := by
    have hd := evaluate_DIRECT (vm.atCursor i) proc.pc 0 true h
    rw [hd, hadd]
    show some (proc.pc % vm.core.size, _) = _
    rw [Int.emod_eq_of_lt h0 h1]
  have hwr := Write_eq vm.core proc.pc datZero proc.warrior.Color h
  rw [Int.emod_eq_of_lt h0 h1] at hwr
  have hex' : (vm.atCursor i).execMOV i proc movSelf ((proc.pc + 1) % vm.core.size) =
      some vm1 := hex
  unfold VM.execMOV at hex'
  have hA : movSelf.AMode = AddressMode.IMMEDIATE := rfl
  have hB : movSelf.BMode = AddressMode.DIRECT := rfl
  have hBv : movSelf.B = 0 := rfl
  have hevA : (vm.atCursor i).evaluate proc.pc AddressMode.IMMEDIATE movSelf.A false =
      some (0, vm.atCursor i) := rfl
  rw [hA, hB, hBv, hevA] at hex'
  simp only [Option.bind_eq_bind, Option.some_bind] at hex'
  rw [hev] at hex'
  simp only [Option.some_bind, if_true] at hex'
  have hwr' : (vm.atCursor i).core.Write proc.pc
      { Op := .DAT, AMode := .IMMEDIATE, BMode := .IMMEDIATE, A := 0, B := 0 }
      proc.warrior.Color = _ := hwr
  rw [hwr'] at hex'
  simp only [Option.some_bind, Option.pure_def, Option.some.injEq] at hex'
  subst hex'
  refine ⟨vm', hcyc, ?_, ?_, ?_, ?_, ?_⟩
  · rw [hcore]
    exact ⟨h.1, h.2.1, by simpa [VM.setPc] using h.2.2.1, by simpa [VM.setPc] using h.2.2.2⟩
  · rw [hcore]
    rfl
  · rw [hprocs]
    rfl
  · have hlen : ((({ vm.atCursor i with
        core := { cells := vm.core.cells.set proc.pc.toNat datZero
                  owners := vm.core.owners.set proc.pc.toNat proc.warrior.Color
                  size := vm.core.size } } : VM).setPc i
          ((proc.pc + 1) % vm.core.size)).processes.length : Nat) = vm.compacted.length := by
      simp [VM.setPc, VM.atCursor]
    rw [hlen] at hcur
    exact hcur
  · intro a ha
    rw [hcore]
    exact ⟨idx?_set_ne _ _ _ _ h0 (Ne.symm ha), idx?_set_ne _ _ _ _ h0 (Ne.symm ha)⟩

/-- One cycle on a DAT: the core is unchanged and the scheduled process is marked
dead. -/
theorem cycle_DAT (vm : VM) (i : Nat) (proc : Process) (inst : Instruction)
    (h : vm.core.WF) (hs : vm.scheduled = some (i, proc))
    (hc : idx? vm.core.cells proc.pc = some inst) (hop : inst.Op = OpCode.DAT) :
    ∃ vm', vm.ExecuteCycle = some vm' ∧ vm'.core = vm.core ∧
      vm'.processes = vm.compacted.modify (fun p => { p with alive := false }) i ∧
      goRem (goAdd i 1) vm.compacted.length = some vm'.current := by
  obtain ⟨hr, o, ho⟩ := cell_at_pc vm.core proc.pc inst h hc
  obtain ⟨inst', vm1, vm', hr', he, hres, hcyc, hcore, hprocs, hcur⟩ :=
    ExecuteCycle_total vm i proc o h hs ho
  rw [hr] at hr'
  cases hr'
  have hk := hres.2.2.2.1 (Or.inr hop)
  subst hk
  refine ⟨vm', hcyc, by rw [hcore]; rfl, by rw [hprocs]; rfl, ?_⟩
  have hlen : ((vm.atCursor i).kill i).processes.length = vm.compacted.length := by
    simp [VM.kill, VM.atCursor]
  rw [hlen] at hcur
  exact hcur

/-- A call of `RunCycle` below the cycle limit returns when the cursor is not
negative and `ExecuteCycle` returns. -/
theorem RunCycle_step (bm : BattleManager) (st : BattleStats) (vm vm' : VM)
    (hst : bm.stats = some st) (hlt : st.TotalCycles < bm.maxCycles) (hvm : bm.vm = some vm)
    (hcur : 0 ≤ vm.current) (hex : vm.ExecuteCycle = some vm') :
    ∃ b bm' st', bm.RunCycle = some (b, bm') ∧ bm'.vm = some vm' ∧
      bm'.warriors = bm.warriors ∧ bm'.maxCycles = bm.maxCycles ∧ bm'.stats = some st' ∧
      st'.TotalCycles = goAdd st.TotalCycles 1 ∧
      (b = true ↔ 2 ≤ (bm.warriors.filter (fun w => vm'.IsWarriorAlive w)).length) ∧
      (b = true → st'.Winner = st.Winner ∧ st'.IsDraw = st.IsDraw) ∧
      (b = false →
        (bm.warriors.filter (fun w => vm'.IsWarriorAlive w) = [] ∧ st'.IsDraw = true ∧
          st'.Winner = st.Winner) ∨
        (∃ w, bm.warriors.filter (fun w => vm'.IsWarriorAlive w) = [w] ∧
          st'.Winner = some w ∧ st'.IsDraw = st.IsDraw)) := by
  have hci : ∃ st1, countInstruction vm st = some st1 := by
    unfold countInstruction
    by_cases hg : vm.processes.length > 0 ∧ vm.current < vm.processes.length
    · rw [if_pos hg]
      obtain ⟨p, hp, -⟩ := idx?_of_lt vm.processes vm.current hcur hg.2
      rw [hp]
      simp only [Option.bind_eq_bind, Option.some_bind, Option.pure_def]
      split <;> exact ⟨_, rfl⟩
    · rw [if_neg hg]
      exact ⟨_, rfl⟩
  obtain ⟨st1, hci⟩ := hci
  have hsome : ∃ r, bm.RunCycle = some r := by
    unfold BattleManager.RunCycle
    simp only [hst, hvm, hci, hex, Option.bind_eq_bind, Option.some_bind, ge_iff_le,
      not_le.mpr hlt, if_false, Option.pure_def]
    split
    · split <;> exact ⟨_, rfl⟩
    · exact ⟨_, rfl⟩
  obtain ⟨⟨b, bm'⟩, hr⟩ := hsome
  obtain ⟨v, v', st', hv, hv', f1, f2, f3, f4, f5, f6, f7, f8⟩ :=
    RunCycle_run bm bm' st b hst hlt hr
  rw [hvm] at hv
  cases hv
  rw [hex] at hv'
  cases hv'
  exact ⟨b, bm', st', hr, f1, f2, f3, f4, f5, f6, f7, f8⟩

theorem two_code (a b : Warrior) (ha : a.Code = [movSelf]) (hb : b.Code = [movSelf])
    (q : Nat) (w : Warrior) (k : Nat) (hq : [a, b][q]? = some w) (hk : k < w.Code.length) :
    q < 2 ∧ k = 0 := by
  rcases q with _ | _ | q
  · simp only [List.getElem?_cons_zero, Option.some.injEq] at hq
    subst hq
    rw [ha] at hk
    simp only [List.length_singleton, Nat.lt_one_iff] at hk
    exact ⟨by omega, hk⟩
  · simp only [List.getElem?_cons_succ, List.getElem?_cons_zero, Option.some.injEq] at hq
    subst hq
    rw [hb] at hk
    simp only [List.length_singleton, Nat.lt_one_iff] at hk
    exact ⟨by omega, hk⟩
  · simp at hq

/-- The state `SetupBattle` builds for two warriors whose code is `MOV #0, $0`. -/
theorem mutual_setup (a b : Warrior) (bm : BattleManager)
    (ha : a.Code = [movSelf]) (hb : b.Code = [movSelf]) (hab : a.ref ≠ b.ref) :
    ∃ vm st, bm.SetupBattle [a, b] =
        some { bm with vm := some vm,
                       warriors := [{ a with StartPosition := 0 },
                                    { b with StartPosition := 4000 }],
                       stats := some st } ∧
      st.TotalCycles = 0 ∧ st.Winner = none ∧ st.IsDraw = false ∧
      vm.core.WF ∧ vm.core.size = 8000 ∧ vm.current = 0 ∧
      vm.processes = [{ warrior := { a with StartPosition := 0 }, pc := 0, alive := true },
                      { warrior := { b with StartPosition := 4000 }, pc := 4000,
                        alive := true }] ∧
      idx? vm.core.cells 0 = some movSelf ∧ idx? vm.core.owners 0 = some a.Color ∧
      idx? vm.core.cells 4000 = some movSelf ∧ idx? vm.core.owners 4000 = some b.Color ∧
      idx? vm.core.cells 1 = some datZero ∧
      idx? vm.core.owners 1 = some WarriorColor.Empty := by
  have hsp : coreSize / (([a, b] : List Warrior).length : Int) = 4000 := by
    simp only [List.length_cons, List.length_nil]
    decide
  obtain ⟨vm, st, hset, hwf, hsz, hcur, hprocs, hcode, hempty⟩ :=
    setupWith_spec coreSize bm [a, b] (by decide) (by decide) (by simp) (by
      intro q q' w w' k k' hq hq' hk hk' he
      obtain ⟨hq2, rfl⟩ := two_code a b ha hb q w k hq hk
      obtain ⟨hq2', rfl⟩ := two_code a b ha hb q' w' k' hq' hk'
      rw [hsp] at he
      unfold coreSize at he
      refine ⟨?_, rfl⟩
      omega)
      (by simp [hab])
  rw [hsp] at hset hprocs hcode hempty
  have hpl : placedAt 4000 [a, b] 0 =
      [{ a with StartPosition := 0 }, { b with StartPosition := 4000 }] := by
    simp [placedAt]
  rw [hpl] at hset hprocs
  obtain ⟨s, hs, hw, hd, ht, -⟩ := SetupBattle_fresh bm _ [a, b] hset
  simp only [Option.some.injEq] at hs
  subst hs
  have h0 := hcode 0 a 0 movSelf rfl (by rw [ha]; rfl)
  have h4 := hcode 1 b 0 movSelf rfl (by rw [hb]; rfl)
  have h1 := hempty 1 (by decide) (by decide) (by
    intro q w k hq hk
    obtain ⟨hq2, rfl⟩ := two_code a b ha hb q w k hq hk
    unfold coreSize
    omega)
  have e0 : (((0 : Nat) : Int) * 4000 + ((0 : Nat) : Int)) % coreSize = 0 := by decide
  have e4 : (((1 : Nat) : Int) * 4000 + ((0 : Nat) : Int)) % coreSize = 4000 := by decide
  rw [e0] at h0
  rw [e4] at h4
  exact ⟨vm, st, hset, ht, hw, hd, hwf, hsz, hcur, hprocs, h0.1, h0.2, h4.1, h4.2, h1.1, h1.2⟩

theorem scheduled_two (vm : VM) (p q : Process) (hp : vm.processes = [p, q])
    (hpa : p.alive = true) (hqa : q.alive = true) :
    vm.compacted = [p, q] ∧ (vm.current = 0 → vm.scheduled = some (0, p)) ∧
      (vm.current = 1 → vm.scheduled = some (1, q)) := by
  have hc : vm.compacted = [p, q] := by
    unfold VM.compacted
    rw [hp]
    simp [hpa, hqa]
  refine ⟨hc, fun h0 => ?_, fun h1 => ?_⟩
  · unfold VM.scheduled
    rw [hc, h0]
    rfl
  · unfold VM.scheduled
    rw [hc, h1]
    rfl

/-- The battle of two warriors `MOV #0, $0` at addresses 0 and 4000 of the
8000-cell core: the third call of `RunCycle` returns false with the second
warrior as winner. -/
theorem mutual_run (a b : Warrior) (bm : BattleManager) (vm0 : VM) (st0 : BattleStats)
    (fuel : Nat) (hab : a.ref ≠ b.ref) (hmc : 3 ≤ bm.maxCycles)
    (hvm : bm.vm = some vm0) (hws : bm.warriors = [a, b]) (hst : bm.stats = some st0)
    (ht : st0.TotalCycles = 0) (hd : st0.IsDraw = false)
    (hwf : vm0.core.WF) (hsz : vm0.core.size = 8000) (hcur : vm0.current = 0)
    (hprocs : vm0.processes = [{ warrior := a, pc := 0, alive := true },
                               { warrior := b, pc := 4000, alive := true }])
    (c0 : idx? vm0.core.cells 0 = some movSelf) (o0 : idx? vm0.core.owners 0 = some a.Color)
    (c4 : idx? vm0.core.cells 4000 = some movSelf)
    (o4 : idx? vm0.core.owners 4000 = some b.Color)
    (c1 : idx? vm0.core.cells 1 = some datZero) :
    ∃ bmEnd st, bm.runLoop (fuel + 3) 0 = LoopEnd.finished 3 bmEnd ∧
      bmEnd.stats = some st ∧ st.IsDraw = false ∧ st.Winner = some b ∧
      st.TotalCycles = 3 := by
  -- cycle 1: the first warrior overwrites its own instruction
  obtain ⟨hcomp0, hs0, -⟩ := scheduled_two vm0 _ _ hprocs rfl rfl
  obtain ⟨vm1, hex1, hwf1, hsz1, hp1, hc1, hfr1⟩ :=
    cycle_movSelf vm0 0 _ a.Color hwf (hs0 hcur) c0 o0 (Or.inl rfl)
  rw [hcomp0, hsz] at hp1
  have hp1' : vm1.processes = [{ warrior := a, pc := 1, alive := true },
      { warrior := b, pc := 4000, alive := true }] := hp1
  rw [hcomp0] at hc1
  have hcur1 : vm1.current = 1 := (Option.some.inj hc1).symm
  -- cycle 2: so does the second warrior
  obtain ⟨hcomp1, -, hs1⟩ := scheduled_two vm1 _ _ hp1' rfl rfl
  have hne40 : (4000 : Int) ≠ 0 := by decide
  have hne10 : (1 : Int) ≠ 0 := by decide
  have hne14 : (1 : Int) ≠ 4000 := by decide
  have c4' := (hfr1 4000 hne40).1.trans c4
  have o4' := (hfr1 4000 hne40).2.trans o4
  obtain ⟨vm2, hex2, hwf2, hsz2, hp2, hc2, hfr2⟩ :=
    cycle_movSelf vm1 1 _ b.Color hwf1 (hs1 hcur1) c4' o4' (Or.inl rfl)
  rw [hcomp1, hsz1, hsz] at hp2
  have hp2' : vm2.processes = [{ warrior := a, pc := 1, alive := true },
      { warrior := b, pc := 4001, alive := true }] := hp2
  rw [hcomp1] at hc2
  have hrem : goRem (goAdd ((1 : Nat) : Int) 1) ((2 : Nat) : Int) = some 0 := by decide
  have hcur2 : vm2.current = 0 := Option.some.inj (hc2.symm.trans hrem)
  -- cycle 3: the first warrior executes the DAT of the empty cell 1
  obtain ⟨hcomp2, hs2, -⟩ := scheduled_two vm2 _ _ hp2' rfl rfl
  have c1' : idx? vm2.core.cells 1 = some datZero :=
    ((hfr2 1 hne14).1.trans (hfr1 1 hne10).1).trans c1
  obtain ⟨vm3, hex3, -, hp3, -⟩ := cycle_DAT vm2 0 _ datZero hwf2 (hs2 hcur2) c1' rfl
  rw [hcomp2] at hp3
  have hp3' : vm3.processes = [{ warrior := a, pc := 1, alive := false },
      { warrior := b, pc := 4001, alive := true }] := hp3
  -- the three calls of `RunCycle`
  have hne : ¬ b.ref = a.ref := fun h => hab h.symm
  have al1 : [a, b].filter (fun w => vm1.IsWarriorAlive w) = [a, b] := by
    simp [VM.IsWarriorAlive, hp1']
  have al2 : [a, b].filter (fun w => vm2.IsWarriorAlive w) = [a, b] := by
    simp [VM.IsWarriorAlive, hp2']
  have al3 : [a, b].filter (fun w => vm3.IsWarriorAlive w) = [b] := by
    simp [VM.IsWarriorAlive, hp3', hne]
  obtain ⟨b1, bm1, st1, hr1, hv1, hw1, hm1, hs1', ht1, hb1, hk1, -⟩ :=
    RunCycle_step bm st0 vm0 vm1 hst (by rw [ht]; omega) hvm (by rw [hcur]) hex1
  rw [hws, al1] at hb1
  obtain rfl : b1 = true := hb1.mpr (by simp)
  obtain ⟨hk1w, hk1d⟩ := hk1 rfl
  have ht1' : st1.TotalCycles = 1 := by rw [ht1, ht]; rfl
  obtain ⟨b2, bm2, st2, hr2, hv2, hw2, hm2, hs2', ht2, hb2, hk2, -⟩ :=
    RunCycle_step bm1 st1 vm1 vm2 hs1' (by rw [ht1', hm1]; omega) hv1 (by rw [hcur1]; decide)
      hex2
  rw [hw1, hws, al2] at hb2
  obtain rfl : b2 = true := hb2.mpr (by simp)
  obtain ⟨hk2w, hk2d⟩ := hk2 rfl
  have ht2' : st2.TotalCycles = 2 := by rw [ht2, ht1']; rfl
  obtain ⟨b3, bm3, st3, hr3, hv3, hw3, hm3, hs3', ht3, hb3, -, hk3⟩ :=
    RunCycle_step bm2 st2 vm2 vm3 hs2' (by rw [ht2', hm2, hm1]; omega) hv2
      (by rw [hcur2]) hex3
  rw [hw2, hw1, hws, al3] at hb3 hk3
  have hb3f : b3 = false := by
    cases b3
    · rfl
    · exact absurd (hb3.mp rfl) (by simp)
  subst hb3f
  have ht3' : st3.TotalCycles = 3 := by rw [ht3, ht2']; rfl
  refine ⟨bm3, st3, ?_, hs3', ?_, ?_, ht3'⟩
  · rw [runLoop_succ, hr1]
    show bm1.runLoop (fuel + 1 + 1) 1 = _
    rw [runLoop_succ, hr2]
    show bm2.runLoop (fuel + 1) 2 = _
    rw [runLoop_succ, hr3]
  · rcases hk3 rfl with ⟨hnil, -⟩ | ⟨w, hw', -, hdd⟩
    · cases hnil
    · rw [hdd, hk2d, hk1d, hd]
  · rcases hk3 rfl with ⟨hnil, -⟩ | ⟨w, hw', hwin, -⟩
    · cases hnil
    · simp only [List.cons.injEq, and_true] at hw'
      rw [hwin, hw']

/-- C33, amended: two warriors (distinct objects) whose code is the single
instruction `MOV #0, $0`, set up with `SetupBattle` and driven by `RunCycle` with a
cycle limit of at least 3: the set-up returns, the third call of `RunCycle` is the
first to return false, and the recorded result is not a draw: `IsDraw` is false
and `Winner` is the second warrior (at its start position 4000). -/
theorem C33_mutual_MOV_second_wins (a b : Warrior) (cs mc : Int) (fuel : Nat)
    (ha : a.Code = [movSelf]) (hb : b.Code = [movSelf]) (hab : a.ref ≠ b.ref)
    (hmc : 3 ≤ mc) :
    ∃ bm0 bmEnd st, (NewBattleManager cs mc).SetupBattle [a, b] = some bm0 ∧
      bm0.runLoop (fuel + 3) 0 = LoopEnd.finished 3 bmEnd ∧ bmEnd.stats = some st ∧
      st.IsDraw = false ∧ st.Winner = some { b with StartPosition := 4000 } ∧
      st.TotalCycles = 3 := by
  obtain ⟨vm, st, hset, ht, hw, hd, hwf, hsz, hcur, hprocs, c0, o0, c4, o4, c1, -⟩ :=
    mutual_setup a b (NewBattleManager cs mc) ha hb hab
  obtain ⟨bmEnd, st', h1, h2, h3, h4, h5⟩ :=
    mutual_run { a with StartPosition := 0 } { b with StartPosition := 4000 }
      { NewBattleManager cs mc with
        vm := some vm
        warriors := [{ a with StartPosition := 0 }, { b with StartPosition := 4000 }]
        stats := some st } vm st fuel
      hab hmc rfl rfl rfl ht hd hwf hsz hcur hprocs c0 o0 c4 o4 c1
  exact ⟨_, bmEnd, st', hset, h1, h2, h3, h4, h5⟩

theorem C33_mutual_MOV_second_wins_witness :
    mutualRed.Code = [movSelf] ∧ mutualBlue.Code = [movSelf] ∧ mutualRed.ref ≠ mutualBlue.ref ∧
      (3 : Int) ≤ 80000 ∧
      ∃ bm0 bmEnd st, (NewBattleManager 8000 80000).SetupBattle [mutualRed, mutualBlue] =
          some bm0 ∧
        bm0.runLoop (0 + 3) 0 = LoopEnd.finished 3 bmEnd ∧ bmEnd.stats = some st ∧
        st.IsDraw = false ∧ st.Winner = some { mutualBlue with StartPosition := 4000 } ∧
        st.TotalCycles = 3 :=
  ⟨rfl, rfl, by decide, by decide,
    C33_mutual_MOV_second_wins mutualRed mutualBlue 8000 80000 0 rfl rfl (by decide)
      (by decide)⟩

/-- C33, counterexample: two warriors of colours Red and Blue whose code is
`MOV #0, $0`, set up by `SetupBattle` with the cycle limit 80000 of main.go: the
loop ends after three `RunCycle` calls, `IsDraw` is false and `Winner` is the
second warrior. -/
theorem C33_counterexample_second_wins :
    (((NewBattleManager 8000 80000).SetupBattle [mutualRed, mutualBlue]).map fun bm =>
      match bm.runLoop 10 0 with
      | .finished calls bm' =>
        some (calls, bm'.stats.map fun s => (s.IsDraw, s.Winner.map fun w => w.ref))
      | _ => none) = some (some (3, some (false, some 2))) := by
  decide!

/-! ## C34: the program counter -/

/-- C34 (the code departs): in `jmpNegVM` the process is added at PC 0, inside the
core of size 4; after one cycle (`JMP #-1`) its PC is -1, and the next
`ExecuteCycle` does not return: `owners[proc.pc]` is out of range. -/
theorem C34_JMP_immediate_leaves_core :
    jmpNegVM.processes.map (fun p => p.pc) = [0] ∧
      (jmpNegVM.run 1).map (fun vm => vm.processes.map fun p => (p.pc, p.alive)) =
        some [(-1, true)] ∧
      jmpNegVM.run 2 = none := by
  decide

/-! ## C35: the cursor -/

theorem mem_insertAfter_of_mem (l : List Process) (i cur : Int) (np p : Process)
    (hp : p ∈ l) : p ∈ insertAfter l i cur np := by
  induction l generalizing i with
  | nil => simp at hp
  | cons a l ih =>
    unfold insertAfter
    rcases List.mem_cons.mp hp with rfl | hp'
    · split <;> simp
    · have := ih (i + 1) hp'
      split <;> simp [this]

theorem liveShape_alive {ps ps' : List Process} {i : Nat} {cur : Int} {proc : Process}
    (h : LiveShape ps i cur proc ps') (hget : ps[i]? = some proc) (ha : proc.alive = true) :
    ∃ p ∈ ps', p.alive = true := by
  have hmem : ∀ pc, { proc with pc := pc } ∈ ps.modify (fun p => { p with pc := pc }) i := by
    intro pc
    rw [modify_eq_take_cons_drop _ ps i proc hget]
    simp
  cases h with
  | jump pc => exact ⟨_, hmem pc, ha⟩
  | split pc target hc => exact ⟨_, mem_insertAfter_of_mem _ _ _ _ _ (hmem pc), ha⟩

theorem cursorInv_cycle (vm vm' : VM) (hinv : CursorInv vm) (he : vm.ExecuteCycle = some vm')
    (hlen : (vm'.processes.length : Int) ≤ maxInt) : CursorInv vm' := by
  obtain ⟨hw, hI, hJ⟩ := hinv
  rcases ExecuteCycle_cases vm vm' hw he with
    ⟨hc, hcore, hp, hcur⟩ | ⟨i, proc, o, inst, vm1, hs, ho, hr, hex, hres, hcore, hp, hcur⟩
  · refine ⟨by rw [hcore]; exact hw, fun hne => absurd hp hne, fun _ => ?_⟩
    rw [hcur]
    apply hJ
    intro p hpm
    unfold VM.compacted at hc
    have := (List.filter_eq_nil_iff.mp hc) p hpm
    simpa using this
  · obtain ⟨hl, -, -, hget, halive⟩ := scheduled_some vm i proc hs
    have hi : i < vm.compacted.length := by
      rcases Nat.lt_or_ge i vm.compacted.length with h | h
      · exact h
      · rw [List.getElem?_eq_none h] at hget
        cases hget
    have hle : vm.compacted.length ≤ vm1.processes.length := stepResult_length_le hres
    rw [hp] at hlen
    have hadd : goAdd (i : Int) 1 = (i : Int) + 1 := by
      unfold goAdd
      exact wrapInt_of_range (by unfold minInt; omega) (by omega)
    rw [hadd, goRem_of_nonneg (by omega) (by omega)] at hcur
    have hcur' : vm'.current = ((i : Int) + 1) % (vm1.processes.length : Int) := by
      exact (Option.some.inj hcur).symm
    refine ⟨by rw [hcore]; exact hres.1, fun _ => ?_, fun hall => ?_⟩
    · rw [hcur', hp]
      exact ⟨Int.emod_nonneg _ (by omega), Int.emod_lt_of_pos _ (by omega)⟩
    · rw [hp] at hall
      by_cases hd : foreignOwner o proc ∨ inst.Op = OpCode.DAT
      · have hk := hres.2.2.2.1 hd
        have hk' : vm1.processes =
            vm.compacted.modify (fun p => { p with alive := false }) i := by
          rw [hk]
          rfl
        have hcount := alive_after_kill vm.compacted i hi (compacted_alive vm)
        rw [← hk'] at hcount
        have hnil : vm1.processes.filter (fun p => p.alive) = [] := by
          rw [List.filter_eq_nil_iff]
          intro p hpm
          simp [hall p hpm]
        rw [hnil] at hcount
        have hone : vm1.processes.length = 1 := by
          rw [hk', List.length_modify]
          simpa using hcount.symm
        rw [hcur', hone]
        simp
      · obtain ⟨p, hpm, hpa⟩ := liveShape_alive (hres.2.2.2.2 hd) hget halive
        rw [hall p hpm] at hpa
        cases hpa

theorem reachable_inv (vm : VM) (h : Reachable vm) : CursorInv vm := by
  induction h with
  | new core h => exact ⟨h, fun hne => absurd rfl hne, fun _ => rfl⟩
  | add vm warrior startAddr h hlen ih =>
    obtain ⟨hw, hI, hJ⟩ := ih
    refine ⟨hw, fun _ => ?_, fun hall => ?_⟩
    · simp only [VM.AddProcess, List.length_append, List.length_singleton]
      by_cases hnil : vm.processes = []
      · have h0 : vm.current = 0 := hJ (by rw [hnil]; simp)
        rw [h0, hnil]
        simp
      · obtain ⟨h0, h1⟩ := hI hnil
        exact ⟨h0, by push_cast; omega⟩
    · have h1 := hall { warrior := warrior, pc := startAddr, alive := true }
        (by unfold VM.AddProcess; simp)
      simp at h1
  | store vm core h hc ih => exact ⟨hc, ih.2.1, ih.2.2⟩
  | cycle vm vm' h he hlen ih => exact cursorInv_cycle vm vm' ih he hlen

/-- C35: in every VM state reached from `NewVM` by `AddProcess` and `ExecuteCycle`
calls (stores into the core in between included), a non-empty process list has
`0 ≤ current < len(processes)`; and on a list that is empty or holds only dead
processes `ExecuteCycle` returns with the same core (no cell and no owner tag
changes), the same cursor and the emptied list, and no process is scheduled, so
that nothing is executed. -/
theorem C35_cursor_invariant (vm : VM) (h : Reachable vm) :
    (vm.processes ≠ [] → 0 ≤ vm.current ∧ vm.current < (vm.processes.length : Int)) ∧
      ((∀ p ∈ vm.processes, p.alive = false) →
        vm.ExecuteCycle = some { vm with processes := [] } ∧ vm.scheduled = none ∧
          vm.executed 1 = []) := by
  refine ⟨(reachable_inv vm h).2.1, fun hall => ?_⟩
  have hc : vm.compacted = [] := by
    unfold VM.compacted
    rw [List.filter_eq_nil_iff]
    intro p hpm
    simp [hall p hpm]
  have hs : vm.scheduled = none := by
    unfold VM.scheduled
    rw [hc]
    rfl
  have he : vm.ExecuteCycle = some { vm with processes := [] } := by
    rw [ExecuteCycle_eq]
    by_cases hl : vm.processes.length = 0
    · rw [if_pos hl]
      cases vm with
      | mk c ps cur =>
        simp only [List.length_eq_zero] at hl
        subst hl
        rfl
    · rw [if_neg hl, hc]
      rfl
  refine ⟨he, hs, ?_⟩
  unfold VM.executed
  rw [he, hs]
  rfl

theorem C35_cursor_invariant_witness :
    Reachable deadRedVM ∧
      (deadRedVM.processes ≠ [] →
        0 ≤ deadRedVM.current ∧ deadRedVM.current < (deadRedVM.processes.length : Int)) ∧
      ((∀ p ∈ deadRedVM.processes, p.alive = false) →
        deadRedVM.ExecuteCycle = some { deadRedVM with processes := [] } ∧
          deadRedVM.scheduled = none ∧ deadRedVM.executed 1 = []) :=
  have hr : Reachable deadRedVM :=
    Reachable.cycle ((NewVM redCore).AddProcess warriorRed 0) deadRedVM
      (Reachable.add _ _ _ (Reachable.new redCore (by decide)) (by decide))
      (by decide) (by decide)
  ⟨hr, C35_cursor_invariant deadRedVM hr⟩

/-! ## C36: the instruction count -/

/-- C36 (the code departs): three warriors `JMP $0`, `NOP`, `JMP $0` (refs 1, 2, 3)
set up by `SetupBattle`. The six cycles execute the processes of warriors
1, 2, 3, 1, 2, 1 (the process of warrior 2 dies in cycle 5 and is compacted away
at the start of cycle 6, which moves the cursor from the entry of warrior 3 to
that of warrior 1); after the six `RunCycle` calls `InstructionsRun` holds 2 for
each of them: warrior 1 has executed three times and warrior 3 once. -/
theorem C36_count_read_before_compaction :
    (((NewBattleManager 8000 80000).SetupBattle [warriorA, warriorB, warriorC]).bind fun bm =>
      (bm.runCycles 6).map fun bm' =>
        (bm.vm.map (fun vm => vm.executed 6),
          bm'.stats.map fun s =>
            (mapGet s.InstructionsRun 1, mapGet s.InstructionsRun 2,
              mapGet s.InstructionsRun 3))) =
      some (some [1, 2, 3, 1, 2, 1], some (2, 2, 2)) := by
  decide!

end CoreWar
